import Mathlib

/-! Pql.UnmanagedLib: pool-allocated expandable containers.

A shallow embedding of `MemoryPoolTypes.h`, `DynamicMemoryPool.h`,
`ExpandableArrayImpl.h`, `BitVector.h`, `ExpandableArrayOfKeys.h`,
`ConcurrentHashmapOfKeys.h`, `ColumnStoreOf.h` and `MemoryViewStream.h` (directory
`UnmanagedLib/Pql.UnmanagedLib`).

Conventions of the embedding.

* A raw pointer is a natural number, `0` being `nullptr`.  Memory is a map from
  the base address of an allocation to the allocation (its size in bytes and
  its cells, indexed in units of the element type used to access it).
* Every function that touches memory returns `Except Fault _`.  The fault
  `undefinedBehaviour` stands for what C++ leaves undefined: dereferencing
  `nullptr`, a freed or never allocated address, an index past the end of an
  allocation, a division by zero.  The other faults are the managed
  exceptions the code throws.
* `size_t` values are natural numbers below `2^64`.  The arithmetic of the
  block array (`capacity()` and the locals `requestedListCapacity` and
  `newListCapacity` of `try_ensure_capacity`) and the index product of
  `ColumnStoreOf::Get` are taken modulo `2^64` (`wrap_size_t`), as the code
  computes them.  The byte counts handed to the allocator and the bit counts
  of `BitVector` are plain products: there the development is about
  executions in which they do not exceed `2^64 - 1`.  A counter declared
  `auto ix = 0` is an `int`: where it can grow with the input (the loops of
  `BitVector::Read` and `BitVector::Write`) an increment past `INT_MAX` is
  reported as undefined behaviour.
* A byte stream (`BinaryReader`, `BinaryWriter`) is the list of its bytes: a
  reader holds the bytes not yet read, a writer the bytes written so far.
* A loop whose number of iterations the code does not fix beforehand takes a
  bound on its iterations (`fuel`) as a parameter.
* `tbb::memory_pool::malloc` is an external library call.  It is modelled by a
  bump allocator driven by an oracle: the list `outcomes` says, call by call,
  whether the next `malloc` succeeds; an exhausted list means it succeeds.
* The code runs sequentially.  Another thread is modelled at the
  compare-and-swap of `TrySetAt` and of the `Safe` methods of `BitVector`, which
  take the values a rival writer stores between the read and the
  compare-and-swap as a parameter.  Two sections leave the sequential run:
  the callers of `SafeGetAndSet` on one byte are a step relation whose steps
  are the atomic reads and compare-and-swaps, interleaved in any order; and
  the constructor of the growth lock is a loop of tests of a mutex whose
  holder is given from outside.
* A definition whose name ends in `_run` returns the outcome together with the
  state the call leaves behind, also when it throws; after undefined
  behaviour that state carries no meaning.
* `int32_t` and `int64_t` values are integers.  An addition or subtraction
  that leaves the range of its type is undefined behaviour; a conversion to a
  narrower or to a signed type keeps the low bits.
* `tbb::concurrent_unordered_map` and the hash function of the standard
  library are external: the container is modelled by the list of its elements
  with the search its hash and equality functors determine, the hash by the
  FNV-1a loop of the library.
-/

set_option linter.unusedVariables false

namespace Pql.UnmanagedLib

/-! ## Memory -/

/-- Raw address (`void*`); `0` is `nullptr`. -/
abbrev Ptr := Nat

/-- Size of a pointer in bytes (the library is built for x64). -/
def sizeof_ptr : Nat := 8

/-- Size of `uint8_t` in bytes. -/
def sizeof_uint8_t : Nat := 1

/-- Outcomes other than a normal return. -/
inductive Fault where
  | undefinedBehaviour
  | argumentNull
  | argumentOutOfRange
  | argument
  | invalidOperation
  | insufficientMemory
  | exception
  | keyNotFound
  | objectDisposed
  deriving DecidableEq, Repr

/-- One region handed out by `malloc`: its size in bytes and its cells. -/
structure Allocation where
  bytes : Nat
  cells : Nat → Nat

/-- The class `MemoryPool` of `MemoryPoolTypes.h`.  The fields `mem`, `next`,
`outcomes`, `junk` and `freed` are the state of the member
`_pool : tbb_memory_pool_t` (live allocations, number of addresses handed out,
the oracle for the coming `malloc` calls, the content of uninitialised memory,
the log of the addresses passed to `free`); `_garbage` is the
`tbb::concurrent_queue<void*>`, oldest entry first. -/
structure MemoryPool where
  mem : Ptr → Option Allocation
  next : Nat
  outcomes : List Bool
  junk : Nat → Nat
  freed : List Ptr
  _maxBytes : Nat
  _garbage : List Ptr

namespace MemoryPool

/-- Constructor `MemoryPool(size_t maxBytes = 0)`, with the oracle of the
underlying supply made explicit. -/
def create (maxBytes : Nat) (outcomes : List Bool) (junk : Nat → Nat) : MemoryPool :=
  { mem := fun _ => none, next := 0, outcomes := outcomes, junk := junk, freed := [],
    _maxBytes := maxBytes, _garbage := [] }

/-- Library call `_pool.malloc(bytes)`: `nullptr` when the oracle says the supply is
exhausted, else a fresh address holding `bytes` uninitialised bytes. -/
def malloc (p : MemoryPool) (bytes : Nat) : Ptr × MemoryPool :=
  match p.outcomes with
  | false :: rest => (0, { p with outcomes := rest })
  | _ =>
    (p.next + 1,
      { p with
        mem := fun q => if q = p.next + 1 then some { bytes := bytes, cells := p.junk } else p.mem q
        next := p.next + 1
        outcomes := p.outcomes.tail })

/-- Library call `_pool.free(p)`. -/
def free (p : MemoryPool) (ptr : Ptr) : MemoryPool :=
  { p with mem := fun q => if q = ptr then none else p.mem q, freed := p.freed ++ [ptr] }

/-- Library call `memset(result, 0, bytes)` on a whole allocation. -/
def memset_zero (p : MemoryPool) (ptr : Ptr) : MemoryPool :=
  { p with
    mem := fun q =>
      if q = ptr then
        match p.mem q with
        | some a => some { a with cells := fun _ => 0 }
        | none => none
      else p.mem q }

/-- Read of element `ix` through a pointer `ptr` to elements of `elemSize` bytes. -/
def load (p : MemoryPool) (ptr : Ptr) (elemSize ix : Nat) : Except Fault Nat :=
  if ptr = 0 then .error .undefinedBehaviour
  else
    match p.mem ptr with
    | none => .error .undefinedBehaviour
    | some a =>
      if (ix + 1) * elemSize ≤ a.bytes then .ok (a.cells ix) else .error .undefinedBehaviour

/-- Write of element `ix` through a pointer `ptr` to elements of `elemSize` bytes. -/
def store (p : MemoryPool) (ptr : Ptr) (elemSize ix : Nat) (v : Nat) : Except Fault MemoryPool :=
  if ptr = 0 then .error .undefinedBehaviour
  else
    match p.mem ptr with
    | none => .error .undefinedBehaviour
    | some a =>
      if (ix + 1) * elemSize ≤ a.bytes then
        .ok { p with
              mem := fun q =>
                if q = ptr then
                  some { a with cells := fun j => if j = ix then v else a.cells j }
                else p.mem q }
      else .error .undefinedBehaviour

/-- Method `zero_memory_pool_allocator<T>::allocate(n)`, `sizeofT` being `sizeof(T)`:
`n * sizeof(T)` bytes from `malloc`, zeroed when the result is not `nullptr`.
The result is returned as is: the function does not throw. -/
def zero_allocate (p : MemoryPool) (sizeofT n : Nat) : Ptr × MemoryPool :=
  let bytes := n * sizeofT
  let r := p.malloc bytes
  if r.1 ≠ 0 then (r.1, r.2.memset_zero r.1) else (r.1, r.2)

/-- Method `MemoryPool::allocate(n)`: the `uint8_t` allocator. -/
def allocate (p : MemoryPool) (n : Nat) : Ptr × MemoryPool :=
  p.zero_allocate sizeof_uint8_t n

/-- Method `MemoryPool::deallocate(p)`. -/
def deallocate (p : MemoryPool) (ptr : Ptr) : MemoryPool :=
  p.free ptr

/-- Method `MemoryPool::schedule_for_collection(p)`: pushes on the garbage queue. -/
def schedule_for_collection (p : MemoryPool) (ptr : Ptr) : MemoryPool :=
  { p with _garbage := p._garbage ++ [ptr] }

/-- The loop of `MemoryPool::collect`, on the entries still queued. -/
def collect_loop : List Ptr → MemoryPool → MemoryPool
  | [], p => p
  | g :: rest, p => collect_loop rest ((({ p with _garbage := rest } : MemoryPool)).deallocate g)

/-- Method `MemoryPool::collect()`. -/
def collect (p : MemoryPool) : MemoryPool :=
  collect_loop p._garbage p

/-- Method `MemoryPool::recycle()`: clears the queue and returns all memory. -/
def recycle (p : MemoryPool) : MemoryPool :=
  { p with _garbage := [], mem := fun _ => none }

end MemoryPool

/-- Invariant of the bump allocator: no address above `next` has been handed out. -/
def MemoryPool.Fresh (p : MemoryPool) : Prop :=
  ∀ q : Ptr, p.next < q → p.mem q = none

/-! ## `ExpandableArrayImpl<T>` -/

/-- The fields of `ExpandableArrayImpl<T>`; `sizeof_value_type` is `sizeof(T)`.
The pool the array points to is passed next to it. -/
structure ExpandableArrayImpl where
  sizeof_value_type : Nat
  _elementsPerBlock : Nat
  _blocksGrowth : Nat
  _blockList : Ptr
  _blockCapacity : Nat
  _blockCount : Nat

/-- Number of values of `size_t` (the library is built for x64). -/
def SIZE_T_RANGE : Nat := 18446744073709551616

/-- Value of a `size_t` expression whose mathematical value is `x`: unsigned arithmetic
wraps around. -/
def wrap_size_t (x : Nat) : Nat :=
  x % SIZE_T_RANGE

/-- Address of an element: the block it lies in and its index in the block. -/
structure ElementRef where
  block : Ptr
  index : Nat
  deriving DecidableEq, Repr

/-- What `try_ensure_capacity` leaves behind: its return value, the array, the pool and
the two locations `*ref` and `*cap` of the caller. -/
structure EnsureCapacityResult where
  returned : Bool
  self : ExpandableArrayImpl
  pool : MemoryPool
  ref : Ptr
  cap : Nat

namespace ExpandableArrayImpl

/-- Constructor, run by placement `new` on zeroed memory: the three fields it does
not initialise are zero. -/
def create (sizeofT elementsPerBlock blocksGrowth : Nat) : ExpandableArrayImpl :=
  { sizeof_value_type := sizeofT, _elementsPerBlock := elementsPerBlock,
    _blocksGrowth := blocksGrowth, _blockList := 0, _blockCapacity := 0, _blockCount := 0 }

/-- Method `capacity()`: the product `_blockCount * _elementsPerBlock` in `size_t`. -/
def capacity (a : ExpandableArrayImpl) : Nat :=
  wrap_size_t (a._blockCount * a._elementsPerBlock)

/-- The loop `for (ix = 0; ix < _blockCapacity; ix++) pNewList[ix] = _blockList[ix];`
with `count` iterations left. -/
def copy_block_list (oldList newList : Ptr) : Nat → Nat → MemoryPool → Except Fault MemoryPool
  | 0, _, p => .ok p
  | count + 1, ix, p =>
    match p.load oldList sizeof_ptr ix with
    | .error e => .error e
    | .ok blk =>
      match p.store newList sizeof_ptr ix blk with
      | .error e => .error e
      | .ok p1 => copy_block_list oldList newList count (ix + 1) p1

/-- The loop `for (ix = _blockCount; ix < requestedListCapacity; ix++)` that allocates
the missing blocks, with `count` iterations left.  `allocate` does not throw, so the
`catch` of the loop body is never entered and the result of `allocate` is stored
whatever it is. -/
def allocate_missing_blocks (sizeofT elementsPerBlock : Nat) (blockList : Ptr) :
    Nat → Nat → MemoryPool → Except Fault MemoryPool
  | 0, _, p => .ok p
  | count + 1, ix, p =>
    let r := p.zero_allocate sizeofT elementsPerBlock
    match r.2.store blockList sizeof_ptr ix r.1 with
    | .error e => .error e
    | .ok p1 => allocate_missing_blocks sizeofT elementsPerBlock blockList count (ix + 1) p1

/-- The block `if (_blockCapacity < newListCapacity) { ... }` of `try_ensure_capacity`:
returns the array, the pool and `*ref`.  `allocate` does not throw, so the `catch`
with its `return false` is never entered. -/
def replace_block_list (a : ExpandableArrayImpl) (pool : MemoryPool) (newListCapacity : Nat) :
    Except Fault (ExpandableArrayImpl × MemoryPool × Ptr) :=
  let r := pool.zero_allocate a.sizeof_value_type newListCapacity
  let pNewList := r.1
  match copy_block_list a._blockList pNewList a._blockCapacity 0 r.2 with
  | .error e => .error e
  | .ok p1 =>
    let prevList := a._blockList
    let p2 := if prevList ≠ 0 then p1.schedule_for_collection prevList else p1
    .ok ({ a with _blockList := pNewList, _blockCapacity := newListCapacity }, p2, pNewList)

/-- The local `requestedListCapacity` of `try_ensure_capacity`,
`1 + newCapacity / _elementsPerBlock` in `size_t`. -/
def requestedListCapacity (a : ExpandableArrayImpl) (newCapacity : Nat) : Nat :=
  wrap_size_t (1 + newCapacity / a._elementsPerBlock)

/-- The local `newListCapacity` of `try_ensure_capacity`,
`(1 + newCapacity / (_elementsPerBlock * _blocksGrowth)) * _blocksGrowth` in `size_t`: the
inner product, the sum and the outer product each wrap around. -/
def newListCapacity (a : ExpandableArrayImpl) (newCapacity : Nat) : Nat :=
  wrap_size_t
    (wrap_size_t (1 + newCapacity / wrap_size_t (a._elementsPerBlock * a._blocksGrowth))
      * a._blocksGrowth)

/-- The spine capacity of a request is computed without wrap-around: the product
`_elementsPerBlock * _blocksGrowth` and the number
`(1 + newCapacity / (_elementsPerBlock * _blocksGrowth)) * _blocksGrowth` fit a `size_t`. -/
def ListCapacityFits (a : ExpandableArrayImpl) (newCapacity : Nat) : Prop :=
  a._elementsPerBlock * a._blocksGrowth < SIZE_T_RANGE ∧
    (1 + newCapacity / (a._elementsPerBlock * a._blocksGrowth)) * a._blocksGrowth
      < SIZE_T_RANGE

/-- Method `try_ensure_capacity(newCapacity, timeout, ref, cap)`.  The lock is free in a
sequential run, so the second capacity check repeats the first.  A division by zero, by
`_elementsPerBlock` or by the `size_t` product `_elementsPerBlock * _blocksGrowth`, is
undefined behaviour. -/
def try_ensure_capacity (a : ExpandableArrayImpl) (pool : MemoryPool)
    (newCapacity timeout : Nat) (ref : Ptr) (cap : Nat) : Except Fault EnsureCapacityResult :=
  if a.capacity ≥ newCapacity then
    .ok { returned := true, self := a, pool := pool, ref := ref, cap := cap }
  else if a.capacity ≥ newCapacity then
    .ok { returned := true, self := a, pool := pool, ref := ref, cap := cap }
  else if a._elementsPerBlock = 0 ∨ wrap_size_t (a._elementsPerBlock * a._blocksGrowth) = 0 then
    .error .undefinedBehaviour
  else
    let requestedListCapacity := a.requestedListCapacity newCapacity
    let newListCapacity := a.newListCapacity newCapacity
    let step1 : Except Fault (ExpandableArrayImpl × MemoryPool × Ptr) :=
      if a._blockCapacity < newListCapacity then replace_block_list a pool newListCapacity
      else .ok (a, pool, ref)
    match step1 with
    | .error e => .error e
    | .ok (a1, p1, ref1) =>
      match allocate_missing_blocks a1.sizeof_value_type a1._elementsPerBlock a1._blockList
          (requestedListCapacity - a1._blockCount) a1._blockCount p1 with
      | .error e => .error e
      | .ok p2 =>
        let a2 := { a1 with _blockCount := requestedListCapacity }
        .ok { returned := true, self := a2, pool := p2, ref := ref1, cap := a2.capacity }

/-- Method `reference(index)`: `&_blockList[index / _elementsPerBlock][index % _elementsPerBlock]`. -/
def reference (a : ExpandableArrayImpl) (pool : MemoryPool) (index : Nat) :
    Except Fault ElementRef :=
  if a._elementsPerBlock = 0 then .error .undefinedBehaviour
  else
    match pool.load a._blockList sizeof_ptr (index / a._elementsPerBlock) with
    | .error e => .error e
    | .ok blk => .ok { block := blk, index := index % a._elementsPerBlock }

/-- Method `get(index)`: `*reference(index)`. -/
def get (a : ExpandableArrayImpl) (pool : MemoryPool) (index : Nat) : Except Fault Nat :=
  match a.reference pool index with
  | .error e => .error e
  | .ok r => pool.load r.block a.sizeof_value_type r.index

/-- Method `set(index, newValue)`. -/
def set (a : ExpandableArrayImpl) (pool : MemoryPool) (index newValue : Nat) :
    Except Fault MemoryPool :=
  if a._elementsPerBlock = 0 then .error .undefinedBehaviour
  else
    match pool.load a._blockList sizeof_ptr (index / a._elementsPerBlock) with
    | .error e => .error e
    | .ok blk => pool.store blk a.sizeof_value_type (index % a._elementsPerBlock) newValue

/-- Method `head()`. -/
def head (a : ExpandableArrayImpl) : Ptr :=
  a._blockList

end ExpandableArrayImpl

/-- Data-model invariant of a block array over its pool: positive block size and growth,
block count at most the spine capacity, allocator invariant, spine pointer null or
handed out by the pool, and every populated spine entry holds
a non-null pointer to a live allocation with room for one block, which is not the spine
and is not held by another populated entry. -/
structure ExpandableArrayImpl.Valid (a : ExpandableArrayImpl) (pool : MemoryPool) : Prop where
  elementsPerBlock_pos : 0 < a._elementsPerBlock
  blocksGrowth_pos : 0 < a._blocksGrowth
  count_le_capacity : a._blockCount ≤ a._blockCapacity
  fresh : pool.Fresh
  blockList_le : a._blockList ≤ pool.next
  populated : ∀ b, b < a._blockCount →
    ∃ blk al, pool.load a._blockList sizeof_ptr b = .ok blk ∧ blk ≠ 0 ∧ blk ≠ a._blockList
      ∧ pool.mem blk = some al ∧ a._elementsPerBlock * a.sizeof_value_type ≤ al.bytes
  distinct : ∀ b1 b2 blk, b1 < a._blockCount → b2 < a._blockCount →
    pool.load a._blockList sizeof_ptr b1 = .ok blk →
    pool.load a._blockList sizeof_ptr b2 = .ok blk → b1 = b2

/-! ## `DynamicMemoryPool` -/

namespace DynamicMemoryPool

/-- Method `Alloc(nBytes)`: `_pool->allocate(nBytes)`. -/
def Alloc (pool : MemoryPool) (nBytes : Nat) : Ptr × MemoryPool :=
  pool.allocate nBytes

/-- Method `Free(void* p)`: `_pool->deallocate(p)`. -/
def Free (pool : MemoryPool) (ptr : Ptr) : MemoryPool :=
  pool.deallocate ptr

/-- Method `ScheduleForCollection(p)`: `_pool->schedule_for_collection(p)`. -/
def ScheduleForCollection (pool : MemoryPool) (ptr : Ptr) : MemoryPool :=
  pool.schedule_for_collection ptr

/-- Method `DeallocateGarbage()`: `_pool->collect()`. -/
def DeallocateGarbage (pool : MemoryPool) : MemoryPool :=
  pool.collect

/-- Method `Recycle()`: `_pool->recycle()`. -/
def Recycle (pool : MemoryPool) : MemoryPool :=
  pool.recycle

end DynamicMemoryPool

/-! ## Constants of `BitVector.h` and `ExpandableArrayOfKeys.h` -/

/-- Macro `ITEMS_PER_BLOCK`. -/
def ITEMS_PER_BLOCK : Nat := 65536

/-- Macro `BITS_PER_ITEM`. -/
def BITS_PER_ITEM : Nat := 8

/-- Macro `BITS_PER_BLOCK`. -/
def BITS_PER_BLOCK : Nat := ITEMS_PER_BLOCK * BITS_PER_ITEM

/-- Macro `BLOCKS_GROWTH`. -/
def BLOCKS_GROWTH : Nat := 64

/-- Value of `sizeof(dataarray_t)` on x64: two pointers, two `size_t`, the padded
spin mutex, one pointer and two `size_t`. -/
def sizeof_dataarray_t : Nat := 64

/-- Library call `memcpy(dst, src, n)` from a caller buffer `src` into pool memory, with
`count` bytes left and `ix` bytes done.  Reading past the end of `src` is undefined. -/
def memcpy (dst : Ptr) (src : List Nat) : Nat → Nat → MemoryPool → Except Fault MemoryPool
  | 0, _, p => .ok p
  | count + 1, ix, p =>
    match src[ix]? with
    | none => .error .undefinedBehaviour
    | some b =>
      match p.store dst sizeof_uint8_t ix b with
      | .error e => .error e
      | .ok p1 => memcpy dst src count (ix + 1) p1

/-- Function `UnmanagedLib_InterlockedCompareExchangePointer(pTarget, value, comparand)`
on the pointer slot `ix` of the block `blk`: returns the value found, and stores
`value` when the value found is `comparand`. -/
def InterlockedCompareExchangePointer (p : MemoryPool) (blk : Ptr) (ix : Nat)
    (value comparand : Ptr) : Except Fault (Ptr × MemoryPool) :=
  match p.load blk sizeof_ptr ix with
  | .error e => .error e
  | .ok found =>
    if found = comparand then
      match p.store blk sizeof_ptr ix value with
      | .error e => .error e
      | .ok p1 => .ok (found, p1)
    else .ok (found, p)

/-! ## `BitVector` -/

/-- The fields of `BitVector`; `_pArray` holds the array object it points to. -/
structure BitVector where
  _pArray : ExpandableArrayImpl
  _pData : Ptr
  _itemCapacity : Nat

namespace BitVector

/-- Method `Initialize(src, allocator)` with `src == nullptr` and an allocator: the array
object is built by placement `new` in memory taken from the pool. -/
def Initialize (pool : MemoryPool) : Except Fault (BitVector × MemoryPool) :=
  let r := DynamicMemoryPool.Alloc pool sizeof_dataarray_t
  if r.1 = 0 then .error .undefinedBehaviour
  else
    .ok ({ _pArray := ExpandableArrayImpl.create sizeof_uint8_t ITEMS_PER_BLOCK BLOCKS_GROWTH,
           _pData := 0, _itemCapacity := 0 }, r.2)

/-- Property `Capacity`. -/
def Capacity (b : BitVector) : Nat :=
  b._itemCapacity * BITS_PER_ITEM

/-- Method `TryEnsureCapacity(capacity, timeout)`. -/
def TryEnsureCapacity (b : BitVector) (pool : MemoryPool) (capacity timeout : Nat) :
    Except Fault (Bool × BitVector × MemoryPool) :=
  if capacity > 0 then
    match b._pArray.try_ensure_capacity pool (1 + capacity / BITS_PER_ITEM) timeout
        b._pData b._itemCapacity with
    | .error e => .error e
    | .ok r => .ok (r.returned, { _pArray := r.self, _pData := r.ref, _itemCapacity := r.cap }, r.pool)
  else .ok (true, b, pool)

end BitVector

/-! ## `ExpandableArrayOfKeys` -/

/-- The fields of `ExpandableArrayOfKeys`; `_pArray` holds the array object it points
to, an `ExpandableArrayImpl<uint8_t*>`. -/
structure ExpandableArrayOfKeys where
  _pArray : ExpandableArrayImpl
  _pData : Ptr
  _capacity : Nat

namespace ExpandableArrayOfKeys

/-- Method `Initialize(src, allocator)` with an allocator. -/
def Initialize (pool : MemoryPool) : Except Fault (ExpandableArrayOfKeys × MemoryPool) :=
  let r := DynamicMemoryPool.Alloc pool sizeof_dataarray_t
  if r.1 = 0 then .error .undefinedBehaviour
  else
    .ok ({ _pArray := ExpandableArrayImpl.create sizeof_ptr ITEMS_PER_BLOCK BLOCKS_GROWTH,
           _pData := 0, _capacity := 0 }, r.2)

/-- Property `Capacity`. -/
def Capacity (k : ExpandableArrayOfKeys) : Nat :=
  k._capacity

/-- Method `TryEnsureCapacity(capacity, timeout)`: the result of `try_ensure_capacity`
is stored in a local that is never read. -/
def TryEnsureCapacity (k : ExpandableArrayOfKeys) (pool : MemoryPool) (capacity timeout : Nat) :
    Except Fault (Bool × ExpandableArrayOfKeys × MemoryPool) :=
  if capacity > 0 then
    match k._pArray.try_ensure_capacity pool capacity timeout k._pData k._capacity with
    | .error e => .error e
    | .ok r => .ok (true, { _pArray := r.self, _pData := r.ref, _capacity := r.cap }, r.pool)
  else .ok (true, k, pool)

/-- The statement `if (pdata != nullptr) { ... } else { pnew = nullptr; }` of
`TrySetAt(size_t, uint8_t*)`: the candidate buffer `pnew` and the pool.  The caller
buffer is `none` for `nullptr`, else the bytes that can be read through it. -/
def make_candidate (pool : MemoryPool) (pdata : Option (List Nat)) :
    Except Fault (Ptr × MemoryPool) :=
  match pdata with
  | none => .ok (0, pool)
  | some buf =>
    match buf[0]? with
    | none => .error .undefinedBehaviour
    | some contentlen =>
      if contentlen = 0 then .error .argumentOutOfRange
      else
        let r := DynamicMemoryPool.Alloc pool (contentlen + 1)
        match memcpy r.1 buf (contentlen + 1) 0 r.2 with
        | .error e => .error e
        | .ok p1 => .ok (r.1, p1)

/-- Method `TrySetAt(size_t index, uint8_t* pdata)`.  `rival` is the pointer another
thread stores in the slot after this call has read `prev` and before its
compare-and-swap, `none` when no other thread writes the slot. -/
def TrySetAt (k : ExpandableArrayOfKeys) (pool : MemoryPool) (index : Nat)
    (pdata : Option (List Nat)) (rival : Option Ptr) : Except Fault (Bool × MemoryPool) :=
  if index ≥ k.Capacity then .error .argumentOutOfRange
  else
    match make_candidate pool pdata with
    | .error e => .error e
    | .ok (pnew, p1) =>
      match p1.load k._pData sizeof_ptr (index / ITEMS_PER_BLOCK) with
      | .error e => .error e
      | .ok blk =>
        match p1.load blk sizeof_ptr (index % ITEMS_PER_BLOCK) with
        | .error e => .error e
        | .ok prev =>
          let afterRival : Except Fault MemoryPool :=
            match rival with
            | none => .ok p1
            | some v => p1.store blk sizeof_ptr (index % ITEMS_PER_BLOCK) v
          match afterRival with
          | .error e => .error e
          | .ok p2 =>
            match InterlockedCompareExchangePointer p2 blk (index % ITEMS_PER_BLOCK) pnew prev with
            | .error e => .error e
            | .ok (found, p3) =>
              if prev ≠ found then
                .ok (false, if pnew ≠ 0 then DynamicMemoryPool.Free p3 pnew else p3)
              else
                .ok (true, if prev ≠ 0 then DynamicMemoryPool.ScheduleForCollection p3 prev else p3)

/-- Method `GetAt(size_t index)`. -/
def GetAt (k : ExpandableArrayOfKeys) (pool : MemoryPool) (index : Nat) : Except Fault Ptr :=
  if index ≥ k.Capacity then .error .argumentOutOfRange
  else
    match pool.load k._pData sizeof_ptr (index / ITEMS_PER_BLOCK) with
    | .error e => .error e
    | .ok blk => pool.load blk sizeof_ptr (index % ITEMS_PER_BLOCK)

end ExpandableArrayOfKeys

/-- Data-model invariant of a key array over its pool: the array object is a valid block
array of pointer slots with `ITEMS_PER_BLOCK` slots per block, and the cached spine
pointer and capacity agree with it. -/
structure ExpandableArrayOfKeys.Valid (k : ExpandableArrayOfKeys) (pool : MemoryPool) : Prop where
  array : k._pArray.Valid pool
  data : k._pData = k._pArray._blockList
  capacity : k._capacity = k._pArray.capacity
  elementsPerBlock : k._pArray._elementsPerBlock = ITEMS_PER_BLOCK
  sizeof_value_type : k._pArray.sizeof_value_type = sizeof_ptr

/-! ## Concrete runs used to instantiate the theorems -/

/-- The value a call returned, or `dflt` when it ended in a fault. -/
def resultOr {α : Type} (x : Except Fault α) (dflt : α) : α :=
  match x with
  | .ok v => v
  | .error _ => dflt

/-- A fresh pool whose coming `malloc` calls follow `outcomes`. -/
def freshPool (outcomes : List Bool) : MemoryPool :=
  MemoryPool.create 0 outcomes (fun i => i + 1)

/-- A new array of 8-byte elements, 4 elements per block, growth 2. -/
def smallArray : ExpandableArrayImpl :=
  ExpandableArrayImpl.create 8 4 2

/-- The run `smallArray.try_ensure_capacity(5)` on a pool with unbounded supply. -/
def smallArrayGrown : EnsureCapacityResult :=
  resultOr (smallArray.try_ensure_capacity (freshPool []) 5 0 0 0)
    { returned := false, self := smallArray, pool := freshPool [], ref := 0, cap := 0 }

/-- The run `try_ensure_capacity(9)` after `smallArrayGrown`: the spine is replaced. -/
def smallArrayRegrown : EnsureCapacityResult :=
  resultOr (smallArrayGrown.self.try_ensure_capacity smallArrayGrown.pool 9 0
      smallArrayGrown.ref smallArrayGrown.cap)
    smallArrayGrown

/-- The run `try_ensure_capacity(1)` on a new array of 4-byte elements with 65536
elements per block and growth 64, over a fresh pool with unbounded supply. -/
def wideArrayGrown : EnsureCapacityResult :=
  resultOr ((ExpandableArrayImpl.create 4 65536 64).try_ensure_capacity (freshPool []) 1 0 0 0)
    { returned := false, self := ExpandableArrayImpl.create 4 65536 64, pool := freshPool [],
      ref := 0, cap := 0 }

/-- The run `try_ensure_capacity(65537)` after `wideArrayGrown`. -/
def wideArrayRegrown : EnsureCapacityResult :=
  resultOr (wideArrayGrown.self.try_ensure_capacity wideArrayGrown.pool 65537 0
      wideArrayGrown.ref wideArrayGrown.cap)
    { wideArrayGrown with returned := false }

/-- The run `smallArray.try_ensure_capacity(1)` on a pool whose first `malloc` (the spine)
succeeds and whose second `malloc` (block 0) fails. -/
def smallArrayBlockFailure : EnsureCapacityResult :=
  resultOr (smallArray.try_ensure_capacity (freshPool [true, false]) 1 0 0 0)
    { returned := false, self := smallArray, pool := freshPool [true, false], ref := 0, cap := 0 }

/-- The pool after `ExpandableArrayOfKeys::Initialize` took the array object from a fresh
pool with unbounded supply. -/
def keysPool : MemoryPool :=
  (DynamicMemoryPool.Alloc (freshPool []) sizeof_dataarray_t).2

/-- The run `try_ensure_capacity(3)` made by `TryEnsureCapacity(3)` on a new key array. -/
def keysGrown : EnsureCapacityResult :=
  resultOr
    ((ExpandableArrayImpl.create sizeof_ptr ITEMS_PER_BLOCK BLOCKS_GROWTH).try_ensure_capacity
      keysPool 3 0 0 0)
    { returned := false,
      self := ExpandableArrayImpl.create sizeof_ptr ITEMS_PER_BLOCK BLOCKS_GROWTH,
      pool := keysPool, ref := 0, cap := 0 }

/-- The key array after `Initialize` and `TryEnsureCapacity(3)`: capacity 65536, all
slots null. -/
def sampleKeys : ExpandableArrayOfKeys :=
  { _pArray := keysGrown.self, _pData := keysGrown.ref, _capacity := keysGrown.cap }

/-- The run `TrySetAt(0, [2, 'a', 'b'])` on `sampleKeys`, no other writer. -/
def sampleKeysSet : Bool × MemoryPool :=
  resultOr (sampleKeys.TrySetAt keysGrown.pool 0 (some [2, 97, 98]) none) (false, keysGrown.pool)

/-- The run `TrySetAt(0, [2, 'a', 'b'])` on `sampleKeys` while a rival writer stores the
pointer 77 in slot 0 between the pre-read and the compare-and-swap. -/
def sampleKeysLost : Bool × MemoryPool :=
  resultOr (sampleKeys.TrySetAt keysGrown.pool 0 (some [2, 97, 98]) (some 77))
    (true, keysGrown.pool)

/-! ## `BitVector`: bit access, compare-and-swap loops, serialization -/

/-- Value of `System::Threading::Timeout::Infinite` (`-1`) once converted to `size_t`. -/
def Timeout_Infinite : Nat := 2 ^ 64 - 1

/-- Macro `INT_MAX`: the largest value of an `int`, the type of a counter declared
`auto ix = 0`. -/
def INT_MAX : Nat := 2147483647

/-- Method `BinaryReader::ReadByte()` on the bytes not yet read; the end of the stream
raises an exception. -/
def ReadByte (reader : List Nat) : Except Fault (Nat × List Nat) :=
  match reader with
  | [] => .error .exception
  | b :: rest => .ok (b, rest)

/-- The operand `~x` as far as the conversion of the result to `uint8_t` keeps it: the
complement of the low eight bits. -/
def not_uint8 (x : Nat) : Nat :=
  255 ^^^ x

/-- Function `UnmanagedLib_InterlockedCompareExchange8(pTarget, value, comparand)` on
the byte `ix` of the block `blk`: returns the value found, and stores `value` when the
value found is `comparand`. -/
def InterlockedCompareExchange8 (p : MemoryPool) (blk : Ptr) (ix : Nat)
    (value comparand : Nat) : Except Fault (Nat × MemoryPool) :=
  match p.load blk sizeof_uint8_t ix with
  | .error e => .error e
  | .ok found =>
    if found = comparand then
      match p.store blk sizeof_uint8_t ix value with
      | .error e => .error e
      | .ok p1 => .ok (found, p1)
    else .ok (found, p)

/-- The loop `do { oldValue = *pValue; value = update(oldValue); value = CAS(pValue, value,
oldValue); } while (value != oldValue);` shared by `SafeSet`, `SafeGetAndSet`, `SafeClear`
and `SafeGetAndClear`.  `fuel` bounds the number of iterations (`none` when it is used
up); the head of `rivals` is the byte another thread stores between the read and the
compare-and-swap of the coming iteration (`none`, or an empty list, for no such
write).  Returns `value` at the exit of the loop. -/
def cas_loop (update : Nat → Nat) (blk : Ptr) (ix : Nat) :
    Nat → List (Option Nat) → MemoryPool → Option (Except Fault (Nat × MemoryPool))
  | 0, _, _ => none
  | fuel + 1, rivals, p =>
    match p.load blk sizeof_uint8_t ix with
    | .error e => some (.error e)
    | .ok oldValue =>
      let afterRival : Except Fault MemoryPool :=
        match rivals.head? with
        | some (some v) => p.store blk sizeof_uint8_t ix v
        | _ => .ok p
      match afterRival with
      | .error e => some (.error e)
      | .ok p1 =>
        match InterlockedCompareExchange8 p1 blk ix (update oldValue) oldValue with
        | .error e => some (.error e)
        | .ok (value, p2) =>
          if value ≠ oldValue then cas_loop update blk ix fuel rivals.tail p2
          else some (.ok (value, p2))

/-- Data-model invariant of a bit vector over its pool: the array object is a valid block
array of bytes with `ITEMS_PER_BLOCK` bytes per block, and the cached spine pointer and
item capacity agree with it. -/
structure BitVector.Valid (b : BitVector) (pool : MemoryPool) : Prop where
  array : b._pArray.Valid pool
  data : b._pData = b._pArray._blockList
  capacity : b._itemCapacity = b._pArray.capacity
  elementsPerBlock : b._pArray._elementsPerBlock = ITEMS_PER_BLOCK
  sizeof_value_type : b._pArray.sizeof_value_type = sizeof_uint8_t

namespace BitVector

/-- Method `EnsureCapacity(size_t capacity)`. -/
def EnsureCapacity (b : BitVector) (pool : MemoryPool) (capacity : Nat) :
    Except Fault (BitVector × MemoryPool) :=
  match b.TryEnsureCapacity pool capacity Timeout_Infinite with
  | .error e => .error e
  | .ok (res, b1, p1) => if !res then .error .insufficientMemory else .ok (b1, p1)

/-- The expression
`_pData[index / BITS_PER_BLOCK] + ((index / BITS_PER_ITEM) % ITEMS_PER_BLOCK)` that opens
every bit method: the block read from the spine and the byte index in it. -/
def pValue (b : BitVector) (pool : MemoryPool) (index : Nat) : Except Fault ElementRef :=
  match pool.load b._pData sizeof_ptr (index / BITS_PER_BLOCK) with
  | .error e => .error e
  | .ok blk => .ok { block := blk, index := (index / BITS_PER_ITEM) % ITEMS_PER_BLOCK }

/-- Method `Get(size_t index)`. -/
def Get (b : BitVector) (pool : MemoryPool) (index : Nat) : Except Fault Bool :=
  match b.pValue pool index with
  | .error e => .error e
  | .ok r =>
    match pool.load r.block sizeof_uint8_t r.index with
    | .error e => .error e
    | .ok v => .ok (decide (0 ≠ v &&& (1 <<< (index % BITS_PER_ITEM))))

/-- Method `GetGroup(size_t index)`. -/
def GetGroup (b : BitVector) (pool : MemoryPool) (index : Nat) : Except Fault Nat :=
  match b.pValue pool index with
  | .error e => .error e
  | .ok r => pool.load r.block sizeof_uint8_t r.index

/-- Method `Set(size_t index)`; the result of `|=` is converted to `uint8_t`. -/
def Set (b : BitVector) (pool : MemoryPool) (index : Nat) : Except Fault MemoryPool :=
  match b.pValue pool index with
  | .error e => .error e
  | .ok r =>
    match pool.load r.block sizeof_uint8_t r.index with
    | .error e => .error e
    | .ok v =>
      pool.store r.block sizeof_uint8_t r.index ((v ||| (1 <<< (index % BITS_PER_ITEM))) % 256)

/-- Method `SetGroup(size_t index, value_type group)`. -/
def SetGroup (b : BitVector) (pool : MemoryPool) (index group : Nat) : Except Fault MemoryPool :=
  match b.pValue pool index with
  | .error e => .error e
  | .ok r => pool.store r.block sizeof_uint8_t r.index group

/-- Method `Clear(size_t index)`. -/
def Clear (b : BitVector) (pool : MemoryPool) (index : Nat) : Except Fault MemoryPool :=
  match b.pValue pool index with
  | .error e => .error e
  | .ok r =>
    match pool.load r.block sizeof_uint8_t r.index with
    | .error e => .error e
    | .ok v =>
      pool.store r.block sizeof_uint8_t r.index
        (v &&& not_uint8 (1 <<< (index % BITS_PER_ITEM)))

/-- Method `SafeSet(size_t index)`, with the fuel and the rival writes of `cas_loop`. -/
def SafeSet (b : BitVector) (pool : MemoryPool) (index fuel : Nat)
    (rivals : List (Option Nat)) : Option (Except Fault MemoryPool) :=
  match b.pValue pool index with
  | .error e => some (.error e)
  | .ok r =>
    match cas_loop (fun oldValue => (oldValue ||| (1 <<< (index % BITS_PER_ITEM))) % 256)
        r.block r.index fuel rivals pool with
    | none => none
    | some (.error e) => some (.error e)
    | some (.ok (_, p1)) => some (.ok p1)

/-- Method `SafeGetAndSet(size_t index)`, with the fuel and the rival writes of
`cas_loop`. -/
def SafeGetAndSet (b : BitVector) (pool : MemoryPool) (index fuel : Nat)
    (rivals : List (Option Nat)) : Option (Except Fault (Bool × MemoryPool)) :=
  match b.pValue pool index with
  | .error e => some (.error e)
  | .ok r =>
    let mask := 1 <<< (index % BITS_PER_ITEM)
    match cas_loop (fun oldValue => (oldValue ||| mask) % 256) r.block r.index fuel rivals
        pool with
    | none => none
    | some (.error e) => some (.error e)
    | some (.ok (value, p1)) => some (.ok (decide (0 ≠ value &&& mask), p1))

/-- Method `SafeClear(size_t index)`, with the fuel and the rival writes of `cas_loop`. -/
def SafeClear (b : BitVector) (pool : MemoryPool) (index fuel : Nat)
    (rivals : List (Option Nat)) : Option (Except Fault MemoryPool) :=
  match b.pValue pool index with
  | .error e => some (.error e)
  | .ok r =>
    match cas_loop (fun oldValue => oldValue &&& not_uint8 (1 <<< (index % BITS_PER_ITEM)))
        r.block r.index fuel rivals pool with
    | none => none
    | some (.error e) => some (.error e)
    | some (.ok (_, p1)) => some (.ok p1)

/-- Method `SafeGetAndClear(size_t index)`, with the fuel and the rival writes of
`cas_loop`. -/
def SafeGetAndClear (b : BitVector) (pool : MemoryPool) (index fuel : Nat)
    (rivals : List (Option Nat)) : Option (Except Fault (Bool × MemoryPool)) :=
  match b.pValue pool index with
  | .error e => some (.error e)
  | .ok r =>
    let mask := 1 <<< (index % BITS_PER_ITEM)
    match cas_loop (fun oldValue => oldValue &&& not_uint8 mask) r.block r.index fuel rivals
        pool with
    | none => none
    | some (.error e) => some (.error e)
    | some (.ok (value, p1)) => some (.ok (decide (0 ≠ value &&& mask), p1))

/-- The loop `for (auto ix = 0; ix < count; ix += BITS_PER_ITEM)` of `Write`, from `ix`
on; `fuel` bounds the iterations left.  The counter is an `int`: an increment past
`INT_MAX` is undefined. -/
def Write_loop (b : BitVector) (pool : MemoryPool) (count : Nat) :
    Nat → Nat → List Nat → Except Fault (List Nat)
  | 0, _, writer => .ok writer
  | fuel + 1, ix, writer =>
    if ix < count then
      match b.GetGroup pool ix with
      | .error e => .error e
      | .ok group =>
        if ix + BITS_PER_ITEM > INT_MAX then .error .undefinedBehaviour
        else Write_loop b pool count fuel (ix + BITS_PER_ITEM) (writer ++ [group])
    else .ok writer

/-- Method `Write(writer, count)`: returns the bytes of the writer, those written
appended.  The loop is given `count` iterations, more than it makes. -/
def Write (b : BitVector) (pool : MemoryPool) (writer : List Nat) (count : Nat) :
    Except Fault (List Nat) :=
  if count > b.Capacity then .error .invalidOperation
  else Write_loop b pool count count 0 writer

/-- The loop `for (auto ix = 0; ix < count; ix += BITS_PER_ITEM)` of `Read`, from `ix` on;
`fuel` bounds the iterations left.  The counter is an `int`: an increment past `INT_MAX`
is undefined. -/
def Read_loop (b : BitVector) (count : Nat) :
    Nat → Nat → List Nat → MemoryPool → Except Fault (MemoryPool × List Nat)
  | 0, _, reader, p => .ok (p, reader)
  | fuel + 1, ix, reader, p =>
    if ix < count then
      match ReadByte reader with
      | .error e => .error e
      | .ok (group, rest) =>
        match b.SetGroup p ix group with
        | .error e => .error e
        | .ok p1 =>
          if ix + BITS_PER_ITEM > INT_MAX then .error .undefinedBehaviour
          else Read_loop b count fuel (ix + BITS_PER_ITEM) rest p1
    else .ok (p, reader)

/-- Method `Read(reader, count)`: returns the vector, the pool and the bytes left in the
reader.  The loop is given `count` iterations, more than it makes. -/
def Read (b : BitVector) (pool : MemoryPool) (reader : List Nat) (count : Nat) :
    Except Fault (BitVector × MemoryPool × List Nat) :=
  if b.Capacity > 0 then .error .invalidOperation
  else
    match b.EnsureCapacity pool count with
    | .error e => .error e
    | .ok (b1, p1) =>
      match Read_loop b1 count count 0 reader p1 with
      | .error e => .error e
      | .ok (p2, rest) => .ok (b1, p2, rest)

end BitVector

/-! ## Bit-vector scenarios -/

/-- The bit vector `BitVector::Initialize` builds: no blocks, capacity 0. -/
def newBits : BitVector :=
  { _pArray := ExpandableArrayImpl.create sizeof_uint8_t ITEMS_PER_BLOCK BLOCKS_GROWTH,
    _pData := 0, _itemCapacity := 0 }

/-- The run `EnsureCapacity(10)` on a new bit vector whose array object was taken from a
fresh pool with unbounded supply: the vector and the pool after it. -/
def bitsTen : BitVector × MemoryPool :=
  resultOr (newBits.EnsureCapacity keysPool 10) (newBits, keysPool)

/-- The calls `Set(0)`, `Set(7)`, `Set(8)`, `Set(9)` on `bitsTen`, in this order. -/
def bitsTenSet : Except Fault MemoryPool := do
  let p1 ← bitsTen.1.Set bitsTen.2 0
  let p2 ← bitsTen.1.Set p1 7
  let p3 ← bitsTen.1.Set p2 8
  bitsTen.1.Set p3 9

/-- The pool after the calls of `bitsTenSet`. -/
def bitsTenSetPool : MemoryPool :=
  resultOr bitsTenSet bitsTen.2

/-- The pool after `Initialize` built a second bit vector, next to `bitsTen` with its four
bits set. -/
def bitsTenTargetPool : MemoryPool :=
  (DynamicMemoryPool.Alloc bitsTenSetPool sizeof_dataarray_t).2

/-- The run `Read(reader, 10)` on that second vector, the reader holding the bytes
`0x81, 0x03`: the vector, the pool and the bytes left in the reader. -/
def bitsTenRead : BitVector × MemoryPool × List Nat :=
  resultOr (newBits.Read bitsTenTargetPool [0x81, 0x03] 10) (newBits, bitsTenTargetPool, [])

/-- The run `EnsureCapacity(3670008)` on a new bit vector whose array object was taken
from a fresh pool with unbounded supply: eight blocks, 4194304 bits. -/
def bitsWide : BitVector × MemoryPool :=
  resultOr (newBits.EnsureCapacity keysPool 3670008) (newBits, keysPool)

/-- The pool after `Initialize` built a second bit vector, next to `bitsWide`. -/
def bitsWideTargetPool : MemoryPool :=
  (DynamicMemoryPool.Alloc bitsWide.2 sizeof_dataarray_t).2

/-! ## `ExpandableArrayOfKeys`: serialization -/

namespace ExpandableArrayOfKeys

/-- Method `EnsureCapacity(size_t capacity)`. -/
def EnsureCapacity (k : ExpandableArrayOfKeys) (pool : MemoryPool) (capacity : Nat) :
    Except Fault (ExpandableArrayOfKeys × MemoryPool) :=
  match k.TryEnsureCapacity pool capacity Timeout_Infinite with
  | .error e => .error e
  | .ok (res, k1, p1) => if !res then .error .insufficientMemory else .ok (k1, p1)

/-- The loop `for (auto c = 1; c <= value[0]; c++) writer->Write(uint8_t(value[c]));` of
`Write`, from `c` on; `fuel` bounds the iterations left. -/
def Write_content (pool : MemoryPool) (value : Ptr) :
    Nat → Nat → List Nat → Except Fault (List Nat)
  | 0, _, writer => .ok writer
  | fuel + 1, c, writer =>
    match pool.load value sizeof_uint8_t 0 with
    | .error e => .error e
    | .ok len =>
      if c ≤ len then
        match pool.load value sizeof_uint8_t c with
        | .error e => .error e
        | .ok byte => Write_content pool value fuel (c + 1) (writer ++ [byte])
      else .ok writer

/-- The loop `for (size_t ix = 0; ix < count; ix++)` of `Write`, with `left` iterations
left, from `ix` on.  The content loop is given 256 iterations, more than it makes for a
length byte. -/
def Write_loop (k : ExpandableArrayOfKeys) (pool : MemoryPool) (validEntries : BitVector) :
    Nat → Nat → List Nat → Except Fault (List Nat)
  | 0, _, writer => .ok writer
  | left + 1, ix, writer =>
    match validEntries.Get pool ix with
    | .error e => .error e
    | .ok false => Write_loop k pool validEntries left (ix + 1) writer
    | .ok true =>
      match k.GetAt pool ix with
      | .error e => .error e
      | .ok value =>
        if value ≠ 0 then
          match pool.load value sizeof_uint8_t 0 with
          | .error e => .error e
          | .ok len =>
            match Write_content pool value 256 1 (writer ++ [len]) with
            | .error e => .error e
            | .ok writer1 => Write_loop k pool validEntries left (ix + 1) writer1
        else Write_loop k pool validEntries left (ix + 1) (writer ++ [0])

/-- Method `Write(writer, count, validEntries)`: returns the bytes of the writer, those
written appended; `none` stands for a null reference. -/
def Write (k : ExpandableArrayOfKeys) (pool : MemoryPool) (writer : Option (List Nat))
    (count : Nat) (validEntries : Option BitVector) : Except Fault (List Nat) :=
  match writer with
  | none => .error .argumentNull
  | some w =>
    match validEntries with
    | none => .error .argumentNull
    | some v =>
      if count > k.Capacity then .error .invalidOperation
      else Write_loop k pool v count 0 w

/-- The loop `for (auto c = 1; c <= buff[0]; c++) buff[c] = reader->ReadByte();` of `Read`,
from `c` on; `fuel` bounds the iterations left.  `buff` is the content of the array
`uint8_t buff[255]`: a store past its end is undefined. -/
def Read_content : Nat → Nat → List Nat → List Nat → Except Fault (List Nat × List Nat)
  | 0, _, buff, reader => .ok (buff, reader)
  | fuel + 1, c, buff, reader =>
    match buff[0]? with
    | none => .error .undefinedBehaviour
    | some len =>
      if c ≤ len then
        match ReadByte reader with
        | .error e => .error e
        | .ok (byte, rest) =>
          if c < buff.length then Read_content fuel (c + 1) (buff.set c byte) rest
          else .error .undefinedBehaviour
      else .ok (buff, reader)

/-- The loop `for (size_t ix = 0; ix < count; ix++)` of `Read`, with `left` iterations
left, from `ix` on.  No other thread writes the slots (`TrySetAt` without a rival); the
content loop is given 256 iterations, more than it makes for a length byte. -/
def Read_loop (k : ExpandableArrayOfKeys) (validEntries : BitVector) :
    Nat → Nat → List Nat → List Nat → MemoryPool → Except Fault (MemoryPool × List Nat)
  | 0, _, _, reader, p => .ok (p, reader)
  | left + 1, ix, buff, reader, p =>
    match validEntries.Get p ix with
    | .error e => .error e
    | .ok false => Read_loop k validEntries left (ix + 1) buff reader p
    | .ok true =>
      match ReadByte reader with
      | .error e => .error e
      | .ok (len, rest) =>
        if 0 < buff.length then
          let buff1 := buff.set 0 len
          let step : Except Fault (Bool × MemoryPool × List Nat × List Nat) :=
            if len = 0 then
              match k.TrySetAt p ix none none with
              | .error e => .error e
              | .ok (result, p1) => .ok (result, p1, buff1, rest)
            else
              match Read_content 256 1 buff1 rest with
              | .error e => .error e
              | .ok (buff2, rest2) =>
                match k.TrySetAt p ix (some buff2) none with
                | .error e => .error e
                | .ok (result, p1) => .ok (result, p1, buff2, rest2)
          match step with
          | .error e => .error e
          | .ok (result, p1, buff3, rest3) =>
            if !result then .error .exception
            else Read_loop k validEntries left (ix + 1) buff3 rest3 p1
        else .error .undefinedBehaviour

/-- Method `Read(reader, count, validEntries)`: returns the key array, the pool and the
bytes left in the reader; `none` stands for a null reference.  The content the array
`uint8_t buff[255]` has before it is written is taken from `junk`. -/
def Read (k : ExpandableArrayOfKeys) (pool : MemoryPool) (reader : Option (List Nat))
    (count : Nat) (validEntries : Option BitVector) :
    Except Fault (ExpandableArrayOfKeys × MemoryPool × List Nat) :=
  if k.Capacity > 0 then .error .invalidOperation
  else
    match validEntries with
    | none => .error .argumentNull
    | some v =>
      match reader with
      | none => .error .argumentNull
      | some r =>
        match k.EnsureCapacity pool count with
        | .error e => .error e
        | .ok (k1, p1) =>
          match Read_loop k1 v count 0 ((List.range 255).map pool.junk) r p1 with
          | .error e => .error e
          | .ok (p2, rest) => .ok (k1, p2, rest)

end ExpandableArrayOfKeys

/-- The buffer at `p` holds the length-prefixed key `key`, a list of bytes: the length
byte `key[0]`, which is the number of bytes after it, and then these bytes. -/
def HoldsKey (pool : MemoryPool) (p : Ptr) (key : List Nat) : Prop :=
  key.length = key.headD 0 + 1
  ∧ (∀ b ∈ key, b < 256)
  ∧ ∀ c b, key[c]? = some b → pool.load p sizeof_uint8_t c = .ok b

/-- The bytes the serialization format of the specification has for index `i` of the key
array `k` under the valid-entries vector `v`: nothing when the bit of `i` is clear, a
single 0 when the bit is set and the slot is null, else the length byte and the content
bytes of the key in the slot. -/
def SerializedSlot (k : ExpandableArrayOfKeys) (pool : MemoryPool) (v : BitVector) (i : Nat)
    (chunk : List Nat) : Prop :=
  (v.Get pool i = .ok false ∧ chunk = [])
  ∨ (v.Get pool i = .ok true ∧ k.GetAt pool i = .ok 0 ∧ chunk = [0])
  ∨ (v.Get pool i = .ok true
      ∧ ∃ p, k.GetAt pool i = .ok p ∧ p ≠ 0 ∧ HoldsKey pool p chunk)

/-- A chunk the loop of `ExpandableArrayOfKeys::Read` accepts for index `i` under the
valid-entries vector `v`: nothing when the bit of `i` is clear, and when it is set the
single byte 0 or a length byte between 1 and 254 with as many content bytes. -/
def ReadableChunk (pool : MemoryPool) (v : BitVector) (i : Nat) (chunk : List Nat) : Prop :=
  (v.Get pool i = .ok false ∧ chunk = [])
  ∨ (v.Get pool i = .ok true ∧ chunk = [0])
  ∨ (v.Get pool i = .ok true ∧ chunk.length = chunk.headD 0 + 1 ∧ 1 ≤ chunk.headD 0
      ∧ chunk.headD 0 ≤ 254 ∧ ∀ b ∈ chunk, b < 256)

/-- Invariant of the loop of `ExpandableArrayOfKeys::Read` on the target `t`, before index
`ix`, for a reader made of `chunks`.  `pool0` is the pool the call started from and `bound`
the last address handed out when the target had grown: what was allocated before the
call is untouched, the blocks of the target were allocated during its growth, the slots
from `ix` on are null, and the slots below `ix` hold what their chunks say, in buffers
allocated after the growth. -/
structure ExpandableArrayOfKeys.ReadInv (t : ExpandableArrayOfKeys) (pool0 : MemoryPool)
    (bound : Nat) (chunks : List (List Nat)) (ix : Nat) (p : MemoryPool) : Prop where
  valid : t.Valid p
  outcomes : ∀ x ∈ p.outcomes, x = true
  next : bound ≤ p.next
  frame : ∀ q, q ≠ 0 → q ≤ pool0.next → p.mem q = pool0.mem q
  blocks : ∀ b blk, b < t._pArray._blockCount → p.load t._pData sizeof_ptr b = .ok blk →
    pool0.next < blk ∧ blk ≤ bound
  nulls : ∀ i, ix ≤ i → i < t.Capacity → t.GetAt p i = .ok 0
  done : ∀ i chunk, i < ix → chunks[i]? = some chunk →
    (chunk.headD 0 = 0 → t.GetAt p i = .ok 0)
    ∧ (chunk.headD 0 ≠ 0 → ∃ pt, bound < pt ∧ t.GetAt p i = .ok pt ∧ HoldsKey p pt chunk)

/-! ## Key-array scenarios -/

/-- The key array `ExpandableArrayOfKeys::Initialize` builds: no blocks, capacity 0. -/
def newKeys : ExpandableArrayOfKeys :=
  { _pArray := ExpandableArrayImpl.create sizeof_ptr ITEMS_PER_BLOCK BLOCKS_GROWTH,
    _pData := 0, _capacity := 0 }

/-- The pool after the call `Set(0)` on `bitsTen`. -/
def bitsTwoFirst : MemoryPool :=
  resultOr (bitsTen.1.Set bitsTen.2 0) bitsTen.2

/-- The pool after the calls `Set(0)` and `Set(1)` on `bitsTen`: the valid-entries vector
{0, 1}. -/
def bitsTwoPool : MemoryPool :=
  resultOr (bitsTen.1.Set bitsTwoFirst 1) bitsTwoFirst

/-- The pool after `Initialize` built a key array next to that bit vector. -/
def twoKeysStart : MemoryPool :=
  (DynamicMemoryPool.Alloc bitsTwoPool sizeof_dataarray_t).2

/-- The run `EnsureCapacity(2)` on that key array: the key array and the pool. -/
def twoKeysGrown : ExpandableArrayOfKeys × MemoryPool :=
  resultOr (newKeys.EnsureCapacity twoKeysStart 2) (newKeys, twoKeysStart)

/-- The run `TrySetAt(0, [2, 'a', 'b'])` on it. -/
def twoKeysFirst : Bool × MemoryPool :=
  resultOr (twoKeysGrown.1.TrySetAt twoKeysGrown.2 0 (some [2, 0x61, 0x62]) none)
    (false, twoKeysGrown.2)

/-- The run `TrySetAt(1, [3, 'x', 'y', 'z'])` after it. -/
def twoKeysSecond : Bool × MemoryPool :=
  resultOr (twoKeysGrown.1.TrySetAt twoKeysFirst.2 1 (some [3, 0x78, 0x79, 0x7A]) none)
    (false, twoKeysFirst.2)

/-- The pool after `Initialize` built a second key array, next to the first. -/
def twoKeysTargetPool : MemoryPool :=
  (DynamicMemoryPool.Alloc twoKeysSecond.2 sizeof_dataarray_t).2

/-- The run `Read(reader, 2, validEntries)` on that second key array, the reader holding
the bytes `02 61 62 03 78 79 7A` and the valid-entries vector being `bitsTen` with bits 0
and 1 set. -/
def twoKeysRead : ExpandableArrayOfKeys × MemoryPool × List Nat :=
  resultOr
    (newKeys.Read twoKeysTargetPool (some [0x02, 0x61, 0x62, 0x03, 0x78, 0x79, 0x7A]) 2
      (some bitsTen.1))
    (newKeys, twoKeysTargetPool, [])

/-! ## `ConcurrentHashmapOfKeys`

A key is passed as a pointer to a length-prefixed buffer, and the container keeps the
pointer.  As for `TrySetAt`, a buffer is modelled by the bytes that can be read through
the pointer, `none` standing for `nullptr`; an element of the container holds the bytes of
its key buffer, which the caller has to keep unchanged while the container holds the
pointer. -/

/-- Constant `_FNV_offset_basis` of the standard library, 64-bit. -/
def FNV_offset_basis : Nat := 14695981039346656037

/-- Constant `_FNV_prime` of the standard library, 64-bit. -/
def FNV_prime : Nat := 1099511628211

/-- Library function `_Fnv1a_append_bytes(val, first, count)` on the bytes of `buf` from
offset `c` on, `count` bytes left: `val ^= byte; val *= _FNV_prime;` in `size_t`. -/
def Fnv1a_append_bytes (buf : List Nat) : Nat → Nat → Nat → Except Fault Nat
  | 0, _, val => .ok val
  | count + 1, c, val =>
    match buf[c]? with
    | none => .error .undefinedBehaviour
    | some b => Fnv1a_append_bytes buf count (c + 1) (((val ^^^ b) * FNV_prime) % 2 ^ 64)

/-- Functor `SequenceHash<K>`: `std::_Hash_array_representation(_keyval + 1, _keyval[0])`,
the FNV-1a hash of the content bytes. -/
def SequenceHash (keyval : List Nat) : Except Fault Nat :=
  match keyval[0]? with
  | none => .error .undefinedBehaviour
  | some len => Fnv1a_append_bytes keyval len 1 FNV_offset_basis

/-- The loop of `SequenceEqualTo<K>` over the content bytes, `count` bytes left, at offset
`c` of both buffers. -/
def SequenceEqualTo_loop (left right : List Nat) : Nat → Nat → Except Fault Bool
  | 0, _ => .ok true
  | count + 1, c =>
    match left[c]?, right[c]? with
    | some l, some r =>
      if l ≠ r then .ok false else SequenceEqualTo_loop left right count (c + 1)
    | _, _ => .error .undefinedBehaviour

/-- Functor `SequenceEqualTo<K>`. -/
def SequenceEqualTo (left right : List Nat) : Except Fault Bool :=
  match left[0]?, right[0]? with
  | some len, some rlen =>
    if len ≠ rlen then .ok false else SequenceEqualTo_loop left right len 1
  | _, _ => .error .undefinedBehaviour

/-- An element of the container `hashmap_t`: the hash the container computed for the key
when it inserted the element, the bytes of the key buffer, and the value. -/
structure MapNode where
  order_key : Nat
  key : List Nat
  value : Nat

/-- Value of `sizeof` for a list node of the container on x64: the link, the hash and the
pair of key pointer and value. -/
def sizeof_map_node : Nat := 32

/-- The search the container makes for a key with hash `hash`: the first element with the
same hash whose key `SequenceEqualTo` finds equal. -/
def hashmap_search (hash : Nat) (key : List Nat) : List MapNode → Except Fault (Option MapNode)
  | [] => .ok none
  | n :: rest =>
    if n.order_key = hash then
      match SequenceEqualTo n.key key with
      | .error e => .error e
      | .ok true => .ok (some n)
      | .ok false => hashmap_search hash key rest
    else hashmap_search hash key rest

/-- Library call `_pMap->find(key)`: the element found, `none` for `end()`. -/
def hashmap_find (nodes : List MapNode) (key : List Nat) : Except Fault (Option MapNode) :=
  match SequenceHash key with
  | .error e => .error e
  | .ok hash => hashmap_search hash key nodes

/-- Library call `_pMap->insert(value_type(key, value))`: `second` of the result, the
elements and the pool.  A new node is taken from the pool through the allocator, which
returns `nullptr` instead of throwing when the pool is exhausted; the container then
builds the node at `nullptr`.  The allocations of the bucket table are left out. -/
def hashmap_insert (pool : MemoryPool) (nodes : List MapNode) (key : List Nat) (value : Nat) :
    Except Fault (Bool × List MapNode × MemoryPool) :=
  match SequenceHash key with
  | .error e => .error e
  | .ok hash =>
    match hashmap_search hash key nodes with
    | .error e => .error e
    | .ok (some _) => .ok (false, nodes, pool)
    | .ok none =>
      let r := pool.zero_allocate sizeof_map_node 1
      if r.1 = 0 then .error .undefinedBehaviour
      else .ok (true, nodes ++ [{ order_key := hash, key := key, value := value }], r.2)

/-- The field `_pMap` of `ConcurrentHashmapOfKeys`: the elements of the container it
points to, in the order of their insertion. -/
structure ConcurrentHashmapOfKeys where
  _pMap : List MapNode

/-- Conversion `(int32_t)result` of a 64-bit unsigned value. -/
def to_int32_t (x : Nat) : Int :=
  if x % 2 ^ 32 < 2 ^ 31 then (x % 2 ^ 32 : Nat) else (x % 2 ^ 32 : Nat) - 2 ^ 32

namespace ConcurrentHashmapOfKeys

/-- Method `TryAdd(uint8_t* key, System::UInt64 value)`.  The allocator does not throw, so
the `catch` with its `return false` is never entered. -/
def TryAdd (m : ConcurrentHashmapOfKeys) (pool : MemoryPool) (key : Option (List Nat))
    (value : Nat) : Except Fault (Bool × ConcurrentHashmapOfKeys × MemoryPool) :=
  match key with
  | none => .error .argumentNull
  | some buf =>
    match buf[0]? with
    | none => .error .undefinedBehaviour
    | some len =>
      if len = 0 then .error .argument
      else
        match hashmap_insert pool m._pMap buf value with
        | .error e => .error e
        | .ok (second, nodes, p1) => .ok (second, { _pMap := nodes }, p1)

/-- Method `TryGetValue(uint8_t* key, value_t% value)`: the result and the content of
`value` after the call, `value` being its content before. -/
def TryGetValue (m : ConcurrentHashmapOfKeys) (key : Option (List Nat)) (value : Nat) :
    Except Fault (Bool × Nat) :=
  match key with
  | none => .error .argumentNull
  | some buf =>
    match buf[0]? with
    | none => .error .undefinedBehaviour
    | some len =>
      if len = 0 then .error .argument
      else
        match hashmap_find m._pMap buf with
        | .error e => .error e
        | .ok none => .ok (false, value)
        | .ok (some it) => .ok (true, it.value)

/-- Method `TryGetValue(array<uint8_t>^ key, value_t% value)`: `key` holds the elements of
the managed array. -/
def TryGetValue_array (m : ConcurrentHashmapOfKeys) (key : Option (List Nat)) (value : Nat) :
    Except Fault (Bool × Nat) :=
  match key with
  | none => .error .argumentNull
  | some arr =>
    if arr.length < 2 then .error .argument
    else
      match arr[0]? with
      | none => .error .undefinedBehaviour
      | some len =>
        if len = 0 ∨ len > arr.length - 1 then .error .argumentOutOfRange
        else
          match hashmap_find m._pMap arr with
          | .error e => .error e
          | .ok none => .ok (false, value)
          | .ok (some it) => .ok (true, it.value)

/-- Method `TryGetValueInt32(array<uint8_t>^ key, int32_t% value)`.  The local `result` is
not initialised; it is read only after `TryGetValue` has written it, and 0 stands for its
content before. -/
def TryGetValueInt32 (m : ConcurrentHashmapOfKeys) (key : Option (List Nat)) (value : Int) :
    Except Fault (Bool × Int) :=
  match m.TryGetValue_array key 0 with
  | .error e => .error e
  | .ok (true, result) => .ok (true, to_int32_t result)
  | .ok (false, _) => .ok (false, 0)

/-- The calls `TryAdd(key, value)` for the pairs of `calls`, one after the other: their
results, and the map and the pool at the end. -/
def TryAdd_all : List (List Nat × Nat) → ConcurrentHashmapOfKeys → MemoryPool →
    Except Fault (List Bool × ConcurrentHashmapOfKeys × MemoryPool)
  | [], m, p => .ok ([], m, p)
  | (key, value) :: rest, m, p =>
    match m.TryAdd p (some key) value with
    | .error e => .error e
    | .ok (res, m1, p1) =>
      match TryAdd_all rest m1 p1 with
      | .error e => .error e
      | .ok (results, m2, p2) => .ok (res :: results, m2, p2)

end ConcurrentHashmapOfKeys

/-- The key a buffer starts with, in the words of the specification: the length byte `L`
and the `L` content bytes after it. -/
def keyContent (buf : List Nat) : List Nat :=
  buf.take (buf.headD 0 + 1)

/-- A buffer that starts with a key: a length byte `L` of at least 1 and at least `L` bytes
after it. -/
def StartsWithKey (buf : List Nat) : Prop :=
  1 ≤ buf.headD 0 ∧ buf.headD 0 + 1 ≤ buf.length

/-- The first element whose key has the content of the key of `buf`, in the words of the
specification. -/
def lookupContent (nodes : List MapNode) (buf : List Nat) : Option MapNode :=
  nodes.find? (fun n => decide (keyContent n.key = keyContent buf))

/-- The first call of `calls` whose key has the content of the key of `buf`. -/
def firstCall (calls : List (List Nat × Nat)) (buf : List Nat) : Option (List Nat × Nat) :=
  calls.find? (fun c => decide (keyContent c.1 = keyContent buf))

/-- Data-model invariant of the map: every element holds a buffer that starts with a key,
the hash the container keeps for it is the hash of that key, and no two elements have keys
of the same content. -/
structure ConcurrentHashmapOfKeys.Valid (m : ConcurrentHashmapOfKeys) : Prop where
  keys : ∀ n ∈ m._pMap, StartsWithKey n.key ∧ SequenceHash n.key = .ok n.order_key
  distinct : m._pMap.Pairwise (fun a b => keyContent a.key ≠ keyContent b.key)

/-! ## Map scenarios -/

/-- The map after `Initialize`: no elements. -/
def newMap : ConcurrentHashmapOfKeys :=
  { _pMap := [] }

/-- The calls that add `[1, 'a'] -> 10`, `[1, 'b'] -> 20` and `[2, 'a', 'a'] -> 30` to a new
map, in a fresh pool with unbounded supply. -/
def threeKeys : List Bool × ConcurrentHashmapOfKeys × MemoryPool :=
  resultOr
    (ConcurrentHashmapOfKeys.TryAdd_all
      [([1, 0x61], 10), ([1, 0x62], 20), ([2, 0x61, 0x61], 30)] newMap (freshPool []))
    ([], newMap, freshPool [])

/-! ## Calls on the pool between two collections -/

/-- A call of a method of `MemoryPool` other than `deallocate`, `collect` and `recycle`. -/
inductive PoolCall where
  | allocate (n : Nat)
  | schedule_for_collection (ptr : Ptr)

/-- The calls of `calls` on a pool, one after the other; the pointers `allocate` returns
are dropped. -/
def MemoryPool.run_calls : List PoolCall → MemoryPool → MemoryPool
  | [], p => p
  | .allocate n :: rest, p => MemoryPool.run_calls rest (p.allocate n).2
  | .schedule_for_collection ptr :: rest, p =>
    MemoryPool.run_calls rest (p.schedule_for_collection ptr)

/-- The pointers the calls of `calls` pass to `schedule_for_collection`, in the order of
the calls. -/
def scheduled : List PoolCall → List Ptr
  | [] => []
  | .allocate _ :: rest => scheduled rest
  | .schedule_for_collection ptr :: rest => ptr :: scheduled rest

/-! ## Calls with the state they leave behind

A call that throws returns no value, but it leaves the state it had reached to its
caller.  The definitions below repeat methods defined above with that state made
explicit: each returns the outcome of the call (the value returned or the fault) next
to the state at the end of the call.  After undefined behaviour the state carries no
meaning. -/

/-- Whether a fault is a `System::ArgumentException` of the runtime library:
`ArgumentNullException` and `ArgumentOutOfRangeException` derive from it. -/
def Fault.isArgumentException : Fault → Bool
  | .argument => true
  | .argumentNull => true
  | .argumentOutOfRange => true
  | _ => false

/-- Conversion `(size_t)index` of a signed index. -/
def to_size_t (index : Int) : Nat :=
  (index % 2 ^ 64).toNat

namespace ExpandableArrayOfKeys

/-- Method `TrySetAt(size_t index, uint8_t* pdata)` with the pool it leaves behind, also
when it throws. -/
def TrySetAt_run (k : ExpandableArrayOfKeys) (pool : MemoryPool) (index : Nat)
    (pdata : Option (List Nat)) (rival : Option Ptr) : Except Fault Bool × MemoryPool :=
  if index ≥ k.Capacity then (.error .argumentOutOfRange, pool)
  else
    let candidate : Except Fault Ptr × MemoryPool :=
      match pdata with
      | none => (.ok 0, pool)
      | some buf =>
        match buf[0]? with
        | none => (.error .undefinedBehaviour, pool)
        | some contentlen =>
          if contentlen = 0 then (.error .argumentOutOfRange, pool)
          else
            let r := DynamicMemoryPool.Alloc pool (contentlen + 1)
            match memcpy r.1 buf (contentlen + 1) 0 r.2 with
            | .error e => (.error e, r.2)
            | .ok p1 => (.ok r.1, p1)
    match candidate with
    | (.error e, p1) => (.error e, p1)
    | (.ok pnew, p1) =>
      match p1.load k._pData sizeof_ptr (index / ITEMS_PER_BLOCK) with
      | .error e => (.error e, p1)
      | .ok blk =>
        match p1.load blk sizeof_ptr (index % ITEMS_PER_BLOCK) with
        | .error e => (.error e, p1)
        | .ok prev =>
          let afterRival : Except Fault MemoryPool :=
            match rival with
            | none => .ok p1
            | some v => p1.store blk sizeof_ptr (index % ITEMS_PER_BLOCK) v
          match afterRival with
          | .error e => (.error e, p1)
          | .ok p2 =>
            match InterlockedCompareExchangePointer p2 blk (index % ITEMS_PER_BLOCK) pnew prev with
            | .error e => (.error e, p2)
            | .ok (found, p3) =>
              if prev ≠ found then
                (.ok false, if pnew ≠ 0 then DynamicMemoryPool.Free p3 pnew else p3)
              else
                (.ok true, if prev ≠ 0 then DynamicMemoryPool.ScheduleForCollection p3 prev else p3)

/-- Method `TrySetAt(int32_t index, array<uint8_t>^ data)`: `data` holds the elements of
the managed array, `none` standing for `nullptr`.  The pinned pointer `&data[0]` gives
access to these elements only. -/
def TrySetAt_array (k : ExpandableArrayOfKeys) (pool : MemoryPool) (index : Int)
    (data : Option (List Nat)) (rival : Option Ptr) : Except Fault (Bool × MemoryPool) :=
  match data with
  | none => k.TrySetAt pool (to_size_t index) none rival
  | some arr =>
    if arr.length < 2 then .error .argument
    else
      match arr[0]? with
      | none => .error .undefinedBehaviour
      | some contentlen =>
        if contentlen > arr.length then .error .argumentOutOfRange
        else k.TrySetAt pool (to_size_t index) (some arr) rival

/-- Method `TrySetAt(int32_t index, array<uint8_t>^ data)` with the pool it leaves behind,
also when it throws. -/
def TrySetAt_array_run (k : ExpandableArrayOfKeys) (pool : MemoryPool) (index : Int)
    (data : Option (List Nat)) (rival : Option Ptr) : Except Fault Bool × MemoryPool :=
  match data with
  | none => k.TrySetAt_run pool (to_size_t index) none rival
  | some arr =>
    if arr.length < 2 then (.error .argument, pool)
    else
      match arr[0]? with
      | none => (.error .undefinedBehaviour, pool)
      | some contentlen =>
        if contentlen > arr.length then (.error .argumentOutOfRange, pool)
        else k.TrySetAt_run pool (to_size_t index) (some arr) rival

/-- Method `EnsureCapacity(size_t capacity)` with the key array and the pool it leaves
behind, also when it throws. -/
def EnsureCapacity_run (k : ExpandableArrayOfKeys) (pool : MemoryPool) (capacity : Nat) :
    Except Fault Unit × ExpandableArrayOfKeys × MemoryPool :=
  match k.TryEnsureCapacity pool capacity Timeout_Infinite with
  | .error e => (.error e, k, pool)
  | .ok (res, k1, p1) => if !res then (.error .insufficientMemory, k1, p1) else (.ok (), k1, p1)

/-- The loop of `Read` with the pool and the reader it leaves behind, also when it
throws. -/
def Read_loop_run (k : ExpandableArrayOfKeys) (validEntries : BitVector) :
    Nat → Nat → List Nat → List Nat → MemoryPool → Except Fault Unit × MemoryPool × List Nat
  | 0, _, _, reader, p => (.ok (), p, reader)
  | left + 1, ix, buff, reader, p =>
    match validEntries.Get p ix with
    | .error e => (.error e, p, reader)
    | .ok false => Read_loop_run k validEntries left (ix + 1) buff reader p
    | .ok true =>
      match ReadByte reader with
      | .error e => (.error e, p, reader)
      | .ok (len, rest) =>
        if 0 < buff.length then
          let buff1 := buff.set 0 len
          let step : Except Fault Bool × MemoryPool × List Nat × List Nat :=
            if len = 0 then
              match k.TrySetAt_run p ix none none with
              | (r, p1) => (r, p1, buff1, rest)
            else
              match Read_content 256 1 buff1 rest with
              | .error e => (.error e, p, buff1, rest)
              | .ok (buff2, rest2) =>
                match k.TrySetAt_run p ix (some buff2) none with
                | (r, p1) => (r, p1, buff2, rest2)
          match step with
          | (.error e, p1, _, rest3) => (.error e, p1, rest3)
          | (.ok result, p1, buff3, rest3) =>
            if !result then (.error .exception, p1, rest3)
            else Read_loop_run k validEntries left (ix + 1) buff3 rest3 p1
        else (.error .undefinedBehaviour, p, rest)

/-- Method `Read(reader, count, validEntries)` with the key array, the pool and the reader
it leaves behind, also when it throws. -/
def Read_run (k : ExpandableArrayOfKeys) (pool : MemoryPool) (reader : Option (List Nat))
    (count : Nat) (validEntries : Option BitVector) :
    Except Fault Unit × ExpandableArrayOfKeys × MemoryPool × Option (List Nat) :=
  if k.Capacity > 0 then (.error .invalidOperation, k, pool, reader)
  else
    match validEntries with
    | none => (.error .argumentNull, k, pool, reader)
    | some v =>
      match reader with
      | none => (.error .argumentNull, k, pool, reader)
      | some r =>
        match k.EnsureCapacity_run pool count with
        | (.error e, k1, p1) => (.error e, k1, p1, reader)
        | (.ok _, k1, p1) =>
          match Read_loop_run k1 v count 0 ((List.range 255).map pool.junk) r p1 with
          | (res, p2, rest) => (res, k1, p2, some rest)

end ExpandableArrayOfKeys

namespace BitVector

/-- Method `EnsureCapacity(size_t capacity)` with the vector and the pool it leaves behind,
also when it throws. -/
def EnsureCapacity_run (b : BitVector) (pool : MemoryPool) (capacity : Nat) :
    Except Fault Unit × BitVector × MemoryPool :=
  match b.TryEnsureCapacity pool capacity Timeout_Infinite with
  | .error e => (.error e, b, pool)
  | .ok (res, b1, p1) => if !res then (.error .insufficientMemory, b1, p1) else (.ok (), b1, p1)

/-- The loop of `Read` with the pool and the reader it leaves behind, also when it
throws. -/
def Read_loop_run (b : BitVector) (count : Nat) :
    Nat → Nat → List Nat → MemoryPool → Except Fault Unit × MemoryPool × List Nat
  | 0, _, reader, p => (.ok (), p, reader)
  | fuel + 1, ix, reader, p =>
    if ix < count then
      match ReadByte reader with
      | .error e => (.error e, p, reader)
      | .ok (group, rest) =>
        match b.SetGroup p ix group with
        | .error e => (.error e, p, rest)
        | .ok p1 =>
          if ix + BITS_PER_ITEM > INT_MAX then (.error .undefinedBehaviour, p1, rest)
          else Read_loop_run b count fuel (ix + BITS_PER_ITEM) rest p1
    else (.ok (), p, reader)

/-- Method `Read(reader, count)` with the vector, the pool and the reader it leaves
behind, also when it throws. -/
def Read_run (b : BitVector) (pool : MemoryPool) (reader : List Nat) (count : Nat) :
    Except Fault Unit × BitVector × MemoryPool × List Nat :=
  if b.Capacity > 0 then (.error .invalidOperation, b, pool, reader)
  else
    match b.EnsureCapacity_run pool count with
    | (.error e, b1, p1) => (.error e, b1, p1, reader)
    | (.ok _, b1, p1) =>
      match Read_loop_run b1 count count 0 reader p1 with
      | (res, p2, rest) => (res, b1, p2, rest)

end BitVector

namespace ConcurrentHashmapOfKeys

/-- Method `TryAdd(uint8_t* key, System::UInt64 value)` with the map and the pool it
leaves behind, also when it throws. -/
def TryAdd_run (m : ConcurrentHashmapOfKeys) (pool : MemoryPool) (key : Option (List Nat))
    (value : Nat) : Except Fault Bool × ConcurrentHashmapOfKeys × MemoryPool :=
  match key with
  | none => (.error .argumentNull, m, pool)
  | some buf =>
    match buf[0]? with
    | none => (.error .undefinedBehaviour, m, pool)
    | some len =>
      if len = 0 then (.error .argument, m, pool)
      else
        match hashmap_insert pool m._pMap buf value with
        | .error e => (.error e, m, pool)
        | .ok (second, nodes, p1) => (.ok second, { _pMap := nodes }, p1)

end ConcurrentHashmapOfKeys

/-- Conversion of an `int32_t` value to `value_t`, an unsigned 64-bit integer. -/
def to_value_t (value : Int) : Nat :=
  (value % 2 ^ 64).toNat

namespace ConcurrentHashmapOfKeys

/-- Method `TryAdd(System::IntPtr key, int32_t value)`; `key` is `none` for
`IntPtr::Zero`, else the bytes that can be read through the pointer. -/
def TryAdd_IntPtr (m : ConcurrentHashmapOfKeys) (pool : MemoryPool) (key : Option (List Nat))
    (value : Int) : Except Fault (Bool × ConcurrentHashmapOfKeys × MemoryPool) :=
  match key with
  | none => .error .argumentNull
  | some buf =>
    match buf[0]? with
    | none => .error .undefinedBehaviour
    | some len =>
      if len = 0 then .error .argument
      else
        match hashmap_insert pool m._pMap buf (to_value_t value) with
        | .error e => .error e
        | .ok (second, nodes, p1) => .ok (second, { _pMap := nodes }, p1)

/-- Method `TryAdd(System::IntPtr key, int32_t value)` with the map and the pool it leaves
behind, also when it throws. -/
def TryAdd_IntPtr_run (m : ConcurrentHashmapOfKeys) (pool : MemoryPool)
    (key : Option (List Nat)) (value : Int) :
    Except Fault Bool × ConcurrentHashmapOfKeys × MemoryPool :=
  match key with
  | none => (.error .argumentNull, m, pool)
  | some buf =>
    match buf[0]? with
    | none => (.error .undefinedBehaviour, m, pool)
    | some len =>
      if len = 0 then (.error .argument, m, pool)
      else
        match hashmap_insert pool m._pMap buf (to_value_t value) with
        | .error e => (.error e, m, pool)
        | .ok (second, nodes, p1) => (.ok second, { _pMap := nodes }, p1)

end ConcurrentHashmapOfKeys

/-! ## `ColumnStoreOf<T>` -/

/-- The fields of `ColumnStoreOf<T>`: the pointer `_pArray` to an `ExpandableArrayImpl<T>`
(held with the array object it points to) and the handle `_notNulls` to a `BitVector`;
`none` stands for `nullptr`.  The size of `T` is the `sizeof_value_type` of the array. -/
structure ColumnStoreOf where
  _pArray : Option ExpandableArrayImpl
  _notNulls : Option BitVector

namespace ColumnStoreOf

/-- Constructor `ColumnStoreOf(allocator)` with an allocator: `Initialize(nullptr,
allocator)` on the object whose fields the runtime has zeroed.  `DestroyDealloc` does
nothing for the null `_pArray`, and no statement assigns `_pArray` or `_notNulls`. -/
def create (pool : MemoryPool) : ColumnStoreOf × MemoryPool :=
  ({ _pArray := none, _notNulls := none }, pool)

/-- Method `Get(size_t index)`: `*(T*)_pArray->reference(index * sizeof(T))`, the product
taken in `size_t`. -/
def Get (c : ColumnStoreOf) (pool : MemoryPool) (index : Nat) : Except Fault Nat :=
  match c._pArray with
  | none => .error .undefinedBehaviour
  | some a =>
    match a.reference pool (wrap_size_t (index * a.sizeof_value_type)) with
    | .error e => .error e
    | .ok r => pool.load r.block a.sizeof_value_type r.index

/-- Method `Set(size_t index, T value)`: its body is empty. -/
def Set (c : ColumnStoreOf) (pool : MemoryPool) (index value : Nat) : MemoryPool :=
  pool

/-- Method `ClearIsNotNull(size_t index)`: `_notNulls->Clear(index)`. -/
def ClearIsNotNull (c : ColumnStoreOf) (pool : MemoryPool) (index : Nat) :
    Except Fault MemoryPool :=
  match c._notNulls with
  | none => .error .exception
  | some v => v.Clear pool index

/-- Method `SetIsNotNull(size_t index)`: `_notNulls->Set(index)`. -/
def SetIsNotNull (c : ColumnStoreOf) (pool : MemoryPool) (index : Nat) :
    Except Fault MemoryPool :=
  match c._notNulls with
  | none => .error .exception
  | some v => v.Set pool index

end ColumnStoreOf

/-! ## Column-store scenarios

No constructor of `ColumnStoreOf<T>` allocates the block array or the bit vector.  The
scenarios below put a column store in the state the data model describes, with the block
size and growth of the other containers. -/

/-- The bytes that can be read through a pointer into the pool: `none` for `nullptr`,
else the cells of the allocation the pointer is the address of; nothing can be read
through an address that is not live. -/
def MemoryPool.bytes_at (p : MemoryPool) (ptr : Ptr) : Option (List Nat) :=
  if ptr = 0 then none
  else
    match p.mem ptr with
    | none => some []
    | some al => some ((List.range al.bytes).map al.cells)

namespace ExpandableArrayOfKeys

/-- The loop `for (size_t ix = 0; ix < cap; ix++)` of the copy constructor, with `left`
iterations left, from `ix` on: `TrySetAt(ix, src->GetAt(ix))` on the array under
construction, no other thread writing its slots. -/
def copy_loop (k src : ExpandableArrayOfKeys) : Nat → Nat → MemoryPool → Except Fault MemoryPool
  | 0, _, p => .ok p
  | left + 1, ix, p =>
    match src.GetAt p ix with
    | .error e => .error e
    | .ok value =>
      match k.TrySetAt p ix (p.bytes_at value) none with
      | .error e => .error e
      | .ok (result, p1) =>
        if !result then .error .insufficientMemory
        else copy_loop k src left (ix + 1) p1

/-- Constructors `ExpandableArrayOfKeys(allocator)` (`src` is `none`) and
`ExpandableArrayOfKeys(src, allocator)`, the source array living in the pool of the
allocator. -/
def construct (src : Option ExpandableArrayOfKeys) (pool : MemoryPool) :
    Except Fault (ExpandableArrayOfKeys × MemoryPool) :=
  match Initialize pool with
  | .error e => .error e
  | .ok (k0, p0) =>
    match src with
    | none => .ok (k0, p0)
    | some s =>
      match k0.EnsureCapacity p0 s.Capacity with
      | .error e => .error e
      | .ok (k1, p1) =>
        match copy_loop k1 s s.Capacity 0 p1 with
        | .error e => .error e
        | .ok p2 => .ok (k1, p2)

end ExpandableArrayOfKeys

/-- The run `TrySetAt(0, buf)` on `sampleKeys` for the buffer `buf` of 256 bytes whose
length byte is 255 and whose content bytes are all 7, no other writer. -/
def longKeySet : Bool × MemoryPool :=
  resultOr (sampleKeys.TrySetAt keysGrown.pool 0 (some (255 :: List.replicate 255 7)) none)
    (false, keysGrown.pool)

/-! ## The rounding of the specification -/

/-- The function `ceilToMultiple(x, g)` of the specification, in its words the least
multiple of `g` that is at least `x`, computed by rounding up the quotient. -/
def ceilToMultiple (x g : Nat) : Nat :=
  ((x + g - 1) / g) * g

/-! ## Reachable states of a block array -/

/-- The block arrays a newly created array (positive block size and growth) becomes by
calls of `try_ensure_capacity` that return, whatever the pool holds at each call, when the
spine capacity of each request is computed without wrap-around. -/
inductive ExpandableArrayImpl.Reachable : ExpandableArrayImpl → Prop
  | create (sizeofT elementsPerBlock blocksGrowth : Nat) :
      0 < elementsPerBlock → 0 < blocksGrowth →
      ExpandableArrayImpl.Reachable
        (ExpandableArrayImpl.create sizeofT elementsPerBlock blocksGrowth)
  | grow {a : ExpandableArrayImpl} {pool : MemoryPool} {n timeout : Nat} {ref : Ptr} {cap : Nat}
      {r : EnsureCapacityResult} :
      ExpandableArrayImpl.Reachable a → a.ListCapacityFits n →
      a.try_ensure_capacity pool n timeout ref cap = .ok r →
      ExpandableArrayImpl.Reachable r.self

/-! ## Reachable states of a bit vector -/

/-- The bit vectors a new bit vector becomes by calls of `TryEnsureCapacity`,
`EnsureCapacity` and `Read`, whatever the pool and the reader hold at each call.  A call
of `EnsureCapacity` or `Read` counts whether it returns or throws; a call whose behaviour
is undefined leaves no state. -/
inductive BitVector.Reachable : BitVector → Prop
  | create : BitVector.Reachable newBits
  | tryEnsure {b b1 : BitVector} {pool p1 : MemoryPool} {capacity timeout : Nat} {res : Bool} :
      BitVector.Reachable b →
      b.TryEnsureCapacity pool capacity timeout = .ok (res, b1, p1) →
      BitVector.Reachable b1
  | ensure {b : BitVector} {pool : MemoryPool} {capacity : Nat} :
      BitVector.Reachable b →
      (b.EnsureCapacity_run pool capacity).1 ≠ .error .undefinedBehaviour →
      BitVector.Reachable (b.EnsureCapacity_run pool capacity).2.1
  | read {b : BitVector} {pool : MemoryPool} {reader : List Nat} {count : Nat} :
      BitVector.Reachable b →
      (b.Read_run pool reader count).1 ≠ .error .undefinedBehaviour →
      BitVector.Reachable (b.Read_run pool reader count).2.1

namespace ConcurrentHashmapOfKeys

/-- Method `GetAt(array<uint8_t>^ key)`.  The local `result` is not initialised; it is read
only after `TryGetValue` has written it, and 0 stands for its content before. -/
def GetAt (m : ConcurrentHashmapOfKeys) (key : Option (List Nat)) : Except Fault Nat :=
  match m.TryGetValue_array key 0 with
  | .error e => .error e
  | .ok (true, result) => .ok result
  | .ok (false, _) => .error .keyNotFound

/-- Method `GetInt32At(array<uint8_t>^ key)`: `(int32_t)GetAt(key)`. -/
def GetInt32At (m : ConcurrentHashmapOfKeys) (key : Option (List Nat)) : Except Fault Int :=
  match m.GetAt key with
  | .error e => .error e
  | .ok result => .ok (to_int32_t result)

end ConcurrentHashmapOfKeys

/-! ## `MemoryViewStream`

The stream is a view of native memory: `_buffer` is modelled by the bytes that can be read
through the pointer, `none` standing for `nullptr`.  Its counters are `int64_t` and the
arguments of `Read` are `int32_t`: they are integers, an addition or subtraction whose
result leaves the range of the type is undefined, and a conversion to a narrower type
keeps the low bits. -/

/-- Macro `INT64_MAX`. -/
def INT64_MAX : Int := 9223372036854775807

/-- Macro `INT64_MIN`. -/
def INT64_MIN : Int := -9223372036854775808

/-- Macro `INT32_MAX`. -/
def INT32_MAX : Int := 2147483647

/-- Macro `INT32_MIN`. -/
def INT32_MIN : Int := -2147483648

/-- An operation on `int64_t` with the mathematical result `x`: undefined when `x` is not
an `int64_t`. -/
def int64_result (x : Int) : Except Fault Int :=
  if INT64_MIN ≤ x ∧ x ≤ INT64_MAX then .ok x else .error .undefinedBehaviour

/-- An operation on `int32_t` with the mathematical result `x`: undefined when `x` is not
an `int32_t`. -/
def int32_result (x : Int) : Except Fault Int :=
  if INT32_MIN ≤ x ∧ x ≤ INT32_MAX then .ok x else .error .undefinedBehaviour

/-- Conversion `int32_t(x)` of an `int64_t`: the low 32 bits, as a signed value. -/
def narrow_int32 (x : Int) : Int :=
  if x % 2 ^ 32 < 2 ^ 31 then x % 2 ^ 32 else x % 2 ^ 32 - 2 ^ 32

/-- Conversion of a `size_t` to `int64_t`: the 64 bits, as a signed value. -/
def to_int64_t (x : Nat) : Int :=
  if x % 2 ^ 64 < 2 ^ 63 then (x % 2 ^ 64 : Nat) else (x % 2 ^ 64 : Nat) - 2 ^ 64

/-- Enumeration `System::IO::SeekOrigin`; `other` stands for a value that is none of the
three named ones. -/
inductive SeekOrigin where
  | Begin
  | Current
  | End
  | other (value : Int)

/-- The fields of `MemoryViewStream`. -/
structure MemoryViewStream where
  _disposed : Bool
  _bytesInBuffer : Int
  _positionInBuffer : Int
  _buffer : Option (List Nat)

namespace MemoryViewStream

/-- Constructor `MemoryViewStream()`: the runtime has zeroed the fields. -/
def create : MemoryViewStream :=
  { _disposed := false, _bytesInBuffer := 0, _positionInBuffer := 0, _buffer := none }

/-- Method `Attach(p, len)`. -/
def Attach (s : MemoryViewStream) (p : Option (List Nat)) (len : Nat) :
    Except Fault MemoryViewStream :=
  match p with
  | none => .error .argumentNull
  | some bytes =>
    .ok { s with _buffer := some bytes, _bytesInBuffer := to_int64_t len,
                 _positionInBuffer := 0 }

/-- Method `Seek(offset, origin)`: the value returned and the stream. -/
def Seek (s : MemoryViewStream) (offset : Int) (origin : SeekOrigin) :
    Except Fault (Int × MemoryViewStream) :=
  if s._disposed then .error .objectDisposed
  else
    let computed : Except Fault Int :=
      match origin with
      | .Current => int64_result (s._positionInBuffer + offset)
      | .Begin => .ok offset
      | .End => int64_result (s._bytesInBuffer - offset)
      | .other _ => .error .argument
    match computed with
    | .error e => .error e
    | .ok newpos =>
      let clamped :=
        if newpos < 0 then 0
        else if newpos > s._bytesInBuffer then s._bytesInBuffer
        else newpos
      .ok (clamped, { s with _positionInBuffer := clamped })

/-- The loop `for (auto head = _buffer + _positionInBuffer; head != _buffer +
_positionInBuffer + bytesRead; head++, offset++) buffer[offset] = *head;` of `Read`, with
`left` iterations left: `src` is the native memory, read at `from`, and `buffer` the
managed array, whose accesses are checked by the runtime. -/
def Read_loop (src : List Nat) : Nat → Int → Int → List Nat → Except Fault (List Nat)
  | 0, _, _, buffer => .ok buffer
  | left + 1, position, offset, buffer =>
    if position < 0 then .error .undefinedBehaviour
    else
      match src[position.toNat]? with
      | none => .error .undefinedBehaviour
      | some byte =>
        if offset < 0 ∨ offset ≥ buffer.length then .error .exception
        else
          match int32_result (offset + 1) with
          | .error e => .error e
          | .ok offset1 =>
            Read_loop src left (position + 1) offset1 (buffer.set offset.toNat byte)

/-- Method `Read(buffer, offset, count)`: the value returned, the content of the managed
array and the stream; `buffer` is `none` for `nullptr`. -/
def Read (s : MemoryViewStream) (buffer : Option (List Nat)) (offset count : Int) :
    Except Fault (Int × List Nat × MemoryViewStream) :=
  if s._disposed then .error .objectDisposed
  else
    match buffer with
    | none => .error .argumentNull
    | some arr =>
      if count < 0 then .error .argumentOutOfRange
      else if offset < 0 then .error .argumentOutOfRange
      else
        match int32_result (offset + count) with
        | .error e => .error e
        | .ok sum =>
          if sum > arr.length then .error .argument
          else
            match int64_result (s._bytesInBuffer - s._positionInBuffer) with
            | .error e => .error e
            | .ok remaining =>
              let bytesRead := min count (narrow_int32 remaining)
              if bytesRead > 0 then
                match s._buffer with
                | none => .error .undefinedBehaviour
                | some src =>
                  match Read_loop src bytesRead.toNat s._positionInBuffer offset arr with
                  | .error e => .error e
                  | .ok arr1 =>
                    match int64_result (s._positionInBuffer + bytesRead) with
                    | .error e => .error e
                    | .ok position1 =>
                      .ok (bytesRead, arr1, { s with _positionInBuffer := position1 })
              else .ok (bytesRead, arr, s)

end MemoryViewStream

/-- A stream attached to a native buffer of 2^31 zero bytes, at position 0. -/
def bigStream : MemoryViewStream :=
  { _disposed := false, _bytesInBuffer := 2147483648, _positionInBuffer := 0,
    _buffer := some (List.replicate 2147483648 0) }

/-- A stream attached to the five bytes 10, 11, 12, 13, 14, at position 1. -/
def fiveStream : MemoryViewStream :=
  { _disposed := false, _bytesInBuffer := 5, _positionInBuffer := 1,
    _buffer := some [10, 11, 12, 13, 14] }

/-! ## Interleaved callers of `SafeGetAndSet`

Several callers run `SafeGetAndSet(index)` on one bit vector at the same time.  They
compute the same `pValue` and the same `mask`; what they share is the byte `*pValue`.  A
caller takes two kinds of atomic steps: the read `oldValue = *pValue`, and the
compare-and-swap, together with the loop test and the `return` that follow it and touch
locals only.  An interleaving is the list of the callers in the order of their steps. -/

namespace BitVector

/-- Where a caller of `SafeGetAndSet` stands: before the read of an iteration, between the
read and the compare-and-swap (with its local `oldValue`), or back from the call (with the
value returned). -/
inductive Caller where
  | reading
  | swapping (oldValue : Nat)
  | returned (result : Bool)

/-- The byte `*pValue` and the callers of `SafeGetAndSet`. -/
structure Race where
  byte : Nat
  callers : List Caller

namespace Race

/-- The callers enter `SafeGetAndSet`. -/
def start (byte N : Nat) : Race :=
  { byte := byte, callers := List.replicate N .reading }

/-- One atomic step of caller `t` in `SafeGetAndSet(index)`: `oldValue = *pValue`, or
`value = oldValue | mask; value = CAS(pValue, value, oldValue);` with the test
`value != oldValue` of the loop and `return 0 != (value & mask)`.  The compare-and-swap
returns the byte found and stores the new value when the byte found is the comparand.  A
caller that has returned takes no step. -/
def step (index : Nat) (r : Race) (t : Nat) : Race :=
  let mask := 1 <<< (index % BITS_PER_ITEM)
  match r.callers[t]? with
  | some .reading => { byte := r.byte, callers := r.callers.set t (.swapping r.byte) }
  | some (.swapping oldValue) =>
    let found := r.byte
    let stored := if found = oldValue then (oldValue ||| mask) % 256 else found
    let value := found
    if value ≠ oldValue then { byte := stored, callers := r.callers.set t .reading }
    else
      { byte := stored,
        callers := r.callers.set t (.returned (decide (0 ≠ value &&& mask))) }
  | _ => r

/-- The steps of an interleaving, in order. -/
def run (index : Nat) (schedule : List Nat) (r : Race) : Race :=
  schedule.foldl (step index) r

/-- A bound on the number of steps a caller still takes before it has returned. -/
def pending (index : Nat) (r : Race) : Caller → Nat
  | .returned _ => 0
  | .reading => if r.byte.testBit (index % BITS_PER_ITEM) then 2 else 4
  | .swapping oldValue =>
    if r.byte.testBit (index % BITS_PER_ITEM) then (if oldValue = r.byte then 1 else 3)
    else 3

end Race

/-- Invariant of the callers of `SafeGetAndSet(index)` that started on the byte `byte0`
with the bit clear: while the bit is clear the byte is `byte0`, no caller has returned and
a caller that has read holds `byte0`; once the bit is set exactly one caller has returned
`false`. -/
structure Race.Inv (index byte0 : Nat) (r : Race) : Prop where
  lt : r.byte < 256
  clear : r.byte.testBit (index % BITS_PER_ITEM) = false →
    r.byte = byte0 ∧
      ∀ (t : Nat) (c : Caller), r.callers[t]? = some c → c = .reading ∨ c = .swapping byte0
  set : r.byte.testBit (index % BITS_PER_ITEM) = true →
    ∃ w : Nat, r.callers[w]? = some (.returned false) ∧
      ∀ t : Nat, t ≠ w → r.callers[t]? ≠ some (.returned false)

end BitVector

/-- An interleaving of three callers: all three read, they swap in the order 1, 0, 2, the
two that lost read and swap again, and the steps left over find their caller returned. -/
def threeCallers : List Nat :=
  [0, 1, 2, 1, 0, 2, 0, 2, 2, 0, 1, 1, 0, 2]

/-! ## The growth lock under contention

`try_ensure_capacity` takes `_thisLock` with `tbb::spin_mutex::scoped_lock lock(_thisLock)`.
The constructor of the lock tests the mutex until a test finds it free; it has no other
exit.  What the other callers do is given from outside: whether they hold the mutex at
each test, and the state of the array found once the mutex is taken. -/

/-- Constructor `tbb::spin_mutex::scoped_lock lock(m)`, from test number `t` on: `held t`
tells whether another caller holds the mutex at test `t`.  The result is the number of the
test that took the mutex, and `none` while the `fuel` tests made have all found it
held. -/
def scoped_lock (held : Nat → Bool) : Nat → Nat → Option Nat
  | 0, _ => none
  | fuel + 1, t => if held t then scoped_lock held fuel (t + 1) else some t

namespace ExpandableArrayImpl

/-- Method `try_ensure_capacity(newCapacity, timeout, ref, cap)` when other callers
compete for `_thisLock`.  The first capacity check sees the array `a`; `seen t` is the
array and the pool that the caller finds when its test `t` has taken the mutex, where it
goes on with the second capacity check and the growth (`try_ensure_capacity` on that
state, whose first check is the same test).  The result is `none` while the caller is
still in the constructor of the lock after `fuel` tests. -/
def try_ensure_capacity_contended (a : ExpandableArrayImpl) (pool : MemoryPool)
    (newCapacity timeout : Nat) (ref : Ptr) (cap : Nat) (held : Nat → Bool)
    (seen : Nat → ExpandableArrayImpl × MemoryPool) (fuel : Nat) :
    Option (Except Fault EnsureCapacityResult) :=
  if a.capacity ≥ newCapacity then
    some (.ok { returned := true, self := a, pool := pool, ref := ref, cap := cap })
  else
    match scoped_lock held fuel 0 with
    | none => none
    | some t => some ((seen t).1.try_ensure_capacity (seen t).2 newCapacity timeout ref cap)

end ExpandableArrayImpl

/-- The run `TrySetAt(0, buf)` on the key array of the scenario of two keys, before its
keys are set, for the buffer `buf` of 256 bytes whose length byte is 255 and whose content
bytes are all 7, no other writer. -/
def longKeyInstalled : Bool × MemoryPool :=
  resultOr
    (twoKeysGrown.1.TrySetAt twoKeysGrown.2 0 (some (255 :: List.replicate 255 7)) none)
    (false, twoKeysGrown.2)

/-- The pool after `Initialize` built a second key array, next to the one that holds the
key of 255 content bytes. -/
def longKeyTargetPool : MemoryPool :=
  (DynamicMemoryPool.Alloc longKeyInstalled.2 sizeof_dataarray_t).2

/-! ## Reachable states of a key array -/

namespace ExpandableArrayOfKeys

/-- A key buffer with the length bound `B`: a live allocation of `L + 1` bytes whose first
byte is `L`, with `1 ≤ L ≤ B`, as `TrySetAt` allocates and fills for a key with the length
byte `L`. -/
def KeyBuffer (B : Nat) (pool : MemoryPool) (p : Ptr) : Prop :=
  ∃ al, pool.mem p = some al ∧ al.bytes = al.cells 0 + 1 ∧ 1 ≤ al.cells 0 ∧ al.cells 0 ≤ B

/-- What a slot of the key array `k` may hold: null, or a key buffer, which is not the
spine of `k`. -/
def SlotValue (B : Nat) (k : ExpandableArrayOfKeys) (pool : MemoryPool) (v : Ptr) : Prop :=
  v = 0 ∨ (v ≠ k._pData ∧ KeyBuffer B pool v)

/-- A block of the key array `k`: a live allocation of `ITEMS_PER_BLOCK` pointers, other
than the spine, each of its slots holding null or a key buffer. -/
def IsBlock (B : Nat) (k : ExpandableArrayOfKeys) (pool : MemoryPool) (blk : Ptr) : Prop :=
  blk ≠ 0 ∧ blk ≠ k._pData
    ∧ ∃ al, pool.mem blk = some al ∧ al.bytes = ITEMS_PER_BLOCK * sizeof_ptr
        ∧ ∀ j, j < ITEMS_PER_BLOCK → SlotValue B k pool (al.cells j)

/-- Invariant of the reachable states of a key array, for the length bound `B`: the
allocator invariant, the cache fields, the constants of the block array, a block count
within the spine capacity, and in every populated spine entry either null (a block whose
allocation failed) or a block whose slots hold null or a key buffer; the candidate buffers
of other callers are null or key buffers. -/
structure SlotsInv (B : Nat) (k : ExpandableArrayOfKeys) (pool : MemoryPool)
    (cands : List Ptr) : Prop where
  fresh : pool.Fresh
  data : k._pData = k._pArray._blockList
  capacity : k._capacity = k._pArray.capacity
  elementsPerBlock : k._pArray._elementsPerBlock = ITEMS_PER_BLOCK
  blocksGrowth : k._pArray._blocksGrowth = BLOCKS_GROWTH
  sizeof_value_type : k._pArray.sizeof_value_type = sizeof_ptr
  count_le_capacity : k._pArray._blockCount ≤ k._pArray._blockCapacity
  blockList_le : k._pArray._blockList ≤ pool.next
  blocks : ∀ b, b < k._pArray._blockCount →
    ∃ blk, pool.load k._pData sizeof_ptr b = .ok blk ∧ (blk = 0 ∨ IsBlock B k pool blk)
  candidates : ∀ c ∈ cands, SlotValue B k pool c

/-- The states of a key array, its pool and the candidate buffers of other callers that
calls which return can reach, for keys whose length byte is at most `B`.  The array is
constructed, plainly or as a copy of an array in a reachable state, over any pool that
satisfies the allocator invariant and whatever allocations fail; it is then grown, written
by both overloads of `TrySetAt` and read from a stream, for capacities and counts that are
a `size_t`.  Another caller of `TrySetAt` makes its candidate buffer (`candidate`), and the
rival writer of a `TrySetAt` stores such a candidate in the slot between the read and the
compare-and-swap of the call. -/
inductive Reachable (B : Nat) : ExpandableArrayOfKeys → MemoryPool → List Ptr → Prop
  | plain {pool p1 : MemoryPool} {k : ExpandableArrayOfKeys} :
      pool.Fresh → construct none pool = .ok (k, p1) → Reachable B k p1 []
  | copy {src k : ExpandableArrayOfKeys} {pool p1 : MemoryPool} {cands : List Ptr} :
      Reachable B src pool cands → construct (some src) pool = .ok (k, p1) →
      Reachable B k p1 cands
  | grow {k k1 : ExpandableArrayOfKeys} {pool p1 : MemoryPool} {cands : List Ptr}
      {capacity timeout : Nat} {res : Bool} :
      Reachable B k pool cands → capacity < SIZE_T_RANGE →
      k.TryEnsureCapacity pool capacity timeout = .ok (res, k1, p1) → Reachable B k1 p1 cands
  | candidate {k : ExpandableArrayOfKeys} {pool p1 : MemoryPool} {cands : List Ptr}
      {pdata : Option (List Nat)} {c : Ptr} :
      Reachable B k pool cands → (∀ buf, pdata = some buf → buf.headD 0 ≤ B) →
      make_candidate pool pdata = .ok (c, p1) → Reachable B k p1 (c :: cands)
  | set {k : ExpandableArrayOfKeys} {pool p1 : MemoryPool} {cands : List Ptr} {index : Nat}
      {pdata : Option (List Nat)} {rival : Option Ptr} {res : Bool} :
      Reachable B k pool cands → (∀ buf, pdata = some buf → buf.headD 0 ≤ B) →
      (∀ v, rival = some v → v ∈ cands) →
      k.TrySetAt pool index pdata rival = .ok (res, p1) → Reachable B k p1 cands
  | set_array {k : ExpandableArrayOfKeys} {pool p1 : MemoryPool} {cands : List Ptr}
      {index : Int} {data : Option (List Nat)} {rival : Option Ptr} {res : Bool} :
      Reachable B k pool cands → (∀ arr, data = some arr → arr.headD 0 ≤ B) →
      (∀ v, rival = some v → v ∈ cands) →
      k.TrySetAt_array pool index data rival = .ok (res, p1) → Reachable B k p1 cands
  | read {k k1 : ExpandableArrayOfKeys} {pool p1 : MemoryPool} {cands : List Ptr}
      {reader rest : List Nat} {count : Nat} {validEntries : Option BitVector} :
      Reachable B k pool cands → count < SIZE_T_RANGE →
      k.Read pool (some reader) count validEntries = .ok (k1, p1, rest) →
      Reachable B k1 p1 cands

end ExpandableArrayOfKeys

/-- The run `TryEnsureCapacity(1, 0)` on a new key array over a pool that fails the
allocation of the first block (the array object and the spine are allocated, the block is
not): the result, the key array and the pool. -/
def keysBlockFailed : Bool × ExpandableArrayOfKeys × MemoryPool :=
  resultOr
    (newKeys.TryEnsureCapacity
      (DynamicMemoryPool.Alloc (freshPool [true, true, false]) sizeof_dataarray_t).2 1 0)
    (false, newKeys, (DynamicMemoryPool.Alloc (freshPool [true, true, false])
      sizeof_dataarray_t).2)

end Pql.UnmanagedLib

/-! # Theorems -/

namespace Pql.UnmanagedLib

namespace ExpandableArrayImpl

/-- The array fields and `*ref` left by the spine replacement. -/
theorem replace_block_list_fields {a : ExpandableArrayImpl} {pool : MemoryPool} {c : Nat}
    {a1 : ExpandableArrayImpl} {p1 : MemoryPool} {ref1 : Ptr}
    (h : replace_block_list a pool c = .ok (a1, p1, ref1)) :
    a1 = { a with _blockList := (pool.zero_allocate a.sizeof_value_type c).1, _blockCapacity := c }
      ∧ ref1 = a1._blockList := by
  unfold replace_block_list at h
  simp only at h
  split at h
  · cases h
  · simp only [Except.ok.injEq, Prod.mk.injEq] at h
    obtain ⟨h1, -, h3⟩ := h
    subst h1 h3
    exact ⟨rfl, rfl⟩

/-- A wrapped value does not exceed the value. -/
theorem wrap_size_t_le (x : Nat) : wrap_size_t x ≤ x :=
  Nat.mod_le _ _

/-- A value that fits a `size_t` is not changed. -/
theorem wrap_size_t_of_lt {x : Nat} (h : x < SIZE_T_RANGE) : wrap_size_t x = x :=
  Nat.mod_eq_of_lt h

/-- A wrapped value fits a `size_t`. -/
theorem wrap_size_t_lt (x : Nat) : wrap_size_t x < SIZE_T_RANGE :=
  Nat.mod_lt _ (by decide)

/-- The capacity does not exceed the product of block count and block size. -/
theorem capacity_le_mul (a : ExpandableArrayImpl) :
    a.capacity ≤ a._blockCount * a._elementsPerBlock :=
  wrap_size_t_le _

/-- A new array has capacity 0. -/
theorem create_capacity (sizeofT E G : Nat) : (create sizeofT E G).capacity = 0 := by
  show wrap_size_t (0 * E) = 0
  rw [Nat.zero_mul]
  rfl

/-- An index below the capacity lies in a block below the block count. -/
theorem div_lt_of_lt_capacity {a : ExpandableArrayImpl} {i : Nat} (h : i < a.capacity) :
    i / a._elementsPerBlock < a._blockCount := by
  have h1 := Nat.lt_of_lt_of_le h (capacity_le_mul a)
  exact Nat.div_lt_of_lt_mul (by rw [Nat.mul_comm]; exact h1)

/-- A call that returns took the fast path and changed nothing, or took the growth path
and left `requestedListCapacity` blocks with the capacity published in `*cap`. -/
theorem try_ensure_capacity_cases {a : ExpandableArrayImpl} {pool : MemoryPool}
    {n timeout : Nat} {ref : Ptr} {cap : Nat} {r : EnsureCapacityResult}
    (h : a.try_ensure_capacity pool n timeout ref cap = .ok r) :
    (n ≤ a.capacity ∧ r = { returned := true, self := a, pool := pool, ref := ref, cap := cap })
    ∨ (a.capacity < n ∧ 0 < a._elementsPerBlock ∧ 0 < a._blocksGrowth ∧ r.returned = true
        ∧ r.self._blockCount = a.requestedListCapacity n
        ∧ r.self._elementsPerBlock = a._elementsPerBlock
        ∧ r.self._blocksGrowth = a._blocksGrowth
        ∧ r.self.sizeof_value_type = a.sizeof_value_type
        ∧ r.cap = r.self.capacity) := by
  unfold try_ensure_capacity at h
  by_cases hc : n ≤ a.capacity
  · left
    simp only [ge_iff_le, hc, if_true] at h
    exact ⟨hc, (Except.ok.inj h).symm⟩
  · right
    simp only [ge_iff_le, hc, if_false] at h
    split at h
    · cases h
    · rename_i hz
      have hE : 0 < a._elementsPerBlock := by
        rcases Nat.eq_zero_or_pos a._elementsPerBlock with h0 | h0
        · exact absurd (Or.inl h0) hz
        · exact h0
      have hG : 0 < a._blocksGrowth := by
        rcases Nat.eq_zero_or_pos a._blocksGrowth with h0 | h0
        · exact absurd (Or.inr (by rw [h0, Nat.mul_zero]; rfl)) hz
        · exact h0
      refine ⟨Nat.lt_of_not_le hc, hE, hG, ?_⟩
      split at h
      · cases h
      · rename_i a1 p1 ref1 hstep
        split at h
        · cases h
        · rename_i p2 hfill
          have hr := (Except.ok.inj h).symm
          subst hr
          have ha1 : a1._elementsPerBlock = a._elementsPerBlock ∧ a1._blocksGrowth = a._blocksGrowth
              ∧ a1.sizeof_value_type = a.sizeof_value_type := by
            split at hstep
            · have := (replace_block_list_fields hstep).1
              subst this
              exact ⟨rfl, rfl, rfl⟩
            · simp only [Except.ok.injEq, Prod.mk.injEq] at hstep
              obtain ⟨h1, -, -⟩ := hstep
              subst h1
              exact ⟨rfl, rfl, rfl⟩
          obtain ⟨e1, e2, e3⟩ := ha1
          exact ⟨rfl, rfl, e1, e2, e3, rfl⟩

/-- The requested block count covers the request: `n < (1 + n / E) * E`. -/
theorem lt_requested_capacity (n E : Nat) (hE : 0 < E) : n < (1 + n / E) * E := by
  have h := Nat.lt_mul_div_succ n hE
  rw [Nat.mul_comm, Nat.add_comm] at h
  exact h

/-- The requested block count when the capacity it stands for fits a `size_t`. -/
theorem requestedListCapacity_of_fit (a : ExpandableArrayImpl) (n : Nat)
    (hE : 0 < a._elementsPerBlock)
    (hfit : (1 + n / a._elementsPerBlock) * a._elementsPerBlock < SIZE_T_RANGE) :
    a.requestedListCapacity n = 1 + n / a._elementsPerBlock := by
  unfold requestedListCapacity
  apply wrap_size_t_of_lt
  exact Nat.lt_of_le_of_lt (Nat.le_mul_of_pos_right _ hE) hfit

/-- A call that returns leaves a capacity of at least `n`, when the capacity of the
requested blocks fits a `size_t`. -/
theorem try_ensure_capacity_true_covers_request_of_fit {a : ExpandableArrayImpl}
    {pool : MemoryPool} {n timeout : Nat} {ref : Ptr} {cap : Nat} {r : EnsureCapacityResult}
    (h : a.try_ensure_capacity pool n timeout ref cap = .ok r)
    (hfit : (1 + n / a._elementsPerBlock) * a._elementsPerBlock < SIZE_T_RANGE) :
    n ≤ r.self.capacity := by
  rcases try_ensure_capacity_cases h with ⟨hn, hr⟩ | ⟨hn, hE, -, -, hcount, hepb, -, -, hcap⟩
  · subst hr
    exact hn
  · unfold capacity
    rw [hcount, hepb, requestedListCapacity_of_fit a n hE hfit, wrap_size_t_of_lt hfit]
    exact Nat.le_of_lt (lt_requested_capacity n _ hE)

/-- C1 (counterexample): on a new array with one element per block and growth 1,
`try_ensure_capacity(2^64 - 1, ...)` computes the block count `1 + n / 1` and the spine
capacity in `size_t`, where both are 0: the call returns true, allocates nothing and
leaves `capacity()` at 0, below the request. -/
theorem try_ensure_capacity_true_below_request :
    (create 8 1 1).try_ensure_capacity (freshPool []) 18446744073709551615 0 0 0
      = .ok { returned := true, self := create 8 1 1, pool := freshPool [], ref := 0,
              cap := 0 }
    ∧ (create 8 1 1).capacity = 0
    ∧ ¬ (18446744073709551615 ≤ (create 8 1 1).capacity) := by
  refine ⟨rfl, rfl, by decide⟩

/-- C1 (amended): when `try_ensure_capacity(n, ...)` returns true and the capacity
`(1 + n / _elementsPerBlock) * _elementsPerBlock` of the requested blocks fits a `size_t`,
`capacity()` is at least `n` afterwards, and when the call grew the array the capacity
written to the caller's `*cap` equals `capacity()`.  (With `_elementsPerBlock = 0` or
`_blocksGrowth = 0` a growing call divides by zero and does not return, so positivity need
not be assumed.) -/
theorem try_ensure_capacity_true_covers_request (a : ExpandableArrayImpl) (pool : MemoryPool)
    (n timeout : Nat) (ref : Ptr) (cap : Nat) (r : EnsureCapacityResult)
    (h : a.try_ensure_capacity pool n timeout ref cap = .ok r) (ht : r.returned = true)
    (hfit : (1 + n / a._elementsPerBlock) * a._elementsPerBlock < SIZE_T_RANGE) :
    n ≤ r.self.capacity ∧ (a.capacity < r.self.capacity → r.cap = r.self.capacity) := by
  rcases try_ensure_capacity_cases h with ⟨hn, hr⟩ | ⟨hn, hE, -, -, hcount, hepb, -, -, hcap⟩
  · subst hr
    exact ⟨hn, fun hlt => absurd hlt (Nat.lt_irrefl _)⟩
  · refine ⟨?_, fun _ => hcap⟩
    unfold capacity
    rw [hcount, hepb, requestedListCapacity_of_fit a n hE hfit, wrap_size_t_of_lt hfit]
    exact Nat.le_of_lt (lt_requested_capacity n _ hE)

/-- Instance of C1: growing the new `smallArray` to 5 elements leaves capacity 8,
published in `*cap`. -/
theorem try_ensure_capacity_true_covers_request_witness :
    5 ≤ smallArrayGrown.self.capacity
      ∧ (smallArray.capacity < smallArrayGrown.self.capacity
          → smallArrayGrown.cap = smallArrayGrown.self.capacity) :=
  try_ensure_capacity_true_covers_request smallArray (freshPool []) 5 0 0 0 smallArrayGrown rfl rfl
    (by decide)

end ExpandableArrayImpl

end Pql.UnmanagedLib

namespace Pql.UnmanagedLib

namespace ExpandableArrayImpl

/-- C6 (counterexample): on a new array with one element per block and growth 2,
`try_ensure_capacity(2^64 - 1)` finds `capacity() = 0 < n`, returns true and leaves
`capacity()` at 0, where `(1 + n / 1) * 1` is 2^64: the block count `1 + n / 1` is
computed in `size_t` and is 0. -/
theorem try_ensure_capacity_grown_capacity_wraps :
    (create 8 1 2).capacity < 18446744073709551615
    ∧ (create 8 1 2).try_ensure_capacity (freshPool []) 18446744073709551615 0 0 0
      = .ok { returned := true, self := create 8 1 2, pool := freshPool [], ref := 0,
              cap := 0 }
    ∧ (create 8 1 2).capacity = 0
    ∧ (1 + 18446744073709551615 / (create 8 1 2)._elementsPerBlock)
        * (create 8 1 2)._elementsPerBlock = 18446744073709551616 := by
  refine ⟨by decide, rfl, rfl, rfl⟩

/-- C6 (amended): a call `try_ensure_capacity(n)` that finds `capacity() < n` and returns
true leaves `capacity()` equal to the `size_t` value of
`(1 + n / _elementsPerBlock) * _elementsPerBlock`, sum and product each taken modulo
2^64; this is `(1 + n / _elementsPerBlock) * _elementsPerBlock` whenever that number is
below 2^64.  In particular, on a new array with 65536 elements per block and growth 64,
over any pool, a `try_ensure_capacity(1)` that returns true leaves capacity 65536 and a
following `try_ensure_capacity(65537)` that returns true leaves capacity 131072; and over
a fresh pool with unbounded supply (4-byte elements) both calls do return true. -/
theorem try_ensure_capacity_grown_capacity :
    (∀ (a : ExpandableArrayImpl) (pool : MemoryPool) (n timeout : Nat) (ref : Ptr) (cap : Nat)
        (r : EnsureCapacityResult),
        a.capacity < n → a.try_ensure_capacity pool n timeout ref cap = .ok r →
        r.returned = true →
        r.self.capacity
            = wrap_size_t (wrap_size_t (1 + n / a._elementsPerBlock) * a._elementsPerBlock)
          ∧ ((1 + n / a._elementsPerBlock) * a._elementsPerBlock < SIZE_T_RANGE →
              r.self.capacity = (1 + n / a._elementsPerBlock) * a._elementsPerBlock))
    ∧ (∀ (sizeofT : Nat) (pool : MemoryPool) (timeout : Nat) (ref : Ptr) (cap : Nat)
        (r1 r2 : EnsureCapacityResult),
        (create sizeofT 65536 64).try_ensure_capacity pool 1 timeout ref cap = .ok r1 →
        r1.returned = true →
        r1.self.try_ensure_capacity r1.pool 65537 timeout r1.ref r1.cap = .ok r2 →
        r2.returned = true →
        r1.self.capacity = 65536 ∧ r2.self.capacity = 131072)
    ∧ (∃ r1 r2 : EnsureCapacityResult,
        (create 4 65536 64).try_ensure_capacity (freshPool []) 1 0 0 0 = .ok r1
        ∧ r1.returned = true ∧ r1.self.capacity = 65536
        ∧ r1.self.try_ensure_capacity r1.pool 65537 0 r1.ref r1.cap = .ok r2
        ∧ r2.returned = true ∧ r2.self.capacity = 131072) := by
  have general : ∀ (a : ExpandableArrayImpl) (pool : MemoryPool) (n timeout : Nat) (ref : Ptr)
      (cap : Nat) (r : EnsureCapacityResult),
      a.capacity < n → a.try_ensure_capacity pool n timeout ref cap = .ok r →
      r.self.capacity
          = wrap_size_t (wrap_size_t (1 + n / a._elementsPerBlock) * a._elementsPerBlock)
        ∧ r.self._elementsPerBlock = a._elementsPerBlock
        ∧ ((1 + n / a._elementsPerBlock) * a._elementsPerBlock < SIZE_T_RANGE →
            r.self.capacity = (1 + n / a._elementsPerBlock) * a._elementsPerBlock) := by
    intro a pool n timeout ref cap r hlt h
    rcases try_ensure_capacity_cases h with ⟨hn, -⟩ | ⟨-, hE, -, -, hcount, hepb, -, -, -⟩
    · exact absurd hlt (Nat.not_lt.mpr hn)
    · have e : r.self.capacity
          = wrap_size_t (wrap_size_t (1 + n / a._elementsPerBlock) * a._elementsPerBlock) := by
        unfold capacity
        rw [hcount, hepb]
        rfl
      refine ⟨e, hepb, ?_⟩
      intro hfit
      rw [e]
      have hreq := requestedListCapacity_of_fit a n hE hfit
      unfold requestedListCapacity at hreq
      rw [hreq, wrap_size_t_of_lt hfit]
  refine ⟨fun a pool n timeout ref cap r hlt h _ =>
      ⟨(general a pool n timeout ref cap r hlt h).1, (general a pool n timeout ref cap r hlt h).2.2⟩,
    ?_, ?_⟩
  · intro sizeofT pool timeout ref cap r1 r2 h1 _ h2 _
    have hc0 : (create sizeofT 65536 64).capacity < 1 := by
      show wrap_size_t (0 * 65536) < 1
      decide
    have g1 := general _ pool 1 timeout ref cap r1 hc0 h1
    have hE : (create sizeofT 65536 64)._elementsPerBlock = 65536 := rfl
    rw [hE] at g1
    have e1 : r1.self.capacity = 65536 := g1.2.2 (by decide)
    have g2 := general _ r1.pool 65537 timeout r1.ref r1.cap r2 (by rw [e1]; decide) h2
    have e2 : r1.self._elementsPerBlock = 65536 := g1.2.1
    rw [e2] at g2
    exact ⟨e1, g2.2.2 (by decide)⟩
  · exact ⟨wideArrayGrown, wideArrayRegrown, rfl, rfl, rfl, rfl, rfl, rfl⟩

/-- Instance of C6: growing the new `smallArray` (4 elements per block) to 5 elements
leaves capacity `(1 + 5 / 4) * 4 = 8`. -/
theorem try_ensure_capacity_grown_capacity_witness :
    smallArrayGrown.self.capacity = (1 + 5 / 4) * 4 :=
  (try_ensure_capacity_grown_capacity.1 smallArray (freshPool []) 5 0 0 0 smallArrayGrown
    (by decide) rfl rfl).2 (by decide)

end ExpandableArrayImpl

/-- C7: a request for capacity 0 returns true and changes nothing, in every state: on
the block array (array fields, pool with its garbage list, `*ref` and `*cap` are
returned as they were), on the bit vector and on the key array (object and pool
unchanged). -/
theorem try_ensure_capacity_zero_is_noop :
    (∀ (a : ExpandableArrayImpl) (pool : MemoryPool) (timeout : Nat) (ref : Ptr) (cap : Nat),
        a.try_ensure_capacity pool 0 timeout ref cap
          = .ok { returned := true, self := a, pool := pool, ref := ref, cap := cap })
    ∧ (∀ (b : BitVector) (pool : MemoryPool) (timeout : Nat),
        b.TryEnsureCapacity pool 0 timeout = .ok (true, b, pool))
    ∧ (∀ (k : ExpandableArrayOfKeys) (pool : MemoryPool) (timeout : Nat),
        k.TryEnsureCapacity pool 0 timeout = .ok (true, k, pool)) := by
  refine ⟨?_, ?_, ?_⟩
  · intro a pool timeout ref cap
    unfold ExpandableArrayImpl.try_ensure_capacity
    simp
  · intro b pool timeout
    unfold BitVector.TryEnsureCapacity
    simp
  · intro k pool timeout
    unfold ExpandableArrayOfKeys.TryEnsureCapacity
    simp

end Pql.UnmanagedLib

namespace Pql.UnmanagedLib

namespace ExpandableArrayImpl

/-- C2 (the code departs from it): `try_ensure_capacity` never returns false, whatever the
allocations did.  On a new `smallArray` whose spine allocation succeeds and whose block
allocation fails, `try_ensure_capacity(1)` returns true and publishes capacity 4 in
`*cap` although spine entry 0 is `nullptr`; when the spine allocation fails the call
writes through `nullptr` instead of returning false. -/
theorem try_ensure_capacity_allocation_failure_unreported :
    (∀ (a : ExpandableArrayImpl) (pool : MemoryPool) (n timeout : Nat) (ref : Ptr) (cap : Nat)
        (r : EnsureCapacityResult),
        a.try_ensure_capacity pool n timeout ref cap = .ok r → r.returned = true)
    ∧ smallArray.try_ensure_capacity (freshPool [true, false]) 1 0 0 0
        = .ok smallArrayBlockFailure
    ∧ smallArrayBlockFailure.returned = true
    ∧ smallArrayBlockFailure.cap = 4
    ∧ smallArrayBlockFailure.self._blockCount = 1
    ∧ smallArrayBlockFailure.pool.load smallArrayBlockFailure.self._blockList sizeof_ptr 0 = .ok 0
    ∧ smallArray.try_ensure_capacity (freshPool [false]) 1 0 0 0 = .error .undefinedBehaviour := by
  refine ⟨?_, rfl, rfl, rfl, rfl, rfl, rfl⟩
  intro a pool n timeout ref cap r h
  rcases try_ensure_capacity_cases h with ⟨-, hr⟩ | ⟨-, -, -, ht, -⟩
  · rw [hr]
  · exact ht

/-- C3 (the code departs from it): after the call `try_ensure_capacity(1)` of
`smallArrayBlockFailure`, which returned true with block count 1, the spine entry of
block 0 is `nullptr`: `reference(0)` is the null element address, and `get(0)` and
`set(0, 7)` dereference `nullptr`. -/
theorem try_ensure_capacity_true_with_null_block :
    smallArrayBlockFailure.returned = true
    ∧ 1 ≤ smallArrayBlockFailure.self.capacity
    ∧ (0 : Nat) < smallArrayBlockFailure.self._blockCount
    ∧ smallArrayBlockFailure.self.reference smallArrayBlockFailure.pool 0
        = .ok { block := 0, index := 0 }
    ∧ smallArrayBlockFailure.self.get smallArrayBlockFailure.pool 0 = .error .undefinedBehaviour
    ∧ smallArrayBlockFailure.self.set smallArrayBlockFailure.pool 0 7
        = .error .undefinedBehaviour := by
  refine ⟨rfl, by decide, by decide, rfl, rfl, rfl⟩

end ExpandableArrayImpl

end Pql.UnmanagedLib

namespace Pql.UnmanagedLib

namespace MemoryPool

/-- A read depends on the allocation at the address read only. -/
theorem load_congr {p p1 : MemoryPool} {q : Ptr} (h : p1.mem q = p.mem q) (s i : Nat) :
    p1.load q s i = p.load q s i := by
  unfold load
  rw [h]

/-- What `malloc` followed by the conditional `memset` leaves: nothing new on failure, a
zeroed allocation at the fresh address `next + 1` on success. -/
theorem zero_allocate_spec (p : MemoryPool) (s n : Nat) :
    (p.zero_allocate s n).2._garbage = p._garbage
    ∧ (p.zero_allocate s n).2.freed = p.freed
    ∧ (((p.zero_allocate s n).1 = 0 ∧ (p.zero_allocate s n).2.next = p.next
          ∧ ∀ q, (p.zero_allocate s n).2.mem q = p.mem q)
        ∨ ((p.zero_allocate s n).1 = p.next + 1 ∧ (p.zero_allocate s n).2.next = p.next + 1
          ∧ (∀ q, q ≠ p.next + 1 → (p.zero_allocate s n).2.mem q = p.mem q)
          ∧ ∃ al, (p.zero_allocate s n).2.mem (p.next + 1) = some al ∧ al.bytes = n * s
              ∧ ∀ j, al.cells j = 0)) := by
  unfold zero_allocate malloc
  rcases hout : p.outcomes with _ | ⟨b, rest⟩
  · simp [memset_zero]
    intro q hq
    simp [hq]
  · cases b
    · simp
    · simp [memset_zero]
      intro q hq
      simp [hq]

/-- An allocation leaves every address other than the fresh one as it was. -/
theorem zero_allocate_mem_other (p : MemoryPool) (s n : Nat) (q : Ptr) (hq : q ≠ p.next + 1) :
    (p.zero_allocate s n).2.mem q = p.mem q := by
  rcases (zero_allocate_spec p s n).2.2 with ⟨-, -, h⟩ | ⟨-, -, h, -⟩
  · exact h q
  · exact h q hq

/-- An allocation moves `next` up by at most one. -/
theorem zero_allocate_next (p : MemoryPool) (s n : Nat) :
    p.next ≤ (p.zero_allocate s n).2.next ∧ (p.zero_allocate s n).2.next ≤ p.next + 1
      ∧ (p.zero_allocate s n).1 ≤ (p.zero_allocate s n).2.next := by
  rcases (zero_allocate_spec p s n).2.2 with ⟨h1, h2, -⟩ | ⟨h1, h2, -, -⟩
  · rw [h1, h2]
    exact ⟨Nat.le_refl _, Nat.le_succ _, Nat.zero_le _⟩
  · rw [h1, h2]
    exact ⟨Nat.le_succ _, Nat.le_refl _, Nat.le_refl _⟩

/-- An allocation keeps the allocator invariant. -/
theorem zero_allocate_fresh (p : MemoryPool) (s n : Nat) (hf : p.Fresh) :
    (p.zero_allocate s n).2.Fresh := by
  intro q hq
  rcases (zero_allocate_spec p s n).2.2 with ⟨-, h2, h3⟩ | ⟨-, h2, h3, -⟩
  · rw [h2] at hq
    rw [h3 q]
    exact hf q hq
  · rw [h2] at hq
    rw [h3 q (Nat.ne_of_gt hq)]
    exact hf q (Nat.lt_of_succ_lt hq)

/-- What a write that returns did. -/
theorem store_spec {p p1 : MemoryPool} {ptr : Ptr} {s ix v : Nat}
    (h : p.store ptr s ix v = .ok p1) :
    ptr ≠ 0 ∧ p1._garbage = p._garbage ∧ p1.freed = p.freed ∧ p1.next = p.next
    ∧ p1.outcomes = p.outcomes
    ∧ (∀ q, q ≠ ptr → p1.mem q = p.mem q)
    ∧ ∃ al, p.mem ptr = some al ∧ (ix + 1) * s ≤ al.bytes
        ∧ p1.mem ptr = some { al with cells := fun j => if j = ix then v else al.cells j } := by
  unfold store at h
  split at h
  · cases h
  · rename_i hp
    split at h
    · cases h
    · rename_i al hal
      split at h
      · rename_i hb
        have := (Except.ok.inj h).symm
        subst this
        refine ⟨hp, rfl, rfl, rfl, rfl, ?_, al, hal, hb, ?_⟩
        · intro q hq
          simp [hq]
        · simp
      · cases h

/-- A read of the cell just written gives the value written. -/
theorem load_store_same {p p1 : MemoryPool} {ptr : Ptr} {s ix v : Nat}
    (h : p.store ptr s ix v = .ok p1) : p1.load ptr s ix = .ok v := by
  obtain ⟨hp, -, -, -, -, -, al, -, hb, hm⟩ := store_spec h
  unfold load
  rw [if_neg hp, hm]
  simp [hb]

/-- A write leaves the other cells of the allocation as they were. -/
theorem load_store_other_index {p p1 : MemoryPool} {ptr : Ptr} {s ix v : Nat}
    (h : p.store ptr s ix v = .ok p1) (s1 i : Nat) (hi : i ≠ ix) :
    p1.load ptr s1 i = p.load ptr s1 i := by
  obtain ⟨hp, -, -, -, -, -, al, hal, -, hm⟩ := store_spec h
  simp only [load, if_neg hp, hm, hal]
  simp [hi]

/-- A write leaves the other allocations as they were. -/
theorem load_store_other_ptr {p p1 : MemoryPool} {ptr : Ptr} {s ix v : Nat}
    (h : p.store ptr s ix v = .ok p1) (q : Ptr) (s1 i : Nat) (hq : q ≠ ptr) :
    p1.load q s1 i = p.load q s1 i :=
  load_congr ((store_spec h).2.2.2.2.2.1 q hq) s1 i

/-- A read that returns reads a live allocation. -/
theorem load_ok_live {p : MemoryPool} {ptr : Ptr} {s i v : Nat} (h : p.load ptr s i = .ok v) :
    ptr ≠ 0 ∧ ∃ al, p.mem ptr = some al ∧ (i + 1) * s ≤ al.bytes ∧ al.cells i = v := by
  unfold load at h
  split at h
  · cases h
  · rename_i hp
    split at h
    · cases h
    · rename_i al hal
      split at h
      · rename_i hb
        exact ⟨hp, al, hal, hb, Except.ok.inj h⟩
      · cases h

/-- Under the allocator invariant a live allocation lies at or below `next`. -/
theorem Fresh.le_next {p : MemoryPool} (hf : p.Fresh) {q : Ptr} {al : Allocation}
    (h : p.mem q = some al) : q ≤ p.next := by
  by_contra hlt
  have := hf q (Nat.lt_of_not_le hlt)
  rw [this] at h
  cases h

end MemoryPool

end Pql.UnmanagedLib

namespace Pql.UnmanagedLib

namespace ExpandableArrayImpl

/-- The copy loop touches only the new spine. -/
theorem copy_block_list_frame (oldList newList : Ptr) :
    ∀ (count ix : Nat) (p p1 : MemoryPool),
      copy_block_list oldList newList count ix p = .ok p1 →
      p1._garbage = p._garbage ∧ p1.freed = p.freed ∧ p1.next = p.next
      ∧ ∀ q, q ≠ newList → p1.mem q = p.mem q := by
  intro count
  induction count with
  | zero =>
    intro ix p p1 h
    have := (Except.ok.inj h).symm
    subst this
    exact ⟨rfl, rfl, rfl, fun _ _ => rfl⟩
  | succ k ih =>
    intro ix p p1 h
    unfold copy_block_list at h
    split at h
    · cases h
    · rename_i blk hload
      split at h
      · cases h
      · rename_i ps hstore
        obtain ⟨-, g1, g2, g3, -, g5, -⟩ := MemoryPool.store_spec hstore
        obtain ⟨i1, i2, i3, i4⟩ := ih (ix + 1) ps p1 h
        refine ⟨i1.trans g1, i2.trans g2, i3.trans g3, fun q hq => ?_⟩
        rw [i4 q hq, g5 q hq]

/-- The copy loop makes entries `ix .. ix + count - 1` of the new spine equal to those of
the old one and keeps the entries of the new spine below `ix`. -/
theorem copy_block_list_copies (oldList newList : Ptr) (hne : oldList ≠ newList) :
    ∀ (count ix : Nat) (p p1 : MemoryPool),
      copy_block_list oldList newList count ix p = .ok p1 →
      (∀ j, ix ≤ j → j < ix + count →
        p1.load newList sizeof_ptr j = p.load oldList sizeof_ptr j)
      ∧ ∀ j, j < ix → p1.load newList sizeof_ptr j = p.load newList sizeof_ptr j := by
  intro count
  induction count with
  | zero =>
    intro ix p p1 h
    have := (Except.ok.inj h).symm
    subst this
    exact ⟨fun j h1 h2 => absurd h2 (by omega), fun _ _ => rfl⟩
  | succ k ih =>
    intro ix p p1 h
    unfold copy_block_list at h
    split at h
    · cases h
    · rename_i blk hload
      split at h
      · cases h
      · rename_i ps hstore
        obtain ⟨i1, i2⟩ := ih (ix + 1) ps p1 h
        constructor
        · intro j h1 h2
          by_cases hj : j = ix
          · subst hj
            rw [i2 j (Nat.lt_succ_self j), MemoryPool.load_store_same hstore, hload]
          · rw [i1 j (by omega) (by omega)]
            exact MemoryPool.load_store_other_ptr hstore oldList _ j hne
        · intro j hj
          rw [i2 j (by omega)]
          exact MemoryPool.load_store_other_index hstore _ j (by omega)

/-- The loop that allocates the missing blocks changes neither the garbage list nor the
log of freed addresses, touches no allocation made before it other than the spine, and
keeps the spine entries below the index it starts at. -/
theorem allocate_missing_blocks_frame (s E : Nat) (blockList : Ptr) :
    ∀ (count ix : Nat) (p p1 : MemoryPool),
      allocate_missing_blocks s E blockList count ix p = .ok p1 → blockList ≤ p.next →
      p1._garbage = p._garbage ∧ p1.freed = p.freed ∧ p.next ≤ p1.next
      ∧ (p.Fresh → p1.Fresh)
      ∧ (∀ q, q ≤ p.next → q ≠ blockList → p1.mem q = p.mem q)
      ∧ ∀ j s1, j < ix → p1.load blockList s1 j = p.load blockList s1 j := by
  intro count
  induction count with
  | zero =>
    intro ix p p1 h _
    have := (Except.ok.inj h).symm
    subst this
    exact ⟨rfl, rfl, Nat.le_refl _, fun hf => hf, fun _ _ _ => rfl, fun _ _ _ => rfl⟩
  | succ k ih =>
    intro ix p p1 h hL
    unfold allocate_missing_blocks at h
    simp only at h
    split at h
    · cases h
    · rename_i ps hstore
      obtain ⟨-, g1, g2, g3, -, g5, -⟩ := MemoryPool.store_spec hstore
      obtain ⟨z1, z2, -⟩ := MemoryPool.zero_allocate_spec p s E
      obtain ⟨n1, n2, -⟩ := MemoryPool.zero_allocate_next p s E
      have hLs : blockList ≤ ps.next := by rw [g3]; exact Nat.le_trans hL n1
      obtain ⟨i1, i2, i3, i4, i5, i6⟩ := ih (ix + 1) ps p1 h hLs
      refine ⟨(i1.trans g1).trans z1, (i2.trans g2).trans z2, ?_, ?_, ?_, ?_⟩
      · rw [g3] at i3
        exact Nat.le_trans n1 i3
      · intro hf
        apply i4
        intro q hq
        rw [g3] at hq
        have hfa := MemoryPool.zero_allocate_fresh p s E hf q hq
        by_cases hqL : q = blockList
        · subst hqL
          exact absurd hLs (by rw [g3]; exact Nat.not_le.mpr hq)
        · rw [g5 q hqL]
          exact hfa
      · intro q hq hqL
        rw [i5 q (by rw [g3]; exact Nat.le_trans hq n1) hqL, g5 q hqL]
        exact MemoryPool.zero_allocate_mem_other p s E q (Nat.ne_of_lt (Nat.lt_succ_of_le hq))
      · intro j s1 hj
        rw [i6 j s1 (by omega), MemoryPool.load_store_other_index hstore s1 j (by omega)]
        exact MemoryPool.load_congr
          (MemoryPool.zero_allocate_mem_other p s E blockList
            (Nat.ne_of_lt (Nat.lt_succ_of_le hL))) s1 j

end ExpandableArrayImpl

end Pql.UnmanagedLib

namespace Pql.UnmanagedLib

namespace ExpandableArrayImpl

/-- The two ways through the growth path of a call that returns: with the spine replaced
(copy loop, scheduling of the old spine, block loop on the new spine) or kept (block
loop on the current spine). -/
theorem try_ensure_capacity_growth_path {a : ExpandableArrayImpl} {pool : MemoryPool}
    {n timeout : Nat} {ref : Ptr} {cap : Nat} {r : EnsureCapacityResult}
    (h : a.try_ensure_capacity pool n timeout ref cap = .ok r) (hlt : a.capacity < n) :
    (a._blockCapacity < a.newListCapacity n
      ∧ ∃ p1 p2,
        copy_block_list a._blockList
            (pool.zero_allocate a.sizeof_value_type (a.newListCapacity n)).1 a._blockCapacity 0
            (pool.zero_allocate a.sizeof_value_type (a.newListCapacity n)).2 = .ok p1
        ∧ allocate_missing_blocks a.sizeof_value_type a._elementsPerBlock
            (pool.zero_allocate a.sizeof_value_type (a.newListCapacity n)).1
            (a.requestedListCapacity n - a._blockCount) a._blockCount
            (if a._blockList ≠ 0 then p1.schedule_for_collection a._blockList else p1) = .ok p2
        ∧ r.pool = p2
        ∧ r.self._blockList = (pool.zero_allocate a.sizeof_value_type (a.newListCapacity n)).1
        ∧ r.self._blockCapacity = a.newListCapacity n
        ∧ r.ref = r.self._blockList)
    ∨ (¬ a._blockCapacity < a.newListCapacity n
      ∧ ∃ p2,
        allocate_missing_blocks a.sizeof_value_type a._elementsPerBlock a._blockList
            (a.requestedListCapacity n - a._blockCount) a._blockCount pool = .ok p2
        ∧ r.pool = p2 ∧ r.self._blockList = a._blockList
        ∧ r.self._blockCapacity = a._blockCapacity ∧ r.ref = ref) := by
  unfold try_ensure_capacity at h
  have hc : ¬ n ≤ a.capacity := Nat.not_le.mpr hlt
  simp only [ge_iff_le, hc, if_false] at h
  split at h
  · cases h
  · by_cases hrep : a._blockCapacity < a.newListCapacity n
    · left
      refine ⟨hrep, ?_⟩
      simp only [hrep, if_true] at h
      split at h
      · cases h
      · rename_i a1 p1 ref1 hstep
        split at h
        · cases h
        · rename_i p2 hfill
          have hr := (Except.ok.inj h).symm
          subst hr
          unfold replace_block_list at hstep
          simp only at hstep
          split at hstep
          · cases hstep
          · rename_i pc hcopy
            simp only [Except.ok.injEq, Prod.mk.injEq] at hstep
            obtain ⟨h1, h2, h3⟩ := hstep
            subst h1 h2 h3
            exact ⟨pc, p2, hcopy, hfill, rfl, rfl, rfl, rfl⟩
    · right
      refine ⟨hrep, ?_⟩
      simp only [hrep, if_false] at h
      split at h
      · cases h
      · rename_i p2 hfill
        have hr := (Except.ok.inj h).symm
        subst hr
        exact ⟨p2, hfill, rfl, rfl, rfl, rfl⟩

end ExpandableArrayImpl

end Pql.UnmanagedLib

namespace Pql.UnmanagedLib

namespace ExpandableArrayImpl

/-- Scheduling an address for collection changes no allocation. -/
theorem load_schedule_ite (p : MemoryPool) (c : Prop) [Decidable c] (g q : Ptr) (s i : Nat) :
    (if c then p.schedule_for_collection g else p).load q s i = p.load q s i := by
  split <;> rfl

/-- Every readable spine entry below the old block count is the same after a call that
returns, whether or not the spine was replaced. -/
theorem try_ensure_capacity_spine_entry {a : ExpandableArrayImpl} {pool : MemoryPool}
    {n timeout : Nat} {ref : Ptr} {cap : Nat} {r : EnsureCapacityResult}
    (hfresh : pool.Fresh) (hcount : a._blockCount ≤ a._blockCapacity)
    (h : a.try_ensure_capacity pool n timeout ref cap = .ok r)
    {b : Nat} (hb : b < a._blockCount) {blk : Ptr}
    (hblk : pool.load a._blockList sizeof_ptr b = .ok blk) :
    r.pool.load r.self._blockList sizeof_ptr b = .ok blk := by
  obtain ⟨hold0, al, hal, -, -⟩ := MemoryPool.load_ok_live hblk
  have holdle : a._blockList ≤ pool.next := hfresh.le_next hal
  rcases try_ensure_capacity_cases h with ⟨-, hr⟩ | ⟨hlt, -⟩
  · subst hr
    exact hblk
  · rcases try_ensure_capacity_growth_path h hlt with
      ⟨-, p1, p2, hcopy, hfill, hp, hl, -, -⟩ | ⟨-, p2, hfill, hp, hl, -, -⟩
    · rw [hp, hl]
      have hnew := (MemoryPool.zero_allocate_next pool a.sizeof_value_type (a.newListCapacity n)).2.2
      have hne : a._blockList ≠
          (pool.zero_allocate a.sizeof_value_type (a.newListCapacity n)).1 := by
        rcases (MemoryPool.zero_allocate_spec pool a.sizeof_value_type
          (a.newListCapacity n)).2.2 with ⟨e, -, -⟩ | ⟨e, -, -, -⟩
        · rw [e]
          exact hold0
        · rw [e]
          exact Nat.ne_of_lt (Nat.lt_succ_of_le holdle)
      have hcf := copy_block_list_frame _ _ _ _ _ _ hcopy
      have hcc := (copy_block_list_copies _ _ hne _ _ _ _ hcopy).1 b (Nat.zero_le _)
        (by rw [Nat.zero_add]; exact Nat.lt_of_lt_of_le hb hcount)
      have hLle : (pool.zero_allocate a.sizeof_value_type (a.newListCapacity n)).1
          ≤ (if a._blockList ≠ 0 then p1.schedule_for_collection a._blockList else p1).next := by
        have : (if a._blockList ≠ 0 then p1.schedule_for_collection a._blockList else p1).next
            = p1.next := by split <;> rfl
        rw [this, hcf.2.2.1]
        exact hnew
      have hff := (allocate_missing_blocks_frame _ _ _ _ _ _ _ hfill hLle).2.2.2.2.2
        b sizeof_ptr hb
      rw [hff, load_schedule_ite, hcc]
      rw [MemoryPool.load_congr (MemoryPool.zero_allocate_mem_other pool _ _ a._blockList
        (Nat.ne_of_lt (Nat.lt_succ_of_le holdle)))]
      exact hblk
    · rw [hp, hl]
      have hff := (allocate_missing_blocks_frame _ _ _ _ _ _ _ hfill holdle).2.2.2.2.2
        b sizeof_ptr hb
      rw [hff]
      exact hblk

/-- C4: growth never changes a published block pointer.  For every call of
`try_ensure_capacity` that returns, on an array with block count at most the spine
capacity over a pool that satisfies the allocator invariant, every readable spine entry
at a block index below the old block count is the same after the call (also when the
spine was replaced), so `reference(i)` gives the same address for every `i` below the
old capacity. -/
theorem try_ensure_capacity_keeps_block_pointers (a : ExpandableArrayImpl) (pool : MemoryPool)
    (n timeout : Nat) (ref : Ptr) (cap : Nat) (r : EnsureCapacityResult)
    (hfresh : pool.Fresh) (hcount : a._blockCount ≤ a._blockCapacity)
    (h : a.try_ensure_capacity pool n timeout ref cap = .ok r) :
    (∀ b blk, b < a._blockCount → pool.load a._blockList sizeof_ptr b = .ok blk →
        r.pool.load r.self._blockList sizeof_ptr b = .ok blk)
    ∧ ∀ i e, i < a.capacity → a.reference pool i = .ok e → r.self.reference r.pool i = .ok e := by
  refine ⟨fun b blk hb hblk => try_ensure_capacity_spine_entry hfresh hcount h hb hblk, ?_⟩
  intro i e hi he
  have hE : r.self._elementsPerBlock = a._elementsPerBlock := by
    rcases try_ensure_capacity_cases h with ⟨-, hr⟩ | ⟨-, -, -, -, -, hepb, -⟩
    · rw [hr]
    · exact hepb
  unfold reference at he ⊢
  rw [hE]
  split at he
  · cases he
  · rename_i hE0
    rw [if_neg hE0]
    split at he
    · cases he
    · rename_i blk hblk
      have hb : i / a._elementsPerBlock < a._blockCount := div_lt_of_lt_capacity hi
      rw [try_ensure_capacity_spine_entry hfresh hcount h hb hblk]
      exact he

end ExpandableArrayImpl

end Pql.UnmanagedLib

namespace Pql.UnmanagedLib

namespace MemoryPool

/-- A new pool satisfies the allocator invariant. -/
theorem create_fresh (maxBytes : Nat) (outcomes : List Bool) (junk : Nat → Nat) :
    (create maxBytes outcomes junk).Fresh :=
  fun _ _ => rfl

/-- A write keeps the allocator invariant. -/
theorem store_fresh {p p1 : MemoryPool} {ptr : Ptr} {s ix v : Nat} (hf : p.Fresh)
    (h : p.store ptr s ix v = .ok p1) : p1.Fresh := by
  obtain ⟨-, -, -, g3, -, g5, al, hal, -, -⟩ := store_spec h
  intro q hq
  rw [g3] at hq
  have hne : q ≠ ptr := by
    intro e
    subst e
    exact absurd (hf.le_next hal) (Nat.not_le.mpr hq)
  rw [g5 q hne]
  exact hf q hq

end MemoryPool

namespace ExpandableArrayImpl

/-- The copy loop keeps the allocator invariant. -/
theorem copy_block_list_fresh (oldList newList : Ptr) :
    ∀ (count ix : Nat) (p p1 : MemoryPool),
      copy_block_list oldList newList count ix p = .ok p1 → p.Fresh → p1.Fresh := by
  intro count
  induction count with
  | zero =>
    intro ix p p1 h hf
    have := (Except.ok.inj h).symm
    subst this
    exact hf
  | succ k ih =>
    intro ix p p1 h hf
    unfold copy_block_list at h
    split at h
    · cases h
    · split at h
      · cases h
      · rename_i ps hstore
        exact ih (ix + 1) ps p1 h (MemoryPool.store_fresh hf hstore)

/-- A call that returns keeps the allocator invariant, and keeps the spine pointer among
the addresses handed out. -/
theorem try_ensure_capacity_fresh {a : ExpandableArrayImpl} {pool : MemoryPool}
    {n timeout : Nat} {ref : Ptr} {cap : Nat} {r : EnsureCapacityResult}
    (hfresh : pool.Fresh) (hle : a._blockList ≤ pool.next)
    (h : a.try_ensure_capacity pool n timeout ref cap = .ok r) :
    r.pool.Fresh ∧ r.self._blockList ≤ r.pool.next ∧ pool.next ≤ r.pool.next := by
  rcases try_ensure_capacity_cases h with ⟨-, hr⟩ | ⟨hlt, -⟩
  · subst hr
    exact ⟨hfresh, hle, Nat.le_refl _⟩
  · rcases try_ensure_capacity_growth_path h hlt with
      ⟨-, p1, p2, hcopy, hfill, hp, hl, -, -⟩ | ⟨-, p2, hfill, hp, hl, -, -⟩
    · rw [hp, hl]
      have hz := MemoryPool.zero_allocate_next pool a.sizeof_value_type (a.newListCapacity n)
      have hzf := MemoryPool.zero_allocate_fresh pool a.sizeof_value_type
        (a.newListCapacity n) hfresh
      have hcf := copy_block_list_frame _ _ _ _ _ _ hcopy
      have hcfr := copy_block_list_fresh _ _ _ _ _ _ hcopy hzf
      have hnext : (if a._blockList ≠ 0 then p1.schedule_for_collection a._blockList
          else p1).next = p1.next := by split <;> rfl
      have hsf : (if a._blockList ≠ 0 then p1.schedule_for_collection a._blockList
          else p1).Fresh := by
        split
        · exact hcfr
        · exact hcfr
      have hLle : (pool.zero_allocate a.sizeof_value_type (a.newListCapacity n)).1
          ≤ (if a._blockList ≠ 0 then p1.schedule_for_collection a._blockList else p1).next := by
        rw [hnext, hcf.2.2.1]
        exact hz.2.2
      obtain ⟨-, -, f3, f4, -, -⟩ := allocate_missing_blocks_frame _ _ _ _ _ _ _ hfill hLle
      refine ⟨f4 hsf, Nat.le_trans hLle f3, ?_⟩
      rw [hnext, hcf.2.2.1] at f3
      exact Nat.le_trans hz.1 f3
    · rw [hp, hl]
      obtain ⟨-, -, f3, f4, -, -⟩ := allocate_missing_blocks_frame _ _ _ _ _ _ _ hfill hle
      exact ⟨f4 hfresh, Nat.le_trans hle f3, f3⟩

/-- Instance of C4: the second growth of `smallArray` replaces the spine (address 1 by
address 4) and the entries of blocks 0 and 1 are the same in the new spine. -/
theorem try_ensure_capacity_keeps_block_pointers_witness :
    (∀ b blk, b < 2 → smallArrayGrown.pool.load 1 sizeof_ptr b = .ok blk →
        smallArrayRegrown.pool.load 4 sizeof_ptr b = .ok blk)
    ∧ ∀ i e, i < 8 → smallArrayGrown.self.reference smallArrayGrown.pool i = .ok e →
        smallArrayRegrown.self.reference smallArrayRegrown.pool i = .ok e :=
  try_ensure_capacity_keeps_block_pointers smallArrayGrown.self smallArrayGrown.pool 9 0
    smallArrayGrown.ref smallArrayGrown.cap smallArrayRegrown
    (try_ensure_capacity_fresh (MemoryPool.create_fresh 0 [] _) (Nat.le_refl 0)
      (rfl : smallArray.try_ensure_capacity (freshPool []) 5 0 0 0 = .ok smallArrayGrown)).1
    (by decide) rfl

end ExpandableArrayImpl

end Pql.UnmanagedLib

namespace Pql.UnmanagedLib

namespace ExpandableArrayImpl

/-- The loop that allocates the missing blocks changes neither the garbage list nor the
log of freed addresses. -/
theorem allocate_missing_blocks_queue (s E : Nat) (blockList : Ptr) :
    ∀ (count ix : Nat) (p p1 : MemoryPool),
      allocate_missing_blocks s E blockList count ix p = .ok p1 →
      p1._garbage = p._garbage ∧ p1.freed = p.freed := by
  intro count
  induction count with
  | zero =>
    intro ix p p1 h
    have := (Except.ok.inj h).symm
    subst this
    exact ⟨rfl, rfl⟩
  | succ k ih =>
    intro ix p p1 h
    unfold allocate_missing_blocks at h
    simp only at h
    split at h
    · cases h
    · rename_i ps hstore
      obtain ⟨-, g1, g2, -⟩ := MemoryPool.store_spec hstore
      obtain ⟨z1, z2, -⟩ := MemoryPool.zero_allocate_spec p s E
      obtain ⟨i1, i2⟩ := ih (ix + 1) ps p1 h
      exact ⟨(i1.trans g1).trans z1, (i2.trans g2).trans z2⟩

/-- C8: a call of `try_ensure_capacity` that returns passes nothing to `free`; it
replaces the spine only on the growth path with `_blockCapacity < newListCapacity`; when
it does so and the old spine pointer is not `nullptr`, that pointer is appended once to
the garbage list, and the old spine stays allocated as it was; in every other case, in
particular when there was no previous spine, the garbage list is unchanged. -/
theorem try_ensure_capacity_schedules_old_spine (a : ExpandableArrayImpl) (pool : MemoryPool)
    (n timeout : Nat) (ref : Ptr) (cap : Nat) (r : EnsureCapacityResult)
    (h : a.try_ensure_capacity pool n timeout ref cap = .ok r) :
    r.pool.freed = pool.freed
    ∧ r.pool._garbage =
        (if a.capacity < n ∧ a._blockCapacity < a.newListCapacity n ∧ a._blockList ≠ 0 then
          pool._garbage ++ [a._blockList]
        else pool._garbage)
    ∧ (r.self._blockList ≠ a._blockList →
        a.capacity < n ∧ a._blockCapacity < a.newListCapacity n)
    ∧ (a._blockList = 0 → r.pool._garbage = pool._garbage)
    ∧ (a.capacity < n → a._blockCapacity < a.newListCapacity n → a._blockList ≠ 0 →
        a._blockList ≤ pool.next → r.pool.mem a._blockList = pool.mem a._blockList) := by
  rcases try_ensure_capacity_cases h with ⟨hn, hr⟩ | ⟨hlt, -⟩
  · subst hr
    have hnot : ¬ a.capacity < n := Nat.not_lt.mpr hn
    refine ⟨rfl, ?_, fun hne => absurd rfl hne, fun _ => rfl, fun hc => absurd hc hnot⟩
    rw [if_neg (fun hc => hnot hc.1)]
  · rcases try_ensure_capacity_growth_path h hlt with
      ⟨hrep, p1, p2, hcopy, hfill, hp, hl, -, -⟩ | ⟨hrep, p2, hfill, hp, hl, -, -⟩
    · have hz := MemoryPool.zero_allocate_spec pool a.sizeof_value_type (a.newListCapacity n)
      have hzn := MemoryPool.zero_allocate_next pool a.sizeof_value_type (a.newListCapacity n)
      obtain ⟨c1, c2, c3, c4⟩ := copy_block_list_frame _ _ _ _ _ _ hcopy
      have hnext : (if a._blockList ≠ 0 then p1.schedule_for_collection a._blockList
          else p1).next = p1.next := by split <;> rfl
      have hLle : (pool.zero_allocate a.sizeof_value_type (a.newListCapacity n)).1
          ≤ (if a._blockList ≠ 0 then p1.schedule_for_collection a._blockList else p1).next := by
        rw [hnext, c3]
        exact hzn.2.2
      obtain ⟨f1, f2, -, -, f5, -⟩ := allocate_missing_blocks_frame _ _ _ _ _ _ _ hfill hLle
      rw [hp]
      have hfreed : p2.freed = pool.freed := by
        rw [f2]
        have : (if a._blockList ≠ 0 then p1.schedule_for_collection a._blockList
            else p1).freed = p1.freed := by split <;> rfl
        rw [this, c2, hz.2.1]
      have hgarb : p2._garbage = if a._blockList ≠ 0 then pool._garbage ++ [a._blockList]
          else pool._garbage := by
        rw [f1]
        by_cases h0 : a._blockList ≠ 0
        · rw [if_pos h0, if_pos h0]
          show p1._garbage ++ [a._blockList] = _
          rw [c1, hz.1]
        · rw [if_neg h0, if_neg h0, c1, hz.1]
      refine ⟨hfreed, ?_, fun _ => ⟨hlt, hrep⟩, ?_, ?_⟩
      · rw [hgarb]
        by_cases h0 : a._blockList ≠ 0
        · rw [if_pos h0, if_pos ⟨hlt, hrep, h0⟩]
        · rw [if_neg h0, if_neg (fun hc => h0 hc.2.2)]
      · intro h0
        rw [hgarb, if_neg (not_not.mpr h0)]
      · intro _ _ h0 hle
        have hne1 : a._blockList ≠ pool.next + 1 := Nat.ne_of_lt (Nat.lt_succ_of_le hle)
        have hne : a._blockList ≠
            (pool.zero_allocate a.sizeof_value_type (a.newListCapacity n)).1 := by
          rcases hz.2.2 with ⟨e, -, -⟩ | ⟨e, -, -, -⟩
          · rw [e]
            exact h0
          · rw [e]
            exact hne1
        have hle2 : a._blockList
            ≤ (if a._blockList ≠ 0 then p1.schedule_for_collection a._blockList else p1).next := by
          rw [hnext, c3]
          exact Nat.le_trans hle hzn.1
        rw [f5 a._blockList hle2 hne]
        have : (if a._blockList ≠ 0 then p1.schedule_for_collection a._blockList
            else p1).mem = p1.mem := by split <;> rfl
        rw [this, c4 a._blockList hne]
        exact MemoryPool.zero_allocate_mem_other pool _ _ a._blockList hne1
    · obtain ⟨f1, f2⟩ := allocate_missing_blocks_queue _ _ _ _ _ _ _ hfill
      rw [hp]
      refine ⟨f2, ?_, fun hne => absurd hl hne, fun _ => f1, fun _ hc => absurd hc hrep⟩
      rw [f1, if_neg (fun hc => hrep hc.2.1)]

/-- Instance of C8: the second growth of `smallArray` replaces the spine at address 1,
which is then the only entry of the garbage list and is still allocated. -/
theorem try_ensure_capacity_schedules_old_spine_witness :
    smallArrayRegrown.pool.freed = []
    ∧ smallArrayRegrown.pool._garbage = [1]
    ∧ (smallArrayRegrown.self._blockList ≠ 1 →
        smallArrayGrown.self.capacity < 9
          ∧ smallArrayGrown.self._blockCapacity < smallArrayGrown.self.newListCapacity 9)
    ∧ ((1 : Ptr) = 0 → smallArrayRegrown.pool._garbage = [])
    ∧ (smallArrayGrown.self.capacity < 9 →
        smallArrayGrown.self._blockCapacity < smallArrayGrown.self.newListCapacity 9 →
        (1 : Ptr) ≠ 0 → (1 : Ptr) ≤ smallArrayGrown.pool.next →
        smallArrayRegrown.pool.mem 1 = smallArrayGrown.pool.mem 1) :=
  try_ensure_capacity_schedules_old_spine smallArrayGrown.self smallArrayGrown.pool 9 0
    smallArrayGrown.ref smallArrayGrown.cap smallArrayRegrown rfl

end ExpandableArrayImpl

end Pql.UnmanagedLib

namespace Pql.UnmanagedLib

namespace ExpandableArrayImpl

/-- A call that returns leaves every allocation made before it, other than the spine, as
it was. -/
theorem try_ensure_capacity_mem_frame {a : ExpandableArrayImpl} {pool : MemoryPool}
    {n timeout : Nat} {ref : Ptr} {cap : Nat} {r : EnsureCapacityResult}
    (hle : a._blockList ≤ pool.next)
    (h : a.try_ensure_capacity pool n timeout ref cap = .ok r)
    {q : Ptr} (hq0 : q ≠ 0) (hq : q ≤ pool.next) (hqL : q ≠ a._blockList) :
    r.pool.mem q = pool.mem q := by
  rcases try_ensure_capacity_cases h with ⟨-, hr⟩ | ⟨hlt, -⟩
  · subst hr
    rfl
  · rcases try_ensure_capacity_growth_path h hlt with
      ⟨-, p1, p2, hcopy, hfill, hp, -, -, -⟩ | ⟨-, p2, hfill, hp, -, -, -⟩
    · have hz := MemoryPool.zero_allocate_spec pool a.sizeof_value_type (a.newListCapacity n)
      have hzn := MemoryPool.zero_allocate_next pool a.sizeof_value_type (a.newListCapacity n)
      obtain ⟨-, -, c3, c4⟩ := copy_block_list_frame _ _ _ _ _ _ hcopy
      have hnext : (if a._blockList ≠ 0 then p1.schedule_for_collection a._blockList
          else p1).next = p1.next := by split <;> rfl
      have hLle : (pool.zero_allocate a.sizeof_value_type (a.newListCapacity n)).1
          ≤ (if a._blockList ≠ 0 then p1.schedule_for_collection a._blockList else p1).next := by
        rw [hnext, c3]
        exact hzn.2.2
      obtain ⟨-, -, -, -, f5, -⟩ := allocate_missing_blocks_frame _ _ _ _ _ _ _ hfill hLle
      have hne1 : q ≠ pool.next + 1 := Nat.ne_of_lt (Nat.lt_succ_of_le hq)
      have hne : q ≠ (pool.zero_allocate a.sizeof_value_type (a.newListCapacity n)).1 := by
        rcases hz.2.2 with ⟨e, -, -⟩ | ⟨e, -, -, -⟩
        · rw [e]
          exact hq0
        · rw [e]
          exact hne1
      have hle2 : q
          ≤ (if a._blockList ≠ 0 then p1.schedule_for_collection a._blockList else p1).next := by
        rw [hnext, c3]
        exact Nat.le_trans hq hzn.1
      rw [hp, f5 q hle2 hne]
      have : (if a._blockList ≠ 0 then p1.schedule_for_collection a._blockList
          else p1).mem = p1.mem := by split <;> rfl
      rw [this, c4 q hne]
      exact MemoryPool.zero_allocate_mem_other pool _ _ q hne1
    · obtain ⟨-, -, -, -, f5, -⟩ := allocate_missing_blocks_frame _ _ _ _ _ _ _ hfill hle
      rw [hp]
      exact f5 q hq hqL

/-- C5: element access is a faithful array.  On a block array that satisfies the
data-model invariant, for every `i, j < capacity()` and value `v`: `set(i, v)` completes;
afterwards `get(i)` returns `v` and `get(j)` is what it was for every `j ≠ i`; element
`i` is addressed as offset `i % _elementsPerBlock` of the block held by spine entry
`i / _elementsPerBlock`; and after any later `try_ensure_capacity` that returns `get(i)`
still returns `v`. -/
theorem set_get_faithful (a : ExpandableArrayImpl) (pool : MemoryPool) (hv : a.Valid pool)
    (i j v : Nat) (hi : i < a.capacity) (hj : j < a.capacity) :
    ∃ pool1 blk,
      a.set pool i v = .ok pool1
      ∧ a.get pool1 i = .ok v
      ∧ (j ≠ i → a.get pool1 j = a.get pool j)
      ∧ pool.load a._blockList sizeof_ptr (i / a._elementsPerBlock) = .ok blk
      ∧ a.reference pool i = .ok { block := blk, index := i % a._elementsPerBlock }
      ∧ a.reference pool1 i = .ok { block := blk, index := i % a._elementsPerBlock }
      ∧ ∀ (n timeout : Nat) (ref : Ptr) (cap : Nat) (r : EnsureCapacityResult),
          a.try_ensure_capacity pool1 n timeout ref cap = .ok r → r.self.get r.pool i = .ok v := by
  have hE := hv.elementsPerBlock_pos
  have hE0 : a._elementsPerBlock ≠ 0 := Nat.pos_iff_ne_zero.mp hE
  have hbi : i / a._elementsPerBlock < a._blockCount := div_lt_of_lt_capacity hi
  have hbj : j / a._elementsPerBlock < a._blockCount := div_lt_of_lt_capacity hj
  obtain ⟨blk, al, hblk, hblk0, hblkL, hal, hbytes⟩ := hv.populated _ hbi
  obtain ⟨blkj, alj, hblkj, -, hblkjL, -, -⟩ := hv.populated _ hbj
  have hroom : (i % a._elementsPerBlock + 1) * a.sizeof_value_type ≤ al.bytes :=
    Nat.le_trans (Nat.mul_le_mul_right _ (Nat.mod_lt i hE)) hbytes
  have hstore : ∃ pool1, pool.store blk a.sizeof_value_type (i % a._elementsPerBlock) v
      = .ok pool1 := by
    unfold MemoryPool.store
    rw [if_neg hblk0, hal]
    simp only [hroom, if_true]
    exact ⟨_, rfl⟩
  obtain ⟨pool1, hstore⟩ := hstore
  have hspine : ∀ b, pool1.load a._blockList sizeof_ptr b = pool.load a._blockList sizeof_ptr b :=
    fun b => MemoryPool.load_store_other_ptr hstore a._blockList _ b (Ne.symm hblkL)
  have hset : a.set pool i v = .ok pool1 := by
    unfold set
    rw [if_neg hE0, hblk]
    exact hstore
  have hget : a.get pool1 i = .ok v := by
    unfold get reference
    rw [if_neg hE0, hspine, hblk]
    exact MemoryPool.load_store_same hstore
  refine ⟨pool1, blk, hset, hget, ?_, hblk, ?_, ?_, ?_⟩
  · intro hji
    unfold get reference
    rw [if_neg hE0, if_neg hE0, hspine, hblkj]
    show pool1.load blkj _ _ = pool.load blkj _ _
    by_cases hsame : blkj = blk
    · subst hsame
      have hb : j / a._elementsPerBlock = i / a._elementsPerBlock :=
        hv.distinct _ _ _ hbj hbi hblkj hblk
      have hmod : j % a._elementsPerBlock ≠ i % a._elementsPerBlock := by
        intro hm
        apply hji
        rw [← Nat.div_add_mod j a._elementsPerBlock, ← Nat.div_add_mod i a._elementsPerBlock,
          hb, hm]
      exact MemoryPool.load_store_other_index hstore _ _ hmod
    · exact MemoryPool.load_store_other_ptr hstore blkj _ _ hsame
  · unfold reference
    rw [if_neg hE0, hblk]
  · unfold reference
    rw [if_neg hE0, hspine, hblk]
  · intro n timeout ref cap r h
    have hfresh1 : pool1.Fresh := MemoryPool.store_fresh hv.fresh hstore
    obtain ⟨-, -, -, hnext, -, -, -⟩ := MemoryPool.store_spec hstore
    obtain ⟨-, alL, halL, -, -⟩ := MemoryPool.load_ok_live hblk
    have hLle : a._blockList ≤ pool1.next := by
      rw [hnext]
      exact hv.fresh.le_next halL
    have hblkle : blk ≤ pool1.next := by
      rw [hnext]
      exact hv.fresh.le_next hal
    have hentry := try_ensure_capacity_spine_entry hfresh1 hv.count_le_capacity h hbi
      ((hspine _).trans hblk)
    have hmem := try_ensure_capacity_mem_frame hLle h hblk0 hblkle hblkL
    have hEr : r.self._elementsPerBlock = a._elementsPerBlock
        ∧ r.self.sizeof_value_type = a.sizeof_value_type := by
      rcases try_ensure_capacity_cases h with ⟨-, hr⟩ | ⟨-, -, -, -, -, e1, -, e2, -⟩
      · rw [hr]
        exact ⟨rfl, rfl⟩
      · exact ⟨e1, e2⟩
    unfold get reference
    rw [hEr.1, hEr.2, if_neg hE0, hentry]
    show r.pool.load blk _ _ = _
    rw [MemoryPool.load_congr hmem]
    exact MemoryPool.load_store_same hstore

end ExpandableArrayImpl

end Pql.UnmanagedLib

namespace Pql.UnmanagedLib

namespace ExpandableArrayImpl

/-- The array left by `smallArrayGrown` satisfies the data-model invariant: spine at
address 1, blocks 0 and 1 at addresses 2 and 3 with 32 bytes each. -/
theorem smallArrayGrown_valid : smallArrayGrown.self.Valid smallArrayGrown.pool := by
  have hrun : smallArray.try_ensure_capacity (freshPool []) 5 0 0 0 = .ok smallArrayGrown := rfl
  have e0 : smallArrayGrown.pool.load smallArrayGrown.self._blockList sizeof_ptr 0 = .ok 2 := rfl
  have e1 : smallArrayGrown.pool.load smallArrayGrown.self._blockList sizeof_ptr 1 = .ok 3 := rfl
  have hcount : smallArrayGrown.self._blockCount = 2 := rfl
  refine ⟨by decide, by decide, by decide,
    (try_ensure_capacity_fresh (MemoryPool.create_fresh 0 [] _) (Nat.le_refl 0) hrun).1,
    by decide, ?_, ?_⟩
  · intro b hb
    rw [hcount] at hb
    interval_cases b
    · exact ⟨2, ⟨32, fun _ => 0⟩, e0, by decide, by decide, rfl, by decide⟩
    · exact ⟨3, ⟨32, fun _ => 0⟩, e1, by decide, by decide, rfl, by decide⟩
  · intro b1 b2 blk hb1 hb2 h1 h2
    rw [hcount] at hb1 hb2
    interval_cases b1 <;> interval_cases b2
    · rfl
    · rw [e0] at h1
      rw [e1] at h2
      have := (Except.ok.inj h1).trans (Except.ok.inj h2).symm
      exact absurd this (by decide)
    · rw [e1] at h1
      rw [e0] at h2
      have := (Except.ok.inj h1).trans (Except.ok.inj h2).symm
      exact absurd this (by decide)
    · rfl

/-- Instance of C5: in `smallArrayGrown` (capacity 8), `set(5, 42)` completes, `get(5)` is
then 42, `get(2)` is unchanged, element 5 is offset 1 of block 1 (address 3), and 42 is
still read after the growth to 9 elements that replaces the spine. -/
theorem set_get_faithful_witness :
    ∃ pool1,
      smallArrayGrown.self.set smallArrayGrown.pool 5 42 = .ok pool1
      ∧ smallArrayGrown.self.get pool1 5 = .ok 42
      ∧ smallArrayGrown.self.get pool1 2 = smallArrayGrown.self.get smallArrayGrown.pool 2
      ∧ smallArrayGrown.self.reference smallArrayGrown.pool 5 = .ok { block := 3, index := 1 }
      ∧ ∀ r, smallArrayGrown.self.try_ensure_capacity pool1 9 0 1 8 = .ok r →
          r.self.get r.pool 5 = .ok 42 := by
  obtain ⟨pool1, blk, h1, h2, h3, h4, h5, -, h7⟩ :=
    set_get_faithful smallArrayGrown.self smallArrayGrown.pool smallArrayGrown_valid 5 2 42
      (by decide) (by decide)
  have hblk : blk = 3 := (Except.ok.inj h4).symm
  subst hblk
  exact ⟨pool1, h1, h2, h3 (by decide), h5, fun r hr => h7 9 0 1 8 r hr⟩

end ExpandableArrayImpl

end Pql.UnmanagedLib

namespace Pql.UnmanagedLib

/-- What a `memcpy` that returns did: it wrote bytes `ix .. ix + count - 1` of the source
to the same offsets of the destination and touched nothing else. -/
theorem memcpy_spec (dst : Ptr) (src : List Nat) :
    ∀ (count ix : Nat) (p p1 : MemoryPool), memcpy dst src count ix p = .ok p1 →
      p1._garbage = p._garbage ∧ p1.freed = p.freed ∧ p1.next = p.next
      ∧ (p.Fresh → p1.Fresh)
      ∧ (0 < count → dst ≠ 0)
      ∧ (∀ q, q ≠ dst → p1.mem q = p.mem q)
      ∧ (∀ c, ix ≤ c → c < ix + count →
          ∃ b, src[c]? = some b ∧ p1.load dst sizeof_uint8_t c = .ok b)
      ∧ ∀ c, c < ix → p1.load dst sizeof_uint8_t c = p.load dst sizeof_uint8_t c := by
  intro count
  induction count with
  | zero =>
    intro ix p p1 h
    have := (Except.ok.inj h).symm
    subst this
    exact ⟨rfl, rfl, rfl, fun hf => hf, fun hc => absurd hc (Nat.lt_irrefl 0), fun _ _ => rfl,
      fun c h1 h2 => absurd h2 (by omega), fun _ _ => rfl⟩
  | succ n ih =>
    intro ix p p1 h
    unfold memcpy at h
    split at h
    · cases h
    · rename_i b hb
      split at h
      · cases h
      · rename_i ps hstore
        obtain ⟨g0, g1, g2, g3, -, g5, -⟩ := MemoryPool.store_spec hstore
        obtain ⟨i1, i2, i3, i4, -, i6, i7, i8⟩ := ih (ix + 1) ps p1 h
        refine ⟨i1.trans g1, i2.trans g2, i3.trans g3,
          fun hf => i4 (MemoryPool.store_fresh hf hstore), fun _ => g0, ?_, ?_, ?_⟩
        · intro q hq
          rw [i6 q hq, g5 q hq]
        · intro c h1 h2
          by_cases hc : c = ix
          · subst hc
            refine ⟨b, hb, ?_⟩
            rw [i8 c (Nat.lt_succ_self c)]
            exact MemoryPool.load_store_same hstore
          · exact i7 c (by omega) (by omega)
        · intro c hc
          rw [i8 c (by omega)]
          exact MemoryPool.load_store_other_index hstore _ c (by omega)

namespace ExpandableArrayOfKeys

/-- What the construction of the candidate buffer leaves when it completes: nothing for a
null payload; for a payload with length byte `len`, a copy of its first `len + 1`
bytes at the fresh address `next + 1`. -/
theorem make_candidate_spec {pool p1 : MemoryPool} {pdata : Option (List Nat)} {pnew : Ptr}
    (h : make_candidate pool pdata = .ok (pnew, p1)) :
    p1._garbage = pool._garbage ∧ p1.freed = pool.freed
    ∧ (pool.Fresh → p1.Fresh)
    ∧ pool.next ≤ p1.next
    ∧ (∀ q, q ≠ pool.next + 1 → p1.mem q = pool.mem q)
    ∧ ((pdata = none ∧ pnew = 0 ∧ p1 = pool)
      ∨ ∃ buf len, pdata = some buf ∧ buf[0]? = some len ∧ len ≠ 0 ∧ pnew = pool.next + 1
          ∧ ∀ c, c ≤ len → ∃ b, buf[c]? = some b ∧ p1.load pnew sizeof_uint8_t c = .ok b) := by
  unfold make_candidate at h
  split at h
  · simp only [Except.ok.injEq, Prod.mk.injEq] at h
    obtain ⟨h1, h2⟩ := h
    subst h1 h2
    exact ⟨rfl, rfl, fun hf => hf, Nat.le_refl _, fun _ _ => rfl, Or.inl ⟨rfl, rfl, rfl⟩⟩
  · rename_i buf
    split at h
    · cases h
    · rename_i len hlen
      split at h
      · cases h
      · rename_i hlen0
        simp only at h
        split at h
        · cases h
        · rename_i pc hcopy
          simp only [Except.ok.injEq, Prod.mk.injEq] at h
          obtain ⟨h1, h2⟩ := h
          subst h2
          obtain ⟨m1, m2, m3, m4, m5, m6, m7, -⟩ := memcpy_spec _ _ _ _ _ _ hcopy
          have hz := MemoryPool.zero_allocate_spec pool sizeof_uint8_t (len + 1)
          have hzn := MemoryPool.zero_allocate_next pool sizeof_uint8_t (len + 1)
          have hdst : (DynamicMemoryPool.Alloc pool (len + 1)).1 ≠ 0 := m5 (Nat.succ_pos len)
          have hpnew : pnew = pool.next + 1 := by
            rw [← h1]
            rcases hz.2.2 with ⟨e, -, -⟩ | ⟨e, -, -, -⟩
            · exact absurd e hdst
            · exact e
          refine ⟨m1.trans hz.1, m2.trans hz.2.1,
            fun hf => m4 (MemoryPool.zero_allocate_fresh pool _ _ hf), ?_, ?_, Or.inr ?_⟩
          · rw [m3]
            exact hzn.1
          · intro q hq
            rw [m6 q (by rw [h1, hpnew]; exact hq)]
            exact MemoryPool.zero_allocate_mem_other pool _ _ q hq
          · refine ⟨buf, len, rfl, hlen, hlen0, hpnew, ?_⟩
            intro c hc
            rw [← h1]
            exact m7 c (Nat.zero_le c) (by omega)

end ExpandableArrayOfKeys

end Pql.UnmanagedLib

namespace Pql.UnmanagedLib

/-- What a compare-and-swap that returns did: it read the slot, and stored the new value
exactly when the value read was the comparand. -/
theorem InterlockedCompareExchangePointer_spec {p p3 : MemoryPool} {blk : Ptr} {ix : Nat}
    {value comparand found : Ptr}
    (h : InterlockedCompareExchangePointer p blk ix value comparand = .ok (found, p3)) :
    p.load blk sizeof_ptr ix = .ok found
    ∧ ((found = comparand ∧ p.store blk sizeof_ptr ix value = .ok p3)
      ∨ (found ≠ comparand ∧ p3 = p)) := by
  unfold InterlockedCompareExchangePointer at h
  split at h
  · cases h
  · rename_i f hf
    split at h
    · rename_i heq
      split at h
      · cases h
      · rename_i ps hstore
        simp only [Except.ok.injEq, Prod.mk.injEq] at h
        obtain ⟨h1, h2⟩ := h
        subst h1 h2
        exact ⟨hf, Or.inl ⟨heq, hstore⟩⟩
    · rename_i hne
      simp only [Except.ok.injEq, Prod.mk.injEq] at h
      obtain ⟨h1, h2⟩ := h
      subst h1 h2
      exact ⟨hf, Or.inr ⟨hne, rfl⟩⟩

namespace ExpandableArrayOfKeys

/-- The steps of a `TrySetAt` that returns: candidate buffer, read of the spine entry, read
of the slot, write of the rival if any, compare-and-swap, and then either the release
of the candidate (result false) or the scheduling of the previous buffer (result
true). -/
theorem TrySetAt_path {k : ExpandableArrayOfKeys} {pool pool1 : MemoryPool} {index : Nat}
    {pdata : Option (List Nat)} {rival : Option Ptr} {res : Bool}
    (h : k.TrySetAt pool index pdata rival = .ok (res, pool1)) :
    index < k.Capacity
    ∧ ∃ pnew p1 blk prev p2 found p3,
      make_candidate pool pdata = .ok (pnew, p1)
      ∧ p1.load k._pData sizeof_ptr (index / ITEMS_PER_BLOCK) = .ok blk
      ∧ p1.load blk sizeof_ptr (index % ITEMS_PER_BLOCK) = .ok prev
      ∧ (match rival with
          | none => Except.ok p1
          | some v => p1.store blk sizeof_ptr (index % ITEMS_PER_BLOCK) v) = .ok p2
      ∧ InterlockedCompareExchangePointer p2 blk (index % ITEMS_PER_BLOCK) pnew prev
          = .ok (found, p3)
      ∧ ((prev ≠ found ∧ res = false
            ∧ pool1 = if pnew ≠ 0 then DynamicMemoryPool.Free p3 pnew else p3)
        ∨ (prev = found ∧ res = true
            ∧ pool1 = if prev ≠ 0 then DynamicMemoryPool.ScheduleForCollection p3 prev
                else p3)) := by
  unfold TrySetAt at h
  split at h
  · cases h
  · rename_i hidx
    refine ⟨Nat.lt_of_not_le hidx, ?_⟩
    split at h
    · cases h
    · rename_i pnew p1 hcand
      split at h
      · cases h
      · rename_i blk hblk
        split at h
        · cases h
        · rename_i prev hprev
          simp only at h
          split at h
          · cases h
          · rename_i p2 hrival
            split at h
            · cases h
            · rename_i found p3 hcas
              refine ⟨pnew, p1, blk, prev, p2, found, p3, hcand, hblk, hprev, hrival, hcas, ?_⟩
              split at h
              · rename_i hne
                simp only [Except.ok.injEq, Prod.mk.injEq] at h
                exact Or.inl ⟨hne, h.1.symm, h.2.symm⟩
              · rename_i heq
                simp only [Except.ok.injEq, Prod.mk.injEq] at h
                exact Or.inr ⟨not_not.mp heq, h.1.symm, h.2.symm⟩

end ExpandableArrayOfKeys

end Pql.UnmanagedLib

namespace Pql.UnmanagedLib

/-- A read through a non-null pointer to a live allocation with room for the element
returns the cell. -/
theorem MemoryPool.load_of_mem {p : MemoryPool} {ptr : Ptr} {al : Allocation} {s i : Nat}
    (h0 : ptr ≠ 0) (hal : p.mem ptr = some al) (hroom : (i + 1) * s ≤ al.bytes) :
    p.load ptr s i = .ok (al.cells i) := by
  unfold MemoryPool.load
  rw [if_neg h0, hal]
  simp only [hroom, if_true]

namespace ExpandableArrayOfKeys

/-- In a valid key array every slot below `Capacity` can be read: its spine entry holds a
live block, other than the spine, handed out by the pool. -/
theorem Valid.slot {k : ExpandableArrayOfKeys} {pool : MemoryPool} (hv : k.Valid pool)
    {index : Nat} (hi : index < k.Capacity) :
    ∃ blk prev, pool.load k._pData sizeof_ptr (index / ITEMS_PER_BLOCK) = .ok blk
      ∧ pool.load blk sizeof_ptr (index % ITEMS_PER_BLOCK) = .ok prev
      ∧ blk ≠ 0 ∧ blk ≠ k._pData ∧ blk ≤ pool.next ∧ k._pData ≤ pool.next
      ∧ index / ITEMS_PER_BLOCK < k._pArray._blockCount := by
  have hb : index / ITEMS_PER_BLOCK < k._pArray._blockCount := by
    apply Nat.div_lt_of_lt_mul
    have : index < k._pArray._blockCount * k._pArray._elementsPerBlock := by
      have h1 : k.Capacity = k._pArray.capacity := hv.capacity
      rw [h1] at hi
      exact Nat.lt_of_lt_of_le hi (ExpandableArrayImpl.capacity_le_mul _)
    rw [hv.elementsPerBlock, Nat.mul_comm] at this
    exact this
  obtain ⟨blk, al, hblk, hblk0, hblkL, hal, hbytes⟩ := hv.array.populated _ hb
  rw [← hv.data] at hblk hblkL
  obtain ⟨-, alL, halL, -, -⟩ := MemoryPool.load_ok_live hblk
  have hroom : (index % ITEMS_PER_BLOCK + 1) * sizeof_ptr ≤ al.bytes := by
    rw [hv.elementsPerBlock, hv.sizeof_value_type] at hbytes
    exact Nat.le_trans
      (Nat.mul_le_mul_right _ (Nat.mod_lt index (by decide : 0 < ITEMS_PER_BLOCK))) hbytes
  refine ⟨blk, al.cells (index % ITEMS_PER_BLOCK), hblk, ?_, hblk0, hblkL,
    hv.array.fresh.le_next hal, hv.array.fresh.le_next halL, hb⟩
  exact MemoryPool.load_of_mem hblk0 hal hroom

/-- Releasing an address leaves the reads through other addresses as they were. -/
theorem load_free_other (p : MemoryPool) (ptr q : Ptr) (s i : Nat) (hq : q ≠ ptr) :
    (DynamicMemoryPool.Free p ptr).load q s i = p.load q s i := by
  apply MemoryPool.load_congr
  show (if q = ptr then none else p.mem q) = p.mem q
  rw [if_neg hq]

/-- What a `TrySetAt` that returns did to a key array whose slot `index` can be read,
through a spine entry that holds a live block other than the spine; in terms of the slot
value `prev` read before the call and the candidate buffer `pnew`. -/
theorem TrySetAt_effect_of_slot {k : ExpandableArrayOfKeys} {pool pool1 : MemoryPool}
    {index : Nat} {pdata : Option (List Nat)} {rival : Option Ptr} {res : Bool}
    (hslot : ∃ blk prev, pool.load k._pData sizeof_ptr (index / ITEMS_PER_BLOCK) = .ok blk
      ∧ pool.load blk sizeof_ptr (index % ITEMS_PER_BLOCK) = .ok prev
      ∧ blk ≠ 0 ∧ blk ≠ k._pData ∧ blk ≤ pool.next ∧ k._pData ≤ pool.next)
    (h : k.TrySetAt pool index pdata rival = .ok (res, pool1)) :
    ∃ pnew p1 blk prev,
      make_candidate pool pdata = .ok (pnew, p1)
      ∧ pool.load k._pData sizeof_ptr (index / ITEMS_PER_BLOCK) = .ok blk
      ∧ pool.load blk sizeof_ptr (index % ITEMS_PER_BLOCK) = .ok prev
      ∧ blk ≠ k._pData ∧ blk ≤ pool.next ∧ k._pData ≤ pool.next ∧ blk ≠ pnew
      ∧ (∀ c s, c ≠ index % ITEMS_PER_BLOCK → pool1.load blk s c = pool.load blk s c)
      ∧ (res = true →
          pool1.freed = pool.freed
          ∧ pool1._garbage = (if prev ≠ 0 then pool._garbage ++ [prev] else pool._garbage)
          ∧ pool1.load blk sizeof_ptr (index % ITEMS_PER_BLOCK) = .ok pnew
          ∧ ∀ q, q ≠ blk → pool1.mem q = p1.mem q)
      ∧ (res = false →
          ∃ v, rival = some v ∧ v ≠ prev
            ∧ pool1._garbage = pool._garbage
            ∧ pool1.freed = (if pnew ≠ 0 then pool.freed ++ [pnew] else pool.freed)
            ∧ pool1.load blk sizeof_ptr (index % ITEMS_PER_BLOCK) = .ok v
            ∧ ∀ q, q ≠ blk → q ≠ pnew → pool1.mem q = pool.mem q) := by
  obtain ⟨hi, pnew, p1, blk1, prev1, p2, found, p3, hcand, hblk1, hprev1, hrival, hcas, hres⟩ :=
    TrySetAt_path h
  obtain ⟨blk, prev, hblk, hprev, hblk0, hblkL, hblkle, hLle⟩ := hslot
  obtain ⟨c1, c2, -, -, c5, c6⟩ := make_candidate_spec hcand
  have hblkne : blk ≠ pool.next + 1 := Nat.ne_of_lt (Nat.lt_succ_of_le hblkle)
  have hLne : k._pData ≠ pool.next + 1 := Nat.ne_of_lt (Nat.lt_succ_of_le hLle)
  have hpnew : pnew = 0 ∨ pnew = pool.next + 1 := by
    rcases c6 with ⟨-, e, -⟩ | ⟨_, _, -, -, -, e, -⟩
    · exact Or.inl e
    · exact Or.inr e
  have hblkpnew : blk ≠ pnew := by
    rcases hpnew with e | e
    · rw [e]
      exact hblk0
    · rw [e]
      exact hblkne
  have e1 : blk1 = blk := by
    rw [MemoryPool.load_congr (c5 _ hLne), hblk] at hblk1
    exact (Except.ok.inj hblk1).symm
  subst e1
  have e2 : prev1 = prev := by
    rw [MemoryPool.load_congr (c5 _ hblkne), hprev] at hprev1
    exact (Except.ok.inj hprev1).symm
  subst e2
  have hp1blk : ∀ c s, p1.load blk1 s c = pool.load blk1 s c :=
    fun c s => MemoryPool.load_congr (c5 _ hblkne) s c
  -- the state after the rival
  have hp2 : p2._garbage = p1._garbage ∧ p2.freed = p1.freed
      ∧ (∀ q, q ≠ blk1 → p2.mem q = p1.mem q)
      ∧ (∀ c s, c ≠ index % ITEMS_PER_BLOCK → p2.load blk1 s c = p1.load blk1 s c)
      ∧ ((rival = none ∧ p2 = p1)
        ∨ ∃ v, rival = some v
            ∧ p2.load blk1 sizeof_ptr (index % ITEMS_PER_BLOCK) = .ok v) := by
    cases rival with
    | none =>
      have := (Except.ok.inj hrival).symm
      subst this
      exact ⟨rfl, rfl, fun _ _ => rfl, fun _ _ _ => rfl, Or.inl ⟨rfl, rfl⟩⟩
    | some v =>
      obtain ⟨-, g1, g2, -, -, g5, -⟩ := MemoryPool.store_spec hrival
      exact ⟨g1, g2, g5, fun c s hc => MemoryPool.load_store_other_index hrival s c hc,
        Or.inr ⟨v, rfl, MemoryPool.load_store_same hrival⟩⟩
  obtain ⟨r1, r2, r3, r4, r5⟩ := hp2
  obtain ⟨hfound, hcas2⟩ := InterlockedCompareExchangePointer_spec hcas
  refine ⟨pnew, p1, blk1, prev1, hcand, hblk, hprev, hblkL, hblkle, hLle, hblkpnew, ?_, ?_, ?_⟩
  · -- other slots of the block
    intro c s hc
    have hp3 : p3.load blk1 s c = p2.load blk1 s c := by
      rcases hcas2 with ⟨-, hst⟩ | ⟨-, e⟩
      · exact MemoryPool.load_store_other_index hst s c hc
      · rw [e]
    have hfin : pool1.load blk1 s c = p3.load blk1 s c := by
      rcases hres with ⟨-, -, e⟩ | ⟨-, -, e⟩
      · rw [e]
        split
        · exact load_free_other p3 pnew blk1 s c hblkpnew
        · rfl
      · rw [e]
        split <;> rfl
    rw [hfin, hp3, r4 c s hc, hp1blk]
  · -- result true
    intro hres_true
    rcases hres with ⟨-, e, -⟩ | ⟨heq, -, e⟩
    · rw [e] at hres_true
      cases hres_true
    · rcases hcas2 with ⟨-, hst⟩ | ⟨hne, -⟩
      · obtain ⟨-, g1, g2, -, -, g5, -⟩ := MemoryPool.store_spec hst
        have hfreed : pool1.freed = pool.freed := by
          rw [e]
          have : (if prev1 ≠ 0 then DynamicMemoryPool.ScheduleForCollection p3 prev1
              else p3).freed = p3.freed := by split <;> rfl
          rw [this, g2, r2, c2]
        have hgarb : pool1._garbage
            = (if prev1 ≠ 0 then pool._garbage ++ [prev1] else pool._garbage) := by
          rw [e]
          by_cases hp : prev1 ≠ 0
          · rw [if_pos hp, if_pos hp]
            show p3._garbage ++ [prev1] = _
            rw [g1, r1, c1]
          · rw [if_neg hp, if_neg hp, g1, r1, c1]
        have hmem : ∀ q, pool1.mem q = p3.mem q := by
          intro q
          rw [e]
          split <;> rfl
        refine ⟨hfreed, hgarb, ?_, ?_⟩
        · rw [MemoryPool.load_congr (hmem blk1)]
          exact MemoryPool.load_store_same hst
        · intro q hq
          rw [hmem q, g5 q hq, r3 q hq]
      · exact absurd heq.symm hne
  · -- result false
    intro hres_false
    rcases hres with ⟨hne, -, e⟩ | ⟨-, e, -⟩
    · have hp3 : p3 = p2 := by
        rcases hcas2 with ⟨heq, -⟩ | ⟨-, e3⟩
        · exact absurd heq.symm hne
        · exact e3
      subst hp3
      rcases r5 with ⟨-, e5⟩ | ⟨v, hv1, hv2⟩
      · subst e5
        rw [hp1blk, hprev] at hfound
        exact absurd (Except.ok.inj hfound) hne
      · have hvf : v = found := by
          rw [hv2] at hfound
          exact Except.ok.inj hfound
        subst hvf
        refine ⟨v, hv1, Ne.symm hne, ?_, ?_, ?_, ?_⟩
        · rw [e]
          have : (if pnew ≠ 0 then DynamicMemoryPool.Free p3 pnew else p3)._garbage
              = p3._garbage := by split <;> rfl
          rw [this, r1, c1]
        · rw [e]
          by_cases hp : pnew ≠ 0
          · rw [if_pos hp, if_pos hp]
            show p3.freed ++ [pnew] = _
            rw [r2, c2]
          · rw [if_neg hp, if_neg hp, r2, c2]
        · rw [e]
          split
          · rw [load_free_other p3 pnew blk1 _ _ hblkpnew]
            exact hv2
          · exact hv2
        · intro q hq hqn
          have hfin : pool1.mem q = p3.mem q := by
            rw [e]
            split
            · show (if q = pnew then none else p3.mem q) = p3.mem q
              rw [if_neg hqn]
            · rfl
          rw [hfin, r3 q hq]
          rcases c6 with ⟨-, -, e0⟩ | ⟨_, _, -, -, -, e0, -⟩
          · rw [e0]
          · exact c5 q (by rw [← e0]; exact hqn)
    · rw [e] at hres_false
      cases hres_false

/-- What a `TrySetAt` that returns did to a valid key array, in terms of the slot value
`prev` read before the call and the candidate buffer `pnew`. -/
theorem TrySetAt_effect {k : ExpandableArrayOfKeys} {pool pool1 : MemoryPool} {index : Nat}
    {pdata : Option (List Nat)} {rival : Option Ptr} {res : Bool}
    (hv : k.Valid pool) (h : k.TrySetAt pool index pdata rival = .ok (res, pool1)) :
    ∃ pnew p1 blk prev,
      make_candidate pool pdata = .ok (pnew, p1)
      ∧ pool.load k._pData sizeof_ptr (index / ITEMS_PER_BLOCK) = .ok blk
      ∧ pool.load blk sizeof_ptr (index % ITEMS_PER_BLOCK) = .ok prev
      ∧ blk ≠ k._pData ∧ blk ≤ pool.next ∧ k._pData ≤ pool.next ∧ blk ≠ pnew
      ∧ (∀ c s, c ≠ index % ITEMS_PER_BLOCK → pool1.load blk s c = pool.load blk s c)
      ∧ (res = true →
          pool1.freed = pool.freed
          ∧ pool1._garbage = (if prev ≠ 0 then pool._garbage ++ [prev] else pool._garbage)
          ∧ pool1.load blk sizeof_ptr (index % ITEMS_PER_BLOCK) = .ok pnew
          ∧ ∀ q, q ≠ blk → pool1.mem q = p1.mem q)
      ∧ (res = false →
          ∃ v, rival = some v ∧ v ≠ prev
            ∧ pool1._garbage = pool._garbage
            ∧ pool1.freed = (if pnew ≠ 0 then pool.freed ++ [pnew] else pool.freed)
            ∧ pool1.load blk sizeof_ptr (index % ITEMS_PER_BLOCK) = .ok v
            ∧ ∀ q, q ≠ blk → q ≠ pnew → pool1.mem q = pool.mem q) := by
  obtain ⟨blk, prev, hblk, hprev, hblk0, hblkL, hblkle, hLle, -⟩ := hv.slot (TrySetAt_path h).1
  exact TrySetAt_effect_of_slot ⟨blk, prev, hblk, hprev, hblk0, hblkL, hblkle, hLle⟩ h

end ExpandableArrayOfKeys

end Pql.UnmanagedLib

namespace Pql.UnmanagedLib

namespace ExpandableArrayOfKeys

/-- `GetAt` below `Capacity` reads the slot `index % ITEMS_PER_BLOCK` of the block held by
the spine entry `index / ITEMS_PER_BLOCK`. -/
theorem GetAt_of_block {k : ExpandableArrayOfKeys} {pool : MemoryPool} {index : Nat} {blk : Ptr}
    (hi : index < k.Capacity)
    (hblk : pool.load k._pData sizeof_ptr (index / ITEMS_PER_BLOCK) = .ok blk) :
    k.GetAt pool index = pool.load blk sizeof_ptr (index % ITEMS_PER_BLOCK) := by
  unfold GetAt
  rw [if_neg (Nat.not_le.mpr hi), hblk]

/-- After a `TrySetAt` that returns, `GetAt(j)` is what it was for every `j` other than
the index written, provided the spine allocation is untouched and the allocations
other than the block written and the candidate buffer are untouched. -/
theorem GetAt_other {k : ExpandableArrayOfKeys} {pool pool1 : MemoryPool} (hv : k.Valid pool)
    {i : Nat} (hi : i < k.Capacity) {blk : Ptr}
    (hblk : pool.load k._pData sizeof_ptr (i / ITEMS_PER_BLOCK) = .ok blk)
    (hspine : pool1.mem k._pData = pool.mem k._pData)
    (hslots : ∀ c s, c ≠ i % ITEMS_PER_BLOCK → pool1.load blk s c = pool.load blk s c)
    (hmem : ∀ q, q ≠ blk → q ≠ 0 → q ≤ pool.next → pool1.mem q = pool.mem q)
    (j : Nat) (hj : j ≠ i) : k.GetAt pool1 j = k.GetAt pool j := by
  by_cases hjc : j < k.Capacity
  · obtain ⟨blkj, prevj, hblkj, -, hblkj0, -, hblkjle, -, hbj⟩ := hv.slot hjc
    obtain ⟨-, -, -, -, -, -, -, -, hbi⟩ := hv.slot hi
    have hblkj1 : pool1.load k._pData sizeof_ptr (j / ITEMS_PER_BLOCK) = .ok blkj := by
      rw [MemoryPool.load_congr hspine]
      exact hblkj
    rw [GetAt_of_block hjc hblkj1, GetAt_of_block hjc hblkj]
    by_cases hsame : blkj = blk
    · subst hsame
      rw [hv.data] at hblkj hblk
      have hb : j / ITEMS_PER_BLOCK = i / ITEMS_PER_BLOCK :=
        hv.array.distinct _ _ _ hbj hbi hblkj hblk
      have hmod : j % ITEMS_PER_BLOCK ≠ i % ITEMS_PER_BLOCK := by
        intro hm
        apply hj
        rw [← Nat.div_add_mod j ITEMS_PER_BLOCK, ← Nat.div_add_mod i ITEMS_PER_BLOCK, hb, hm]
      exact hslots _ _ hmod
    · exact MemoryPool.load_congr (hmem blkj hsame hblkj0 hblkjle) _ _
  · unfold GetAt
    rw [if_pos (Nat.le_of_not_lt hjc), if_pos (Nat.le_of_not_lt hjc)]

/-- C9: on a valid key array, a `TrySetAt(i, buf)` with a non-null `buf` that returns true
had `i < Capacity` and `buf[0] ≥ 1`, and makes `GetAt(i)` return a non-null buffer whose
first byte is `buf[0]` and whose next `buf[0]` bytes are `buf[1 .. buf[0]]`; `GetAt(j)` is
what it was for every `j ≠ i`. -/
theorem TrySetAt_then_GetAt (k : ExpandableArrayOfKeys) (pool pool1 : MemoryPool)
    (hv : k.Valid pool) (i : Nat) (buf : List Nat) (rival : Option Ptr)
    (h : k.TrySetAt pool i (some buf) rival = .ok (true, pool1)) :
    i < k.Capacity
    ∧ ∃ pnew len, buf[0]? = some len ∧ 1 ≤ len
      ∧ k.GetAt pool1 i = .ok pnew ∧ pnew ≠ 0
      ∧ pool1.load pnew sizeof_uint8_t 0 = .ok len
      ∧ (∀ c, 1 ≤ c → c ≤ len →
          ∃ b, buf[c]? = some b ∧ pool1.load pnew sizeof_uint8_t c = .ok b)
      ∧ ∀ j, j ≠ i → k.GetAt pool1 j = k.GetAt pool j := by
  have hi := (TrySetAt_path h).1
  obtain ⟨pnew, p1, blk, prev, hcand, hblk, hprev, hblkL, hblkle, hLle, hblkpnew, hslots,
    htrue, -⟩ := TrySetAt_effect hv h
  obtain ⟨hfreed, hgarb, hslot, hmem⟩ := htrue rfl
  obtain ⟨-, -, -, -, c5, c6⟩ := make_candidate_spec hcand
  have hLne : k._pData ≠ pool.next + 1 := Nat.ne_of_lt (Nat.lt_succ_of_le hLle)
  have hspine : pool1.mem k._pData = pool.mem k._pData := by
    rw [hmem _ (Ne.symm hblkL), c5 _ hLne]
  refine ⟨hi, ?_⟩
  rcases c6 with ⟨hnone, -, -⟩ | ⟨buf1, len, hbuf, hlen, hlen0, hpnew, hbytes⟩
  · cases hnone
  · have hb : buf1 = buf := (Option.some.inj hbuf).symm
    subst hb
    have hblk1 : pool1.load k._pData sizeof_ptr (i / ITEMS_PER_BLOCK) = .ok blk := by
      rw [MemoryPool.load_congr hspine]
      exact hblk
    have hcontent : ∀ c, c ≤ len →
        ∃ b, buf1[c]? = some b ∧ pool1.load pnew sizeof_uint8_t c = .ok b := by
      intro c hc
      obtain ⟨b, hb1, hb2⟩ := hbytes c hc
      refine ⟨b, hb1, ?_⟩
      rw [MemoryPool.load_congr (hmem pnew (Ne.symm hblkpnew))]
      exact hb2
    refine ⟨pnew, len, hlen, Nat.pos_of_ne_zero hlen0, ?_, ?_, ?_, ?_, ?_⟩
    · rw [GetAt_of_block hi hblk1]
      exact hslot
    · rw [hpnew]
      exact Nat.succ_ne_zero _
    · obtain ⟨b, hb1, hb2⟩ := hcontent 0 (Nat.zero_le _)
      rw [hlen] at hb1
      rw [hb2, ← Option.some.inj hb1]
    · exact fun c _ hc => hcontent c hc
    · apply GetAt_other hv hi hblk hspine hslots
      intro q hq _ hqle
      rw [hmem q hq]
      exact c5 q (Nat.ne_of_lt (Nat.lt_succ_of_le hqle))

/-- C10: on a valid key array, with `prev` the value of the slot before the call: a
`TrySetAt` that returns true passes nothing to `free`, appends exactly `prev` to the
garbage list when `prev` is not null and leaves the garbage list unchanged when it is
null; a `TrySetAt` that returns false met a rival write of another value, which the
slot still holds afterwards, left the garbage list unchanged and passed to `free` only
its own candidate buffer (nothing for a null payload), every other slot being read as
before. -/
theorem TrySetAt_collection (k : ExpandableArrayOfKeys) (pool pool1 : MemoryPool)
    (hv : k.Valid pool) (i : Nat) (pdata : Option (List Nat)) (rival : Option Ptr) (res : Bool)
    (h : k.TrySetAt pool i pdata rival = .ok (res, pool1)) :
    ∃ prev pnew p1,
      k.GetAt pool i = .ok prev
      ∧ make_candidate pool pdata = .ok (pnew, p1)
      ∧ (res = true →
          pool1.freed = pool.freed
          ∧ (prev ≠ 0 → pool1._garbage = pool._garbage ++ [prev])
          ∧ (prev = 0 → pool1._garbage = pool._garbage))
      ∧ (res = false →
          ∃ v, rival = some v ∧ v ≠ prev
            ∧ k.GetAt pool1 i = .ok v
            ∧ pool1._garbage = pool._garbage
            ∧ pool1.freed = (if pnew ≠ 0 then pool.freed ++ [pnew] else pool.freed)
            ∧ ∀ j, j ≠ i → k.GetAt pool1 j = k.GetAt pool j) := by
  have hi := (TrySetAt_path h).1
  obtain ⟨pnew, p1, blk, prev, hcand, hblk, hprev, hblkL, hblkle, hLle, hblkpnew, hslots,
    htrue, hfalse⟩ := TrySetAt_effect hv h
  obtain ⟨-, -, -, -, c5, c6⟩ := make_candidate_spec hcand
  refine ⟨prev, pnew, p1, ?_, hcand, ?_, ?_⟩
  · rw [GetAt_of_block hi hblk]
    exact hprev
  · intro hres
    obtain ⟨hfreed, hgarb, -, -⟩ := htrue hres
    refine ⟨hfreed, fun hp => ?_, fun hp => ?_⟩
    · rw [hgarb, if_pos hp]
    · rw [hgarb, if_neg (not_not.mpr hp)]
  · intro hres
    obtain ⟨v, hv1, hv2, hgarb, hfreed, hslot, hmem⟩ := hfalse hres
    obtain ⟨hL0, -⟩ := MemoryPool.load_ok_live hblk
    have hpnew : pnew = 0 ∨ pnew = pool.next + 1 := by
      rcases c6 with ⟨-, e, -⟩ | ⟨_, _, -, -, -, e, -⟩
      · exact Or.inl e
      · exact Or.inr e
    have hne_pnew : ∀ q, q ≠ 0 → q ≤ pool.next → q ≠ pnew := by
      intro q hq0 hqle
      rcases hpnew with e | e
      · rw [e]
        exact hq0
      · rw [e]
        exact Nat.ne_of_lt (Nat.lt_succ_of_le hqle)
    have hspine : pool1.mem k._pData = pool.mem k._pData :=
      hmem _ (Ne.symm hblkL) (hne_pnew _ hL0 hLle)
    have hblk1 : pool1.load k._pData sizeof_ptr (i / ITEMS_PER_BLOCK) = .ok blk := by
      rw [MemoryPool.load_congr hspine]
      exact hblk
    refine ⟨v, hv1, hv2, ?_, hgarb, hfreed, ?_⟩
    · rw [GetAt_of_block hi hblk1]
      exact hslot
    · apply GetAt_other hv hi hblk hspine hslots
      intro q hq hq0 hqle
      exact hmem q hq (hne_pnew q hq0 hqle)

end ExpandableArrayOfKeys

end Pql.UnmanagedLib

namespace Pql.UnmanagedLib

namespace ExpandableArrayOfKeys

/-- The key array `sampleKeys`, built by `Initialize` and `TryEnsureCapacity(3)` on a fresh
pool, satisfies the data-model invariant: array object at address 1, spine at address
2, block 0 at address 3. -/
theorem sampleKeys_valid :
    Initialize (freshPool [])
        = .ok ({ _pArray := ExpandableArrayImpl.create sizeof_ptr ITEMS_PER_BLOCK BLOCKS_GROWTH,
                 _pData := 0, _capacity := 0 }, keysPool)
    ∧ ({ _pArray := ExpandableArrayImpl.create sizeof_ptr ITEMS_PER_BLOCK BLOCKS_GROWTH,
         _pData := 0, _capacity := 0 } : ExpandableArrayOfKeys).TryEnsureCapacity keysPool 3 0
        = .ok (true, sampleKeys, keysGrown.pool)
    ∧ sampleKeys.Valid keysGrown.pool := by
  refine ⟨rfl, rfl, ?_⟩
  have hrun : (ExpandableArrayImpl.create sizeof_ptr ITEMS_PER_BLOCK
      BLOCKS_GROWTH).try_ensure_capacity keysPool 3 0 0 0 = .ok keysGrown := rfl
  have hpool : keysPool.Fresh :=
    MemoryPool.zero_allocate_fresh (freshPool []) sizeof_uint8_t sizeof_dataarray_t
      (MemoryPool.create_fresh 0 [] _)
  have e0 : keysGrown.pool.load keysGrown.self._blockList sizeof_ptr 0 = .ok 3 := rfl
  have hcount : keysGrown.self._blockCount = 1 := rfl
  have harray : keysGrown.self.Valid keysGrown.pool := by
    refine ⟨by decide, by decide, by decide,
      (ExpandableArrayImpl.try_ensure_capacity_fresh hpool (Nat.zero_le _) hrun).1,
      by decide, ?_, ?_⟩
    · intro b hb
      rw [hcount] at hb
      interval_cases b
      exact ⟨3, ⟨524288, fun _ => 0⟩, e0, by decide, by decide, rfl, by decide⟩
    · intro b1 b2 blk hb1 hb2 _ _
      rw [hcount] at hb1 hb2
      omega
  exact ⟨harray, rfl, rfl, rfl, rfl⟩

/-- Instance of C9: `TrySetAt(0, [2, 'a', 'b'])` on `sampleKeys` returns true; `GetAt(0)` is
then a buffer holding 2, 'a', 'b' and every other slot reads as before. -/
theorem TrySetAt_then_GetAt_witness :
    0 < sampleKeys.Capacity
    ∧ ∃ pnew len, [2, 97, 98][0]? = some len ∧ 1 ≤ len
      ∧ sampleKeys.GetAt sampleKeysSet.2 0 = .ok pnew ∧ pnew ≠ 0
      ∧ sampleKeysSet.2.load pnew sizeof_uint8_t 0 = .ok len
      ∧ (∀ c, 1 ≤ c → c ≤ len →
          ∃ b, [2, 97, 98][c]? = some b ∧ sampleKeysSet.2.load pnew sizeof_uint8_t c = .ok b)
      ∧ ∀ j, j ≠ 0 → sampleKeys.GetAt sampleKeysSet.2 j = sampleKeys.GetAt keysGrown.pool j :=
  TrySetAt_then_GetAt sampleKeys keysGrown.pool sampleKeysSet.2 sampleKeys_valid.2.2 0
    [2, 97, 98] none rfl

/-- Instance of C10: on `sampleKeys`, whose slot 0 is null, `TrySetAt(0, [2, 'a', 'b'])`
without a rival returns true and leaves the garbage list and the log of freed addresses
empty; with a rival write of 77 it returns false, slot 0 holds 77, the garbage list is
empty and only the candidate buffer (address 4) was freed. -/
theorem TrySetAt_collection_witness :
    (sampleKeysSet.2.freed = [] ∧ sampleKeysSet.2._garbage = [])
    ∧ (sampleKeys.GetAt sampleKeysLost.2 0 = .ok 77 ∧ sampleKeysLost.2._garbage = []
        ∧ sampleKeysLost.2.freed = [4]) := by
  obtain ⟨prev, pnew, p1, hprev, -, htrue, -⟩ :=
    TrySetAt_collection sampleKeys keysGrown.pool sampleKeysSet.2 sampleKeys_valid.2.2 0
      (some [2, 97, 98]) none true rfl
  obtain ⟨prev2, pnew2, p2, -, hcand, -, hfalse⟩ :=
    TrySetAt_collection sampleKeys keysGrown.pool sampleKeysLost.2 sampleKeys_valid.2.2 0
      (some [2, 97, 98]) (some 77) false rfl
  have hprev0 : prev = 0 := by
    have e : sampleKeys.GetAt keysGrown.pool 0 = .ok 0 := rfl
    rw [e] at hprev
    exact (Except.ok.inj hprev).symm
  obtain ⟨t1, -, t3⟩ := htrue rfl
  obtain ⟨v, hv1, -, f1, f2, f3, -⟩ := hfalse rfl
  have hv77 : v = 77 := (Option.some.inj hv1).symm
  subst hv77
  have hpnew : pnew2 = 4 := by
    have e : make_candidate keysGrown.pool (some [2, 97, 98])
        = .ok (4, (resultOr (make_candidate keysGrown.pool (some [2, 97, 98]))
            (0, keysGrown.pool)).2) := rfl
    rw [e] at hcand
    simp only [Except.ok.injEq, Prod.mk.injEq] at hcand
    exact hcand.1.symm
  subst hpnew
  exact ⟨⟨t1, t3 hprev0⟩, f1, f2, f3⟩

end ExpandableArrayOfKeys

end Pql.UnmanagedLib

namespace Pql.UnmanagedLib

namespace MemoryPool

/-- When the oracle announces no failure, an allocation returns the fresh address
`next + 1`, and the oracle still announces no failure afterwards. -/
theorem zero_allocate_success (p : MemoryPool) (s n : Nat)
    (hout : ∀ x ∈ p.outcomes, x = true) :
    (p.zero_allocate s n).1 = p.next + 1
    ∧ (p.zero_allocate s n).2.next = p.next + 1
    ∧ (∀ x ∈ (p.zero_allocate s n).2.outcomes, x = true)
    ∧ ∃ al, (p.zero_allocate s n).2.mem (p.next + 1) = some al ∧ al.bytes = n * s := by
  unfold zero_allocate malloc
  rcases hcase : p.outcomes with _ | ⟨b, rest⟩
  · simp [memset_zero]
  · have hb : b = true := hout b (by rw [hcase]; exact List.mem_cons_self _ _)
    subst hb
    have hrest : ∀ x ∈ rest, x = true :=
      fun x hx => hout x (by rw [hcase]; exact List.mem_cons_of_mem _ hx)
    simp [memset_zero]
    intro hmem
    exact absurd (hrest false hmem) (by decide)

end MemoryPool

namespace ExpandableArrayImpl

/-- The spine capacity the code computes, when no step of its computation wraps
around. -/
theorem newListCapacity_of_fits (a : ExpandableArrayImpl) (n : Nat)
    (hG : 0 < a._blocksGrowth) (hfit : a.ListCapacityFits n) :
    a.newListCapacity n
      = (1 + n / (a._elementsPerBlock * a._blocksGrowth)) * a._blocksGrowth := by
  obtain ⟨h1, h2⟩ := hfit
  unfold newListCapacity
  have h3 : 1 + n / (a._elementsPerBlock * a._blocksGrowth) < SIZE_T_RANGE :=
    Nat.lt_of_le_of_lt (Nat.le_mul_of_pos_right _ hG) h2
  rw [wrap_size_t_of_lt h1, wrap_size_t_of_lt h3, wrap_size_t_of_lt h2]

/-- The requested block count, when the computation of the spine capacity does not wrap
around. -/
theorem requestedListCapacity_of_fits (a : ExpandableArrayImpl) (n : Nat)
    (hG : 0 < a._blocksGrowth) (hfit : a.ListCapacityFits n) :
    a.requestedListCapacity n = 1 + n / a._elementsPerBlock
      ∧ 1 + n / a._elementsPerBlock
          ≤ (1 + n / (a._elementsPerBlock * a._blocksGrowth)) * a._blocksGrowth := by
  have hle : 1 + n / a._elementsPerBlock
      ≤ (1 + n / (a._elementsPerBlock * a._blocksGrowth)) * a._blocksGrowth := by
    rw [← Nat.div_div_eq_div_mul]
    have h := lt_requested_capacity (n / a._elementsPerBlock) a._blocksGrowth hG
    omega
  refine ⟨?_, hle⟩
  unfold requestedListCapacity
  exact wrap_size_t_of_lt (Nat.lt_of_le_of_lt hle hfit.2)

/-- The requested block count fits the spine capacity the code computes, when the
computation of the spine capacity does not wrap around. -/
theorem requestedListCapacity_le_newListCapacity (a : ExpandableArrayImpl) (n : Nat)
    (hG : 0 < a._blocksGrowth) (hfit : a.ListCapacityFits n) :
    a.requestedListCapacity n ≤ a.newListCapacity n := by
  rw [newListCapacity_of_fits a n hG hfit, (requestedListCapacity_of_fits a n hG hfit).1]
  exact (requestedListCapacity_of_fits a n hG hfit).2

/-- With the block size and the growth of the bit vector and of the key array, the spine
capacity of every request that is a `size_t` is computed without wrap-around. -/
theorem ListCapacityFits_of_constants {a : ExpandableArrayImpl}
    (hE : a._elementsPerBlock = ITEMS_PER_BLOCK) (hG : a._blocksGrowth = BLOCKS_GROWTH)
    {n : Nat} (hn : n < SIZE_T_RANGE) : a.ListCapacityFits n := by
  unfold ListCapacityFits
  rw [hE, hG]
  unfold ITEMS_PER_BLOCK BLOCKS_GROWTH SIZE_T_RANGE at *
  constructor
  · decide
  · omega

/-- When the oracle announces no failure, the loop that allocates the missing blocks
stores in the spine entries `ix .. ix + count - 1` the fresh addresses
`next + 1 .. next + count`, each a live allocation of one block. -/
theorem allocate_missing_blocks_success (s E : Nat) (blockList : Ptr) :
    ∀ (count ix : Nat) (p p1 : MemoryPool),
      allocate_missing_blocks s E blockList count ix p = .ok p1 → blockList ≤ p.next →
      (∀ x ∈ p.outcomes, x = true) →
      (∀ x ∈ p1.outcomes, x = true)
      ∧ ∀ j, ix ≤ j → j < ix + count →
          p1.load blockList sizeof_ptr j = .ok (p.next + 1 + (j - ix))
          ∧ ∃ al, p1.mem (p.next + 1 + (j - ix)) = some al ∧ al.bytes = E * s := by
  intro count
  induction count with
  | zero =>
    intro ix p p1 h _ hout
    have := (Except.ok.inj h).symm
    subst this
    exact ⟨hout, fun j h1 h2 => absurd h2 (by omega)⟩
  | succ k ih =>
    intro ix p p1 h hL hout
    unfold allocate_missing_blocks at h
    simp only at h
    split at h
    · cases h
    · rename_i ps hstore
      obtain ⟨z1, z2, z3, al, hal, hbytes⟩ := MemoryPool.zero_allocate_success p s E hout
      obtain ⟨-, -, -, g3, g4, g5, -⟩ := MemoryPool.store_spec hstore
      have hLs : blockList ≤ ps.next := by
        rw [g3, z2]
        exact Nat.le_succ_of_le hL
      have houts : ∀ x ∈ ps.outcomes, x = true := by
        rw [g4]
        exact z3
      obtain ⟨i1, i2⟩ := ih (ix + 1) ps p1 h hLs houts
      obtain ⟨-, -, -, -, f5, f6⟩ := allocate_missing_blocks_frame _ _ _ _ _ _ _ h hLs
      have hpsn : ps.next = p.next + 1 := by rw [g3, z2]
      refine ⟨i1, ?_⟩
      intro j h1 h2
      by_cases hj : j = ix
      · subst hj
        rw [Nat.sub_self, Nat.add_zero]
        have hne : p.next + 1 ≠ blockList := Ne.symm (Nat.ne_of_lt (Nat.lt_succ_of_le hL))
        constructor
        · rw [f6 j sizeof_ptr (Nat.lt_succ_self j), MemoryPool.load_store_same hstore, z1]
        · refine ⟨al, ?_, hbytes⟩
          rw [f5 (p.next + 1) (by rw [hpsn]) hne, g5 _ hne]
          exact hal
      · have := i2 j (by omega) (by omega)
        rw [hpsn] at this
        have e : p.next + 1 + 1 + (j - (ix + 1)) = p.next + 1 + (j - ix) := by omega
        rw [e] at this
        exact this

end ExpandableArrayImpl

end Pql.UnmanagedLib

namespace Pql.UnmanagedLib

namespace ExpandableArrayImpl

/-- The copy loop does not consult the allocation oracle. -/
theorem copy_block_list_outcomes (oldList newList : Ptr) :
    ∀ (count ix : Nat) (p p1 : MemoryPool),
      copy_block_list oldList newList count ix p = .ok p1 → p1.outcomes = p.outcomes := by
  intro count
  induction count with
  | zero =>
    intro ix p p1 h
    have := (Except.ok.inj h).symm
    subst this
    rfl
  | succ k ih =>
    intro ix p p1 h
    unfold copy_block_list at h
    split at h
    · cases h
    · split at h
      · cases h
      · rename_i ps hstore
        rw [ih (ix + 1) ps p1 h]
        exact (MemoryPool.store_spec hstore).2.2.2.2.1

/-- When the oracle announces no failure, a growing call that returns leaves in the spine
entries from the old block count up to the requested block count consecutive fresh
addresses, each a live allocation of one block. -/
theorem try_ensure_capacity_new_blocks {a : ExpandableArrayImpl} {pool : MemoryPool}
    {n timeout : Nat} {ref : Ptr} {cap : Nat} {r : EnsureCapacityResult}
    (hLle : a._blockList ≤ pool.next) (hout : ∀ x ∈ pool.outcomes, x = true)
    (h : a.try_ensure_capacity pool n timeout ref cap = .ok r) (hlt : a.capacity < n) :
    (∀ x ∈ r.pool.outcomes, x = true)
    ∧ ∃ base : Nat, pool.next ≤ base ∧ (r.self._blockList : Nat) ≤ base
      ∧ ∀ b, a._blockCount ≤ b → b < a.requestedListCapacity n →
          r.pool.load r.self._blockList sizeof_ptr b = .ok (base + 1 + (b - a._blockCount))
          ∧ ∃ al, r.pool.mem (base + 1 + (b - a._blockCount)) = some al
              ∧ al.bytes = a._elementsPerBlock * a.sizeof_value_type := by
  rcases try_ensure_capacity_growth_path h hlt with
    ⟨-, p1, p2, hcopy, hfill, hp, hl, -, -⟩ | ⟨-, p2, hfill, hp, hl, -, -⟩
  · obtain ⟨z1, z2, z3, -⟩ := MemoryPool.zero_allocate_success pool a.sizeof_value_type
      (a.newListCapacity n) hout
    obtain ⟨-, -, c3, -⟩ := copy_block_list_frame _ _ _ _ _ _ hcopy
    have c4 := copy_block_list_outcomes _ _ _ _ _ _ hcopy
    have hnext : (if a._blockList ≠ 0 then p1.schedule_for_collection a._blockList
        else p1).next = pool.next + 1 := by
      have : (if a._blockList ≠ 0 then p1.schedule_for_collection a._blockList
          else p1).next = p1.next := by split <;> rfl
      rw [this, c3, z2]
    have houts : ∀ x ∈ (if a._blockList ≠ 0 then p1.schedule_for_collection a._blockList
        else p1).outcomes, x = true := by
      have : (if a._blockList ≠ 0 then p1.schedule_for_collection a._blockList
          else p1).outcomes = p1.outcomes := by split <;> rfl
      rw [this, c4]
      exact z3
    have hL : (pool.zero_allocate a.sizeof_value_type (a.newListCapacity n)).1
        ≤ (if a._blockList ≠ 0 then p1.schedule_for_collection a._blockList else p1).next := by
      rw [hnext, z1]
    obtain ⟨s1, s2⟩ := allocate_missing_blocks_success _ _ _ _ _ _ _ hfill hL houts
    rw [hp, hl]
    refine ⟨s1, pool.next + 1, Nat.le_succ _, by rw [z1], ?_⟩
    intro b hb1 hb2
    have := s2 b hb1 (by omega)
    rw [hnext] at this
    exact this
  · obtain ⟨s1, s2⟩ := allocate_missing_blocks_success _ _ _ _ _ _ _ hfill hLle hout
    rw [hp, hl]
    refine ⟨s1, pool.next, Nat.le_refl _, hLle, ?_⟩
    intro b hb1 hb2
    exact s2 b hb1 (by omega)

/-- A new array is valid over every pool that satisfies the allocator invariant. -/
theorem create_valid (sizeofT E G : Nat) (hE : 0 < E) (hG : 0 < G) (pool : MemoryPool)
    (hf : pool.Fresh) : (create sizeofT E G).Valid pool :=
  ⟨hE, hG, Nat.le_refl 0, hf, Nat.zero_le _,
    fun b hb => absurd hb (Nat.not_lt_zero b),
    fun b1 _ _ hb1 _ _ _ => absurd hb1 (Nat.not_lt_zero b1)⟩

/-- When the oracle announces no failure and the spine capacity of the request is
computed without wrap-around, a call of `try_ensure_capacity` that returns keeps the
data-model invariant: in particular after it every spine entry below the block count
holds a non-null pointer to a live block. -/
theorem try_ensure_capacity_valid {a : ExpandableArrayImpl} {pool : MemoryPool}
    {n timeout : Nat} {ref : Ptr} {cap : Nat} {r : EnsureCapacityResult}
    (hv : a.Valid pool) (hout : ∀ x ∈ pool.outcomes, x = true)
    (hfit : a.ListCapacityFits n)
    (h : a.try_ensure_capacity pool n timeout ref cap = .ok r) :
    r.self.Valid r.pool ∧ ∀ x ∈ r.pool.outcomes, x = true := by
  rcases try_ensure_capacity_cases h with ⟨-, hr⟩ | ⟨hlt, -, -, -, hcount, hepb, hgrow, hsize, -⟩
  · subst hr
    exact ⟨hv, hout⟩
  · obtain ⟨hfresh, hLle, hnext⟩ := try_ensure_capacity_fresh hv.fresh hv.blockList_le h
    obtain ⟨houts, base, hbase1, hbase2, hnew⟩ :=
      try_ensure_capacity_new_blocks hv.blockList_le hout h hlt
    have hold : ∀ b, b < a._blockCount →
        ∃ blk al, r.pool.load r.self._blockList sizeof_ptr b = .ok blk ∧ blk ≠ 0
          ∧ blk ≤ pool.next ∧ r.pool.mem blk = some al
          ∧ a._elementsPerBlock * a.sizeof_value_type ≤ al.bytes
          ∧ pool.load a._blockList sizeof_ptr b = .ok blk ∧ blk ≠ a._blockList := by
      intro b hb
      obtain ⟨blk, al, hblk, hblk0, hblkL, hal, hbytes⟩ := hv.populated b hb
      have hle := hv.fresh.le_next hal
      refine ⟨blk, al, try_ensure_capacity_spine_entry hv.fresh hv.count_le_capacity h hb hblk,
        hblk0, hle, ?_, hbytes, hblk, hblkL⟩
      rw [try_ensure_capacity_mem_frame hv.blockList_le h hblk0 hle hblkL]
      exact hal
    have hcap : r.self._blockCount ≤ r.self._blockCapacity := by
      rw [hcount]
      have hreq := requestedListCapacity_le_newListCapacity a n hv.blocksGrowth_pos hfit
      rcases try_ensure_capacity_growth_path h hlt with
        ⟨-, _, _, -, -, -, -, hc, -⟩ | ⟨hno, _, -, -, -, hc, -⟩
      · rw [hc]
        exact hreq
      · rw [hc]
        exact Nat.le_trans hreq (Nat.le_of_not_lt hno)
    refine ⟨⟨by rw [hepb]; exact hv.elementsPerBlock_pos, by rw [hgrow]; exact hv.blocksGrowth_pos,
      hcap, hfresh, hLle, ?_, ?_⟩, houts⟩
    · intro b hb
      rw [hcount] at hb
      rw [hepb, hsize]
      by_cases hbo : b < a._blockCount
      · obtain ⟨blk, al, h1, h2, h3, h4, h5, -, h7⟩ := hold b hbo
        refine ⟨blk, al, h1, h2, ?_, h4, h5⟩
        intro e
        rcases try_ensure_capacity_growth_path h hlt with
          ⟨-, _, _, -, -, -, hl, -, -⟩ | ⟨-, _, -, -, hl, -, -⟩
        · obtain ⟨z1, -⟩ := MemoryPool.zero_allocate_success pool a.sizeof_value_type
            (a.newListCapacity n) hout
          rw [hl, z1] at e
          rw [e] at h3
          exact absurd h3 (Nat.not_succ_le_self _)
        · rw [hl] at e
          exact h7 e
      · obtain ⟨h1, al, h2, h3⟩ := hnew b (Nat.le_of_not_lt hbo) hb
        have hgt : base < base + 1 + (b - a._blockCount) := by omega
        exact ⟨_, al, h1, Nat.ne_of_gt (Nat.lt_of_le_of_lt (Nat.zero_le _) hgt),
          Nat.ne_of_gt (Nat.lt_of_le_of_lt hbase2 hgt), h2, by rw [h3]⟩
    · intro b1 b2 blk hb1 hb2 h1 h2
      rw [hcount] at hb1 hb2
      by_cases hbo1 : b1 < a._blockCount
      · obtain ⟨blk1, -, g1, -, g3, -, -, g6, -⟩ := hold b1 hbo1
        have e1 : blk1 = blk := Except.ok.inj (g1.symm.trans h1)
        subst e1
        by_cases hbo2 : b2 < a._blockCount
        · obtain ⟨blk2, -, k1, -, -, -, -, k6, -⟩ := hold b2 hbo2
          have e2 : blk2 = blk1 := Except.ok.inj (k1.symm.trans h2)
          subst e2
          exact hv.distinct b1 b2 blk2 hbo1 hbo2 g6 k6
        · obtain ⟨k1, -⟩ := hnew b2 (Nat.le_of_not_lt hbo2) hb2
          have e2 := Except.ok.inj (k1.symm.trans h2)
          omega
      · obtain ⟨g1, -⟩ := hnew b1 (Nat.le_of_not_lt hbo1) hb1
        have e1 := Except.ok.inj (g1.symm.trans h1)
        by_cases hbo2 : b2 < a._blockCount
        · obtain ⟨blk2, -, k1, -, k3, -, -, -, -⟩ := hold b2 hbo2
          have e2 : blk2 = blk := Except.ok.inj (k1.symm.trans h2)
          omega
        · obtain ⟨k1, -⟩ := hnew b2 (Nat.le_of_not_lt hbo2) hb2
          have e2 := Except.ok.inj (k1.symm.trans h2)
          omega

end ExpandableArrayImpl

end Pql.UnmanagedLib

namespace Pql.UnmanagedLib

namespace MemoryPool

/-- A write keeps every allocation live, with its size. -/
theorem store_keeps_live {p p1 : MemoryPool} {ptr : Ptr} {s ix v : Nat}
    (h : p.store ptr s ix v = .ok p1) {q : Ptr} {al : Allocation} (hq : p.mem q = some al) :
    ∃ al1, p1.mem q = some al1 ∧ al1.bytes = al.bytes := by
  obtain ⟨-, -, -, -, -, g5, al0, hal0, -, hm⟩ := store_spec h
  by_cases e : q = ptr
  · subst e
    rw [hal0] at hq
    have := Option.some.inj hq
    subst this
    exact ⟨_, hm, rfl⟩
  · exact ⟨al, by rw [g5 q e]; exact hq, rfl⟩

end MemoryPool

namespace ExpandableArrayOfKeys

/-- A `TrySetAt` that returns keeps the allocator invariant and keeps every allocation
made before it live, with its size. -/
theorem TrySetAt_keeps_live {k : ExpandableArrayOfKeys} {pool pool1 : MemoryPool} {index : Nat}
    {pdata : Option (List Nat)} {rival : Option Ptr} {res : Bool}
    (hf : pool.Fresh) (h : k.TrySetAt pool index pdata rival = .ok (res, pool1)) :
    pool1.Fresh ∧ pool.next ≤ pool1.next
    ∧ ∀ q al, q ≠ 0 → q ≤ pool.next → pool.mem q = some al →
        ∃ al1, pool1.mem q = some al1 ∧ al1.bytes = al.bytes := by
  obtain ⟨-, pnew, p1, blk, prev, p2, found, p3, hcand, -, -, hrival, hcas, hres⟩ :=
    TrySetAt_path h
  obtain ⟨-, -, c3, c4, c5, c6⟩ := make_candidate_spec hcand
  have hpnew : pnew = 0 ∨ pnew = pool.next + 1 := by
    rcases c6 with ⟨-, e, -⟩ | ⟨_, _, -, -, -, e, -⟩
    · exact Or.inl e
    · exact Or.inr e
  have h2 : p2.Fresh ∧ p2.next = p1.next
      ∧ ∀ q al, p1.mem q = some al → ∃ al1, p2.mem q = some al1 ∧ al1.bytes = al.bytes := by
    cases rival with
    | none =>
      have := (Except.ok.inj hrival).symm
      subst this
      exact ⟨c3 hf, rfl, fun q al hq => ⟨al, hq, rfl⟩⟩
    | some v =>
      exact ⟨MemoryPool.store_fresh (c3 hf) hrival, (MemoryPool.store_spec hrival).2.2.2.1,
        fun q al hq => MemoryPool.store_keeps_live hrival hq⟩
  obtain ⟨f2, n2, l2⟩ := h2
  have h3 : p3.Fresh ∧ p3.next = p2.next
      ∧ ∀ q al, p2.mem q = some al → ∃ al1, p3.mem q = some al1 ∧ al1.bytes = al.bytes := by
    rcases (InterlockedCompareExchangePointer_spec hcas).2 with ⟨-, hst⟩ | ⟨-, e⟩
    · exact ⟨MemoryPool.store_fresh f2 hst, (MemoryPool.store_spec hst).2.2.2.1,
        fun q al hq => MemoryPool.store_keeps_live hst hq⟩
    · subst e
      exact ⟨f2, rfl, fun q al hq => ⟨al, hq, rfl⟩⟩
  obtain ⟨f3, n3, l3⟩ := h3
  have hfin : pool1.Fresh ∧ pool1.next = p3.next
      ∧ ∀ q, q ≠ 0 → q ≤ pool.next → pool1.mem q = p3.mem q := by
    rcases hres with ⟨-, -, e⟩ | ⟨-, -, e⟩
    · subst e
      by_cases hp : pnew ≠ 0
      · rw [if_pos hp]
        refine ⟨?_, rfl, ?_⟩
        · intro q hq
          show (if q = pnew then none else p3.mem q) = none
          split
          · rfl
          · exact f3 q hq
        · intro q _ hqle
          have hne : q ≠ pnew := by
            rcases hpnew with e0 | e0
            · exact absurd e0 hp
            · rw [e0]
              exact Nat.ne_of_lt (Nat.lt_succ_of_le hqle)
          show (if q = pnew then none else p3.mem q) = p3.mem q
          rw [if_neg hne]
      · rw [if_neg hp]
        exact ⟨f3, rfl, fun _ _ _ => rfl⟩
    · subst e
      refine ⟨?_, ?_, ?_⟩
      · split
        · exact f3
        · exact f3
      · split <;> rfl
      · intro q _ _
        split <;> rfl
  obtain ⟨f4, n4, l4⟩ := hfin
  refine ⟨f4, ?_, ?_⟩
  · rw [n4, n3, n2]
    exact c4
  · intro q al hq0 hqle hq
    have hq1 : p1.mem q = some al := by
      rw [c5 q (Nat.ne_of_lt (Nat.lt_succ_of_le hqle))]
      exact hq
    obtain ⟨al2, ha2, hb2⟩ := l2 q al hq1
    obtain ⟨al3, ha3, hb3⟩ := l3 q al2 ha2
    exact ⟨al3, by rw [l4 q hq0 hqle]; exact ha3, hb3.trans hb2⟩

/-- A `TrySetAt` that returns keeps the data-model invariant of the key array. -/
theorem TrySetAt_valid {k : ExpandableArrayOfKeys} {pool pool1 : MemoryPool} {index : Nat}
    {pdata : Option (List Nat)} {rival : Option Ptr} {res : Bool}
    (hv : k.Valid pool) (h : k.TrySetAt pool index pdata rival = .ok (res, pool1)) :
    k.Valid pool1 := by
  have hi := (TrySetAt_path h).1
  obtain ⟨hfresh1, hnext, hlive⟩ := TrySetAt_keeps_live hv.array.fresh h
  obtain ⟨pnew, p1, blk, prev, hcand, hblk, hprev, hblkL, hblkle, hLle, hblkpnew, hslots,
    htrue, hfalse⟩ := TrySetAt_effect hv h
  obtain ⟨-, -, -, -, c5, c6⟩ := make_candidate_spec hcand
  obtain ⟨hL0, -⟩ := MemoryPool.load_ok_live hblk
  have hpnew : pnew = 0 ∨ pnew = pool.next + 1 := by
    rcases c6 with ⟨-, e, -⟩ | ⟨_, _, -, -, -, e, -⟩
    · exact Or.inl e
    · exact Or.inr e
  have hspine : pool1.mem k._pData = pool.mem k._pData := by
    cases res with
    | true =>
      obtain ⟨-, -, -, hmem⟩ := htrue rfl
      rw [hmem _ (Ne.symm hblkL), c5 _ (Nat.ne_of_lt (Nat.lt_succ_of_le hLle))]
    | false =>
      obtain ⟨v, -, -, -, -, -, hmem⟩ := hfalse rfl
      apply hmem _ (Ne.symm hblkL)
      rcases hpnew with e | e
      · rw [e]
        exact hL0
      · rw [e]
        exact Nat.ne_of_lt (Nat.lt_succ_of_le hLle)
  have hload : ∀ b, pool1.load k._pArray._blockList sizeof_ptr b
      = pool.load k._pArray._blockList sizeof_ptr b := by
    intro b
    rw [← hv.data]
    exact MemoryPool.load_congr hspine _ _
  refine ⟨⟨hv.array.elementsPerBlock_pos, hv.array.blocksGrowth_pos, hv.array.count_le_capacity,
    hfresh1, Nat.le_trans hv.array.blockList_le hnext, ?_, ?_⟩,
    hv.data, hv.capacity, hv.elementsPerBlock, hv.sizeof_value_type⟩
  · intro b hb
    obtain ⟨blkb, al, q1, q2, q3, q4, q5⟩ := hv.array.populated b hb
    obtain ⟨al1, r1, r2⟩ := hlive blkb al q2 (hv.array.fresh.le_next q4) q4
    exact ⟨blkb, al1, by rw [hload]; exact q1, q2, q3, r1, by rw [r2]; exact q5⟩
  · intro b1 b2 blkb hb1 hb2 h1 h2
    rw [hload] at h1 h2
    exact hv.array.distinct b1 b2 blkb hb1 hb2 h1 h2

end ExpandableArrayOfKeys

end Pql.UnmanagedLib

namespace Pql.UnmanagedLib

namespace ExpandableArrayOfKeys

/-- When the oracle announces no failure, a `TryEnsureCapacity` that returns keeps the
data-model invariant of the key array, cached spine pointer and capacity included. -/
theorem TryEnsureCapacity_valid {k k1 : ExpandableArrayOfKeys} {pool pool1 : MemoryPool}
    {capacity timeout : Nat} {res : Bool}
    (hv : k.Valid pool) (hout : ∀ x ∈ pool.outcomes, x = true)
    (hG : k._pArray._blocksGrowth = BLOCKS_GROWTH) (hc : capacity < SIZE_T_RANGE)
    (h : k.TryEnsureCapacity pool capacity timeout = .ok (res, k1, pool1)) :
    k1.Valid pool1 ∧ (∀ x ∈ pool1.outcomes, x = true)
      ∧ k1._pArray._blocksGrowth = BLOCKS_GROWTH := by
  unfold TryEnsureCapacity at h
  split at h
  · split at h
    · cases h
    · rename_i r hr
      simp only [Except.ok.injEq, Prod.mk.injEq] at h
      obtain ⟨-, h2, h3⟩ := h
      subst h2 h3
      obtain ⟨hvr, houtr⟩ := ExpandableArrayImpl.try_ensure_capacity_valid hv.array hout
        (ExpandableArrayImpl.ListCapacityFits_of_constants hv.elementsPerBlock hG hc) hr
      have hE : r.self._elementsPerBlock = k._pArray._elementsPerBlock
          ∧ r.self.sizeof_value_type = k._pArray.sizeof_value_type
          ∧ r.self._blocksGrowth = k._pArray._blocksGrowth := by
        rcases ExpandableArrayImpl.try_ensure_capacity_cases hr with
          ⟨-, e⟩ | ⟨-, -, -, -, -, e1, e3, e2, -⟩
        · rw [e]
          exact ⟨rfl, rfl, rfl⟩
        · exact ⟨e1, e2, e3⟩
      refine ⟨⟨hvr, ?_, ?_, hE.1.trans hv.elementsPerBlock, hE.2.1.trans hv.sizeof_value_type⟩,
        houtr, hE.2.2.trans hG⟩
      · show r.ref = r.self._blockList
        rcases ExpandableArrayImpl.try_ensure_capacity_cases hr with ⟨-, e⟩ | ⟨hlt, -⟩
        · rw [e]
          exact hv.data
        · rcases ExpandableArrayImpl.try_ensure_capacity_growth_path hr hlt with
            ⟨-, _, _, -, -, -, -, -, e⟩ | ⟨-, _, -, -, e1, -, e2⟩
          · exact e
          · rw [e1, e2]
            exact hv.data
      · show r.cap = r.self.capacity
        rcases ExpandableArrayImpl.try_ensure_capacity_cases hr with
          ⟨-, e⟩ | ⟨-, -, -, -, -, -, -, -, e⟩
        · rw [e]
          exact hv.capacity
        · exact e
  · simp only [Except.ok.injEq, Prod.mk.injEq] at h
    obtain ⟨-, h2, h3⟩ := h
    subst h2 h3
    exact ⟨hv, hout, hG⟩

end ExpandableArrayOfKeys

end Pql.UnmanagedLib

namespace Pql.UnmanagedLib

/-- The test `0 != (v & (1 << k))` reads bit `k` of `v`. -/
theorem mask_test (v k : Nat) : decide (0 ≠ v &&& (1 <<< k)) = v.testBit k := by
  rw [Nat.one_shiftLeft, Nat.and_two_pow]
  cases v.testBit k
  · simp
  · simp
    exact Nat.ne_of_lt (Nat.two_pow_pos k)

/-- Setting bit `k` of a byte: bit `m < 8` of `(v | (1 << k)) % 256`. -/
theorem testBit_set_mask (v k m : Nat) (hm : m < 8) :
    ((v ||| (1 <<< k)) % 256).testBit m = (v.testBit m || decide (k = m)) := by
  have h256 : (256 : Nat) = 2 ^ 8 := by norm_num
  rw [h256, Nat.testBit_mod_two_pow, Nat.testBit_or, Nat.one_shiftLeft, Nat.testBit_two_pow]
  simp [hm]

/-- Clearing bit `k` of a byte: bit `m < 8` of `v & ~(1 << k)`. -/
theorem testBit_clear_mask (v k m : Nat) (hm : m < 8) :
    (v &&& not_uint8 (1 <<< k)).testBit m = (v.testBit m && !decide (k = m)) := by
  have h255 : (255 : Nat) = 2 ^ 8 - 1 := by norm_num
  unfold not_uint8
  rw [Nat.testBit_and, Nat.testBit_xor, Nat.one_shiftLeft, Nat.testBit_two_pow, h255,
    Nat.testBit_two_pow_sub_one]
  simp [hm]

/-- Two bit indices in the same block and the same byte of the block differ by less than
a byte. -/
theorem same_byte_of_same_place {i j : Nat}
    (hblock : j / BITS_PER_BLOCK = i / BITS_PER_BLOCK)
    (hbyte : (j / BITS_PER_ITEM) % ITEMS_PER_BLOCK = (i / BITS_PER_ITEM) % ITEMS_PER_BLOCK) :
    j / BITS_PER_ITEM = i / BITS_PER_ITEM := by
  unfold BITS_PER_BLOCK ITEMS_PER_BLOCK BITS_PER_ITEM at *
  omega

end Pql.UnmanagedLib

namespace Pql.UnmanagedLib

namespace BitVector

/-- `Get` tests bit `index % 8` of the byte `GetGroup` returns. -/
theorem Get_eq_GetGroup (b : BitVector) (pool : MemoryPool) (index : Nat) :
    b.Get pool index
      = (match b.GetGroup pool index with
        | .ok v => .ok (v.testBit (index % BITS_PER_ITEM))
        | .error e => .error e) := by
  unfold Get GetGroup
  cases b.pValue pool index with
  | error e => rfl
  | ok r =>
    simp only
    cases pool.load r.block sizeof_uint8_t r.index with
    | error e => rfl
    | ok v =>
      simp only
      rw [mask_test]

/-- In a valid bit vector the byte of every bit below `Capacity` can be read: its spine
entry holds a live block of `ITEMS_PER_BLOCK` bytes, other than the spine. -/
theorem Valid.place {b : BitVector} {pool : MemoryPool} (hv : b.Valid pool)
    {i : Nat} (hi : i < b.Capacity) :
    ∃ blk byte,
      pool.load b._pData sizeof_ptr (i / BITS_PER_BLOCK) = .ok blk
      ∧ b.pValue pool i
          = .ok { block := blk, index := (i / BITS_PER_ITEM) % ITEMS_PER_BLOCK }
      ∧ pool.load blk sizeof_uint8_t ((i / BITS_PER_ITEM) % ITEMS_PER_BLOCK) = .ok byte
      ∧ blk ≠ 0 ∧ blk ≠ b._pData ∧ blk ≤ pool.next ∧ b._pData ≤ pool.next
      ∧ i / BITS_PER_BLOCK < b._pArray._blockCount := by
  have hb : i / BITS_PER_BLOCK < b._pArray._blockCount := by
    apply Nat.div_lt_of_lt_mul
    have h1 : b.Capacity ≤ b._pArray._blockCount * b._pArray._elementsPerBlock * BITS_PER_ITEM := by
      unfold Capacity
      rw [hv.capacity]
      exact Nat.mul_le_mul_right _ (ExpandableArrayImpl.capacity_le_mul _)
    have hi1 := Nat.lt_of_lt_of_le hi h1
    rw [hv.elementsPerBlock] at hi1
    unfold BITS_PER_BLOCK
    rw [Nat.mul_comm (ITEMS_PER_BLOCK * BITS_PER_ITEM), ← Nat.mul_assoc]
    exact hi1
  obtain ⟨blk, al, hblk, hblk0, hblkL, hal, hbytes⟩ := hv.array.populated _ hb
  rw [← hv.data] at hblk hblkL
  obtain ⟨-, alL, halL, -, -⟩ := MemoryPool.load_ok_live hblk
  have hroom : ((i / BITS_PER_ITEM) % ITEMS_PER_BLOCK + 1) * sizeof_uint8_t ≤ al.bytes := by
    rw [hv.elementsPerBlock, hv.sizeof_value_type] at hbytes
    exact Nat.le_trans
      (Nat.mul_le_mul_right _ (Nat.mod_lt _ (by decide : 0 < ITEMS_PER_BLOCK))) hbytes
  refine ⟨blk, al.cells ((i / BITS_PER_ITEM) % ITEMS_PER_BLOCK), hblk, ?_,
    MemoryPool.load_of_mem hblk0 hal hroom, hblk0, hblkL,
    hv.array.fresh.le_next hal, hv.array.fresh.le_next halL, hb⟩
  unfold pValue
  rw [hblk]

/-- A byte below `Capacity` of a valid bit vector is read by `GetGroup`, and `Get` reads
its bits. -/
theorem Valid.read {b : BitVector} {pool : MemoryPool} (hv : b.Valid pool)
    {i : Nat} (hi : i < b.Capacity) :
    ∃ byte, b.GetGroup pool i = .ok byte
      ∧ b.Get pool i = .ok (byte.testBit (i % BITS_PER_ITEM)) := by
  obtain ⟨blk, byte, -, hp, hbyte, -⟩ := hv.place hi
  have hg : b.GetGroup pool i = .ok byte := by
    unfold GetGroup
    rw [hp]
    exact hbyte
  refine ⟨byte, hg, ?_⟩
  rw [Get_eq_GetGroup, hg]

/-- Writing a byte `w` in place of the byte of bit `i`, in a valid bit vector: the vector
stays valid, the bytes of the other bits are read as before, and the byte of `i` is
`w`. Nothing but the block written changes. -/
theorem store_byte_effect {b : BitVector} {pool pool1 : MemoryPool} (hv : b.Valid pool)
    {i : Nat} (hi : i < b.Capacity) {r : ElementRef} (hp : b.pValue pool i = .ok r) {w : Nat}
    (hs : pool.store r.block sizeof_uint8_t r.index w = .ok pool1) :
    b.Valid pool1
    ∧ pool1.next = pool.next ∧ pool1._garbage = pool._garbage ∧ pool1.freed = pool.freed
    ∧ pool1.outcomes = pool.outcomes
    ∧ r.block ≤ pool.next ∧ r.block ≠ 0
    ∧ (∀ q, q ≠ r.block → pool1.mem q = pool.mem q)
    ∧ ∀ j, j < b.Capacity →
        (j / BITS_PER_ITEM = i / BITS_PER_ITEM → b.GetGroup pool1 j = .ok w)
        ∧ (j / BITS_PER_ITEM ≠ i / BITS_PER_ITEM → b.GetGroup pool1 j = b.GetGroup pool j) := by
  obtain ⟨blk, byte, hblk, hp2, hbyte, hblk0, hblkL, hblkle, hLle, hbi⟩ := hv.place hi
  rw [hp2] at hp
  have hr := (Except.ok.inj hp).symm
  subst hr
  simp only at hs
  obtain ⟨-, g1, g2, g3, g4, g5, -⟩ := MemoryPool.store_spec hs
  have hspine : ∀ x, pool1.load b._pData sizeof_ptr x = pool.load b._pData sizeof_ptr x :=
    fun x => MemoryPool.load_store_other_ptr hs b._pData _ x (Ne.symm hblkL)
  have hvalid : b.Valid pool1 := by
    refine ⟨⟨hv.array.elementsPerBlock_pos, hv.array.blocksGrowth_pos,
      hv.array.count_le_capacity, MemoryPool.store_fresh hv.array.fresh hs, ?_, ?_, ?_⟩,
      hv.data, hv.capacity, hv.elementsPerBlock, hv.sizeof_value_type⟩
    · rw [g3]
      exact hv.array.blockList_le
    · intro x hx
      obtain ⟨blkx, al, q1, q2, q3, q4, q5⟩ := hv.array.populated x hx
      obtain ⟨al1, r1, r2⟩ := MemoryPool.store_keeps_live hs q4
      refine ⟨blkx, al1, ?_, q2, q3, r1, by rw [r2]; exact q5⟩
      rw [← hv.data, hspine, hv.data]
      exact q1
    · intro b1 b2 blkx hb1 hb2 h1 h2
      rw [← hv.data, hspine, hv.data] at h1 h2
      exact hv.array.distinct b1 b2 blkx hb1 hb2 h1 h2
  refine ⟨hvalid, g3, g1, g2, g4, hblkle, hblk0, g5, ?_⟩
  intro j hj
  obtain ⟨blkj, bytej, hblkj, hpj, hbytej, -, -, -, -, hbj⟩ := hv.place hj
  have hpj1 : b.pValue pool1 j
      = .ok { block := blkj, index := (j / BITS_PER_ITEM) % ITEMS_PER_BLOCK } := by
    unfold pValue
    rw [hspine, hblkj]
  have hgj : b.GetGroup pool j = .ok bytej := by
    unfold GetGroup
    rw [hpj]
    exact hbytej
  constructor
  · intro hsame
    have hblock : j / BITS_PER_BLOCK = i / BITS_PER_BLOCK := by
      unfold BITS_PER_BLOCK ITEMS_PER_BLOCK BITS_PER_ITEM at *
      omega
    have hblkeq : blkj = blk := by
      rw [hblock, hblk] at hblkj
      exact (Except.ok.inj hblkj).symm
    unfold GetGroup
    rw [hpj1, hblkeq, hsame]
    exact MemoryPool.load_store_same hs
  · intro hdiff
    unfold GetGroup
    rw [hpj1, hpj]
    show pool1.load blkj _ _ = pool.load blkj _ _
    by_cases hsame : blkj = blk
    · subst hsame
      rw [hv.data] at hblkj hblk
      have hblock : j / BITS_PER_BLOCK = i / BITS_PER_BLOCK :=
        hv.array.distinct _ _ _ hbj hbi hblkj hblk
      have hidx : (j / BITS_PER_ITEM) % ITEMS_PER_BLOCK
          ≠ (i / BITS_PER_ITEM) % ITEMS_PER_BLOCK :=
        fun e => hdiff (same_byte_of_same_place hblock e)
      exact MemoryPool.load_store_other_index hs _ _ hidx
    · exact MemoryPool.load_store_other_ptr hs blkj _ _ hsame

end BitVector

end Pql.UnmanagedLib

namespace Pql.UnmanagedLib

/-- An element that can be read can be written. -/
theorem MemoryPool.store_of_load {p : MemoryPool} {ptr : Ptr} {s ix v : Nat}
    (h : p.load ptr s ix = .ok v) (w : Nat) : ∃ p1, p.store ptr s ix w = .ok p1 := by
  unfold MemoryPool.load at h
  unfold MemoryPool.store
  split at h
  · cases h
  · rename_i h0
    rw [if_neg h0]
    split at h
    · cases h
    · split at h
      · rename_i hb
        simp only [if_pos hb]
        exact ⟨_, rfl⟩
      · cases h

namespace BitVector

/-- Bits of one byte have one spine entry and one byte index. -/
theorem pValue_congr (b : BitVector) (pool : MemoryPool) {i j : Nat}
    (h : j / BITS_PER_ITEM = i / BITS_PER_ITEM) : b.pValue pool j = b.pValue pool i := by
  have hblock : j / BITS_PER_BLOCK = i / BITS_PER_BLOCK := by
    unfold BITS_PER_BLOCK ITEMS_PER_BLOCK BITS_PER_ITEM at *
    omega
  unfold pValue
  rw [hblock, h]

/-- Two bit indices of one byte at one place in it are equal. -/
theorem eq_of_same_byte_same_bit {i j : Nat} (h : j / BITS_PER_ITEM = i / BITS_PER_ITEM)
    (hm : j % BITS_PER_ITEM = i % BITS_PER_ITEM) : j = i := by
  unfold BITS_PER_ITEM at *
  omega

/-- Replacing the byte `v` of bit `i` by a byte `w` whose low eight bits are those of `v`
but for bit `i % 8`, which is `bit`: the vector stays valid, bit `i` reads `bit` and all
other bits below `Capacity` read as before. -/
theorem store_bit_effect {b : BitVector} {pool pool1 : MemoryPool} (hv : b.Valid pool)
    {i : Nat} (hi : i < b.Capacity) {r : ElementRef} (hp : b.pValue pool i = .ok r) {v w : Nat}
    (hl : pool.load r.block sizeof_uint8_t r.index = .ok v)
    (hs : pool.store r.block sizeof_uint8_t r.index w = .ok pool1) {bit : Bool}
    (hw : ∀ m, m < 8 → w.testBit m
      = if i % BITS_PER_ITEM = m then bit else v.testBit m) :
    b.Valid pool1 ∧ b.Get pool1 i = .ok bit
    ∧ ∀ j, j ≠ i → j < b.Capacity → b.Get pool1 j = b.Get pool j := by
  obtain ⟨hv1, -, -, -, -, -, -, -, hbytes⟩ := store_byte_effect hv hi hp hs
  have h8 : ∀ x, x % BITS_PER_ITEM < 8 := fun x => Nat.mod_lt _ (by decide)
  refine ⟨hv1, ?_, ?_⟩
  · rw [Get_eq_GetGroup, (hbytes i hi).1 rfl]
    simp only
    rw [hw _ (h8 i), if_pos rfl]
  · intro j hj hjc
    by_cases hsame : j / BITS_PER_ITEM = i / BITS_PER_ITEM
    · have hg : b.GetGroup pool j = .ok v := by
        unfold GetGroup
        rw [pValue_congr b pool hsame, hp]
        exact hl
      rw [Get_eq_GetGroup, Get_eq_GetGroup, (hbytes j hjc).1 hsame, hg]
      simp only
      rw [hw _ (h8 j), if_neg]
      intro e
      exact hj (eq_of_same_byte_same_bit hsame e.symm)
    · rw [Get_eq_GetGroup, Get_eq_GetGroup, (hbytes j hjc).2 hsame]

/-- Effect of `Set(i)` below `Capacity`: it returns, keeps the vector valid, makes bit `i`
read true and leaves the other bits as they were. -/
theorem Set_effect {b : BitVector} {pool : MemoryPool} (hv : b.Valid pool)
    {i : Nat} (hi : i < b.Capacity) :
    ∃ pool1, b.Set pool i = .ok pool1 ∧ b.Valid pool1 ∧ b.Get pool1 i = .ok true
      ∧ ∀ j, j ≠ i → j < b.Capacity → b.Get pool1 j = b.Get pool j := by
  obtain ⟨blk, byte, -, hp, hbyte, -⟩ := hv.place hi
  obtain ⟨pool1, hs⟩ := MemoryPool.store_of_load hbyte
    ((byte ||| (1 <<< (i % BITS_PER_ITEM))) % 256)
  refine ⟨pool1, ?_, store_bit_effect hv hi hp hbyte hs ?_⟩
  · unfold Set
    rw [hp]
    simp only
    rw [hbyte]
    exact hs
  · intro m hm
    rw [testBit_set_mask _ _ _ hm]
    by_cases e : i % BITS_PER_ITEM = m <;> simp [e]

/-- Effect of `Clear(i)` below `Capacity`: it returns, keeps the vector valid, makes bit
`i` read false and leaves the other bits as they were. -/
theorem Clear_effect {b : BitVector} {pool : MemoryPool} (hv : b.Valid pool)
    {i : Nat} (hi : i < b.Capacity) :
    ∃ pool1, b.Clear pool i = .ok pool1 ∧ b.Valid pool1 ∧ b.Get pool1 i = .ok false
      ∧ ∀ j, j ≠ i → j < b.Capacity → b.Get pool1 j = b.Get pool j := by
  obtain ⟨blk, byte, -, hp, hbyte, -⟩ := hv.place hi
  obtain ⟨pool1, hs⟩ := MemoryPool.store_of_load hbyte
    (byte &&& not_uint8 (1 <<< (i % BITS_PER_ITEM)))
  refine ⟨pool1, ?_, store_bit_effect hv hi hp hbyte hs ?_⟩
  · unfold Clear
    rw [hp]
    simp only
    rw [hbyte]
    exact hs
  · intro m hm
    rw [testBit_clear_mask _ _ _ hm]
    by_cases e : i % BITS_PER_ITEM = m <;> simp [e]

/-- C16: in a valid bit vector, bit `i < Capacity` is bit `i mod 8` of byte
`(i / 8) mod 65536` of the block in spine entry `i / (65536 * 8)`; `Set(i)` returns and makes
`Get(i)` true, `Clear(i)` returns and makes `Get(i)` false, and each leaves `Get(j)`
unchanged for every other `j < Capacity`. -/
theorem Set_Clear_Get_placement (b : BitVector) (pool : MemoryPool) (i : Nat)
    (hv : b.Valid pool) (hi : i < b.Capacity) :
    (∃ blk byte, pool.load b._pData sizeof_ptr (i / (65536 * 8)) = .ok blk
      ∧ pool.load blk sizeof_uint8_t ((i / 8) % 65536) = .ok byte
      ∧ b.Get pool i = .ok (byte.testBit (i % 8)))
    ∧ (∃ pool1, b.Set pool i = .ok pool1 ∧ b.Get pool1 i = .ok true
        ∧ ∀ j, j ≠ i → j < b.Capacity → b.Get pool1 j = b.Get pool j)
    ∧ (∃ pool1, b.Clear pool i = .ok pool1 ∧ b.Get pool1 i = .ok false
        ∧ ∀ j, j ≠ i → j < b.Capacity → b.Get pool1 j = b.Get pool j) := by
  refine ⟨?_, ?_, ?_⟩
  · obtain ⟨blk, byte, hblk, hp, hbyte, -⟩ := hv.place hi
    refine ⟨blk, byte, hblk, hbyte, ?_⟩
    rw [Get_eq_GetGroup]
    unfold GetGroup
    rw [hp]
    simp only
    rw [hbyte]
    rfl
  · obtain ⟨pool1, h1, -, h2, h3⟩ := Set_effect hv hi
    exact ⟨pool1, h1, h2, h3⟩
  · obtain ⟨pool1, h1, -, h2, h3⟩ := Clear_effect hv hi
    exact ⟨pool1, h1, h2, h3⟩

end BitVector

end Pql.UnmanagedLib

namespace Pql.UnmanagedLib

/-- A call of `try_ensure_capacity` that returns keeps the caches passed by reference in
line with the array: `*ref` is the spine and `*cap` the capacity, when they were before;
the block size, the growth and the element size do not change. -/
theorem ExpandableArrayImpl.try_ensure_capacity_cache {a : ExpandableArrayImpl}
    {pool : MemoryPool} {n timeout : Nat} {ref : Ptr} {cap : Nat} {r : EnsureCapacityResult}
    (h : a.try_ensure_capacity pool n timeout ref cap = .ok r)
    (href : ref = a._blockList) (hcap : cap = a.capacity) :
    r.ref = r.self._blockList ∧ r.cap = r.self.capacity
    ∧ r.self._elementsPerBlock = a._elementsPerBlock
    ∧ r.self.sizeof_value_type = a.sizeof_value_type ∧ r.returned = true := by
  rcases ExpandableArrayImpl.try_ensure_capacity_cases h with
    ⟨-, e⟩ | ⟨hlt, -, -, hret, -, e1, -, e2, e3⟩
  · rw [e]
    exact ⟨href, hcap, rfl, rfl, rfl⟩
  · refine ⟨?_, e3, e1, e2, hret⟩
    rcases ExpandableArrayImpl.try_ensure_capacity_growth_path h hlt with
      ⟨-, _, _, -, -, -, -, -, e⟩ | ⟨-, _, -, -, e4, -, e5⟩
    · exact e
    · rw [e4, e5]
      exact href

namespace BitVector

/-- The vector `Initialize` builds is the empty vector `newBits`; it is valid over the
pool the call leaves, and has capacity 0. -/
theorem Initialize_valid {pool pool1 : MemoryPool} {b : BitVector} (hf : pool.Fresh)
    (hout : ∀ x ∈ pool.outcomes, x = true) (h : Initialize pool = .ok (b, pool1)) :
    b = newBits ∧ b.Valid pool1 ∧ b.Capacity = 0 ∧ ∀ x ∈ pool1.outcomes, x = true := by
  unfold Initialize at h
  simp only at h
  split at h
  · cases h
  · simp only [Except.ok.injEq, Prod.mk.injEq] at h
    obtain ⟨h1, h2⟩ := h
    subst h1 h2
    exact ⟨rfl, ⟨ExpandableArrayImpl.create_valid _ _ _ (by decide) (by decide) _
      (MemoryPool.zero_allocate_fresh pool sizeof_uint8_t sizeof_dataarray_t hf),
      rfl, rfl, rfl, rfl⟩, rfl,
      (MemoryPool.zero_allocate_success pool sizeof_uint8_t sizeof_dataarray_t hout).2.2.1⟩

/-- When the oracle announces no failure, a call of `TryEnsureCapacity` that returns
keeps the vector valid, and returns true. -/
theorem TryEnsureCapacity_bits_valid {b b1 : BitVector} {pool pool1 : MemoryPool}
    {capacity timeout : Nat} {res : Bool}
    (hv : b.Valid pool) (hout : ∀ x ∈ pool.outcomes, x = true)
    (hG : b._pArray._blocksGrowth = BLOCKS_GROWTH) (hc : capacity < SIZE_T_RANGE)
    (h : b.TryEnsureCapacity pool capacity timeout = .ok (res, b1, pool1)) :
    b1.Valid pool1 ∧ (∀ x ∈ pool1.outcomes, x = true) ∧ res = true
    ∧ (0 < capacity → capacity < b1.Capacity) ∧ pool.next ≤ pool1.next
    ∧ (∀ q, q ≠ 0 → q ≤ pool.next → q ≠ b._pData → pool1.mem q = pool.mem q)
    ∧ b1._pArray._blocksGrowth = BLOCKS_GROWTH := by
  unfold TryEnsureCapacity at h
  split at h
  · split at h
    · cases h
    · rename_i r hr
      simp only [Except.ok.injEq, Prod.mk.injEq] at h
      obtain ⟨h1, h2, h3⟩ := h
      subst h2 h3
      have hn : 1 + capacity / BITS_PER_ITEM < SIZE_T_RANGE := by
        unfold BITS_PER_ITEM SIZE_T_RANGE at *
        omega
      obtain ⟨hvr, houtr⟩ := ExpandableArrayImpl.try_ensure_capacity_valid hv.array hout
        (ExpandableArrayImpl.ListCapacityFits_of_constants hv.elementsPerBlock hG hn) hr
      obtain ⟨c1, c2, c3, c4, c5⟩ :=
        ExpandableArrayImpl.try_ensure_capacity_cache hr hv.data hv.capacity
      obtain ⟨-, -, hnext⟩ :=
        ExpandableArrayImpl.try_ensure_capacity_fresh hv.array.fresh hv.array.blockList_le hr
      have hgr : r.self._blocksGrowth = BLOCKS_GROWTH := by
        rcases ExpandableArrayImpl.try_ensure_capacity_cases hr with
          ⟨-, e⟩ | ⟨-, -, -, -, -, -, e3, -⟩
        · rw [e]
          exact hG
        · exact e3.trans hG
      refine ⟨⟨hvr, c1, c2, c3.trans hv.elementsPerBlock, c4.trans hv.sizeof_value_type⟩,
        houtr, h1.symm.trans c5, fun _ => ?_, hnext, ?_, hgr⟩
      · have hfit : (1 + (1 + capacity / BITS_PER_ITEM) / b._pArray._elementsPerBlock)
            * b._pArray._elementsPerBlock < SIZE_T_RANGE := by
          rw [hv.elementsPerBlock]
          unfold BITS_PER_ITEM ITEMS_PER_BLOCK SIZE_T_RANGE at *
          omega
        have hcov : 1 + capacity / BITS_PER_ITEM ≤ r.self.capacity :=
          (ExpandableArrayImpl.try_ensure_capacity_true_covers_request_of_fit hr hfit)
        show capacity < r.cap * BITS_PER_ITEM
        rw [c2]
        unfold BITS_PER_ITEM at *
        omega
      · intro q hq0 hq hqL
        rw [hv.data] at hqL
        exact ExpandableArrayImpl.try_ensure_capacity_mem_frame hv.array.blockList_le hr
          hq0 hq hqL
  · rename_i hc
    simp only [Except.ok.injEq, Prod.mk.injEq] at h
    obtain ⟨h1, h2, h3⟩ := h
    subst h2 h3
    exact ⟨hv, hout, h1.symm, fun h0 => absurd h0 hc, Nat.le_refl _, fun _ _ _ _ => rfl, hG⟩

/-- When the oracle announces no failure, a call of `EnsureCapacity` that returns keeps
the vector valid and makes room for the bits asked for. -/
theorem EnsureCapacity_valid {b b1 : BitVector} {pool pool1 : MemoryPool} {capacity : Nat}
    (hv : b.Valid pool) (hout : ∀ x ∈ pool.outcomes, x = true)
    (hG : b._pArray._blocksGrowth = BLOCKS_GROWTH) (hc : capacity < SIZE_T_RANGE)
    (h : b.EnsureCapacity pool capacity = .ok (b1, pool1)) :
    b1.Valid pool1 ∧ (∀ x ∈ pool1.outcomes, x = true)
    ∧ (0 < capacity → capacity < b1.Capacity) ∧ pool.next ≤ pool1.next
    ∧ ∀ q, q ≠ 0 → q ≤ pool.next → q ≠ b._pData → pool1.mem q = pool.mem q := by
  unfold EnsureCapacity at h
  split at h
  · cases h
  · rename_i res b2 p2 hr
    obtain ⟨g1, g2, g3, g4, g5, g6, -⟩ := TryEnsureCapacity_bits_valid hv hout hG hc hr
    subst g3
    simp only [Bool.not_true, Bool.false_eq_true, if_false, Except.ok.injEq,
      Prod.mk.injEq] at h
    obtain ⟨h1, h2⟩ := h
    subst h1 h2
    exact ⟨g1, g2, g4, g5, g6⟩

/-- The scenario vector `bitsTen` is what `Initialize` and `EnsureCapacity(10)` build; it is
valid, with capacity 524288. -/
theorem bitsTen_valid :
    Initialize (freshPool []) = .ok (newBits, keysPool)
    ∧ newBits.EnsureCapacity keysPool 10 = .ok bitsTen
    ∧ bitsTen.1.Valid bitsTen.2 ∧ bitsTen.1.Capacity = 524288 := by
  have hinit : Initialize (freshPool []) = .ok (newBits, keysPool) := rfl
  have hrun : newBits.EnsureCapacity keysPool 10 = .ok bitsTen := rfl
  have hout : ∀ x ∈ (freshPool []).outcomes, x = true := fun x hx => absurd hx (List.not_mem_nil x)
  obtain ⟨-, hv0, -, hout0⟩ := Initialize_valid (MemoryPool.create_fresh 0 [] _) hout hinit
  exact ⟨hinit, hrun, (EnsureCapacity_valid hv0 hout0 rfl (by decide) hrun).1, rfl⟩

/-- Instance of C16 on `bitsTen` at bit 9: it is bit 1 of byte 1 of the block in spine
entry 0; `Set(9)` makes `Get(9)` true, `Clear(9)` makes it false, and the other bits are
read as before. -/
theorem Set_Clear_Get_placement_witness :
    9 < bitsTen.1.Capacity
    ∧ (∃ blk byte, bitsTen.2.load bitsTen.1._pData sizeof_ptr (9 / (65536 * 8)) = .ok blk
      ∧ bitsTen.2.load blk sizeof_uint8_t ((9 / 8) % 65536) = .ok byte
      ∧ bitsTen.1.Get bitsTen.2 9 = .ok (byte.testBit (9 % 8)))
    ∧ (∃ pool1, bitsTen.1.Set bitsTen.2 9 = .ok pool1 ∧ bitsTen.1.Get pool1 9 = .ok true
        ∧ ∀ j, j ≠ 9 → j < bitsTen.1.Capacity
          → bitsTen.1.Get pool1 j = bitsTen.1.Get bitsTen.2 j)
    ∧ (∃ pool1, bitsTen.1.Clear bitsTen.2 9 = .ok pool1 ∧ bitsTen.1.Get pool1 9 = .ok false
        ∧ ∀ j, j ≠ 9 → j < bitsTen.1.Capacity
          → bitsTen.1.Get pool1 j = bitsTen.1.Get bitsTen.2 j) :=
  ⟨by decide, Set_Clear_Get_placement bitsTen.1 bitsTen.2 9 bitsTen_valid.2.2.1 (by decide)⟩

end BitVector

end Pql.UnmanagedLib

namespace Pql.UnmanagedLib

/-- A second write of one element replaces the first. -/
theorem MemoryPool.store_store {p p1 : MemoryPool} {ptr : Ptr} {s ix w : Nat}
    (h : p.store ptr s ix w = .ok p1) (w2 : Nat) :
    p1.store ptr s ix w2 = p.store ptr s ix w2 := by
  unfold MemoryPool.store at h ⊢
  split at h
  · cases h
  · rename_i h0
    split at h
    · cases h
    · rename_i a ha
      split at h
      · rename_i hb
        have := (Except.ok.inj h).symm
        subst this
        simp only [h0, if_false, ha, if_true, hb]
        congr 2
        funext q
        by_cases hq : q = ptr
        · simp only [hq, if_true]
          congr 2
          funext j
          by_cases hj : j = ix <;> simp [hj]
        · simp only [hq, if_false]
      · cases h

/-- The compare-and-swap loop on a readable byte returns once the rival writes are used
up, within `rivals.length + 1` iterations: the byte then holds `update value` for the value
returned, nothing else has changed, and without rival writes the value returned is the
byte read at the start. -/
theorem cas_loop_spec (update : Nat → Nat) (blk : Ptr) (ix : Nat) :
    ∀ (rivals : List (Option Nat)) (fuel : Nat) (p : MemoryPool) (v : Nat),
      p.load blk sizeof_uint8_t ix = .ok v → rivals.length < fuel →
      ∃ value p1, cas_loop update blk ix fuel rivals p = some (.ok (value, p1))
        ∧ p.store blk sizeof_uint8_t ix (update value) = .ok p1
        ∧ ((∀ r ∈ rivals, r = none) → value = v) := by
  have quiet : ∀ (p : MemoryPool) (v : Nat), p.load blk sizeof_uint8_t ix = .ok v →
      ∃ p1, InterlockedCompareExchange8 p blk ix (update v) v = .ok (v, p1)
        ∧ p.store blk sizeof_uint8_t ix (update v) = .ok p1 := by
    intro p v hl
    obtain ⟨p1, hs⟩ := MemoryPool.store_of_load hl (update v)
    refine ⟨p1, ?_, hs⟩
    unfold InterlockedCompareExchange8
    rw [hl]
    simp only [if_true]
    rw [hs]
  intro rivals
  induction rivals with
  | nil =>
    intro fuel p v hl hf
    obtain ⟨f, rfl⟩ : ∃ f, fuel = f + 1 := ⟨fuel - 1, by simp at hf; omega⟩
    obtain ⟨p1, hc, hs⟩ := quiet p v hl
    refine ⟨v, p1, ?_, hs, fun _ => rfl⟩
    unfold cas_loop
    rw [hl]
    simp only [List.head?_nil]
    rw [hc]
    simp
  | cons r rest ih =>
    intro fuel p v hl hf
    obtain ⟨f, rfl⟩ : ∃ f, fuel = f + 1 := ⟨fuel - 1, by simp at hf; omega⟩
    have hf2 : rest.length < f := by
      simp only [List.length_cons] at hf
      omega
    cases r with
    | none =>
      obtain ⟨p1, hc, hs⟩ := quiet p v hl
      refine ⟨v, p1, ?_, hs, fun _ => rfl⟩
      unfold cas_loop
      rw [hl]
      simp only [List.head?_cons]
      rw [hc]
      simp
    | some w =>
      obtain ⟨pw, hsw⟩ := MemoryPool.store_of_load hl w
      have hlw : pw.load blk sizeof_uint8_t ix = .ok w := MemoryPool.load_store_same hsw
      by_cases hwv : w = v
      · subst hwv
        obtain ⟨p1, hc, hs⟩ := quiet pw w hlw
        refine ⟨w, p1, ?_, ?_, fun _ => rfl⟩
        · unfold cas_loop
          rw [hl]
          simp only [List.head?_cons]
          rw [hsw]
          simp only
          rw [hc]
          simp
        · rw [← MemoryPool.store_store hsw]
          exact hs
      · obtain ⟨value, p1, hrec, hs, -⟩ := ih f pw w hlw hf2
        refine ⟨value, p1, ?_, ?_, ?_⟩
        · unfold cas_loop
          rw [hl]
          simp only [List.head?_cons]
          rw [hsw]
          simp only
          have hc : InterlockedCompareExchange8 pw blk ix (update v) v = .ok (w, pw) := by
            unfold InterlockedCompareExchange8
            rw [hlw]
            simp only [hwv, if_false]
          rw [hc]
          simp only [ne_eq, hwv, not_false_eq_true, if_true, List.tail_cons]
          exact hrec
        · rw [← MemoryPool.store_store hsw]
          exact hs
        · intro hq
          have := hq (some w) (List.mem_cons_self _ _)
          cases this

end Pql.UnmanagedLib

namespace Pql.UnmanagedLib

/-- Without a rival write before its compare-and-swap, the first iteration of the loop
on a readable byte stores `update v` for the byte `v` it read and leaves the loop,
whatever the fuel left. -/
theorem cas_loop_quiet (update : Nat → Nat) (blk : Ptr) (ix : Nat)
    (rivals : List (Option Nat)) (fuel : Nat) (p : MemoryPool) (v : Nat)
    (hl : p.load blk sizeof_uint8_t ix = .ok v) (hq : ∀ r ∈ rivals, r = none) :
    ∃ p1, cas_loop update blk ix (fuel + 1) rivals p = some (.ok (v, p1))
      ∧ p.store blk sizeof_uint8_t ix (update v) = .ok p1 := by
  obtain ⟨p1, hs⟩ := MemoryPool.store_of_load hl (update v)
  have hc : InterlockedCompareExchange8 p blk ix (update v) v = .ok (v, p1) := by
    unfold InterlockedCompareExchange8
    rw [hl]
    simp only [if_true]
    rw [hs]
  refine ⟨p1, ?_, hs⟩
  unfold cas_loop
  rw [hl]
  cases rivals with
  | nil =>
    simp only [List.head?_nil]
    rw [hc]
    simp
  | cons r rest =>
    have hr : r = none := hq r (List.mem_cons_self _ _)
    subst hr
    simp only [List.head?_cons]
    rw [hc]
    simp

namespace BitVector

/-- Replacing the byte of bit `i` by `update value`, where `update` sets bit `i % 8` to
`bit` and keeps the other low bits: the vector stays valid and bit `i` reads `bit`; when
`value` is the byte that was there, the other bits read as before. -/
theorem update_effect {b : BitVector} {pool pool1 : MemoryPool} (hv : b.Valid pool)
    {i : Nat} (hi : i < b.Capacity) {r : ElementRef} (hp : b.pValue pool i = .ok r) {v : Nat}
    (hl : pool.load r.block sizeof_uint8_t r.index = .ok v)
    {update : Nat → Nat} {bit : Bool}
    (hupd : ∀ x m, m < 8 → (update x).testBit m
      = if i % BITS_PER_ITEM = m then bit else x.testBit m)
    {value : Nat} (hs : pool.store r.block sizeof_uint8_t r.index (update value) = .ok pool1) :
    b.Valid pool1 ∧ b.Get pool1 i = .ok bit
    ∧ (value = v → ∀ j, j ≠ i → j < b.Capacity → b.Get pool1 j = b.Get pool j) := by
  obtain ⟨hv1, -, -, -, -, -, -, -, hbytes⟩ := store_byte_effect hv hi hp hs
  refine ⟨hv1, ?_, ?_⟩
  · rw [Get_eq_GetGroup, (hbytes i hi).1 rfl]
    simp only
    rw [hupd value (i % BITS_PER_ITEM) (Nat.mod_lt _ (by decide)), if_pos rfl]
  · intro e
    subst e
    exact (store_bit_effect hv hi hp hl hs (hupd value)).2.2

/-- The update of the set loops sets bit `i % 8` and keeps the other low bits. -/
theorem set_update_bits (i : Nat) (x m : Nat) (hm : m < 8) :
    ((x ||| (1 <<< (i % BITS_PER_ITEM))) % 256).testBit m
      = if i % BITS_PER_ITEM = m then true else x.testBit m := by
  rw [testBit_set_mask _ _ _ hm]
  by_cases e : i % BITS_PER_ITEM = m <;> simp [e]

/-- The update of the clear loops clears bit `i % 8` and keeps the other low bits. -/
theorem clear_update_bits (i : Nat) (x m : Nat) (hm : m < 8) :
    (x &&& not_uint8 (1 <<< (i % BITS_PER_ITEM))).testBit m
      = if i % BITS_PER_ITEM = m then false else x.testBit m := by
  rw [testBit_clear_mask _ _ _ hm]
  by_cases e : i % BITS_PER_ITEM = m <;> simp [e]

/-- C17: in a valid bit vector and for `i < Capacity`, when no other thread writes between
the read and the compare-and-swap (`rivals` holds no write), `SafeGetAndSet(i)` returns
within one iteration (any fuel of at least one), returns the value `Get(i)` had, leaves
`Get(i)` true and every other bit below `Capacity` as it was; `SafeGetAndClear(i)` does the
same but leaves `Get(i)` false. -/
theorem SafeGetAndSet_SafeGetAndClear_quiet (b : BitVector) (pool : MemoryPool) (i : Nat)
    (rivals : List (Option Nat)) (hv : b.Valid pool) (hi : i < b.Capacity)
    (hquiet : ∀ r ∈ rivals, r = none) :
    ∃ prior, b.Get pool i = .ok prior
      ∧ (∃ pool1, (∀ fuel, b.SafeGetAndSet pool i (fuel + 1) rivals = some (.ok (prior, pool1)))
          ∧ b.Get pool1 i = .ok true
          ∧ ∀ j, j ≠ i → j < b.Capacity → b.Get pool1 j = b.Get pool j)
      ∧ (∃ pool1,
          (∀ fuel, b.SafeGetAndClear pool i (fuel + 1) rivals = some (.ok (prior, pool1)))
          ∧ b.Get pool1 i = .ok false
          ∧ ∀ j, j ≠ i → j < b.Capacity → b.Get pool1 j = b.Get pool j) := by
  obtain ⟨blk, byte, -, hp, hbyte, -⟩ := hv.place hi
  have hget : b.Get pool i = .ok (byte.testBit (i % BITS_PER_ITEM)) := by
    rw [Get_eq_GetGroup]
    unfold GetGroup
    rw [hp]
    simp only
    rw [hbyte]
  refine ⟨byte.testBit (i % BITS_PER_ITEM), hget, ?_, ?_⟩
  · obtain ⟨pool1, -, hs⟩ := cas_loop_quiet
      (fun oldValue => (oldValue ||| (1 <<< (i % BITS_PER_ITEM))) % 256) blk
      ((i / BITS_PER_ITEM) % ITEMS_PER_BLOCK) rivals 0 pool byte hbyte hquiet
    obtain ⟨-, h2, h3⟩ := update_effect hv hi hp hbyte (set_update_bits i) hs
    refine ⟨pool1, ?_, h2, h3 rfl⟩
    intro fuel
    obtain ⟨p2, hc2, hs2⟩ := cas_loop_quiet
      (fun oldValue => (oldValue ||| (1 <<< (i % BITS_PER_ITEM))) % 256) blk
      ((i / BITS_PER_ITEM) % ITEMS_PER_BLOCK) rivals fuel pool byte hbyte hquiet
    have e : p2 = pool1 := Except.ok.inj (hs2.symm.trans hs)
    subst e
    unfold SafeGetAndSet
    rw [hp]
    simp only
    rw [hc2]
    simp only
    rw [mask_test]
  · obtain ⟨pool1, -, hs⟩ := cas_loop_quiet
      (fun oldValue => oldValue &&& not_uint8 (1 <<< (i % BITS_PER_ITEM))) blk
      ((i / BITS_PER_ITEM) % ITEMS_PER_BLOCK) rivals 0 pool byte hbyte hquiet
    obtain ⟨-, h2, h3⟩ := update_effect hv hi hp hbyte (clear_update_bits i) hs
    refine ⟨pool1, ?_, h2, h3 rfl⟩
    intro fuel
    obtain ⟨p2, hc2, hs2⟩ := cas_loop_quiet
      (fun oldValue => oldValue &&& not_uint8 (1 <<< (i % BITS_PER_ITEM))) blk
      ((i / BITS_PER_ITEM) % ITEMS_PER_BLOCK) rivals fuel pool byte hbyte hquiet
    have e : p2 = pool1 := Except.ok.inj (hs2.symm.trans hs)
    subst e
    unfold SafeGetAndClear
    rw [hp]
    simp only
    rw [hc2]
    simp only
    rw [mask_test]

/-- Instance of C17 on `bitsTen` after `Set(0)`, `Set(7)`, `Set(8)`, `Set(9)`, at bit 9 and
with no rival write: `SafeGetAndSet(9)` and `SafeGetAndClear(9)` return the prior value of
`Get(9)` with one iteration of fuel. -/
theorem SafeGetAndSet_SafeGetAndClear_quiet_witness :
    9 < bitsTen.1.Capacity
    ∧ ∃ prior, bitsTen.1.Get bitsTen.2 9 = .ok prior
      ∧ (∃ pool1,
          (∀ fuel, bitsTen.1.SafeGetAndSet bitsTen.2 9 (fuel + 1) [none]
            = some (.ok (prior, pool1)))
          ∧ bitsTen.1.Get pool1 9 = .ok true
          ∧ ∀ j, j ≠ 9 → j < bitsTen.1.Capacity
            → bitsTen.1.Get pool1 j = bitsTen.1.Get bitsTen.2 j)
      ∧ (∃ pool1,
          (∀ fuel, bitsTen.1.SafeGetAndClear bitsTen.2 9 (fuel + 1) [none]
            = some (.ok (prior, pool1)))
          ∧ bitsTen.1.Get pool1 9 = .ok false
          ∧ ∀ j, j ≠ 9 → j < bitsTen.1.Capacity
            → bitsTen.1.Get pool1 j = bitsTen.1.Get bitsTen.2 j) :=
  ⟨by decide, SafeGetAndSet_SafeGetAndClear_quiet bitsTen.1 bitsTen.2 9 [none]
    bitsTen_valid.2.2.1 (by decide) (by simp)⟩

/-- C18: in a valid bit vector and for `i < Capacity`, `SafeSet(i)` followed by
`SafeClear(i)` returns, once the fuel exceeds the number of rival writes, and leaves
`Get(i)` false; when no other thread writes during the two calls, every other bit below
`Capacity` reads as before the `SafeSet`. -/
theorem SafeSet_then_SafeClear (b : BitVector) (pool : MemoryPool) (i fuel1 fuel2 : Nat)
    (rivals1 rivals2 : List (Option Nat)) (hv : b.Valid pool) (hi : i < b.Capacity)
    (hf1 : rivals1.length < fuel1) (hf2 : rivals2.length < fuel2) :
    ∃ pool1 pool2, b.SafeSet pool i fuel1 rivals1 = some (.ok pool1)
      ∧ b.SafeClear pool1 i fuel2 rivals2 = some (.ok pool2)
      ∧ b.Get pool2 i = .ok false
      ∧ ((∀ r ∈ rivals1, r = none) → (∀ r ∈ rivals2, r = none) →
          ∀ j, j ≠ i → j < b.Capacity → b.Get pool2 j = b.Get pool j) := by
  obtain ⟨blk, byte, -, hp, hbyte, -⟩ := hv.place hi
  obtain ⟨value, pool1, hc, hs, hq⟩ := cas_loop_spec
    (fun oldValue => (oldValue ||| (1 <<< (i % BITS_PER_ITEM))) % 256) blk
    ((i / BITS_PER_ITEM) % ITEMS_PER_BLOCK) rivals1 fuel1 pool byte hbyte hf1
  obtain ⟨hv1, -, h3⟩ := update_effect hv hi hp hbyte (set_update_bits i) hs
  obtain ⟨blk1, byte1, -, hp1, hbyte1, -⟩ := hv1.place hi
  obtain ⟨value2, pool2, hc2, hs2, hq2⟩ := cas_loop_spec
    (fun oldValue => oldValue &&& not_uint8 (1 <<< (i % BITS_PER_ITEM))) blk1
    ((i / BITS_PER_ITEM) % ITEMS_PER_BLOCK) rivals2 fuel2 pool1 byte1 hbyte1 hf2
  obtain ⟨-, k2, k3⟩ := update_effect hv1 hi hp1 hbyte1 (clear_update_bits i) hs2
  refine ⟨pool1, pool2, ?_, ?_, k2, ?_⟩
  · unfold SafeSet
    rw [hp]
    simp only
    rw [hc]
  · unfold SafeClear
    rw [hp1]
    simp only
    rw [hc2]
  · intro q1 q2 j hj hjc
    rw [k3 (hq2 q2) j hj hjc, h3 (hq q1) j hj hjc]

/-- Instance of C18 on `bitsTen` at bit 9, with one rival write during the `SafeSet`. -/
theorem SafeSet_then_SafeClear_witness :
    9 < bitsTen.1.Capacity
    ∧ ∃ pool1 pool2, bitsTen.1.SafeSet bitsTen.2 9 2 [some 5] = some (.ok pool1)
      ∧ bitsTen.1.SafeClear pool1 9 1 [] = some (.ok pool2)
      ∧ bitsTen.1.Get pool2 9 = .ok false
      ∧ ((∀ r ∈ [some 5], r = none) → (∀ r ∈ ([] : List (Option Nat)), r = none) →
          ∀ j, j ≠ 9 → j < bitsTen.1.Capacity
            → bitsTen.1.Get pool2 j = bitsTen.1.Get bitsTen.2 j) :=
  ⟨by decide, SafeSet_then_SafeClear bitsTen.1 bitsTen.2 9 2 1 [some 5] []
    bitsTen_valid.2.2.1 (by decide) (by decide) (by decide)⟩

end BitVector

end Pql.UnmanagedLib

namespace Pql.UnmanagedLib

namespace BitVector

/-- The loop of `Write` from byte `m` on, with enough fuel, appends the bytes
`GetGroup(8 * m)`, `GetGroup(8 * (m + 1))`, ... up to `count`: `ceil(count / 8) - m` bytes. -/
theorem Write_loop_spec {b : BitVector} {pool : MemoryPool} (hv : b.Valid pool) {count : Nat}
    (hc : count ≤ b.Capacity) (hint : count ≤ INT_MAX - 7) :
    ∀ (fuel m : Nat) (writer : List Nat), count ≤ 8 * m + 8 * fuel →
      ∃ bytes, Write_loop b pool count fuel (8 * m) writer = .ok (writer ++ bytes)
        ∧ bytes.length = (count + 7) / 8 - m
        ∧ ∀ j byte, bytes[j]? = some byte → b.GetGroup pool (8 * (m + j)) = .ok byte := by
  intro fuel
  induction fuel with
  | zero =>
    intro m writer hf
    refine ⟨[], ?_, ?_, ?_⟩
    · unfold Write_loop
      rw [List.append_nil]
    · simp only [List.length_nil]
      omega
    · intro j byte h
      simp at h
  | succ f ih =>
    intro m writer hf
    by_cases hlt : 8 * m < count
    · obtain ⟨g, hg, -⟩ := hv.read (Nat.lt_of_lt_of_le hlt hc)
      obtain ⟨bytes, h1, h2, h3⟩ := ih (m + 1) (writer ++ [g]) (by omega)
      refine ⟨g :: bytes, ?_, ?_, ?_⟩
      · unfold Write_loop
        rw [if_pos hlt, hg]
        simp only
        have e : 8 * m + BITS_PER_ITEM = 8 * (m + 1) := by
          unfold BITS_PER_ITEM
          omega
        have hmax : ¬ 8 * m + BITS_PER_ITEM > INT_MAX := by
          unfold BITS_PER_ITEM
          unfold INT_MAX at hint ⊢
          omega
        rw [if_neg hmax, e, h1, List.append_assoc]
        rfl
      · simp only [List.length_cons]
        omega
      · intro j byte h
        cases j with
        | zero =>
          simp only [List.getElem?_cons_zero, Option.some.injEq] at h
          subst h
          exact hg
        | succ j =>
          simp only [List.getElem?_cons_succ] at h
          have := h3 j byte h
          have e : m + 1 + j = m + (j + 1) := by omega
          rw [e] at this
          exact this
    · refine ⟨[], ?_, ?_, ?_⟩
      · unfold Write_loop
        rw [if_neg hlt, List.append_nil]
      · simp only [List.length_nil]
        omega
      · intro j byte h
        simp at h

/-- C14: for a valid bit vector and `count <= Capacity`, `count` small enough for the `int`
counter of the loop (`count <= INT_MAX - 7`), `Write(writer, count)` returns after
appending exactly `ceil(count / 8)` bytes to the writer, and bit `k` (0 the least
significant) of the appended byte `j` is `Get(8 * j + k)`. -/
theorem Write_bytes (b : BitVector) (pool : MemoryPool) (writer : List Nat) (count : Nat)
    (hv : b.Valid pool) (hc : count ≤ b.Capacity) (hint : count ≤ INT_MAX - 7) :
    ∃ bytes, b.Write pool writer count = .ok (writer ++ bytes)
      ∧ bytes.length = (count + 7) / 8
      ∧ ∀ j byte, bytes[j]? = some byte →
          ∀ k, k < 8 → b.Get pool (8 * j + k) = .ok (byte.testBit k) := by
  obtain ⟨bytes, h1, h2, h3⟩ := Write_loop_spec hv hc hint count 0 writer (by omega)
  refine ⟨bytes, ?_, by rw [h2]; rfl, ?_⟩
  · unfold Write
    rw [if_neg (Nat.not_lt.mpr hc)]
    exact h1
  · intro j byte hj k hk
    have hg := h3 j byte hj
    rw [Nat.zero_add] at hg
    have hsame : (8 * j + k) / BITS_PER_ITEM = (8 * j) / BITS_PER_ITEM := by
      unfold BITS_PER_ITEM
      omega
    have hgk : b.GetGroup pool (8 * j + k) = .ok byte := by
      unfold GetGroup at hg ⊢
      rw [pValue_congr b pool hsame]
      exact hg
    have hmod : (8 * j + k) % BITS_PER_ITEM = k := by
      unfold BITS_PER_ITEM
      omega
    rw [Get_eq_GetGroup, hgk]
    simp only
    rw [hmod]

/-- The four calls of `bitsTenSet` return, and leave `bitsTen` valid. -/
theorem bitsTenSet_valid :
    bitsTenSet = .ok bitsTenSetPool ∧ bitsTen.1.Valid bitsTenSetPool := by
  have hrun : bitsTenSet = .ok bitsTenSetPool := rfl
  refine ⟨hrun, ?_⟩
  have hv := bitsTen_valid.2.2.1
  obtain ⟨p1, h1, v1, -⟩ := Set_effect hv (by decide : 0 < bitsTen.1.Capacity)
  obtain ⟨p2, h2, v2, -⟩ := Set_effect v1 (by decide : 7 < bitsTen.1.Capacity)
  obtain ⟨p3, h3, v3, -⟩ := Set_effect v2 (by decide : 8 < bitsTen.1.Capacity)
  obtain ⟨p4, h4, v4, -⟩ := Set_effect v3 (by decide : 9 < bitsTen.1.Capacity)
  have e : bitsTenSet = .ok p4 := by
    unfold bitsTenSet
    rw [h1]
    show (bitsTen.1.Set p1 7 >>= _) = _
    rw [h2]
    show (bitsTen.1.Set p2 8 >>= _) = _
    rw [h3]
    exact h4
  rw [hrun] at e
  rw [Except.ok.inj e]
  exact v4

/-- Instance of C14 on `bitsTen` after `Set(0)`, `Set(7)`, `Set(8)`, `Set(9)`, writing 10
bits to an empty writer. -/
theorem Write_bytes_witness :
    10 ≤ bitsTen.1.Capacity
    ∧ ∃ bytes, bitsTen.1.Write bitsTenSetPool [] 10 = .ok ([] ++ bytes)
      ∧ bytes.length = (10 + 7) / 8
      ∧ ∀ j byte, bytes[j]? = some byte →
          ∀ k, k < 8 → bitsTen.1.Get bitsTenSetPool (8 * j + k) = .ok (byte.testBit k) :=
  ⟨by decide, Write_bytes bitsTen.1 bitsTenSetPool [] 10 bitsTenSet_valid.2 (by decide)
    (by decide)⟩

end BitVector

end Pql.UnmanagedLib

namespace Pql.UnmanagedLib

namespace BitVector

/-- Counterexample to C15 as worded: on a fresh vector after `EnsureCapacity(10)` and
`Set` of bits 0, 7, 8 and 9, `Write` with count 10 emits the bytes `0x81, 0x03`, not
`0x81, 0x07`: bits 8 and 9 are bits 0 and 1 of the second byte. -/
theorem Write_ten_bits_not_0x07 :
    Initialize (freshPool []) = .ok (newBits, keysPool)
    ∧ newBits.EnsureCapacity keysPool 10 = .ok bitsTen
    ∧ bitsTenSet = .ok bitsTenSetPool
    ∧ bitsTen.1.Write bitsTenSetPool [] 10 = .ok [0x81, 0x03]
    ∧ bitsTen.1.Write bitsTenSetPool [] 10 ≠ .ok [0x81, 0x07] := by
  have h : bitsTen.1.Write bitsTenSetPool [] 10 = .ok [0x81, 0x03] := rfl
  refine ⟨rfl, rfl, rfl, h, ?_⟩
  rw [h]
  intro e
  have := Except.ok.inj e
  simp at this

/-- C15, amended: on a fresh vector after `EnsureCapacity(10)` and `Set` of bits 0, 7, 8
and 9, `Write` with count 10 emits exactly the two bytes `0x81, 0x03`; `Read` of those
bytes with count 10 into a second fresh vector returns, leaves no byte in the reader, and
the two vectors then agree on each of the 16 bits written: bits 0, 7, 8, 9 set, the
others clear. -/
theorem Write_Read_ten_bits :
    Initialize (freshPool []) = .ok (newBits, keysPool)
    ∧ newBits.EnsureCapacity keysPool 10 = .ok bitsTen
    ∧ bitsTenSet = .ok bitsTenSetPool
    ∧ bitsTen.1.Write bitsTenSetPool [] 10 = .ok [0x81, 0x03]
    ∧ Initialize bitsTenSetPool = .ok (newBits, bitsTenTargetPool)
    ∧ newBits.Read bitsTenTargetPool [0x81, 0x03] 10 = .ok bitsTenRead
    ∧ bitsTenRead.2.2 = []
    ∧ ∀ i : Fin 16,
        bitsTenRead.1.Get bitsTenRead.2.1 i.val
          = .ok (decide (i.val = 0 ∨ i.val = 7 ∨ i.val = 8 ∨ i.val = 9))
        ∧ bitsTen.1.Get bitsTenRead.2.1 i.val = bitsTenRead.1.Get bitsTenRead.2.1 i.val
        ∧ bitsTen.1.Get bitsTenSetPool i.val = bitsTenRead.1.Get bitsTenRead.2.1 i.val := by
  refine ⟨rfl, rfl, rfl, rfl, rfl, rfl, rfl, ?_⟩
  intro i
  fin_cases i <;> exact ⟨rfl, rfl, rfl⟩

/-- The scenario vector `bitsWide` is valid, with eight blocks and capacity 4194304. -/
theorem bitsWide_valid :
    newBits.EnsureCapacity keysPool 3670008 = .ok bitsWide
    ∧ bitsWide.1.Valid bitsWide.2 ∧ bitsWide.1.Capacity = 4194304 := by
  have hinit : Initialize (freshPool []) = .ok (newBits, keysPool) := rfl
  have hrun : newBits.EnsureCapacity keysPool 3670008 = .ok bitsWide := rfl
  have hout : ∀ x ∈ (freshPool []).outcomes, x = true := fun x hx => absurd hx (List.not_mem_nil x)
  obtain ⟨-, hv0, -, hout0⟩ := Initialize_valid (MemoryPool.create_fresh 0 [] _) hout hinit
  exact ⟨hrun, (EnsureCapacity_valid hv0 hout0 rfl (by decide) hrun).1, rfl⟩

/-- C13 fails on a vector of eight blocks: `EnsureCapacity(3670008)` on a fresh vector
returns a valid vector of 4194304 bits in eight blocks, whose spine is the 64 bytes
`allocate(newListCapacity)` took for 64 entries of `uint8_t`; `Write` of all its bits
returns 524288 bytes; `Read` of them with the same count into a second fresh vector asks
for `1 + 4194304 / 8` bytes, nine blocks, stores the ninth block pointer past the end of
its 64-byte spine, and so ends in undefined behaviour instead of a vector. -/
theorem Read_after_Write_eight_blocks_faults :
    Initialize (freshPool []) = .ok (newBits, keysPool)
    ∧ newBits.EnsureCapacity keysPool 3670008 = .ok bitsWide
    ∧ bitsWide.1.Valid bitsWide.2
    ∧ bitsWide.1.Capacity = 4194304
    ∧ bitsWide.1._pArray._blockCount = 8
    ∧ (bitsWide.2.mem bitsWide.1._pData).map Allocation.bytes = some 64
    ∧ ∃ bytes, bitsWide.1.Write bitsWide.2 [] 4194304 = .ok bytes
      ∧ bytes.length = 524288
      ∧ Initialize bitsWide.2 = .ok (newBits, bitsWideTargetPool)
      ∧ newBits.Read bitsWideTargetPool bytes 4194304 = .error .undefinedBehaviour := by
  obtain ⟨hrun, hv, hcap⟩ := bitsWide_valid
  refine ⟨rfl, hrun, hv, hcap, rfl, rfl, ?_⟩
  obtain ⟨bytes, h1, h2, -⟩ :=
    Write_loop_spec hv (Nat.le_of_eq hcap.symm) (by decide) 4194304 0 [] (by omega)
  refine ⟨bytes, ?_, by rw [h2], rfl, ?_⟩
  · unfold Write
    rw [if_neg (by rw [hcap]; exact Nat.lt_irrefl _)]
    exact h1
  · have hgrow : newBits.EnsureCapacity bitsWideTargetPool 4194304
        = .error .undefinedBehaviour := rfl
    unfold Read
    rw [if_neg (by decide), hgrow]

end BitVector

end Pql.UnmanagedLib

namespace Pql.UnmanagedLib

/-- A key held by a buffer is not empty, its first byte is its length byte, and the
length byte is that of a `uint8_t`. -/
theorem HoldsKey.head {pool : MemoryPool} {p : Ptr} {key : List Nat} (h : HoldsKey pool p key) :
    key[0]? = some (key.headD 0) ∧ key.headD 0 < 256
    ∧ pool.load p sizeof_uint8_t 0 = .ok (key.headD 0) := by
  obtain ⟨h1, h2, h3⟩ := h
  cases key with
  | nil => simp at h1
  | cons x rest =>
    exact ⟨by simp, h2 x (List.mem_cons_self _ _), h3 0 x (by simp)⟩

namespace ExpandableArrayOfKeys

/-- The content loop of `Write` on a buffer holding `key`, from `c` on and with enough
fuel, appends the bytes of `key` from `c` on. -/
theorem Write_content_spec {pool : MemoryPool} {value : Ptr} {key : List Nat}
    (hk : HoldsKey pool value key) :
    ∀ (fuel c : Nat) (writer : List Nat), 1 ≤ c → c ≤ key.length → key.length ≤ c + fuel →
      Write_content pool value fuel c writer = .ok (writer ++ key.drop c) := by
  obtain ⟨-, -, hload0⟩ := hk.head
  obtain ⟨hlen, -, hload⟩ := hk
  intro fuel
  induction fuel with
  | zero =>
    intro c writer h1 h2 h3
    have e : c = key.length := by omega
    subst e
    unfold Write_content
    rw [List.drop_length, List.append_nil]
  | succ f ih =>
    intro c writer h1 h2 h3
    unfold Write_content
    rw [hload0]
    simp only
    by_cases hc : c < key.length
    · have hle : c ≤ key.headD 0 := by omega
      rw [if_pos hle, hload c (key.get ⟨c, hc⟩) (List.getElem?_eq_getElem hc)]
      simp only
      rw [ih (c + 1) _ (by omega) (by omega) (by omega), List.append_assoc]
      congr 2
      exact (List.drop_eq_getElem_cons hc).symm
    · have e : c = key.length := by omega
      have hnle : ¬ c ≤ key.headD 0 := by omega
      rw [if_neg hnle]
      subst e
      rw [List.drop_length, List.append_nil]

/-- The loop of `Write` over the indices `ix .. ix + left - 1`, all below the capacities of
the key array and of the valid-entries vector, appends for each index the bytes the
format has for it. -/
theorem Write_loop_chunks {k : ExpandableArrayOfKeys} {pool : MemoryPool} {v : BitVector}
    (hk : k.Valid pool) (hv : v.Valid pool) {count : Nat}
    (hck : count ≤ k.Capacity) (hcv : count ≤ v.Capacity)
    (hkeys : ∀ i p, i < count → v.Get pool i = .ok true → k.GetAt pool i = .ok p → p ≠ 0 →
      ∃ key, HoldsKey pool p key) :
    ∀ (left ix : Nat) (writer : List Nat), ix + left ≤ count →
      ∃ chunks : List (List Nat), chunks.length = left
        ∧ Write_loop k pool v left ix writer = .ok (writer ++ chunks.flatten)
        ∧ ∀ j chunk, chunks[j]? = some chunk → SerializedSlot k pool v (ix + j) chunk := by
  intro left
  induction left with
  | zero =>
    intro ix writer _
    refine ⟨[], rfl, ?_, ?_⟩
    · unfold Write_loop
      simp
    · intro j chunk h
      simp at h
  | succ n ih =>
    intro ix writer hle
    have hcons : ∀ (chunk : List Nat) (w1 : List Nat), w1 = writer ++ chunk →
        SerializedSlot k pool v ix chunk →
        ∃ chunks : List (List Nat), chunks.length = n + 1
          ∧ Write_loop k pool v n (ix + 1) w1 = .ok (writer ++ chunks.flatten)
          ∧ ∀ j chunk, chunks[j]? = some chunk → SerializedSlot k pool v (ix + j) chunk := by
      intro chunk w1 hw1 hslot
      obtain ⟨chunks, h1, h2, h3⟩ := ih (ix + 1) w1 (by omega)
      refine ⟨chunk :: chunks, by simp [h1], ?_, ?_⟩
      · rw [h2, hw1, List.flatten_cons, List.append_assoc]
      · intro j c hj
        cases j with
        | zero =>
          simp only [List.getElem?_cons_zero, Option.some.injEq] at hj
          subst hj
          exact hslot
        | succ j =>
          simp only [List.getElem?_cons_succ] at hj
          have := h3 j c hj
          have e : ix + 1 + j = ix + (j + 1) := by omega
          rw [e] at this
          exact this
    obtain ⟨byte, -, hget⟩ := hv.read (by omega : ix < v.Capacity)
    unfold Write_loop
    rw [hget]
    cases hbit : byte.testBit (ix % BITS_PER_ITEM) with
    | false =>
      simp only
      rw [hbit] at hget
      exact hcons [] writer (by rw [List.append_nil]) (Or.inl ⟨hget, rfl⟩)
    | true =>
      simp only
      rw [hbit] at hget
      obtain ⟨blk, prev, hblk, hprev, -⟩ := hk.slot (by omega : ix < k.Capacity)
      have hgetAt : k.GetAt pool ix = .ok prev := by
        rw [GetAt_of_block (by omega) hblk]
        exact hprev
      rw [hgetAt]
      simp only
      by_cases hp0 : prev = 0
      · subst hp0
        simp only [ne_eq, not_true_eq_false, if_false]
        exact hcons [0] (writer ++ [0]) rfl (Or.inr (Or.inl ⟨hget, hgetAt, rfl⟩))
      · simp only [ne_eq, hp0, not_false_eq_true, if_true]
        obtain ⟨key, hkey⟩ := hkeys ix prev (by omega) hget hgetAt hp0
        obtain ⟨hk0, hk256, hload0⟩ := hkey.head
        rw [hload0]
        simp only
        have hlen := hkey.1
        rw [Write_content_spec hkey 256 1 _ (Nat.le_refl 1) (by omega) (by omega)]
        simp only
        refine hcons key _ ?_ (Or.inr (Or.inr ⟨hget, prev, hgetAt, hp0, hkey⟩))
        rw [List.append_assoc]
        congr 1
        cases key with
        | nil => simp at hlen
        | cons x rest => rfl

/-- C12: for a valid key array, a valid valid-entries vector, `count` within both
capacities, and selected non-null slots that hold length-prefixed keys, `Write` returns
after appending to the writer one chunk per index below `count`, in increasing index
order: nothing for an index whose bit is clear, the single byte 0 for a selected null
slot, else the length byte `L` of the slot and its `L` content bytes. -/
theorem Write_chunks (k : ExpandableArrayOfKeys) (pool : MemoryPool) (v : BitVector)
    (writer : List Nat) (count : Nat) (hk : k.Valid pool) (hv : v.Valid pool)
    (hck : count ≤ k.Capacity) (hcv : count ≤ v.Capacity)
    (hkeys : ∀ i p, i < count → v.Get pool i = .ok true → k.GetAt pool i = .ok p → p ≠ 0 →
      ∃ key, HoldsKey pool p key) :
    ∃ chunks : List (List Nat), chunks.length = count
      ∧ k.Write pool (some writer) count (some v) = .ok (writer ++ chunks.flatten)
      ∧ ∀ i chunk, chunks[i]? = some chunk → SerializedSlot k pool v i chunk := by
  obtain ⟨chunks, h1, h2, h3⟩ :=
    Write_loop_chunks hk hv hck hcv hkeys count 0 writer (by omega)
  refine ⟨chunks, h1, ?_, ?_⟩
  · unfold Write
    simp only
    rw [if_neg (Nat.not_lt.mpr hck)]
    exact h2
  · intro i chunk hi
    have := h3 i chunk hi
    rw [Nat.zero_add] at this
    exact this

end ExpandableArrayOfKeys

end Pql.UnmanagedLib

namespace Pql.UnmanagedLib

/-- A block array stays valid when the pool changes only above the addresses it had
handed out. -/
theorem ExpandableArrayImpl.Valid.array_frame {a : ExpandableArrayImpl} {pool pool1 : MemoryPool}
    (hv : a.Valid pool) (hf : pool1.Fresh) (hn : pool.next ≤ pool1.next)
    (hmem : ∀ q, q ≠ 0 → q ≤ pool.next → pool1.mem q = pool.mem q) : a.Valid pool1 := by
  have hload : ∀ b blk, pool.load a._blockList sizeof_ptr b = .ok blk →
      pool1.load a._blockList sizeof_ptr b = .ok blk := by
    intro b blk h
    obtain ⟨h0, -⟩ := MemoryPool.load_ok_live h
    rw [MemoryPool.load_congr (hmem _ h0 hv.blockList_le)]
    exact h
  refine ⟨hv.elementsPerBlock_pos, hv.blocksGrowth_pos, hv.count_le_capacity, hf,
    Nat.le_trans hv.blockList_le hn, ?_, ?_⟩
  · intro b hb
    obtain ⟨blk, al, q1, q2, q3, q4, q5⟩ := hv.populated b hb
    exact ⟨blk, al, hload b blk q1, q2, q3,
      by rw [hmem blk q2 (hv.fresh.le_next q4)]; exact q4, q5⟩
  · intro b1 b2 blk hb1 hb2 h1 h2
    obtain ⟨blk1, _, q1, -⟩ := hv.populated b1 hb1
    obtain ⟨blk2, _, r1, -⟩ := hv.populated b2 hb2
    have e1 := hload b1 blk1 q1
    have e2 := hload b2 blk2 r1
    rw [e1] at h1
    rw [e2] at h2
    have e3 : blk1 = blk := Except.ok.inj h1
    have e4 : blk2 = blk := Except.ok.inj h2
    rw [e3] at q1
    rw [e4] at r1
    exact hv.distinct b1 b2 blk hb1 hb2 q1 r1

/-- A bit vector stays valid when the pool changes only above the addresses it had handed
out, and its bits below `Capacity` read the same. -/
theorem BitVector.Valid.bits_frame {b : BitVector} {pool pool1 : MemoryPool}
    (hv : b.Valid pool) (hf : pool1.Fresh) (hn : pool.next ≤ pool1.next)
    (hmem : ∀ q, q ≠ 0 → q ≤ pool.next → pool1.mem q = pool.mem q) :
    b.Valid pool1 ∧ ∀ i, i < b.Capacity → b.Get pool1 i = b.Get pool i := by
  have hv1 : b.Valid pool1 :=
    ⟨hv.array.array_frame hf hn hmem, hv.data, hv.capacity, hv.elementsPerBlock, hv.sizeof_value_type⟩
  refine ⟨hv1, ?_⟩
  intro i hi
  obtain ⟨blk, byte, hblk, hp, hbyte, hblk0, -, hblkle, hLle, -⟩ := hv.place hi
  obtain ⟨hL0, -⟩ := MemoryPool.load_ok_live hblk
  have hp1 : b.pValue pool1 i = b.pValue pool i := by
    unfold BitVector.pValue
    rw [MemoryPool.load_congr (hmem _ hL0 hLle)]
  unfold BitVector.Get
  rw [hp1, hp]
  simp only
  rw [MemoryPool.load_congr (hmem _ hblk0 hblkle)]

/-- A key array stays valid when the pool changes only above the addresses it had handed
out, and its slots below `Capacity` read the same. -/
theorem ExpandableArrayOfKeys.Valid.keys_frame {k : ExpandableArrayOfKeys} {pool pool1 : MemoryPool}
    (hv : k.Valid pool) (hf : pool1.Fresh) (hn : pool.next ≤ pool1.next)
    (hmem : ∀ q, q ≠ 0 → q ≤ pool.next → pool1.mem q = pool.mem q) :
    k.Valid pool1 ∧ ∀ i, k.GetAt pool1 i = k.GetAt pool i := by
  have hv1 : k.Valid pool1 :=
    ⟨hv.array.array_frame hf hn hmem, hv.data, hv.capacity, hv.elementsPerBlock, hv.sizeof_value_type⟩
  refine ⟨hv1, ?_⟩
  intro i
  by_cases hi : i < k.Capacity
  · obtain ⟨blk, prev, hblk, hprev, hblk0, -, hblkle, hLle, -⟩ := hv.slot hi
    obtain ⟨hL0, -⟩ := MemoryPool.load_ok_live hblk
    have hblk1 : pool1.load k._pData sizeof_ptr (i / ITEMS_PER_BLOCK) = .ok blk := by
      rw [MemoryPool.load_congr (hmem _ hL0 hLle)]
      exact hblk
    rw [ExpandableArrayOfKeys.GetAt_of_block hi hblk1,
      ExpandableArrayOfKeys.GetAt_of_block hi hblk,
      MemoryPool.load_congr (hmem _ hblk0 hblkle)]
  · unfold ExpandableArrayOfKeys.GetAt
    rw [if_pos (Nat.le_of_not_lt hi), if_pos (Nat.le_of_not_lt hi)]

/-- A buffer holds its key as long as its allocation is untouched. -/
theorem HoldsKey.buffer_frame {pool pool1 : MemoryPool} {p : Ptr} {key : List Nat}
    (h : HoldsKey pool p key) (hmem : pool1.mem p = pool.mem p) : HoldsKey pool1 p key :=
  ⟨h.1, h.2.1, fun c b hc => by rw [MemoryPool.load_congr hmem]; exact h.2.2 c b hc⟩

/-- A buffer that holds a key is a non-null address the pool has handed out. -/
theorem HoldsKey.live {pool : MemoryPool} {p : Ptr} {key : List Nat} (h : HoldsKey pool p key)
    (hf : pool.Fresh) : p ≠ 0 ∧ p ≤ pool.next := by
  obtain ⟨h0, al, hal, -⟩ := MemoryPool.load_ok_live h.head.2.2
  exact ⟨h0, hf.le_next hal⟩

/-- Two keys held by one buffer are equal. -/
theorem HoldsKey.unique {pool : MemoryPool} {p : Ptr} {key key2 : List Nat}
    (h : HoldsKey pool p key) (h2 : HoldsKey pool p key2) : key = key2 := by
  have e0 : key.headD 0 = key2.headD 0 :=
    Except.ok.inj (h.head.2.2.symm.trans h2.head.2.2)
  have elen : key.length = key2.length := by rw [h.1, h2.1, e0]
  apply List.ext_getElem elen
  intro c hc hc2
  have a1 := h.2.2 c _ (List.getElem?_eq_getElem hc)
  have a2 := h2.2.2 c _ (List.getElem?_eq_getElem hc2)
  exact Except.ok.inj (a1.symm.trans a2)

end Pql.UnmanagedLib

namespace Pql.UnmanagedLib

/-- An element inside a live allocation can be written. -/
theorem MemoryPool.store_of_mem {p : MemoryPool} {ptr : Ptr} {al : Allocation} {s ix : Nat}
    (h0 : ptr ≠ 0) (hal : p.mem ptr = some al) (hb : (ix + 1) * s ≤ al.bytes) (w : Nat) :
    ∃ p1, p.store ptr s ix w = .ok p1 :=
  MemoryPool.store_of_load (MemoryPool.load_of_mem h0 hal hb) w

/-- A successful allocation returns a zeroed allocation. -/
theorem MemoryPool.zero_allocate_zeroed (p : MemoryPool) (s n : Nat)
    (hout : ∀ x ∈ p.outcomes, x = true) :
    ∃ al, (p.zero_allocate s n).2.mem (p.next + 1) = some al ∧ al.bytes = n * s
      ∧ ∀ j, al.cells j = 0 := by
  obtain ⟨z1, -⟩ := MemoryPool.zero_allocate_success p s n hout
  rcases (MemoryPool.zero_allocate_spec p s n).2.2 with ⟨h1, -⟩ | ⟨-, -, -, h⟩
  · rw [z1] at h1
    cases h1
  · exact h

namespace ExpandableArrayImpl

/-- When the oracle announces no failure and the spine has room for the entries, the loop
that allocates the missing blocks returns, and every block it allocated is zeroed. -/
theorem allocate_missing_blocks_total (s E : Nat) (blockList : Ptr) (hL0 : blockList ≠ 0) :
    ∀ (count ix : Nat) (p : MemoryPool), (∀ x ∈ p.outcomes, x = true) → blockList ≤ p.next →
      (∃ al, p.mem blockList = some al ∧ (ix + count) * sizeof_ptr ≤ al.bytes) →
      ∃ p1, allocate_missing_blocks s E blockList count ix p = .ok p1
        ∧ ∀ j, ix ≤ j → j < ix + count →
            ∃ al, p1.mem (p.next + 1 + (j - ix)) = some al ∧ ∀ c, al.cells c = 0 := by
  intro count
  induction count with
  | zero =>
    intro ix p _ _ _
    exact ⟨p, rfl, fun j h1 h2 => absurd h2 (by omega)⟩
  | succ n ih =>
    intro ix p hout hL hspine
    obtain ⟨alL, halL, hroom⟩ := hspine
    obtain ⟨z1, z2, z3, -⟩ := MemoryPool.zero_allocate_success p s E hout
    obtain ⟨alz, halz, -, hzero⟩ := MemoryPool.zero_allocate_zeroed p s E hout
    have hLne : blockList ≠ p.next + 1 := Nat.ne_of_lt (Nat.lt_succ_of_le hL)
    have halL1 : (p.zero_allocate s E).2.mem blockList = some alL := by
      rw [MemoryPool.zero_allocate_mem_other p s E blockList hLne]
      exact halL
    have hroom1 : (ix + 1) * sizeof_ptr ≤ alL.bytes :=
      Nat.le_trans (Nat.mul_le_mul_right _ (by omega)) hroom
    obtain ⟨ps, hstore⟩ := MemoryPool.store_of_mem hL0 halL1 hroom1 (p.zero_allocate s E).1
    obtain ⟨-, -, -, g3, g4, g5, -⟩ := MemoryPool.store_spec hstore
    obtain ⟨alL2, halL2, hbytes2⟩ := MemoryPool.store_keeps_live hstore halL1
    have hpsn : ps.next = p.next + 1 := by rw [g3, z2]
    have hLs : blockList ≤ ps.next := by
      rw [hpsn]
      exact Nat.le_succ_of_le hL
    obtain ⟨p1, hrec, hblocks⟩ := ih (ix + 1) ps (by rw [g4]; exact z3) hLs
      ⟨alL2, halL2, by rw [hbytes2]; exact Nat.le_trans (Nat.le_of_eq (by ring_nf)) hroom⟩
    obtain ⟨-, -, -, -, f5, -⟩ := allocate_missing_blocks_frame _ _ _ _ _ _ _ hrec hLs
    refine ⟨p1, ?_, ?_⟩
    · unfold allocate_missing_blocks
      simp only
      rw [hstore]
      exact hrec
    · intro j h1 h2
      by_cases hj : j = ix
      · subst hj
        rw [Nat.sub_self, Nat.add_zero]
        refine ⟨alz, ?_, hzero⟩
        rw [f5 (p.next + 1) (by rw [hpsn]) (Ne.symm hLne), g5 _ (Ne.symm hLne)]
        exact halz
      · have := hblocks j (by omega) (by omega)
        rw [hpsn] at this
        have e : p.next + 1 + 1 + (j - (ix + 1)) = p.next + 1 + (j - ix) := by omega
        rw [e] at this
        exact this

/-- When the oracle announces no failure, `try_ensure_capacity` on a new array of
pointer-sized elements returns, for every request whose spine capacity is computed without
wrap-around; when it grows the array, the spine is
the fresh address `next + 1` and its entries are the next fresh addresses, each a zeroed
block. -/
theorem try_ensure_capacity_new_total (E G : Nat) (hE : 0 < E) (hG : 0 < G) (pool : MemoryPool)
    (hout : ∀ x ∈ pool.outcomes, x = true) (n timeout : Nat) (ref : Ptr) (cap : Nat)
    (hfit : (create sizeof_ptr E G).ListCapacityFits n) :
    ∃ r, (create sizeof_ptr E G).try_ensure_capacity pool n timeout ref cap = .ok r
      ∧ (0 < n → r.self._blockList = pool.next + 1
          ∧ ∀ j, j < 1 + n / E →
              r.pool.load (pool.next + 1) sizeof_ptr j = .ok (pool.next + 2 + j)
              ∧ ∃ al, r.pool.mem (pool.next + 2 + j) = some al
                  ∧ al.bytes = E * sizeof_ptr ∧ ∀ c, al.cells c = 0) := by
  by_cases hn : (create sizeof_ptr E G).capacity ≥ n
  · unfold try_ensure_capacity
    rw [if_pos hn]
    refine ⟨_, rfl, ?_⟩
    intro h0
    have : (create sizeof_ptr E G).capacity = 0 := create_capacity _ _ _
    omega
  · have hEG : ¬ (E = 0 ∨ wrap_size_t (E * G) = 0) := by
      intro h
      rcases h with h | h
      · omega
      · have h1 : E * G < SIZE_T_RANGE := hfit.1
        rw [wrap_size_t_of_lt h1] at h
        rcases Nat.mul_eq_zero.mp h with h | h <;> omega
    obtain ⟨z1, z2, z3, alz, halz, hbytes⟩ := MemoryPool.zero_allocate_success pool sizeof_ptr
      ((create sizeof_ptr E G).newListCapacity n) hout
    have hreq := requestedListCapacity_le_newListCapacity (create sizeof_ptr E G) n hG hfit
    have hreqeq : (create sizeof_ptr E G).requestedListCapacity n = 1 + n / E :=
      (requestedListCapacity_of_fits (create sizeof_ptr E G) n hG hfit).1
    obtain ⟨p2, hfill, hzero⟩ := allocate_missing_blocks_total sizeof_ptr E
      (pool.zero_allocate sizeof_ptr ((create sizeof_ptr E G).newListCapacity n)).1
      (by rw [z1]; exact Nat.succ_ne_zero _)
      ((create sizeof_ptr E G).requestedListCapacity n) 0
      (pool.zero_allocate sizeof_ptr ((create sizeof_ptr E G).newListCapacity n)).2
      z3 (by rw [z1, z2])
      ⟨alz, by rw [z1]; exact halz, by
        rw [hbytes, Nat.zero_add]
        exact Nat.mul_le_mul_right _ hreq⟩
    obtain ⟨-, hloads⟩ := allocate_missing_blocks_success _ _ _ _ _ _ _ hfill
      (by rw [z1, z2]) z3
    unfold try_ensure_capacity
    rw [if_neg hn, if_neg hn]
    have hc : (create sizeof_ptr E G)._elementsPerBlock = E := rfl
    have hg : (create sizeof_ptr E G)._blocksGrowth = G := rfl
    rw [hc, hg, if_neg hEG]
    simp only
    have hcap0 : (create sizeof_ptr E G)._blockCapacity = 0 := rfl
    have hpos : 0 < (create sizeof_ptr E G).newListCapacity n := by
      rw [newListCapacity_of_fits _ n hG hfit, hc, hg]
      exact Nat.mul_pos (Nat.lt_of_lt_of_le Nat.zero_lt_one (Nat.le_add_right 1 _)) hG
    rw [hcap0, if_pos hpos]
    unfold replace_block_list
    simp only
    rw [hcap0]
    unfold copy_block_list
    simp only
    have hbl : (create sizeof_ptr E G)._blockList = 0 := rfl
    have hbc : (create sizeof_ptr E G)._blockCount = 0 := rfl
    have hs : (create sizeof_ptr E G).sizeof_value_type = sizeof_ptr := rfl
    rw [hbl]
    simp only [ne_eq, not_true_eq_false, if_false]
    rw [hbc, hs, hc, Nat.sub_zero, hfill]
    refine ⟨_, rfl, ?_⟩
    intro _
    refine ⟨z1, ?_⟩
    intro j hj
    have hj2 : j < 0 + (create sizeof_ptr E G).requestedListCapacity n := by
      rw [Nat.zero_add, hreqeq]
      exact hj
    obtain ⟨l1, al, l2, l3⟩ := hloads j (Nat.zero_le _) hj2
    obtain ⟨al2, m1, m2⟩ := hzero j (Nat.zero_le _) hj2
    rw [z2, Nat.sub_zero] at l1 l2 m1
    rw [z1] at l1
    have e : pool.next + 1 + 1 + j = pool.next + 2 + j := by omega
    rw [e] at l1 l2 m1
    rw [l2] at m1
    have := Option.some.inj m1
    subst this
    exact ⟨l1, al, l2, l3, m2⟩

end ExpandableArrayImpl

namespace ExpandableArrayOfKeys

/-- When the oracle announces no failure and the capacity of the blocks asked for fits a
`size_t`, `EnsureCapacity(count)` on a new key array returns a valid key array with room
for `count` slots, all null; its spine and blocks are fresh addresses and no allocation
made before is touched. -/
theorem EnsureCapacity_new (pool : MemoryPool) (hf : pool.Fresh)
    (hout : ∀ x ∈ pool.outcomes, x = true) (count : Nat)
    (hfitc : (1 + count / ITEMS_PER_BLOCK) * ITEMS_PER_BLOCK < SIZE_T_RANGE) :
    ∃ k1 p1, newKeys.EnsureCapacity pool count = .ok (k1, p1)
      ∧ k1.Valid p1 ∧ (∀ x ∈ p1.outcomes, x = true) ∧ count ≤ k1.Capacity
      ∧ pool.next ≤ p1.next
      ∧ (∀ q, q ≠ 0 → q ≤ pool.next → p1.mem q = pool.mem q)
      ∧ (∀ i, i < k1.Capacity → k1.GetAt p1 i = .ok 0)
      ∧ (0 < k1.Capacity → pool.next < k1._pData)
      ∧ ∀ b blk, b < k1._pArray._blockCount → p1.load k1._pData sizeof_ptr b = .ok blk →
          pool.next < blk := by
  have hv0 : newKeys.Valid pool :=
    ⟨ExpandableArrayImpl.create_valid _ _ _ (by decide) (by decide) pool hf, rfl, rfl, rfl, rfl⟩
  have hcount_lt : count < SIZE_T_RANGE := by
    unfold ITEMS_PER_BLOCK SIZE_T_RANGE at *
    omega
  have hfit : (ExpandableArrayImpl.create sizeof_ptr ITEMS_PER_BLOCK
      BLOCKS_GROWTH).ListCapacityFits count :=
    ExpandableArrayImpl.ListCapacityFits_of_constants rfl rfl hcount_lt
  obtain ⟨r, hr, hnew⟩ := ExpandableArrayImpl.try_ensure_capacity_new_total ITEMS_PER_BLOCK
    BLOCKS_GROWTH (by decide) (by decide) pool hout count Timeout_Infinite 0 0 hfit
  by_cases hc : count > 0
  · have hrun : newKeys.TryEnsureCapacity pool count Timeout_Infinite
        = .ok (true, { _pArray := r.self, _pData := r.ref, _capacity := r.cap }, r.pool) := by
      have hr2 : newKeys._pArray.try_ensure_capacity pool count Timeout_Infinite
          newKeys._pData newKeys._capacity = .ok r := hr
      unfold TryEnsureCapacity
      rw [if_pos hc, hr2]
    obtain ⟨hv1, hout1, -⟩ := TryEnsureCapacity_valid hv0 hout rfl hcount_lt hrun
    obtain ⟨c1, c2, c3, c4, c5⟩ :=
      ExpandableArrayImpl.try_ensure_capacity_cache hr rfl
        (ExpandableArrayImpl.create_capacity _ _ _).symm
    obtain ⟨-, -, hnext⟩ :=
      ExpandableArrayImpl.try_ensure_capacity_fresh hf (Nat.zero_le _) hr
    obtain ⟨hL, hblocks⟩ := hnew hc
    have hcount : r.self._blockCount = 1 + count / ITEMS_PER_BLOCK := by
      rcases ExpandableArrayImpl.try_ensure_capacity_cases hr with ⟨hle, -⟩ | ⟨-, -, -, -, h, -⟩
      · have : (ExpandableArrayImpl.create sizeof_ptr ITEMS_PER_BLOCK BLOCKS_GROWTH).capacity
            = 0 := ExpandableArrayImpl.create_capacity _ _ _
        omega
      · rw [h]
        exact (ExpandableArrayImpl.requestedListCapacity_of_fits _ count (by decide) hfit).1
    have hcapeq : r.cap = (1 + count / ITEMS_PER_BLOCK) * ITEMS_PER_BLOCK := by
      rw [c2]
      unfold ExpandableArrayImpl.capacity
      rw [hcount, c3]
      exact ExpandableArrayImpl.wrap_size_t_of_lt hfitc
    have hdata : r.ref = pool.next + 1 := c1.trans hL
    refine ⟨{ _pArray := r.self, _pData := r.ref, _capacity := r.cap }, r.pool, ?_, hv1, hout1,
      ?_, hnext, ?_, ?_, ?_, ?_⟩
    · unfold EnsureCapacity
      rw [hrun]
      rfl
    · show count ≤ r.cap
      rw [hcapeq]
      exact Nat.le_of_lt (ExpandableArrayImpl.lt_requested_capacity _ _ (by decide))
    · intro q hq0 hq
      exact ExpandableArrayImpl.try_ensure_capacity_mem_frame (Nat.zero_le _) hr hq0 hq hq0
    · intro i hi
      have hi2 : i < (1 + count / ITEMS_PER_BLOCK) * ITEMS_PER_BLOCK := by
        rw [← hcapeq]
        exact hi
      have hb : i / ITEMS_PER_BLOCK < 1 + count / ITEMS_PER_BLOCK :=
        Nat.div_lt_of_lt_mul (by rw [Nat.mul_comm]; exact hi2)
      obtain ⟨l1, al, l2, l3, l4⟩ := hblocks _ hb
      have hspine : r.pool.load r.ref sizeof_ptr (i / ITEMS_PER_BLOCK)
          = .ok (pool.next + 2 + i / ITEMS_PER_BLOCK) := by
        rw [hdata]
        exact l1
      rw [GetAt_of_block hi hspine]
      have hroom : (i % ITEMS_PER_BLOCK + 1) * sizeof_ptr ≤ al.bytes := by
        rw [l3]
        exact Nat.mul_le_mul_right _ (Nat.mod_lt _ (by decide))
      rw [MemoryPool.load_of_mem
        (Nat.ne_of_gt (Nat.add_pos_left (Nat.add_pos_right _ (by decide)) _)) l2 hroom, l4]
    · intro _
      show pool.next < r.ref
      rw [hdata]
      exact Nat.lt_succ_self _
    · intro b blk hb hload
      show pool.next < blk
      have hload2 : r.pool.load r.ref sizeof_ptr b = .ok blk := hload
      have hb2 : b < 1 + count / ITEMS_PER_BLOCK := by
        rw [← hcount]
        exact hb
      rw [hdata] at hload2
      obtain ⟨l1, -⟩ := hblocks _ hb2
      rw [l1] at hload2
      have e : pool.next + 2 + b = blk := Except.ok.inj hload2
      rw [← e]
      omega
  · have hc0 : count = 0 := by omega
    subst hc0
    refine ⟨newKeys, pool, rfl, hv0, hout, Nat.zero_le _, Nat.le_refl _, fun _ _ _ => rfl, ?_,
      ?_, ?_⟩
    · intro i hi
      exact absurd hi (Nat.not_lt_zero _)
    · intro h
      exact absurd h (Nat.lt_irrefl _)
    · intro b blk hb
      exact absurd hb (Nat.not_lt_zero _)

end ExpandableArrayOfKeys

end Pql.UnmanagedLib

namespace Pql.UnmanagedLib

/-- A `memcpy` inside a live destination allocation, from a source long enough, returns;
it does not consult the allocation oracle. -/
theorem memcpy_total (dst : Ptr) (src : List Nat) (hdst : dst ≠ 0) :
    ∀ (count ix : Nat) (p : MemoryPool),
      (∃ al, p.mem dst = some al ∧ ix + count ≤ al.bytes) → ix + count ≤ src.length →
      ∃ p1, memcpy dst src count ix p = .ok p1 ∧ p1.outcomes = p.outcomes := by
  intro count
  induction count with
  | zero =>
    intro ix p _ _
    exact ⟨p, rfl, rfl⟩
  | succ n ih =>
    intro ix p hal hsrc
    obtain ⟨al, hal, hroom⟩ := hal
    have hix : ix < src.length := by omega
    obtain ⟨ps, hstore⟩ := MemoryPool.store_of_mem hdst hal
      (by rw [sizeof_uint8_t, Nat.mul_one]; omega : (ix + 1) * sizeof_uint8_t ≤ al.bytes)
      (src.get ⟨ix, hix⟩)
    obtain ⟨al1, hal1, hb1⟩ := MemoryPool.store_keeps_live hstore hal
    obtain ⟨p1, hrec, hout⟩ := ih (ix + 1) ps ⟨al1, hal1, by rw [hb1]; omega⟩ (by omega)
    refine ⟨p1, ?_, ?_⟩
    · unfold memcpy
      rw [List.getElem?_eq_getElem hix]
      simp only
      have e : src[ix] = src.get ⟨ix, hix⟩ := rfl
      rw [e, hstore]
      exact hrec
    · rw [hout]
      exact (MemoryPool.store_spec hstore).2.2.2.2.1

namespace ExpandableArrayOfKeys

/-- When the oracle announces no failure, the candidate buffer is built for a null
payload and for every payload whose length byte `L` is positive and which holds `L + 1`
bytes. -/
theorem make_candidate_total (pool : MemoryPool) (hout : ∀ x ∈ pool.outcomes, x = true)
    (pdata : Option (List Nat))
    (hdata : ∀ buf, pdata = some buf → ∃ L, buf[0]? = some L ∧ L ≠ 0 ∧ L + 1 ≤ buf.length) :
    ∃ pnew p1, make_candidate pool pdata = .ok (pnew, p1)
      ∧ ∀ x ∈ p1.outcomes, x = true := by
  cases pdata with
  | none => exact ⟨0, pool, rfl, hout⟩
  | some buf =>
    obtain ⟨L, hL, hL0, hlen⟩ := hdata buf rfl
    obtain ⟨z1, z2, z3, al, hal, hbytes⟩ :=
      MemoryPool.zero_allocate_success pool sizeof_uint8_t (L + 1) hout
    obtain ⟨p1, hcopy, houts⟩ := memcpy_total (pool.zero_allocate sizeof_uint8_t (L + 1)).1 buf
      (by rw [z1]; exact Nat.succ_ne_zero _) (L + 1) 0
      (pool.zero_allocate sizeof_uint8_t (L + 1)).2
      ⟨al, by rw [z1]; exact hal, by rw [hbytes, sizeof_uint8_t]; omega⟩ (by omega)
    refine ⟨(pool.zero_allocate sizeof_uint8_t (L + 1)).1, p1, ?_, by rw [houts]; exact z3⟩
    unfold make_candidate
    simp only
    rw [hL]
    simp only [hL0, if_false]
    have e : DynamicMemoryPool.Alloc pool (L + 1) = pool.zero_allocate sizeof_uint8_t (L + 1) :=
      rfl
    rw [e, hcopy]

/-- When the oracle announces no failure and no other thread writes the slot, `TrySetAt`
on a valid key array, for an index below `Capacity` and a payload that is null or holds
a positive length byte `L` and `L + 1` bytes, returns true: the array stays valid, the
slot holds null for a null payload and else the fresh address `next + 1` of a copy of the
payload, the other slots read as before, and of the allocations made before only the
block of the slot is written. -/
theorem TrySetAt_install {k : ExpandableArrayOfKeys} {pool : MemoryPool} {index : Nat}
    {pdata : Option (List Nat)} (hv : k.Valid pool) (hi : index < k.Capacity)
    (hout : ∀ x ∈ pool.outcomes, x = true)
    (hdata : ∀ buf, pdata = some buf → ∃ L, buf[0]? = some L ∧ L ≠ 0 ∧ L + 1 ≤ buf.length) :
    ∃ pool1 pnew blk, k.TrySetAt pool index pdata none = .ok (true, pool1)
      ∧ k.Valid pool1 ∧ (∀ x ∈ pool1.outcomes, x = true) ∧ pool.next ≤ pool1.next
      ∧ k.GetAt pool1 index = .ok pnew
      ∧ (pdata = none → pnew = 0)
      ∧ (∀ buf L, pdata = some buf → buf[0]? = some L →
          pnew = pool.next + 1
          ∧ ∀ c, c ≤ L → ∃ b, buf[c]? = some b ∧ pool1.load pnew sizeof_uint8_t c = .ok b)
      ∧ (∀ j, j ≠ index → k.GetAt pool1 j = k.GetAt pool j)
      ∧ pool.load k._pData sizeof_ptr (index / ITEMS_PER_BLOCK) = .ok blk
      ∧ ∀ q, q ≠ blk → q ≤ pool.next → pool1.mem q = pool.mem q := by
  obtain ⟨pnew, p1, hcand, hout1⟩ := make_candidate_total pool hout pdata hdata
  obtain ⟨c1, c2, c3, c4, c5, c6⟩ := make_candidate_spec hcand
  obtain ⟨blk, prev, hblk, hprev, hblk0, hblkL, hblkle, hLle, -⟩ := hv.slot hi
  obtain ⟨hL0, -⟩ := MemoryPool.load_ok_live hblk
  have hblkne : blk ≠ pool.next + 1 := Nat.ne_of_lt (Nat.lt_succ_of_le hblkle)
  have hLne : k._pData ≠ pool.next + 1 := Nat.ne_of_lt (Nat.lt_succ_of_le hLle)
  have hblk1 : p1.load k._pData sizeof_ptr (index / ITEMS_PER_BLOCK) = .ok blk := by
    rw [MemoryPool.load_congr (c5 _ hLne)]
    exact hblk
  have hprev1 : p1.load blk sizeof_ptr (index % ITEMS_PER_BLOCK) = .ok prev := by
    rw [MemoryPool.load_congr (c5 _ hblkne)]
    exact hprev
  obtain ⟨p3, hstore⟩ := MemoryPool.store_of_load hprev1 pnew
  have hrun : k.TrySetAt pool index pdata none
      = .ok (true, if prev ≠ 0 then DynamicMemoryPool.ScheduleForCollection p3 prev else p3) := by
    unfold TrySetAt
    rw [if_neg (Nat.not_le.mpr hi), hcand]
    simp only
    rw [hblk1]
    simp only
    rw [hprev1]
    simp only
    unfold InterlockedCompareExchangePointer
    rw [hprev1]
    simp only [if_true]
    rw [hstore]
    simp
  have houts : ∀ x ∈ (if prev ≠ 0 then DynamicMemoryPool.ScheduleForCollection p3 prev
      else p3).outcomes, x = true := by
    have e : (if prev ≠ 0 then DynamicMemoryPool.ScheduleForCollection p3 prev
        else p3).outcomes = p3.outcomes := by split <;> rfl
    rw [e, (MemoryPool.store_spec hstore).2.2.2.2.1]
    exact hout1
  obtain ⟨-, hnext, -⟩ := TrySetAt_keeps_live hv.array.fresh hrun
  obtain ⟨pnew2, p12, blk2, prev2, hcand2, hblk2, hprev2, -, -, -, hblkpnew, hslots,
    htrue, -⟩ := TrySetAt_effect hv hrun
  have e1 : pnew2 = pnew ∧ p12 = p1 := by
    rw [hcand] at hcand2
    simp only [Except.ok.injEq, Prod.mk.injEq] at hcand2
    exact ⟨hcand2.1.symm, hcand2.2.symm⟩
  obtain ⟨e1a, e1b⟩ := e1
  subst e1a e1b
  have e2 : blk2 = blk := by
    rw [hblk] at hblk2
    exact (Except.ok.inj hblk2).symm
  subst e2
  obtain ⟨-, -, hslot, hmem⟩ := htrue rfl
  have hframe : ∀ q, q ≠ blk2 → q ≤ pool.next →
      (if prev ≠ 0 then DynamicMemoryPool.ScheduleForCollection p3 prev else p3).mem q
        = pool.mem q := by
    intro q hq hqle
    rw [hmem q hq, c5 q (Nat.ne_of_lt (Nat.lt_succ_of_le hqle))]
  have hspine : (if prev ≠ 0 then DynamicMemoryPool.ScheduleForCollection p3 prev
      else p3).mem k._pData = pool.mem k._pData := hframe _ (Ne.symm hblkL) hLle
  refine ⟨_, pnew2, blk2, hrun, TrySetAt_valid hv hrun, houts, hnext, ?_, ?_, ?_, ?_, hblk,
    hframe⟩
  · rw [GetAt_of_block hi (by rw [MemoryPool.load_congr hspine]; exact hblk)]
    exact hslot
  · intro hnone
    rcases c6 with ⟨-, e, -⟩ | ⟨buf, len, e, -⟩
    · exact e
    · rw [hnone] at e
      cases e
  · intro buf L hbuf hL
    rcases c6 with ⟨e, -⟩ | ⟨buf2, len, e, hlen, -, hp, hbytes⟩
    · rw [hbuf] at e
      cases e
    · rw [hbuf] at e
      have := Option.some.inj e
      subst this
      rw [hL] at hlen
      have := Option.some.inj hlen
      subst this
      refine ⟨hp, ?_⟩
      intro c hc
      obtain ⟨b, hb1, hb2⟩ := hbytes c hc
      refine ⟨b, hb1, ?_⟩
      rw [MemoryPool.load_congr (hmem pnew2 (Ne.symm hblkpnew))]
      exact hb2
  · intro j hj
    exact GetAt_other hv hi hblk hspine hslots
      (fun q hq _ hqle => hframe q hq hqle) j hj

end ExpandableArrayOfKeys

end Pql.UnmanagedLib

namespace Pql.UnmanagedLib

namespace ExpandableArrayOfKeys

/-- The content loop of `Read`, from `c` on and with enough fuel, on a reader that starts
with the bytes of `key` from `c` on: it stores these bytes in the scratch buffer, which
then starts with `key`, and leaves the rest of the reader.  The key fits the buffer. -/
theorem Read_content_spec (key rest : List Nat) (hlen : key.length = key.headD 0 + 1)
    (h255 : key.length ≤ 255) :
    ∀ (fuel c : Nat) (buff : List Nat), 1 ≤ c → c ≤ key.length → key.length ≤ c + fuel →
      buff.length = 255 → (∀ j, j < c → buff[j]? = key[j]?) →
      ∃ buff2, Read_content fuel c buff (key.drop c ++ rest) = .ok (buff2, rest)
        ∧ buff2.length = 255 ∧ ∀ j, j < key.length → buff2[j]? = key[j]? := by
  have hkey0 : key[0]? = some (key.headD 0) := by
    cases key with
    | nil => simp at hlen
    | cons x t => simp
  intro fuel
  induction fuel with
  | zero =>
    intro c buff h1 h2 h3 hb hpre
    have e : c = key.length := by omega
    subst e
    refine ⟨buff, ?_, hb, hpre⟩
    unfold Read_content
    rw [List.drop_length, List.nil_append]
  | succ f ih =>
    intro c buff h1 h2 h3 hb hpre
    have h0 : buff[0]? = some (key.headD 0) := by rw [hpre 0 (by omega), hkey0]
    unfold Read_content
    rw [h0]
    simp only
    by_cases hc : c < key.length
    · have hle : c ≤ key.headD 0 := by omega
      obtain ⟨buff2, e1, e2, e3⟩ := ih (c + 1) (buff.set c (key.get ⟨c, hc⟩)) (by omega)
        (by omega) (by omega) (by rw [List.length_set]; exact hb) (by
          intro j hj
          by_cases e : j = c
          · subst e
            rw [List.getElem?_set_self (by omega), List.getElem?_eq_getElem hc]
            rfl
          · rw [List.getElem?_set_ne (Ne.symm e)]
            exact hpre j (by omega))
      refine ⟨buff2, ?_, e2, e3⟩
      rw [if_pos hle, List.drop_eq_getElem_cons hc, List.cons_append]
      show (if c < buff.length then
          Read_content f (c + 1) (buff.set c key[c]) (List.drop (c + 1) key ++ rest)
        else .error .undefinedBehaviour) = _
      rw [if_pos (by omega)]
      exact e1
    · have e : c = key.length := by omega
      have hnle : ¬ c ≤ key.headD 0 := by omega
      rw [if_neg hnle]
      subst e
      rw [List.drop_length, List.nil_append]
      exact ⟨buff, rfl, hb, hpre⟩

end ExpandableArrayOfKeys

end Pql.UnmanagedLib

namespace Pql.UnmanagedLib

namespace ExpandableArrayOfKeys

/-- The invariant of the loop of `Read` passes from `ix` to `ix + 1` over a step that left
slot `ix` as its chunk says, wrote no allocation made before but the block of the slot, and
kept the other slots. -/
theorem ReadInv.step {t : ExpandableArrayOfKeys} {pool0 : MemoryPool} {bound : Nat}
    {chunks : List (List Nat)} {ix : Nat} {p pool1 : MemoryPool} {pnew blk : Ptr}
    (hbound : pool0.next ≤ bound) (inv : t.ReadInv pool0 bound chunks ix p)
    (hix : ix < t.Capacity) (hv1 : t.Valid pool1) (hout1 : ∀ x ∈ pool1.outcomes, x = true)
    (hnext : p.next ≤ pool1.next) (hget : t.GetAt pool1 ix = .ok pnew)
    (hother : ∀ j, j ≠ ix → t.GetAt pool1 j = t.GetAt p j)
    (hblk : p.load t._pData sizeof_ptr (ix / ITEMS_PER_BLOCK) = .ok blk)
    (hframe : ∀ q, q ≠ blk → q ≤ p.next → pool1.mem q = p.mem q)
    (hnew : ∀ chunk, chunks[ix]? = some chunk →
      (chunk.headD 0 = 0 → pnew = 0)
      ∧ (chunk.headD 0 ≠ 0 → bound < pnew ∧ HoldsKey pool1 pnew chunk)) :
    t.ReadInv pool0 bound chunks (ix + 1) pool1 := by
  obtain ⟨blk2, prev, hblk2, -, -, hblkL, -, hLle, hb⟩ := inv.valid.slot hix
  have e : blk2 = blk := by
    rw [hblk] at hblk2
    exact (Except.ok.inj hblk2).symm
  subst e
  obtain ⟨hblklo, hblkhi⟩ := inv.blocks _ blk2 hb hblk
  have hspine : pool1.mem t._pData = p.mem t._pData := hframe _ (Ne.symm hblkL) hLle
  refine ⟨hv1, hout1, Nat.le_trans inv.next hnext, ?_, ?_, ?_, ?_⟩
  · intro q hq0 hq
    rw [hframe q (Nat.ne_of_lt (Nat.lt_of_le_of_lt hq hblklo))
      (Nat.le_trans hq (Nat.le_trans hbound inv.next))]
    exact inv.frame q hq0 hq
  · intro b blk3 hb3 hload
    rw [MemoryPool.load_congr hspine] at hload
    exact inv.blocks b blk3 hb3 hload
  · intro i hi hic
    rw [hother i (Nat.ne_of_gt (Nat.lt_of_succ_le hi))]
    exact inv.nulls i (Nat.le_of_succ_le hi) hic
  · intro i chunk hi hchunk
    by_cases hii : i = ix
    · subst hii
      obtain ⟨n1, n2⟩ := hnew chunk hchunk
      constructor
      · intro h0
        rw [hget, n1 h0]
      · intro h0
        obtain ⟨m1, m2⟩ := n2 h0
        exact ⟨pnew, m1, hget, m2⟩
    · have hlt : i < ix := by omega
      obtain ⟨d1, d2⟩ := inv.done i chunk hlt hchunk
      rw [hother i hii]
      refine ⟨d1, ?_⟩
      intro h0
      obtain ⟨pt, q1, q2, q3⟩ := d2 h0
      refine ⟨pt, q1, q2, q3.buffer_frame ?_⟩
      exact hframe pt (Nat.ne_of_gt (Nat.lt_of_le_of_lt hblkhi q1))
        (q3.live inv.valid.array.fresh).2

/-- The loop of `Read` on a reader made of readable chunks followed by `rest`, started
under its invariant with the iterations that are left, returns with `rest` left in the
reader and the invariant at the end. -/
theorem Read_loop_spec {t : ExpandableArrayOfKeys} {v : BitVector} {pool0 : MemoryPool}
    {bound : Nat} (hv : v.Valid pool0) (hbound : pool0.next ≤ bound)
    (chunks : List (List Nat)) (rest : List Nat)
    (hcv : chunks.length ≤ v.Capacity) (hct : chunks.length ≤ t.Capacity)
    (hchunks : ∀ i chunk, chunks[i]? = some chunk → ReadableChunk pool0 v i chunk) :
    ∀ (left ix : Nat) (buff : List Nat) (p : MemoryPool), ix + left = chunks.length →
      buff.length = 255 → t.ReadInv pool0 bound chunks ix p →
      ∃ pfin, Read_loop t v left ix buff ((chunks.drop ix).flatten ++ rest) p = .ok (pfin, rest)
        ∧ t.ReadInv pool0 bound chunks chunks.length pfin := by
  intro left
  induction left with
  | zero =>
    intro ix buff p hix _ inv
    have e : ix = chunks.length := by omega
    subst e
    refine ⟨p, ?_, inv⟩
    unfold Read_loop
    rw [List.drop_length, List.flatten_nil, List.nil_append]
  | succ n ih =>
    intro ix buff p hix hb inv
    have hlt : ix < chunks.length := by omega
    have hchunk : chunks[ix]? = some (chunks.get ⟨ix, hlt⟩) := List.getElem?_eq_getElem hlt
    have hreader : (chunks.drop ix).flatten ++ rest
        = chunks.get ⟨ix, hlt⟩ ++ ((chunks.drop (ix + 1)).flatten ++ rest) := by
      rw [List.drop_eq_getElem_cons hlt, List.flatten_cons, List.append_assoc]
      rfl
    have hget : v.Get p ix = v.Get pool0 ix :=
      (hv.bits_frame inv.valid.array.fresh (Nat.le_trans hbound inv.next) inv.frame).2 ix (by omega)
    have hixc : ix < t.Capacity := by omega
    rw [hreader]
    generalize hc : chunks.get ⟨ix, hlt⟩ = chunk at hchunk
    rcases hchunks ix chunk hchunk with
      ⟨hbit, hnil⟩ | ⟨hbit, h0⟩ | ⟨hbit, hlen, h1, h254, hbytes⟩
    · subst hnil
      have inv1 : t.ReadInv pool0 bound chunks (ix + 1) p := by
        refine ⟨inv.valid, inv.outcomes, inv.next, inv.frame, inv.blocks,
          fun i hi hic => inv.nulls i (by omega) hic, ?_⟩
        intro i chunk2 hi hchunk2
        by_cases hii : i = ix
        · subst hii
          rw [hchunk] at hchunk2
          have := Option.some.inj hchunk2
          subst this
          exact ⟨fun _ => inv.nulls i (Nat.le_refl _) hixc, fun h => absurd rfl h⟩
        · exact inv.done i chunk2 (by omega) hchunk2
      obtain ⟨pfin, h1, h2⟩ := ih (ix + 1) buff p (by omega) hb inv1
      refine ⟨pfin, ?_, h2⟩
      unfold Read_loop
      rw [hget, hbit]
      simp only [List.nil_append]
      exact h1
    · subst h0
      obtain ⟨pool1, pnew, blk, hrun, hv1, hout1, hnext, hgetAt, hnone, -, hother, hblk,
        hframe⟩ := @TrySetAt_install t p ix none inv.valid hixc inv.outcomes
          (fun buf h => by cases h)
      have hp0 : pnew = 0 := hnone rfl
      have inv1 : t.ReadInv pool0 bound chunks (ix + 1) pool1 := by
        refine ReadInv.step hbound inv hixc hv1 hout1 hnext hgetAt hother hblk hframe ?_
        intro chunk2 hchunk2
        rw [hchunk] at hchunk2
        have := Option.some.inj hchunk2
        subst this
        exact ⟨fun _ => hp0, fun h => absurd rfl h⟩
      obtain ⟨pfin, h1, h2⟩ := ih (ix + 1) (buff.set 0 0) pool1 (by omega)
        (by rw [List.length_set]; exact hb) inv1
      refine ⟨pfin, ?_, h2⟩
      unfold Read_loop
      rw [hget, hbit]
      simp only [List.cons_append, List.nil_append, ReadByte]
      rw [if_pos (by omega : 0 < buff.length)]
      simp only [if_true]
      rw [hrun]
      simp only [Bool.not_true, Bool.false_eq_true, if_false]
      exact h1
    · have hne : chunk ≠ [] := by
        intro e
        subst e
        simp at hlen
      obtain ⟨L, content, hcons⟩ := List.exists_cons_of_ne_nil hne
      have hL : chunk.headD 0 = L := by rw [hcons]; rfl
      have hdrop : chunk.drop 1 = content := by rw [hcons]; rfl
      have hbuff1 : (buff.set 0 L).length = 255 := by rw [List.length_set]; exact hb
      obtain ⟨buff2, hcontent, hb2, hkeybuf⟩ := Read_content_spec chunk
        ((chunks.drop (ix + 1)).flatten ++ rest) hlen (by omega) 256 1 (buff.set 0 L)
        (Nat.le_refl 1) (by omega) (by omega) hbuff1 (by
          intro j hj
          have e : j = 0 := by omega
          subst e
          rw [List.getElem?_set_self (by omega), hcons]
          simp)
      rw [hdrop] at hcontent
      have hbuf0 : buff2[0]? = some L := by
        rw [hkeybuf 0 (by omega), hcons]
        simp
      have hL0 : L ≠ 0 := by omega
      obtain ⟨pool1, pnew, blk, hrun, hv1, hout1, hnext, hgetAt, -, hsome, hother, hblk,
        hframe⟩ := @TrySetAt_install t p ix (some buff2) inv.valid hixc inv.outcomes
          (fun buf h => by
            have := Option.some.inj h
            subst this
            exact ⟨L, hbuf0, hL0, by omega⟩)
      obtain ⟨hpnew, hloads⟩ := hsome buff2 L rfl hbuf0
      have inv1 : t.ReadInv pool0 bound chunks (ix + 1) pool1 := by
        refine ReadInv.step hbound inv hixc hv1 hout1 hnext hgetAt hother hblk hframe ?_
        intro chunk2 hchunk2
        rw [hchunk] at hchunk2
        have := Option.some.inj hchunk2
        subst this
        refine ⟨fun h => absurd (hL.symm.trans h) hL0, fun _ => ⟨?_, hlen, hbytes, ?_⟩⟩
        · rw [hpnew]
          exact Nat.lt_succ_of_le inv.next
        · intro c b hcb
          have hclt : c < chunk.length := by
            rcases Nat.lt_or_ge c chunk.length with h | h
            · exact h
            · rw [List.getElem?_eq_none h] at hcb
              cases hcb
          obtain ⟨b2, hb21, hb22⟩ := hloads c (by omega)
          rw [hkeybuf c hclt, hcb] at hb21
          have := Option.some.inj hb21
          subst this
          exact hb22
      obtain ⟨pfin, h1, h2⟩ := ih (ix + 1) buff2 pool1 (by omega) hb2 inv1
      refine ⟨pfin, ?_, h2⟩
      unfold Read_loop
      rw [hget, hbit]
      simp only
      rw [hcons, List.cons_append]
      simp only [ReadByte]
      rw [if_pos (by omega : 0 < buff.length)]
      simp only [hL0, if_false]
      rw [hcontent]
      simp only
      rw [hrun]
      simp only [Bool.not_true, Bool.false_eq_true, if_false]
      exact h1

end ExpandableArrayOfKeys

end Pql.UnmanagedLib

namespace Pql.UnmanagedLib

namespace ExpandableArrayOfKeys

/-- The round trip of the key array where no selected key has the length byte 255: for a
valid key array `k` and a valid valid-entries vector `v` in one pool whose allocator does
not fail, `count` within both capacities and such that the capacity of the blocks asked
for fits a `size_t`, and selected non-null slots that hold keys with a length byte between
1 and 254: `Write` of `count` slots returns bytes, and
`Read` of these bytes (whatever follows them in the reader) with the same `count` and `v`
into a new key array returns, leaves what follows in the reader, and leaves at every
index `i < count` whose bit is clear a null slot, and at every index whose bit is set a
slot that is null iff the slot of `k` is null and that otherwise holds the same key: the
same length byte and the same content bytes.  The slots of `k` read as before. -/
theorem Read_after_Write_below_255 (k : ExpandableArrayOfKeys) (pool : MemoryPool)
    (v : BitVector)
    (count : Nat) (rest : List Nat) (hk : k.Valid pool) (hv : v.Valid pool)
    (hck : count ≤ k.Capacity) (hcv : count ≤ v.Capacity)
    (hfitc : (1 + count / ITEMS_PER_BLOCK) * ITEMS_PER_BLOCK < SIZE_T_RANGE)
    (hout : ∀ x ∈ pool.outcomes, x = true)
    (hkeys : ∀ i p, i < count → v.Get pool i = .ok true → k.GetAt pool i = .ok p → p ≠ 0 →
      ∃ key, HoldsKey pool p key ∧ 1 ≤ key.headD 0 ∧ key.headD 0 ≤ 254) :
    ∃ bytes t pool1, k.Write pool (some []) count (some v) = .ok bytes
      ∧ newKeys.Read pool (some (bytes ++ rest)) count (some v) = .ok (t, pool1, rest)
      ∧ (∀ i, k.GetAt pool1 i = k.GetAt pool i)
      ∧ ∀ i, i < count →
          (v.Get pool i = .ok false ∧ t.GetAt pool1 i = .ok 0)
          ∨ (v.Get pool i = .ok true
              ∧ ∃ ps pt, k.GetAt pool i = .ok ps ∧ t.GetAt pool1 i = .ok pt
                ∧ (pt = 0 ↔ ps = 0)
                ∧ (ps ≠ 0 → ∃ key, HoldsKey pool ps key ∧ HoldsKey pool1 pt key)) := by
  obtain ⟨chunks, hlen, hwrite, hslots⟩ := Write_loop_chunks hk hv hck hcv
    (fun i p h1 h2 h3 h4 => (hkeys i p h1 h2 h3 h4).imp fun _ h => h.1) count 0 []
    (by omega)
  have hidx : ∀ i chunk, chunks[i]? = some chunk → i < count := by
    intro i chunk h
    rcases Nat.lt_or_ge i chunks.length with h1 | h1
    · rw [← hlen]
      exact h1
    · rw [List.getElem?_eq_none h1] at h
      cases h
  have hchunks : ∀ i chunk, chunks[i]? = some chunk → ReadableChunk pool v i chunk := by
    intro i chunk h
    have hs := hslots i chunk h
    rw [Nat.zero_add] at hs
    rcases hs with ⟨a1, a2⟩ | ⟨a1, -, a3⟩ | ⟨a1, p, a2, a3, a4⟩
    · exact Or.inl ⟨a1, a2⟩
    · exact Or.inr (Or.inl ⟨a1, a3⟩)
    · obtain ⟨key, b1, b2, b3⟩ := hkeys i p (hidx i chunk h) a1 a2 a3
      have e := a4.unique b1
      subst e
      exact Or.inr (Or.inr ⟨a1, a4.1, b2, b3, a4.2.1⟩)
  obtain ⟨k1, p1, hgrow, hv1, hout1, hcap1, hnext1, hframe1, hnull1, -, habove1⟩ :=
    EnsureCapacity_new pool hk.array.fresh hout count hfitc
  have inv0 : k1.ReadInv pool p1.next chunks 0 p1 := by
    refine ⟨hv1, hout1, Nat.le_refl _, hframe1, ?_, fun i _ hi => hnull1 i hi,
      fun i chunk hi _ => absurd hi (Nat.not_lt_zero _)⟩
    intro b blk hb hload
    refine ⟨habove1 b blk hb hload, ?_⟩
    obtain ⟨blk2, al, q1, -, -, q4, -⟩ := hv1.array.populated b hb
    rw [← hv1.data, hload] at q1
    have e := Except.ok.inj q1
    rw [e]
    exact hv1.array.fresh.le_next q4
  obtain ⟨pfin, hloop, inv⟩ := Read_loop_spec hv hnext1 chunks rest (by rw [hlen]; exact hcv)
    (by rw [hlen]; exact hcap1) hchunks count 0 ((List.range 255).map pool.junk) p1
    (by rw [hlen, Nat.zero_add]) (by simp) inv0
  rw [List.drop_zero] at hloop
  have hwrite2 : k.Write pool (some []) count (some v) = .ok chunks.flatten := by
    unfold Write
    simp only
    rw [if_neg (Nat.not_lt.mpr hck), hwrite, List.nil_append]
  have hsource := (hk.keys_frame inv.valid.array.fresh (Nat.le_trans hnext1 inv.next) inv.frame).2
  refine ⟨chunks.flatten, k1, pfin, hwrite2, ?_, hsource, ?_⟩
  · unfold Read
    rw [if_neg (by decide)]
    simp only
    rw [hgrow]
    simp only
    rw [hloop]
  · intro i hi
    have hlt : i < chunks.length := by rw [hlen]; exact hi
    have hchunk : chunks[i]? = some (chunks.get ⟨i, hlt⟩) := List.getElem?_eq_getElem hlt
    generalize chunks.get ⟨i, hlt⟩ = chunk at hchunk
    obtain ⟨d1, d2⟩ := inv.done i chunk hlt hchunk
    have hs := hslots i chunk hchunk
    rw [Nat.zero_add] at hs
    rcases hs with ⟨a1, a2⟩ | ⟨a1, a2, a3⟩ | ⟨a1, ps, a2, a3, a4⟩
    · subst a2
      exact Or.inl ⟨a1, d1 rfl⟩
    · subst a3
      exact Or.inr ⟨a1, 0, 0, a2, d1 rfl, Iff.rfl, fun h => absurd rfl h⟩
    · obtain ⟨key, b1, b2, b3⟩ := hkeys i ps hi a1 a2 a3
      have e := a4.unique b1
      subst e
      obtain ⟨pt, q1, q2, q3⟩ := d2 (by omega)
      have hpt0 : pt ≠ 0 := Nat.ne_of_gt (Nat.lt_of_le_of_lt (Nat.zero_le _) q1)
      exact Or.inr ⟨a1, ps, pt, a2, q2, ⟨fun h => absurd h hpt0, fun h => absurd h a3⟩,
        fun _ => ⟨chunk, a4, q3⟩⟩

end ExpandableArrayOfKeys

end Pql.UnmanagedLib

namespace Pql.UnmanagedLib

namespace ExpandableArrayOfKeys

/-- The scenario of two keys: the bit vector `bitsTen` with bits 0 and 1 set and then, in
the same pool, a key array grown by `EnsureCapacity(2)` with `[2, 'a', 'b']` in slot 0 and
`[3, 'x', 'y', 'z']` in slot 1.  Both are valid in the final pool, whose allocator does not
fail, and the two slots hold their keys. -/
theorem twoKeys_valid :
    twoKeysGrown.1.Valid twoKeysSecond.2 ∧ bitsTen.1.Valid twoKeysSecond.2
    ∧ (∀ x ∈ twoKeysSecond.2.outcomes, x = true)
    ∧ twoKeysGrown.1.GetAt twoKeysSecond.2 0 = .ok 7
    ∧ twoKeysGrown.1.GetAt twoKeysSecond.2 1 = .ok 8
    ∧ HoldsKey twoKeysSecond.2 7 [2, 0x61, 0x62]
    ∧ HoldsKey twoKeysSecond.2 8 [3, 0x78, 0x79, 0x7A] := by
  -- the bit vector
  have hv0 := BitVector.bitsTen_valid.2.2.1
  obtain ⟨q1, h1, hv1, -⟩ := BitVector.Set_effect hv0 (by decide : 0 < bitsTen.1.Capacity)
  have e1 : bitsTen.1.Set bitsTen.2 0 = .ok bitsTwoFirst := rfl
  rw [e1] at h1
  have := Except.ok.inj h1
  subst this
  obtain ⟨q2, h2, hv2, -⟩ := BitVector.Set_effect hv1 (by decide : 1 < bitsTen.1.Capacity)
  have e2 : bitsTen.1.Set bitsTwoFirst 1 = .ok bitsTwoPool := rfl
  rw [e2] at h2
  have := Except.ok.inj h2
  subst this
  -- the key array
  have hfresh : twoKeysStart.Fresh :=
    MemoryPool.zero_allocate_fresh bitsTwoPool sizeof_uint8_t sizeof_dataarray_t hv2.array.fresh
  have hout : ∀ x ∈ twoKeysStart.outcomes, x = true := fun x hx => absurd hx (List.not_mem_nil x)
  obtain ⟨k1, p1, hgrow, hk1, hout1, -, hnext1, hframe1, -, -, habove1⟩ :=
    EnsureCapacity_new twoKeysStart hfresh hout 2 (by decide)
  have e3 : newKeys.EnsureCapacity twoKeysStart 2 = .ok twoKeysGrown := rfl
  rw [e3] at hgrow
  have hg := Except.ok.inj hgrow
  have hk1e : k1 = twoKeysGrown.1 := by rw [hg]
  have hp1e : p1 = twoKeysGrown.2 := by rw [hg]
  subst hk1e hp1e
  have e4 : twoKeysGrown.1.TrySetAt twoKeysGrown.2 0 (some [2, 0x61, 0x62]) none
      = .ok (true, twoKeysFirst.2) := rfl
  have e5 : twoKeysGrown.1.TrySetAt twoKeysFirst.2 1 (some [3, 0x78, 0x79, 0x7A]) none
      = .ok (true, twoKeysSecond.2) := rfl
  have hk2 := TrySetAt_valid hk1 e4
  have hk3 := TrySetAt_valid hk2 e5
  -- the memory of the bit vector is not written by the key array
  obtain ⟨pnew4, p14, blk4, prev4, hcand4, hblk4, -, -, -, -, -, -, htrue4, -⟩ :=
    TrySetAt_effect hk1 e4
  obtain ⟨pnew5, p15, blk5, prev5, hcand5, hblk5, -, -, -, -, -, -, htrue5, -⟩ :=
    TrySetAt_effect hk2 e5
  have hb4 : twoKeysGrown.2.load twoKeysGrown.1._pData sizeof_ptr (0 / ITEMS_PER_BLOCK)
      = .ok 6 := rfl
  have hb5 : twoKeysFirst.2.load twoKeysGrown.1._pData sizeof_ptr (1 / ITEMS_PER_BLOCK)
      = .ok 6 := rfl
  rw [hb4] at hblk4
  rw [hb5] at hblk5
  have hblk4e : blk4 = 6 := (Except.ok.inj hblk4).symm
  have hblk5e : blk5 = 6 := (Except.ok.inj hblk5).symm
  subst hblk4e hblk5e
  obtain ⟨-, -, -, -, c45, -⟩ := make_candidate_spec hcand4
  obtain ⟨-, -, -, -, c55, -⟩ := make_candidate_spec hcand5
  obtain ⟨-, -, -, m4⟩ := htrue4 rfl
  obtain ⟨-, -, -, m5⟩ := htrue5 rfl
  have hn0 : bitsTwoPool.next = 3 := rfl
  have hn1 : twoKeysGrown.2.next = 6 := rfl
  have hn2 : twoKeysFirst.2.next = 7 := rfl
  have hmem : ∀ q : Nat, q ≠ 0 → q ≤ bitsTwoPool.next →
      twoKeysSecond.2.mem q = bitsTwoPool.mem q := by
    intro q hq0 hq2
    have hq : q ≤ 3 := hq2
    rw [m5 q (by omega), c55 q (by rw [hn2]; omega), m4 q (by omega),
      c45 q (by rw [hn1]; omega), hframe1 q hq0 (by
        have : twoKeysStart.next = 4 := rfl
        rw [this]
        omega)]
    exact MemoryPool.zero_allocate_mem_other bitsTwoPool sizeof_uint8_t sizeof_dataarray_t q
      (Nat.ne_of_lt (Nat.lt_succ_of_le hq2))
  have hv3 := (hv2.bits_frame hk3.array.fresh (by decide) hmem).1
  refine ⟨hk3, hv3, fun x hx => absurd hx (List.not_mem_nil x), rfl, rfl, ?_, ?_⟩
  · refine ⟨rfl, by decide, ?_⟩
    intro c b h
    match c, h with
    | 0, h => cases h; rfl
    | 1, h => cases h; rfl
    | 2, h => cases h; rfl
    | c + 3, h => simp at h
  · refine ⟨rfl, by decide, ?_⟩
    intro c b h
    match c, h with
    | 0, h => cases h; rfl
    | 1, h => cases h; rfl
    | 2, h => cases h; rfl
    | 3, h => cases h; rfl
    | c + 4, h => simp at h

/-- In the scenario of two keys, after `Initialize` built a second key array in the same
pool: the first key array and the bit vector are valid, the allocator does not fail, and
the selected non-null slots below 2 hold keys with a length byte between 1 and 254. -/
theorem twoKeysTarget_valid :
    twoKeysGrown.1.Valid twoKeysTargetPool ∧ bitsTen.1.Valid twoKeysTargetPool
    ∧ (∀ x ∈ twoKeysTargetPool.outcomes, x = true)
    ∧ ∀ i p, i < 2 → bitsTen.1.Get twoKeysTargetPool i = .ok true →
        twoKeysGrown.1.GetAt twoKeysTargetPool i = .ok p → p ≠ 0 →
        ∃ key, HoldsKey twoKeysTargetPool p key ∧ 1 ≤ key.headD 0 ∧ key.headD 0 ≤ 254 := by
  obtain ⟨hk, hv, -, g0, g1, k0, k1⟩ := twoKeys_valid
  have hfresh : twoKeysTargetPool.Fresh :=
    MemoryPool.zero_allocate_fresh twoKeysSecond.2 sizeof_uint8_t sizeof_dataarray_t
      hk.array.fresh
  have hmem : ∀ q : Nat, q ≠ 0 → q ≤ twoKeysSecond.2.next →
      twoKeysTargetPool.mem q = twoKeysSecond.2.mem q := fun q _ hq =>
    MemoryPool.zero_allocate_mem_other twoKeysSecond.2 sizeof_uint8_t sizeof_dataarray_t q
      (Nat.ne_of_lt (Nat.lt_succ_of_le hq))
  obtain ⟨hk2, hslots⟩ := hk.keys_frame hfresh (by decide) hmem
  refine ⟨hk2, (hv.bits_frame hfresh (by decide) hmem).1,
    fun x hx => absurd hx (List.not_mem_nil x), ?_⟩
  intro i p hi _ hget _
  rw [hslots i] at hget
  interval_cases i
  · rw [g0] at hget
    have := Except.ok.inj hget
    subst this
    exact ⟨_, k0.buffer_frame (hmem 7 (by decide) (by decide)), by decide, by decide⟩
  · rw [g1] at hget
    have := Except.ok.inj hget
    subst this
    exact ⟨_, k1.buffer_frame (hmem 8 (by decide) (by decide)), by decide, by decide⟩

/-- Instance of C12 on the scenario of two keys: slots `{0: [2, 'a', 'b'],
1: [3, 'x', 'y', 'z']}` with valid entries `{0, 1}` and count 2 serialize to
`02 61 62 03 78 79 7A`, one chunk per index. -/
theorem Write_chunks_witness :
    2 ≤ twoKeysGrown.1.Capacity
    ∧ twoKeysGrown.1.Write twoKeysSecond.2 (some []) 2 (some bitsTen.1)
        = .ok [0x02, 0x61, 0x62, 0x03, 0x78, 0x79, 0x7A]
    ∧ ∃ chunks : List (List Nat), chunks.length = 2
      ∧ twoKeysGrown.1.Write twoKeysSecond.2 (some []) 2 (some bitsTen.1)
          = .ok ([] ++ chunks.flatten)
      ∧ ∀ i chunk, chunks[i]? = some chunk →
          SerializedSlot twoKeysGrown.1 twoKeysSecond.2 bitsTen.1 i chunk :=
  ⟨by decide, rfl,
    Write_chunks twoKeysGrown.1 twoKeysSecond.2 bitsTen.1 [] 2 twoKeys_valid.1
      twoKeys_valid.2.1 (by decide) (by decide) (by
        obtain ⟨-, -, -, g0, g1, k0, k1⟩ := twoKeys_valid
        intro i p hi _ hget _
        interval_cases i
        · rw [g0] at hget
          have := Except.ok.inj hget
          subst this
          exact ⟨_, k0⟩
        · rw [g1] at hget
          have := Except.ok.inj hget
          subst this
          exact ⟨_, k1⟩)⟩

set_option maxRecDepth 100000 in
/-- The round trip on the scenario of two keys: the bytes `02 61 62 03 78 79 7A` that
`Write` gives for count 2 are read back into a second, new key array built by `Initialize`
in the same pool; the run is `twoKeysRead`, which leaves nothing in the reader. -/
theorem Read_after_Write_two_keys :
    2 ≤ twoKeysGrown.1.Capacity
    ∧ Initialize twoKeysSecond.2 = .ok (newKeys, twoKeysTargetPool)
    ∧ twoKeysGrown.1.Write twoKeysTargetPool (some []) 2 (some bitsTen.1)
        = .ok [0x02, 0x61, 0x62, 0x03, 0x78, 0x79, 0x7A]
    ∧ newKeys.Read twoKeysTargetPool (some [0x02, 0x61, 0x62, 0x03, 0x78, 0x79, 0x7A]) 2
        (some bitsTen.1) = .ok twoKeysRead
    ∧ ∃ bytes t pool1,
      twoKeysGrown.1.Write twoKeysTargetPool (some []) 2 (some bitsTen.1) = .ok bytes
      ∧ newKeys.Read twoKeysTargetPool (some (bytes ++ [])) 2 (some bitsTen.1)
          = .ok (t, pool1, [])
      ∧ (∀ i, twoKeysGrown.1.GetAt pool1 i = twoKeysGrown.1.GetAt twoKeysTargetPool i)
      ∧ ∀ i, i < 2 →
          (bitsTen.1.Get twoKeysTargetPool i = .ok false ∧ t.GetAt pool1 i = .ok 0)
          ∨ (bitsTen.1.Get twoKeysTargetPool i = .ok true
              ∧ ∃ ps pt, twoKeysGrown.1.GetAt twoKeysTargetPool i = .ok ps
                ∧ t.GetAt pool1 i = .ok pt ∧ (pt = 0 ↔ ps = 0)
                ∧ (ps ≠ 0 → ∃ key, HoldsKey twoKeysTargetPool ps key
                    ∧ HoldsKey pool1 pt key)) :=
  ⟨by decide, rfl, rfl, rfl,
    Read_after_Write_below_255 twoKeysGrown.1 twoKeysTargetPool bitsTen.1 2 []
      twoKeysTarget_valid.1
      twoKeysTarget_valid.2.1 (by decide) (by decide) (by decide) twoKeysTarget_valid.2.2.1
      twoKeysTarget_valid.2.2.2⟩

end ExpandableArrayOfKeys

end Pql.UnmanagedLib

namespace Pql.UnmanagedLib

/-- Bytes of a buffer below the end of its key are bytes of the key. -/
theorem keyContent_getElem? (buf : List Nat) (c : Nat) (hc : c < buf.headD 0 + 1) :
    (keyContent buf)[c]? = buf[c]? := by
  unfold keyContent
  rw [List.getElem?_take_of_lt hc]

/-- The key of a buffer that starts with a key has its length byte and that many bytes. -/
theorem StartsWithKey.length {buf : List Nat} (h : StartsWithKey buf) :
    (keyContent buf).length = buf.headD 0 + 1 ∧ (keyContent buf).headD 0 = buf.headD 0
    ∧ buf[0]? = some (buf.headD 0) := by
  obtain ⟨h1, h2⟩ := h
  cases buf with
  | nil => simp at h2
  | cons x t =>
    refine ⟨?_, ?_, by simp⟩
    · unfold keyContent
      rw [List.length_take]
      exact Nat.min_eq_left h2
    · unfold keyContent
      simp

/-- The hash loop reads only the bytes it is asked for: two buffers that agree on them
have the same result. -/
theorem Fnv1a_append_bytes_congr (a b : List Nat) :
    ∀ (count c val : Nat), (∀ j, c ≤ j → j < c + count → a[j]? = b[j]?) →
      Fnv1a_append_bytes a count c val = Fnv1a_append_bytes b count c val := by
  intro count
  induction count with
  | zero =>
    intro c val _
    rfl
  | succ n ih =>
    intro c val h
    unfold Fnv1a_append_bytes
    rw [h c (Nat.le_refl _) (by omega)]
    cases b[c]? with
    | none => rfl
    | some x =>
      simp only
      exact ih (c + 1) _ (fun j h1 h2 => h j (by omega) (by omega))

/-- The hash loop returns when the buffer holds the bytes it is asked for. -/
theorem Fnv1a_append_bytes_total (a : List Nat) :
    ∀ (count c val : Nat), c + count ≤ a.length →
      ∃ h, Fnv1a_append_bytes a count c val = .ok h := by
  intro count
  induction count with
  | zero =>
    intro c val _
    exact ⟨val, rfl⟩
  | succ n ih =>
    intro c val h
    unfold Fnv1a_append_bytes
    rw [List.getElem?_eq_getElem (by omega : c < a.length)]
    simp only
    exact ih (c + 1) _ (by omega)

/-- `SequenceHash` returns on a buffer that starts with a key, and two such buffers with
the same key content have the same hash. -/
theorem SequenceHash_content {a b : List Nat} (ha : StartsWithKey a) (hb : StartsWithKey b) :
    (∃ h, SequenceHash a = .ok h)
    ∧ (keyContent a = keyContent b → SequenceHash a = SequenceHash b) := by
  obtain ⟨la, ha0, ha1⟩ := ha.length
  obtain ⟨lb, hb0, hb1⟩ := hb.length
  constructor
  · unfold SequenceHash
    rw [ha1]
    simp only
    exact Fnv1a_append_bytes_total a _ 1 _ (by have := ha.2; omega)
  · intro e
    have hL : a.headD 0 = b.headD 0 := by rw [← ha0, ← hb0, e]
    unfold SequenceHash
    rw [ha1, hb1, hL]
    simp only
    apply Fnv1a_append_bytes_congr
    intro j h1 h2
    rw [← keyContent_getElem? a j (by omega), ← keyContent_getElem? b j (by omega), e]

/-- The loop of `SequenceEqualTo` over bytes both buffers hold returns true iff the
buffers agree on these bytes. -/
theorem SequenceEqualTo_loop_spec (a b : List Nat) :
    ∀ (count c : Nat), c + count ≤ a.length → c + count ≤ b.length →
      ∃ r, SequenceEqualTo_loop a b count c = .ok r
        ∧ (r = true ↔ ∀ j, c ≤ j → j < c + count → a[j]? = b[j]?) := by
  intro count
  induction count with
  | zero =>
    intro c _ _
    exact ⟨true, rfl, fun _ => fun j h1 h2 => absurd h2 (by omega), fun _ => rfl⟩
  | succ n ih =>
    intro c h1 h2
    have hca : c < a.length := by omega
    have hcb : c < b.length := by omega
    unfold SequenceEqualTo_loop
    rw [List.getElem?_eq_getElem hca, List.getElem?_eq_getElem hcb]
    simp only
    by_cases e : a[c] = b[c]
    · rw [if_neg (not_not.mpr e)]
      obtain ⟨r, hr1, hr2⟩ := ih (c + 1) (by omega) (by omega)
      refine ⟨r, hr1, ?_⟩
      rw [hr2]
      constructor
      · intro h j hj1 hj2
        by_cases ej : j = c
        · subst ej
          rw [List.getElem?_eq_getElem hca, List.getElem?_eq_getElem hcb, e]
        · exact h j (by omega) (by omega)
      · intro h j hj1 hj2
        exact h j (by omega) (by omega)
    · rw [if_pos e]
      refine ⟨false, rfl, ?_⟩
      constructor
      · intro h
        cases h
      · intro h
        have := h c (Nat.le_refl _) (by omega)
        rw [List.getElem?_eq_getElem hca, List.getElem?_eq_getElem hcb] at this
        exact absurd (Option.some.inj this) e

/-- On two buffers that start with keys, `SequenceEqualTo` returns whether the keys have
the same content. -/
theorem SequenceEqualTo_content {a b : List Nat} (ha : StartsWithKey a) (hb : StartsWithKey b) :
    SequenceEqualTo a b = .ok (decide (keyContent a = keyContent b)) := by
  obtain ⟨la, ha0, ha1⟩ := ha.length
  obtain ⟨lb, hb0, hb1⟩ := hb.length
  unfold SequenceEqualTo
  rw [ha1, hb1]
  simp only
  by_cases hL : a.headD 0 = b.headD 0
  · rw [if_neg (not_not.mpr hL)]
    obtain ⟨r, hr1, hr2⟩ := SequenceEqualTo_loop_spec a b (a.headD 0) 1
      (by have := ha.2; omega) (by have := hb.2; omega)
    rw [hr1]
    congr 1
    have hiff : (keyContent a = keyContent b) ↔
        ∀ j, 1 ≤ j → j < 1 + a.headD 0 → a[j]? = b[j]? := by
      constructor
      · intro e j h1 h2
        rw [← keyContent_getElem? a j (by omega), ← keyContent_getElem? b j (by omega), e]
      · intro h
        apply List.ext_getElem?
        intro j
        by_cases hj : j < a.headD 0 + 1
        · rw [keyContent_getElem? a j hj, keyContent_getElem? b j (by omega)]
          by_cases hj0 : j = 0
          · subst hj0
            rw [ha1, hb1, hL]
          · exact h j (by omega) (by omega)
        · rw [List.getElem?_eq_none (by omega), List.getElem?_eq_none (by omega)]
    cases r with
    | true =>
      have := hiff.mpr (hr2.mp rfl)
      simp [this]
    | false =>
      have : ¬ keyContent a = keyContent b := fun e => by
        have := hr2.mpr (hiff.mp e)
        cases this
      simp [this]
  · rw [if_pos hL]
    have : ¬ keyContent a = keyContent b := fun e => hL (by rw [← ha0, ← hb0, e])
    simp [this]

end Pql.UnmanagedLib

namespace Pql.UnmanagedLib

/-- The element `lookupContent` finds is an element of the list with the content looked
for; it finds none only when no element has that content. -/
theorem lookupContent_spec (nodes : List MapNode) (buf : List Nat) :
    (∀ n, lookupContent nodes buf = some n → n ∈ nodes ∧ keyContent n.key = keyContent buf)
    ∧ (lookupContent nodes buf = none ↔ ∀ n ∈ nodes, keyContent n.key ≠ keyContent buf) := by
  unfold lookupContent
  constructor
  · intro n h
    have h1 := List.find?_some h
    exact ⟨List.mem_of_find?_eq_some h, of_decide_eq_true h1⟩
  · rw [List.find?_eq_none]
    constructor
    · intro h n hn
      have := h n hn
      simpa using this
    · intro h n hn
      have := h n hn
      simpa using this

/-- Looking up in a list with one more element at its end: the first match of the list,
else the new element when it matches. -/
theorem lookupContent_append (nodes : List MapNode) (n0 : MapNode) (buf : List Nat) :
    lookupContent (nodes ++ [n0]) buf
      = match lookupContent nodes buf with
        | some n => some n
        | none => if keyContent n0.key = keyContent buf then some n0 else none := by
  unfold lookupContent
  rw [List.find?_append]
  cases List.find? (fun n => decide (keyContent n.key = keyContent buf)) nodes with
  | some n => rfl
  | none =>
    simp only [Option.none_or, List.find?_cons, List.find?_nil]
    by_cases e : keyContent n0.key = keyContent buf <;> simp [e]

/-- The search of the container, for the hash of a key and over elements that keep the
hashes of their keys, finds the first element with the content of the key. -/
theorem hashmap_search_spec {key : List Nat} {hash : Nat} (hk : StartsWithKey key)
    (hh : SequenceHash key = .ok hash) :
    ∀ nodes : List MapNode,
      (∀ n ∈ nodes, StartsWithKey n.key ∧ SequenceHash n.key = .ok n.order_key) →
      hashmap_search hash key nodes = .ok (lookupContent nodes key) := by
  intro nodes
  induction nodes with
  | nil =>
    intro _
    rfl
  | cons n rest ih =>
    intro hv
    obtain ⟨hn1, hn2⟩ := hv n (List.mem_cons_self _ _)
    have hrest := ih (fun x hx => hv x (List.mem_cons_of_mem _ hx))
    unfold hashmap_search
    by_cases hc : keyContent n.key = keyContent key
    · have hsame : n.order_key = hash := by
        have := (SequenceHash_content hn1 hk).2 hc
        rw [hn2, hh] at this
        exact Except.ok.inj this
      rw [if_pos hsame, SequenceEqualTo_content hn1 hk]
      simp [hc, lookupContent]
    · have hl : lookupContent (n :: rest) key = lookupContent rest key := by
        unfold lookupContent
        rw [List.find?_cons]
        simp [hc]
      rw [hl]
      by_cases hsame : n.order_key = hash
      · rw [if_pos hsame, SequenceEqualTo_content hn1 hk]
        simp only [hc, decide_False]
        exact hrest
      · rw [if_neg hsame]
        exact hrest

namespace ConcurrentHashmapOfKeys

/-- A map without elements is valid. -/
theorem newMap_valid : newMap.Valid :=
  ⟨fun n hn => absurd hn (List.not_mem_nil n), List.Pairwise.nil⟩

/-- When the oracle announces no failure, `TryAdd` with a buffer that starts with a key
returns on a valid map: the result is whether no element has the content of the key; the
map is then the old one with the pair appended when the result is true, and the old one
when it is false. -/
theorem TryAdd_spec {m : ConcurrentHashmapOfKeys} {pool : MemoryPool} {buf : List Nat}
    (hm : m.Valid) (hk : StartsWithKey buf) (hout : ∀ x ∈ pool.outcomes, x = true)
    (value : Nat) :
    ∃ hash m1 pool1,
      SequenceHash buf = .ok hash
      ∧ m.TryAdd pool (some buf) value
          = .ok ((lookupContent m._pMap buf).isNone, m1, pool1)
      ∧ m1.Valid ∧ (∀ x ∈ pool1.outcomes, x = true)
      ∧ ((lookupContent m._pMap buf).isNone = true →
          m1._pMap = m._pMap ++ [{ order_key := hash, key := buf, value := value }])
      ∧ ((lookupContent m._pMap buf).isNone = false → m1 = m ∧ pool1 = pool) := by
  obtain ⟨⟨hash, hh⟩, -⟩ := SequenceHash_content hk hk
  obtain ⟨-, -, hb0⟩ := hk.length
  have hL0 : buf.headD 0 ≠ 0 := by have := hk.1; omega
  have hsearch := hashmap_search_spec hk hh m._pMap hm.keys
  have hrun : ∀ r, hashmap_insert pool m._pMap buf value = .ok r →
      m.TryAdd pool (some buf) value = .ok (r.1, { _pMap := r.2.1 }, r.2.2) := by
    intro r hr
    unfold TryAdd
    simp only
    rw [hb0]
    simp only [hL0, if_false]
    rw [hr]
  cases hl : lookupContent m._pMap buf with
  | some n =>
    refine ⟨hash, m, pool, hh, ?_, hm, hout, fun h => (by cases h), fun _ => ⟨rfl, rfl⟩⟩
    rw [hrun (false, m._pMap, pool)]
    · rfl
    · unfold hashmap_insert
      rw [hh]
      simp only
      rw [hsearch, hl]
  | none =>
    obtain ⟨z1, -, z3, -⟩ := MemoryPool.zero_allocate_success pool sizeof_map_node 1 hout
    have hnone := (lookupContent_spec m._pMap buf).2.mp hl
    refine ⟨hash, { _pMap := m._pMap ++ [{ order_key := hash, key := buf, value := value }] },
      (pool.zero_allocate sizeof_map_node 1).2, hh, ?_, ⟨?_, ?_⟩, z3, fun _ => rfl,
      fun h => (by cases h)⟩
    · rw [hrun (true, m._pMap ++ [{ order_key := hash, key := buf, value := value }],
        (pool.zero_allocate sizeof_map_node 1).2)]
      · rfl
      · unfold hashmap_insert
        rw [hh]
        simp only
        rw [hsearch, hl]
        simp only
        rw [if_neg (by rw [z1]; exact Nat.succ_ne_zero _)]
    · intro n hn
      rcases List.mem_append.mp hn with h | h
      · exact hm.keys n h
      · rw [List.mem_singleton] at h
        subst h
        exact ⟨hk, hh⟩
    · show (m._pMap ++ [_]).Pairwise _
      rw [List.pairwise_append]
      refine ⟨hm.distinct, List.pairwise_singleton _ _, ?_⟩
      intro a ha b hb
      rw [List.mem_singleton] at hb
      subst hb
      exact hnone a ha

/-- On a valid map and a buffer that starts with a key, `TryGetValue` returns: true with
the value of the first element that has the content of the key, or false with `value`
left as it was when there is none; so does the overload for a managed array. -/
theorem TryGetValue_spec {m : ConcurrentHashmapOfKeys} {buf : List Nat}
    (hm : m.Valid) (hk : StartsWithKey buf) (value : Nat) :
    m.TryGetValue (some buf) value
      = .ok (match lookupContent m._pMap buf with
            | some n => (true, n.value)
            | none => (false, value))
    ∧ m.TryGetValue_array (some buf) value = m.TryGetValue (some buf) value := by
  obtain ⟨⟨hash, hh⟩, -⟩ := SequenceHash_content hk hk
  obtain ⟨-, -, hb0⟩ := hk.length
  have hL0 : buf.headD 0 ≠ 0 := by have := hk.1; omega
  have hsearch := hashmap_search_spec hk hh m._pMap hm.keys
  have hfind : hashmap_find m._pMap buf = .ok (lookupContent m._pMap buf) := by
    unfold hashmap_find
    rw [hh]
    exact hsearch
  have h1 : m.TryGetValue (some buf) value
      = .ok (match lookupContent m._pMap buf with
            | some n => (true, n.value)
            | none => (false, value)) := by
    unfold TryGetValue
    simp only
    rw [hb0]
    simp only [hL0, if_false]
    rw [hfind]
    cases lookupContent m._pMap buf <;> rfl
  refine ⟨h1, ?_⟩
  rw [h1]
  unfold TryGetValue_array
  simp only
  have hlen : ¬ buf.length < 2 := by have := hk.1; have := hk.2; omega
  have hrange : ¬ (buf.headD 0 = 0 ∨ buf.headD 0 > buf.length - 1) := by
    have := hk.1
    have := hk.2
    omega
  rw [if_neg hlen, hb0]
  simp only
  rw [if_neg hrange, hfind]
  cases lookupContent m._pMap buf <;> rfl

end ConcurrentHashmapOfKeys

end Pql.UnmanagedLib

namespace Pql.UnmanagedLib

/-- Looking up depends on the content of the key only. -/
theorem lookupContent_congr (nodes : List MapNode) {a b : List Nat}
    (h : keyContent a = keyContent b) : lookupContent nodes a = lookupContent nodes b := by
  unfold lookupContent
  rw [h]

/-- No call among the first `i` has the content of `buf` iff `firstCall` finds none
there. -/
theorem firstCall_take_none (calls : List (List Nat × Nat)) (buf : List Nat) (i : Nat) :
    (firstCall (calls.take i) buf).isNone = true
      ↔ ∀ j c, j < i → calls[j]? = some c → keyContent c.1 ≠ keyContent buf := by
  unfold firstCall
  rw [Option.isNone_iff_eq_none, List.find?_eq_none]
  constructor
  · intro h j c hj hc
    have hmem : c ∈ calls.take i := by
      rw [List.mem_iff_getElem?]
      exact ⟨j, by rw [List.getElem?_take_of_lt hj]; exact hc⟩
    simpa using h c hmem
  · intro h c hmem
    rw [List.mem_iff_getElem?] at hmem
    obtain ⟨j, hj⟩ := hmem
    have hji : j < i := by
      rcases Nat.lt_or_ge j i with h1 | h1
      · exact h1
      · rw [List.getElem?_take_eq_none h1] at hj
        cases hj
    rw [List.getElem?_take_of_lt hji] at hj
    simpa using h j c hji hj

/-- For a call with the content of `buf` there is a first call with that content, at or
before it, and `firstCall` finds it. -/
theorem firstCall_index (buf : List Nat) :
    ∀ (calls : List (List Nat × Nat)) (i : Nat) (c : List Nat × Nat), calls[i]? = some c →
      keyContent c.1 = keyContent buf →
      ∃ f c2, f ≤ i ∧ calls[f]? = some c2 ∧ keyContent c2.1 = keyContent buf
        ∧ (firstCall (calls.take f) buf).isNone = true ∧ firstCall calls buf = some c2 := by
  intro calls
  induction calls with
  | nil =>
    intro i c h _
    simp at h
  | cons x rest ih =>
    intro i c h hc
    by_cases hx : keyContent x.1 = keyContent buf
    · refine ⟨0, x, Nat.zero_le _, by simp, hx, rfl, ?_⟩
      unfold firstCall
      rw [List.find?_cons]
      simp [hx]
    · cases i with
      | zero =>
        simp only [List.getElem?_cons_zero, Option.some.injEq] at h
        subst h
        exact absurd hc hx
      | succ i =>
        simp only [List.getElem?_cons_succ] at h
        obtain ⟨f, c2, h1, h2, h3, h4, h5⟩ := ih i c h hc
        refine ⟨f + 1, c2, Nat.succ_le_succ h1, by simpa using h2, h3, ?_, ?_⟩
        · unfold firstCall at h4 ⊢
          rw [List.take_succ_cons, List.find?_cons]
          simp only [hx, decide_False]
          exact h4
        · unfold firstCall at h5 ⊢
          rw [List.find?_cons]
          simp only [hx, decide_False]
          exact h5

namespace ConcurrentHashmapOfKeys

/-- When the oracle announces no failure, a sequence of `TryAdd` calls with buffers that
start with keys returns on a valid map and leaves a valid map: call `i` returns whether
neither the map at the start nor an earlier call had the content of its key, and a look-up
at the end finds what it found at the start, else the value of the first call with the
content looked for. -/
theorem TryAdd_all_spec :
    ∀ (calls : List (List Nat × Nat)) (m : ConcurrentHashmapOfKeys) (p : MemoryPool),
      m.Valid → (∀ c ∈ calls, StartsWithKey c.1) → (∀ x ∈ p.outcomes, x = true) →
      ∃ results mfin pfin, TryAdd_all calls m p = .ok (results, mfin, pfin)
        ∧ mfin.Valid ∧ results.length = calls.length
        ∧ (∀ i c, calls[i]? = some c →
            results[i]? = some ((lookupContent m._pMap c.1).isNone
              && (firstCall (calls.take i) c.1).isNone))
        ∧ ∀ buf, (lookupContent mfin._pMap buf).map MapNode.value
            = match lookupContent m._pMap buf with
              | some n => some n.value
              | none => (firstCall calls buf).map Prod.snd := by
  intro calls
  induction calls with
  | nil =>
    intro m p hm _ _
    refine ⟨[], m, p, rfl, hm, rfl, ?_, ?_⟩
    · intro i c h
      simp at h
    · intro buf
      cases lookupContent m._pMap buf <;> rfl
  | cons x rest ih =>
    intro m p hm hcalls hout
    obtain ⟨k0, v0⟩ := x
    have hk0 : StartsWithKey k0 := hcalls (k0, v0) (List.mem_cons_self _ _)
    obtain ⟨hash, m1, p1, -, hrun, hm1, hout1, htrue, hfalse⟩ := TryAdd_spec hm hk0 hout v0
    have hlook : ∀ buf, lookupContent m1._pMap buf
        = match lookupContent m._pMap buf with
          | some n => some n
          | none =>
            if keyContent k0 = keyContent buf then
              some { order_key := hash, key := k0, value := v0 }
            else none := by
      intro buf
      cases hres : (lookupContent m._pMap k0).isNone with
      | true =>
        rw [htrue hres]
        exact lookupContent_append _ _ _
      | false =>
        rw [(hfalse hres).1]
        cases hl : lookupContent m._pMap buf with
        | some n => rfl
        | none =>
          have hne : ¬ keyContent k0 = keyContent buf := by
            intro e
            rw [lookupContent_congr _ e, hl] at hres
            cases hres
          simp only [hne, if_false]
    obtain ⟨results, mfin, pfin, hrec, hmfin, hlen, hA, hB⟩ :=
      ih m1 p1 hm1 (fun c hc => hcalls c (List.mem_cons_of_mem _ hc)) hout1
    refine ⟨(lookupContent m._pMap k0).isNone :: results, mfin, pfin, ?_, hmfin,
      by simp [hlen], ?_, ?_⟩
    · unfold TryAdd_all
      rw [hrun]
      simp only
      rw [hrec]
    · intro i c hc
      cases i with
      | zero =>
        simp only [List.getElem?_cons_zero, Option.some.injEq] at hc
        subst hc
        simp [firstCall]
      | succ i =>
        simp only [List.getElem?_cons_succ] at hc
        rw [List.getElem?_cons_succ, hA i c hc, hlook c.1]
        congr 1
        by_cases e : keyContent k0 = keyContent c.1
        · have h2 : firstCall (List.take (i + 1) ((k0, v0) :: rest)) c.1 = some (k0, v0) := by
            unfold firstCall
            rw [List.take_succ_cons, List.find?_cons]
            simp [e]
          rw [h2]
          cases lookupContent m._pMap c.1 <;> simp [e]
        · have h2 : firstCall (List.take (i + 1) ((k0, v0) :: rest)) c.1
              = firstCall (List.take i rest) c.1 := by
            unfold firstCall
            rw [List.take_succ_cons, List.find?_cons]
            simp [e]
          rw [h2]
          cases lookupContent m._pMap c.1 <;> simp [e]
    · intro buf
      rw [hB buf, hlook buf]
      cases lookupContent m._pMap buf with
      | some n => rfl
      | none =>
        by_cases e : keyContent k0 = keyContent buf
        · simp [e, firstCall]
        · simp [e, firstCall]

end ConcurrentHashmapOfKeys

end Pql.UnmanagedLib

namespace Pql.UnmanagedLib

namespace ConcurrentHashmapOfKeys

/-- The map of the scenario `threeKeys` is what the three `TryAdd` calls leave; it is
valid. -/
theorem threeKeys_valid :
    TryAdd_all [([1, 0x61], 10), ([1, 0x62], 20), ([2, 0x61, 0x61], 30)] newMap (freshPool [])
      = .ok threeKeys
    ∧ threeKeys.2.1.Valid := by
  have hrun : TryAdd_all [([1, 0x61], 10), ([1, 0x62], 20), ([2, 0x61, 0x61], 30)] newMap
      (freshPool []) = .ok threeKeys := rfl
  refine ⟨hrun, ?_⟩
  obtain ⟨results, mfin, pfin, h, hv, -⟩ := TryAdd_all_spec
    [([1, 0x61], 10), ([1, 0x62], 20), ([2, 0x61, 0x61], 30)] newMap (freshPool [])
    newMap_valid (by
      intro c hc
      simp only [List.mem_cons, List.mem_singleton, List.not_mem_nil, or_false] at hc
      rcases hc with e | e | e <;> subst e <;> exact ⟨by decide, by decide⟩)
    (fun x hx => absurd hx (List.not_mem_nil x))
  rw [hrun] at h
  have e := Except.ok.inj h
  have : threeKeys.2.1 = mfin := by rw [e]
  rw [this]
  exact hv

/-- C19: when the allocator does not fail, `TryAdd(key, value)` with a buffer that starts
with a key returns on a valid map; it returns true iff no element of the map has a key of
equal content, and then the pair is added (a look-up of the key then gives `value`); when
it returns false the map and the pool are unchanged.  For a sequence of such calls on a new
map, call `i` returns true iff no earlier call had a key of equal content, so exactly the
first call of each content returns true, and a `TryGetValue` at the end with the key of any
call gives the value of that first call. -/
theorem TryAdd_unique (m : ConcurrentHashmapOfKeys) (pool : MemoryPool) (buf : List Nat)
    (value : Nat) (calls : List (List Nat × Nat)) (v0 : Nat)
    (hm : m.Valid) (hk : StartsWithKey buf) (hcalls : ∀ c ∈ calls, StartsWithKey c.1)
    (hout : ∀ x ∈ pool.outcomes, x = true) :
    (∃ res m1 pool1, m.TryAdd pool (some buf) value = .ok (res, m1, pool1)
      ∧ (res = true ↔ ∀ n ∈ m._pMap, keyContent n.key ≠ keyContent buf)
      ∧ (res = true →
          (∃ hash, m1._pMap = m._pMap ++ [{ order_key := hash, key := buf, value := value }])
          ∧ m1.TryGetValue (some buf) v0 = .ok (true, value))
      ∧ (res = false → m1 = m ∧ pool1 = pool))
    ∧ ∃ results mfin pfin, TryAdd_all calls newMap pool = .ok (results, mfin, pfin)
      ∧ results.length = calls.length
      ∧ ∀ (i : Nat) (c : List Nat × Nat), calls[i]? = some c →
          (∃ res, results[i]? = some res
            ∧ (res = true
              ↔ ∀ (j : Nat) (c2 : List Nat × Nat), j < i → calls[j]? = some c2 → keyContent c2.1 ≠ keyContent c.1))
          ∧ ∃ (f : Nat) (c2 : List Nat × Nat), f ≤ i ∧ calls[f]? = some c2 ∧ keyContent c2.1 = keyContent c.1
              ∧ results[f]? = some true
              ∧ mfin.TryGetValue (some c.1) v0 = .ok (true, c2.2) := by
  constructor
  · obtain ⟨hash, m1, pool1, -, hrun, hm1, -, htrue, hfalse⟩ := TryAdd_spec hm hk hout value
    refine ⟨_, m1, pool1, hrun, ?_, ?_, hfalse⟩
    · rw [Option.isNone_iff_eq_none]
      exact (lookupContent_spec m._pMap buf).2
    · intro hres
      refine ⟨⟨hash, htrue hres⟩, ?_⟩
      rw [(TryGetValue_spec hm1 hk v0).1, htrue hres, lookupContent_append]
      rw [Option.isNone_iff_eq_none] at hres
      rw [hres]
      simp
  · obtain ⟨results, mfin, pfin, hrun, hmfin, hlen, hA, hB⟩ :=
      TryAdd_all_spec calls newMap pool newMap_valid hcalls hout
    have hnew : ∀ b, lookupContent newMap._pMap b = none := fun _ => rfl
    refine ⟨results, mfin, pfin, hrun, hlen, ?_⟩
    intro i c hc
    have hres : ∀ (j : Nat) (c2 : List Nat × Nat), calls[j]? = some c2 →
        results[j]? = some (firstCall (calls.take j) c2.1).isNone := by
      intro j c2 h
      rw [hA j c2 h, hnew]
      rfl
    constructor
    · exact ⟨_, hres i c hc, firstCall_take_none calls c.1 i⟩
    · obtain ⟨f, c2, h1, h2, h3, h4, h5⟩ := firstCall_index c.1 calls i c hc rfl
      refine ⟨f, c2, h1, h2, h3, ?_, ?_⟩
      · rw [hres f c2 h2]
        have e : firstCall (List.take f calls) c2.1 = firstCall (List.take f calls) c.1 := by
          unfold firstCall
          rw [h3]
        rw [e, h4]
      · have hb := hB c.1
        rw [hnew, h5] at hb
        rw [(TryGetValue_spec hmfin (hcalls c (List.mem_iff_getElem?.mpr ⟨i, hc⟩)) v0).1]
        cases hl : lookupContent mfin._pMap c.1 with
        | none =>
          rw [hl] at hb
          cases hb
        | some n =>
          rw [hl] at hb
          simp only [Option.map_some'] at hb
          have := Option.some.inj hb
          simp only
          rw [this]

/-- Instance of C19: on the map of `threeKeys` a `TryAdd` of `[1, 'a'] -> 99` returns false
and changes nothing; on a new map the calls `[1, 'a'] -> 10`, `[1, 'b'] -> 20`,
`[1, 'a'] -> 11` return true, true, false. -/
theorem TryAdd_unique_witness :
    threeKeys.2.1.TryAdd threeKeys.2.2 (some [1, 0x61]) 99
      = .ok (false, threeKeys.2.1, threeKeys.2.2)
    ∧ (TryAdd_all [([1, 0x61], 10), ([1, 0x62], 20), ([1, 0x61], 11)] newMap (freshPool [])).map
        (fun r => r.1) = .ok [true, true, false]
    ∧ ((∃ res m1 pool1,
        threeKeys.2.1.TryAdd threeKeys.2.2 (some [1, 0x61]) 99 = .ok (res, m1, pool1)
        ∧ (res = true
          ↔ ∀ n ∈ threeKeys.2.1._pMap, keyContent n.key ≠ keyContent [1, 0x61])
        ∧ (res = true →
            (∃ hash, m1._pMap
              = threeKeys.2.1._pMap ++ [{ order_key := hash, key := [1, 0x61], value := 99 }])
            ∧ m1.TryGetValue (some [1, 0x61]) 0 = .ok (true, 99))
        ∧ (res = false → m1 = threeKeys.2.1 ∧ pool1 = threeKeys.2.2))
      ∧ ∃ results mfin pfin,
        TryAdd_all [([1, 0x61], 10), ([1, 0x62], 20), ([1, 0x61], 11)] newMap threeKeys.2.2
          = .ok (results, mfin, pfin)
        ∧ results.length = [([1, 0x61], 10), ([1, 0x62], 20), ([1, 0x61], 11)].length
        ∧ ∀ (i : Nat) (c : List Nat × Nat), [([1, 0x61], 10), ([1, 0x62], 20), ([1, 0x61], 11)][i]? = some c →
            (∃ res, results[i]? = some res
              ∧ (res = true
                ↔ ∀ (j : Nat) (c2 : List Nat × Nat), j < i →
                    [([1, 0x61], 10), ([1, 0x62], 20), ([1, 0x61], 11)][j]? = some c2 →
                    keyContent c2.1 ≠ keyContent c.1))
            ∧ ∃ (f : Nat) (c2 : List Nat × Nat), f ≤ i
                ∧ [([1, 0x61], 10), ([1, 0x62], 20), ([1, 0x61], 11)][f]? = some c2
                ∧ keyContent c2.1 = keyContent c.1
                ∧ results[f]? = some true
                ∧ mfin.TryGetValue (some c.1) 0 = .ok (true, c2.2)) :=
  ⟨rfl, rfl,
    TryAdd_unique threeKeys.2.1 threeKeys.2.2 [1, 0x61] 99
      [([1, 0x61], 10), ([1, 0x62], 20), ([1, 0x61], 11)] 0 threeKeys_valid.2
      ⟨by decide, by decide⟩
      (by
        intro c hc
        simp only [List.mem_cons, List.mem_singleton, List.not_mem_nil, or_false] at hc
        rcases hc with e | e | e <;> subst e <;> exact ⟨by decide, by decide⟩)
      (fun x hx => absurd hx (List.not_mem_nil x))⟩

/-- C20: on a valid map and for a buffer that starts with a key, `TryGetValue` (both
overloads) returns; it returns true iff an element of the map has a key of equal content,
and `value` is then the value stored with that key; it returns false otherwise and leaves
`value` as it was.  `TryGetValueInt32` returns the same result, with the stored value
converted to `int32_t`, and sets `value` to 0 when it returns false. -/
theorem TryGetValue_content (m : ConcurrentHashmapOfKeys) (buf : List Nat) (v0 : Nat) (i0 : Int)
    (hm : m.Valid) (hk : StartsWithKey buf) :
    ∃ res v, m.TryGetValue (some buf) v0 = .ok (res, v)
      ∧ m.TryGetValue_array (some buf) v0 = .ok (res, v)
      ∧ m.TryGetValueInt32 (some buf) i0 = .ok (res, if res = true then to_int32_t v else 0)
      ∧ (res = true ↔ ∃ n ∈ m._pMap, keyContent n.key = keyContent buf)
      ∧ (res = true → ∀ n ∈ m._pMap, keyContent n.key = keyContent buf → v = n.value)
      ∧ (res = false → v = v0) := by
  obtain ⟨h1, h2⟩ := TryGetValue_spec hm hk v0
  obtain ⟨h3, h4⟩ := TryGetValue_spec hm hk 0
  obtain ⟨s1, s2⟩ := lookupContent_spec m._pMap buf
  cases hl : lookupContent m._pMap buf with
  | none =>
    rw [hl] at h1 h3
    refine ⟨false, v0, h1, h2.trans h1, ?_, ?_, fun h => (by cases h), fun _ => rfl⟩
    · unfold TryGetValueInt32
      rw [h4, h3]
      rfl
    · constructor
      · intro h
        cases h
      · intro ⟨n, hn, e⟩
        exact absurd e (s2.mp hl n hn)
  | some n0 =>
    rw [hl] at h1 h3
    obtain ⟨hmem, hc⟩ := s1 n0 hl
    refine ⟨true, n0.value, h1, h2.trans h1, ?_, ?_, ?_, fun h => (by cases h)⟩
    · unfold TryGetValueInt32
      rw [h4, h3]
      rfl
    · exact ⟨fun _ => ⟨n0, hmem, hc⟩, fun _ => rfl⟩
    · intro _ n hn e
      by_cases hne : n = n0
      · rw [hne]
      · have hsym : Symmetric (fun a b : MapNode => keyContent a.key ≠ keyContent b.key) :=
          fun a b h => Ne.symm h
        exact absurd (e.trans hc.symm) (hm.distinct.forall hsym hn hmem hne)

/-- Instance of C20: after adding `[1, 'a'] -> 10`, `[1, 'b'] -> 20` and
`[2, 'a', 'a'] -> 30` to a new map, the look-up of `[1, 'a']` gives (true, 10), that of
`[2, 'a', 'a']` gives (true, 30), and that of `[1, 'c']` gives (false, 0), with
`TryGetValueInt32` whatever `value` held and with `TryGetValue` when `value` held 0. -/
theorem TryGetValue_content_witness :
    TryAdd_all [([1, 0x61], 10), ([1, 0x62], 20), ([2, 0x61, 0x61], 30)] newMap (freshPool [])
      = .ok threeKeys
    ∧ threeKeys.2.1.TryGetValue (some [1, 0x61]) 0 = .ok (true, 10)
    ∧ threeKeys.2.1.TryGetValue (some [2, 0x61, 0x61]) 0 = .ok (true, 30)
    ∧ threeKeys.2.1.TryGetValue (some [1, 0x63]) 0 = .ok (false, 0)
    ∧ threeKeys.2.1.TryGetValueInt32 (some [1, 0x63]) 7 = .ok (false, 0)
    ∧ ∃ res v, threeKeys.2.1.TryGetValue (some [1, 0x63]) 0 = .ok (res, v)
      ∧ threeKeys.2.1.TryGetValue_array (some [1, 0x63]) 0 = .ok (res, v)
      ∧ threeKeys.2.1.TryGetValueInt32 (some [1, 0x63]) 7
          = .ok (res, if res = true then to_int32_t v else 0)
      ∧ (res = true ↔ ∃ n ∈ threeKeys.2.1._pMap, keyContent n.key = keyContent [1, 0x63])
      ∧ (res = true →
          ∀ n ∈ threeKeys.2.1._pMap, keyContent n.key = keyContent [1, 0x63] → v = n.value)
      ∧ (res = false → v = 0) :=
  ⟨rfl, rfl, rfl, rfl, rfl,
    TryGetValue_content threeKeys.2.1 [1, 0x63] 0 7 threeKeys_valid.2 ⟨by decide, by decide⟩⟩

end ConcurrentHashmapOfKeys

end Pql.UnmanagedLib

namespace Pql.UnmanagedLib

namespace BitVector

/-- The blocks of a new bit vector that `EnsureCapacity` has grown are addresses handed
out during the call. -/
theorem EnsureCapacity_new_above {pool p1 : MemoryPool} {t : BitVector} {count : Nat}
    (hout : ∀ x ∈ pool.outcomes, x = true)
    (h : newBits.EnsureCapacity pool count = .ok (t, p1)) :
    ∀ b blk, b < t._pArray._blockCount → p1.load t._pData sizeof_ptr b = .ok blk →
      pool.next < blk := by
  unfold EnsureCapacity TryEnsureCapacity at h
  by_cases hc : count > 0
  · rw [if_pos hc] at h
    split at h
    · cases h
    · rename_i res b2 p2 hr
      split at hr
      · cases hr
      · rename_i r hrun
        simp only [Except.ok.injEq, Prod.mk.injEq] at hr
        obtain ⟨-, e2, e3⟩ := hr
        split at h
        · cases h
        · simp only [Except.ok.injEq, Prod.mk.injEq] at h
          obtain ⟨h1, h2⟩ := h
          subst h1 h2 e2 e3
          have hcap0 : newBits._pArray.capacity = 0 :=
            ExpandableArrayImpl.create_capacity _ _ _
          have hlt : newBits._pArray.capacity < 1 + count / BITS_PER_ITEM := by
            rw [hcap0]
            exact Nat.lt_of_lt_of_le Nat.zero_lt_one (Nat.le_add_right 1 _)
          obtain ⟨c1, -⟩ := ExpandableArrayImpl.try_ensure_capacity_cache hrun rfl rfl
          obtain ⟨-, base, hbase, -, hloads⟩ :=
            ExpandableArrayImpl.try_ensure_capacity_new_blocks (Nat.zero_le _) hout hrun hlt
          have hcount : r.self._blockCount
              = newBits._pArray.requestedListCapacity (1 + count / BITS_PER_ITEM) := by
            rcases ExpandableArrayImpl.try_ensure_capacity_cases hrun with
              ⟨hle, -⟩ | ⟨-, -, -, -, hcnt, -⟩
            · exact absurd hle (Nat.not_le.mpr hlt)
            · exact hcnt
          intro b blk hb hload
          have hload2 : r.pool.load r.ref sizeof_ptr b = .ok blk := hload
          rw [c1] at hload2
          have hb2 : b < newBits._pArray.requestedListCapacity (1 + count / BITS_PER_ITEM) := by
            rw [← hcount]
            exact hb
          obtain ⟨l1, -⟩ := hloads b (Nat.zero_le _) hb2
          rw [l1] at hload2
          have e : base + 1 + (b - newBits._pArray._blockCount) = blk := Except.ok.inj hload2
          rw [← e]
          exact Nat.lt_of_le_of_lt hbase (by omega)
  · rw [if_neg hc] at h
    simp only [Bool.not_true, Bool.false_eq_true, if_false, Except.ok.injEq,
      Prod.mk.injEq] at h
    obtain ⟨h1, -⟩ := h
    subst h1
    intro b blk hb
    exact absurd hb (Nat.not_lt_zero _)

/-- `SetGroup` below `Capacity` of a valid vector returns, and does what
`store_byte_effect` says of a store in the byte of the bit. -/
theorem SetGroup_effect {b : BitVector} {pool : MemoryPool} (hv : b.Valid pool)
    {i : Nat} (hi : i < b.Capacity) (group : Nat) :
    ∃ pool1 blk, b.SetGroup pool i group = .ok pool1 ∧ b.Valid pool1
      ∧ pool1.next = pool.next ∧ pool1.outcomes = pool.outcomes
      ∧ pool.load b._pData sizeof_ptr (i / BITS_PER_BLOCK) = .ok blk
      ∧ (∀ q, q ≠ blk → pool1.mem q = pool.mem q)
      ∧ ∀ j, j < b.Capacity →
          (j / BITS_PER_ITEM = i / BITS_PER_ITEM → b.GetGroup pool1 j = .ok group)
          ∧ (j / BITS_PER_ITEM ≠ i / BITS_PER_ITEM → b.GetGroup pool1 j = b.GetGroup pool j) := by
  obtain ⟨blk, byte, hblk, hp, hbyte, -⟩ := hv.place hi
  obtain ⟨pool1, hs⟩ := MemoryPool.store_of_load hbyte group
  obtain ⟨hv1, g1, -, -, g4, -, -, hmem, hbytes⟩ := store_byte_effect hv hi hp hs
  refine ⟨pool1, blk, ?_, hv1, g1, g4, hblk, hmem, hbytes⟩
  unfold SetGroup
  rw [hp]
  exact hs

/-- The loop of `Read` from byte `m` on, with enough fuel, on a valid target with room
for `count` bits and a reader that starts with the bytes still to be read: it returns
with the rest of the reader, the target holds the bytes read, the bytes stored before are
kept, and no allocation at or below `bound` is written when the blocks of the target lie
above `bound`. -/
theorem Read_loop_bytes {t : BitVector} {count bound : Nat} (bytes rest : List Nat)
    (hlen : bytes.length = (count + 7) / 8) (hint : count ≤ INT_MAX - 7)
    (hct : count ≤ t.Capacity) :
    ∀ (fuel m : Nat) (p : MemoryPool), count ≤ 8 * m + 8 * fuel → m ≤ bytes.length →
      t.Valid p →
      (∀ b blk, b < t._pArray._blockCount → p.load t._pData sizeof_ptr b = .ok blk →
        bound < blk) →
      ∃ pfin, Read_loop t count fuel (8 * m) (bytes.drop m ++ rest) p = .ok (pfin, rest)
        ∧ t.Valid pfin ∧ pfin.next = p.next
        ∧ (∀ q, q ≤ bound → pfin.mem q = p.mem q)
        ∧ (∀ j byte, m ≤ j → bytes[j]? = some byte → t.GetGroup pfin (8 * j) = .ok byte)
        ∧ ∀ j, j < m → t.GetGroup pfin (8 * j) = t.GetGroup p (8 * j) := by
  intro fuel
  induction fuel with
  | zero =>
    intro m p hf hm hv _
    have hm2 : m = bytes.length := by omega
    subst hm2
    refine ⟨p, ?_, hv, rfl, fun _ _ => rfl, ?_, fun _ _ => rfl⟩
    · unfold Read_loop
      rw [List.drop_length, List.nil_append]
    · intro j byte hj h
      rw [List.getElem?_eq_none hj] at h
      cases h
  | succ f ih =>
    intro m p hf hm hv habove
    by_cases hlt : 8 * m < count
    · have hmlt : m < bytes.length := by omega
      have hi : 8 * m < t.Capacity := Nat.lt_of_lt_of_le hlt hct
      obtain ⟨p1, blk, hset, hv1, hn1, -, hblk, hmem1, hbytes1⟩ :=
        SetGroup_effect hv hi (bytes.get ⟨m, hmlt⟩)
      obtain ⟨-, -, -, -, -, -, -, -, -, hbi⟩ := hv.place hi
      have hblkabove : bound < blk := habove _ blk hbi hblk
      obtain ⟨hL0, -⟩ := MemoryPool.load_ok_live hblk
      obtain ⟨-, -, -, -, -, hblkL, -⟩ := hv.place hi
      have hspine : p1.mem t._pData = p.mem t._pData := by
        apply hmem1
        intro e
        obtain ⟨blk2, _, hblk2, _, _, _, hne, _⟩ := hv.place hi
        rw [hblk] at hblk2
        have := Except.ok.inj hblk2
        subst this
        exact hne e.symm
      have habove1 : ∀ b blk, b < t._pArray._blockCount →
          p1.load t._pData sizeof_ptr b = .ok blk → bound < blk := by
        intro b blk3 hb hload
        rw [MemoryPool.load_congr hspine] at hload
        exact habove b blk3 hb hload
      obtain ⟨pfin, hrec, hvfin, hnfin, hmemfin, hdone, hkeep⟩ :=
        ih (m + 1) p1 (by omega) (by omega) hv1 habove1
      have hmax : ¬ 8 * m + BITS_PER_ITEM > INT_MAX := by
        unfold BITS_PER_ITEM
        unfold INT_MAX at hint ⊢
        omega
      have e8 : 8 * m + BITS_PER_ITEM = 8 * (m + 1) := by
        unfold BITS_PER_ITEM
        omega
      have hsame : ∀ j, (8 * j) / BITS_PER_ITEM = (8 * m) / BITS_PER_ITEM → j = m := by
        intro j h
        unfold BITS_PER_ITEM at h
        omega
      refine ⟨pfin, ?_, hvfin, hnfin.trans hn1, ?_, ?_, ?_⟩
      · unfold Read_loop
        rw [if_pos hlt, List.drop_eq_getElem_cons hmlt, List.cons_append]
        simp only [ReadByte]
        have e : bytes[m] = bytes.get ⟨m, hmlt⟩ := rfl
        rw [e, hset]
        simp only
        rw [if_neg hmax, e8]
        exact hrec
      · intro q hq
        rw [hmemfin q hq]
        exact hmem1 q (Nat.ne_of_lt (Nat.lt_of_le_of_lt hq hblkabove))
      · intro j byte hj hb
        by_cases hjm : j = m
        · subst hjm
          rw [hkeep j (Nat.lt_succ_self j), (hbytes1 (8 * j) hi).1 rfl]
          rw [List.getElem?_eq_getElem hmlt] at hb
          exact congrArg Except.ok (Option.some.inj hb)
        · exact hdone j byte (by omega) hb
      · intro j hj
        rw [hkeep j (by omega)]
        have hjc : 8 * j < t.Capacity := by omega
        exact (hbytes1 (8 * j) hjc).2 (fun h => by have := hsame j h; omega)
    · have hm2 : m = bytes.length := by omega
      subst hm2
      refine ⟨p, ?_, hv, rfl, fun _ _ => rfl, ?_, fun _ _ => rfl⟩
      · unfold Read_loop
        rw [if_neg hlt, List.drop_length, List.nil_append]
      · intro j byte hj h
        rw [List.getElem?_eq_none hj] at h
        cases h

/-- The round trip of C13 holds whenever the growth of the target returns: for a valid
vector `b`, `count <= Capacity` within the range of the `int` counter and an allocator
that does not fail, if `EnsureCapacity(count)` on a new vector returns then `Write` of
`count` bits returns bytes, `Read` of them with the same count into the new vector returns,
and the two vectors agree on every bit below `count`; `b` reads as before. -/
theorem Read_after_Write_when_grown {b t : BitVector} {pool p1 : MemoryPool} {count : Nat}
    (rest : List Nat) (hv : b.Valid pool) (hc : count ≤ b.Capacity)
    (hint : count ≤ INT_MAX - 7) (hout : ∀ x ∈ pool.outcomes, x = true)
    (hgrow : newBits.EnsureCapacity pool count = .ok (t, p1)) :
    ∃ bytes pfin, b.Write pool [] count = .ok bytes
      ∧ newBits.Read pool (bytes ++ rest) count = .ok (t, pfin, rest)
      ∧ ∀ i, i < count → t.Get pfin i = b.Get pool i ∧ b.Get pfin i = b.Get pool i := by
  obtain ⟨bytes, hw1, hw2, hw3⟩ := Write_loop_spec hv hc hint count 0 [] (by omega)
  have hv0 : newBits.Valid pool :=
    ⟨ExpandableArrayImpl.create_valid _ _ _ (by decide) (by decide) pool hv.array.fresh,
      rfl, rfl, rfl, rfl⟩
  have hcount_lt : count < SIZE_T_RANGE := by
    unfold INT_MAX at hint
    unfold SIZE_T_RANGE
    omega
  obtain ⟨hvt, -, hcap, hnext, hframe⟩ := EnsureCapacity_valid hv0 hout rfl hcount_lt hgrow
  have hct : count ≤ t.Capacity := by
    rcases Nat.eq_zero_or_pos count with h | h
    · rw [h]
      exact Nat.zero_le _
    · exact Nat.le_of_lt (hcap h)
  have habove := EnsureCapacity_new_above hout hgrow
  rw [Nat.sub_zero] at hw2
  obtain ⟨pfin, hloop, hvfin, hnfin, hmemfin, hdone, -⟩ :=
    @Read_loop_bytes t count pool.next bytes rest hw2 hint hct count 0 p1 (by omega)
      (Nat.zero_le _) hvt habove
  rw [List.drop_zero, Nat.mul_zero] at hloop
  rw [List.nil_append] at hw1
  have hmem : ∀ q : Nat, q ≠ 0 → q ≤ pool.next → pfin.mem q = pool.mem q := by
    intro q hq0 hq
    rw [hmemfin q hq]
    exact hframe q hq0 hq hq0
  obtain ⟨-, hsource⟩ := hv.bits_frame hvfin.array.fresh
    (by rw [hnfin]; exact hnext) hmem
  refine ⟨bytes, pfin, ?_, ?_, ?_⟩
  · unfold Write
    rw [if_neg (Nat.not_lt.mpr hc)]
    exact hw1
  · unfold Read
    rw [if_neg (by decide), hgrow]
    simp only
    rw [hloop]
  · intro i hi
    refine ⟨?_, hsource i (Nat.lt_of_lt_of_le hi hc)⟩
    have hj : i / 8 < bytes.length := by omega
    have hb := hw3 (i / 8) _ (List.getElem?_eq_getElem hj)
    have ht := hdone (i / 8) _ (Nat.zero_le _) (List.getElem?_eq_getElem hj)
    rw [Nat.zero_add] at hb
    have hsame : i / BITS_PER_ITEM = (8 * (i / 8)) / BITS_PER_ITEM := by
      unfold BITS_PER_ITEM
      omega
    have hbi : b.GetGroup pool i = .ok bytes[i / 8] := by
      unfold GetGroup at hb ⊢
      rw [pValue_congr b pool hsame]
      exact hb
    have hti : t.GetGroup pfin i = .ok bytes[i / 8] := by
      unfold GetGroup at ht ⊢
      rw [pValue_congr t pfin hsame]
      exact ht
    rw [Get_eq_GetGroup, Get_eq_GetGroup, hbi, hti]

end BitVector

end Pql.UnmanagedLib

namespace Pql.UnmanagedLib

/-- On two buffers through which the length byte and the content bytes it announces can
be read, `SequenceEqualTo` returns, and returns true exactly when the length bytes are
equal and the content bytes agree. -/
theorem SequenceEqualTo_bytes {a b : List Nat} (ha : a.headD 0 + 1 ≤ a.length)
    (hb : b.headD 0 + 1 ≤ b.length) :
    ∃ r, SequenceEqualTo a b = .ok r
      ∧ (r = true ↔ a.headD 0 = b.headD 0 ∧ ∀ k, 1 ≤ k → k ≤ a.headD 0 → a[k]? = b[k]?) := by
  cases a with
  | nil => simp at ha
  | cons x s =>
    cases b with
    | nil => simp at hb
    | cons y t =>
      simp only [List.headD_cons] at ha hb ⊢
      unfold SequenceEqualTo
      simp only [List.getElem?_cons_zero]
      by_cases hL : x = y
      · rw [if_neg (not_not.mpr hL)]
        obtain ⟨r, hr1, hr2⟩ := SequenceEqualTo_loop_spec (x :: s) (y :: t) x 1
          (by omega) (by omega)
        refine ⟨r, hr1, ?_⟩
        rw [hr2]
        constructor
        · intro h
          exact ⟨hL, fun k h1 h2 => h k h1 (by omega)⟩
        · intro h k h1 h2
          exact h.2 k h1 (by omega)
      · rw [if_pos hL]
        refine ⟨false, rfl, ?_⟩
        constructor
        · intro h
          cases h
        · intro h
          exact absurd h.1 hL

/-- `SequenceHash` returns on a buffer through which the length byte and the content
bytes it announces can be read, and two such buffers with the same length byte and the
same content bytes have the same hash. -/
theorem SequenceHash_bytes {a b : List Nat} (ha : a.headD 0 + 1 ≤ a.length)
    (hb : b.headD 0 + 1 ≤ b.length) :
    (∃ h, SequenceHash a = .ok h)
    ∧ (a.headD 0 = b.headD 0 → (∀ k, 1 ≤ k → k ≤ a.headD 0 → a[k]? = b[k]?) →
        SequenceHash a = SequenceHash b) := by
  cases a with
  | nil => simp at ha
  | cons x s =>
    cases b with
    | nil => simp at hb
    | cons y t =>
      simp only [List.headD_cons] at ha hb ⊢
      unfold SequenceHash
      simp only [List.getElem?_cons_zero]
      constructor
      · exact Fnv1a_append_bytes_total (x :: s) x 1 _ (by omega)
      · intro hL h
        rw [Fnv1a_append_bytes_congr (x :: s) (y :: t) x 1 FNV_offset_basis
          (fun j h1 h2 => h j h1 (by omega)), hL]

/-- C21.  Map key identity is by content.  On buffers through which the length byte `L`
and the `L` bytes after it can be read, `SequenceEqualTo(a, b)` returns, and returns true
iff `a[0] = b[0]` and `a[k] = b[k]` for every `k` in `[1, a[0]]`; it is reflexive,
symmetric and transitive; `SequenceHash` returns and is the same on two buffers with the
same length byte and the same bytes `[1, L]`; hence two keys equal under
`SequenceEqualTo` have equal hashes. -/
theorem SequenceEqualTo_is_content_equality (a b c : List Nat)
    (ha : a.headD 0 + 1 ≤ a.length) (hb : b.headD 0 + 1 ≤ b.length)
    (hc : c.headD 0 + 1 ≤ c.length) :
    (∃ r, SequenceEqualTo a b = .ok r)
    ∧ (SequenceEqualTo a b = .ok true ↔
        a.headD 0 = b.headD 0 ∧ ∀ k, 1 ≤ k → k ≤ a.headD 0 → a[k]? = b[k]?)
    ∧ SequenceEqualTo a a = .ok true
    ∧ SequenceEqualTo b a = SequenceEqualTo a b
    ∧ (SequenceEqualTo a b = .ok true → SequenceEqualTo b c = .ok true →
        SequenceEqualTo a c = .ok true)
    ∧ (∃ h, SequenceHash a = .ok h)
    ∧ (a.headD 0 = b.headD 0 → (∀ k, 1 ≤ k → k ≤ a.headD 0 → a[k]? = b[k]?) →
        SequenceHash a = SequenceHash b)
    ∧ (SequenceEqualTo a b = .ok true → SequenceHash a = SequenceHash b) := by
  have key : ∀ {u v : List Nat}, u.headD 0 + 1 ≤ u.length → v.headD 0 + 1 ≤ v.length →
      (SequenceEqualTo u v = .ok true ↔
        u.headD 0 = v.headD 0 ∧ ∀ k, 1 ≤ k → k ≤ u.headD 0 → u[k]? = v[k]?) := by
    intro u v hu hv
    obtain ⟨r, hr1, hr2⟩ := SequenceEqualTo_bytes hu hv
    rw [hr1, ← hr2]
    constructor
    · intro h
      exact Except.ok.inj h
    · intro h
      rw [h]
  have total : ∀ {u v : List Nat}, u.headD 0 + 1 ≤ u.length → v.headD 0 + 1 ≤ v.length →
      SequenceEqualTo u v = .ok true ∨ SequenceEqualTo u v = .ok false := by
    intro u v hu hv
    obtain ⟨r, hr1, _⟩ := SequenceEqualTo_bytes hu hv
    cases r with
    | true => exact Or.inl hr1
    | false => exact Or.inr hr1
  have symm : ∀ {u v : List Nat}, u.headD 0 + 1 ≤ u.length → v.headD 0 + 1 ≤ v.length →
      SequenceEqualTo u v = .ok true → SequenceEqualTo v u = .ok true := by
    intro u v hu hv h
    obtain ⟨h1, h2⟩ := (key hu hv).mp h
    exact (key hv hu).mpr ⟨h1.symm, fun k hk1 hk2 => (h2 k hk1 (by omega)).symm⟩
  refine ⟨?_, key ha hb, ?_, ?_, ?_, (SequenceHash_bytes ha hb).1,
    (SequenceHash_bytes ha hb).2, ?_⟩
  · obtain ⟨r, hr1, _⟩ := SequenceEqualTo_bytes ha hb
    exact ⟨r, hr1⟩
  · exact (key ha ha).mpr ⟨rfl, fun _ _ _ => rfl⟩
  · rcases total ha hb with h | h
    · rw [h, symm ha hb h]
    · rcases total hb ha with h1 | h1
      · rw [symm hb ha h1] at h
        cases h
      · rw [h, h1]
  · intro h1 h2
    obtain ⟨e1, f1⟩ := (key ha hb).mp h1
    obtain ⟨e2, f2⟩ := (key hb hc).mp h2
    exact (key ha hc).mpr ⟨e1.trans e2,
      fun k hk1 hk2 => (f1 k hk1 hk2).trans (f2 k hk1 (by omega))⟩
  · intro h
    obtain ⟨e1, f1⟩ := (key ha hb).mp h
    exact (SequenceHash_bytes ha hb).2 e1 f1

/-- C21 at the buffers `[1, 'a']`, `[1, 'a', 9]` and `[1, 'a', 7, 7]`, which hold the same
key in arrays of different lengths. -/
theorem SequenceEqualTo_is_content_equality_witness :
    ([1, 0x61] : List Nat).headD 0 + 1 ≤ [1, 0x61].length
    ∧ SequenceEqualTo [1, 0x61] [1, 0x61, 9] = .ok true
    ∧ SequenceHash [1, 0x61] = SequenceHash [1, 0x61, 9] :=
  have h := SequenceEqualTo_is_content_equality [1, 0x61] [1, 0x61, 9] [1, 0x61, 7, 7]
    (by decide) (by decide) (by decide)
  ⟨by decide, h.2.1.mpr ⟨rfl, fun k h1 h2 => by
      have hk : k = 1 := Nat.le_antisymm h2 h1
      subst hk
      rfl⟩,
    h.2.2.2.2.2.2.2 rfl⟩

end Pql.UnmanagedLib

namespace Pql.UnmanagedLib

namespace MemoryPool

/-- The loop of `collect` passes the queued entries to `free` one by one, oldest first,
empties the queue and touches no other allocation. -/
theorem collect_loop_spec : ∀ (g : List Ptr) (p : MemoryPool),
    (collect_loop g p).freed = p.freed ++ g
    ∧ ((collect_loop g p)._garbage = if g = [] then p._garbage else [])
    ∧ (collect_loop g p).next = p.next
    ∧ (collect_loop g p).outcomes = p.outcomes
    ∧ ∀ q, (collect_loop g p).mem q = if q ∈ g then none else p.mem q := by
  intro g
  induction g with
  | nil =>
    intro p
    simp [collect_loop]
  | cons x rest ih =>
    intro p
    obtain ⟨h1, h2, h3, h4, h5⟩ := ih ((({ p with _garbage := rest } : MemoryPool)).deallocate x)
    unfold collect_loop
    refine ⟨?_, ?_, ?_, ?_, ?_⟩
    · rw [h1]
      simp [deallocate, free]
    · rw [h2]
      by_cases hr : rest = []
      · simp [hr, deallocate, free]
      · simp [hr]
    · rw [h3]
      rfl
    · rw [h4]
      rfl
    · intro q
      rw [h5 q]
      by_cases hq : q = x
      · simp [hq, deallocate, free]
      · simp [hq, deallocate, free]

/-- Calls of `allocate` and `schedule_for_collection` pass nothing to `free`, append the
scheduled pointers to the queue and, under the allocator invariant, leave every address
handed out before them as it was. -/
theorem run_calls_spec : ∀ (calls : List PoolCall) (p : MemoryPool),
    (p.run_calls calls)._garbage = p._garbage ++ scheduled calls
    ∧ (p.run_calls calls).freed = p.freed
    ∧ p.next ≤ (p.run_calls calls).next
    ∧ ∀ q, q ≤ p.next → (p.run_calls calls).mem q = p.mem q := by
  intro calls
  induction calls with
  | nil =>
    intro p
    simp [run_calls, scheduled]
  | cons c rest ih =>
    intro p
    cases c with
    | allocate n =>
      obtain ⟨h1, h2, h3, h4⟩ := ih (p.allocate n).2
      have hs := zero_allocate_spec p sizeof_uint8_t n
      have hn := zero_allocate_next p sizeof_uint8_t n
      unfold run_calls scheduled
      refine ⟨?_, ?_, ?_, ?_⟩
      · rw [h1]
        unfold allocate
        rw [hs.1]
      · rw [h2]
        unfold allocate
        rw [hs.2.1]
      · exact Nat.le_trans hn.1 h3
      · intro q hq
        rw [h4 q (Nat.le_trans hq hn.1)]
        exact zero_allocate_mem_other p sizeof_uint8_t n q (Nat.ne_of_lt (Nat.lt_succ_of_le hq))
    | schedule_for_collection ptr =>
      obtain ⟨h1, h2, h3, h4⟩ := ih (p.schedule_for_collection ptr)
      unfold run_calls scheduled
      refine ⟨?_, ?_, ?_, ?_⟩
      · rw [h1]
        simp [schedule_for_collection]
      · rw [h2]
        rfl
      · exact h3
      · intro q hq
        rw [h4 q hq]
        rfl

/-- C30.  `collect()` passes every entry of the garbage list to `deallocate` once, oldest
first (the log of `free` grows by the list, in its order), leaves the list empty and
releases exactly the addresses listed.  Calls of `allocate` and
`schedule_for_collection`, in any number and order, deallocate nothing: the log of `free`
and every address handed out before them stay as they were, and the pointers scheduled
are appended to the list in the order of the calls, so that a following `collect()`
deallocates what was listed before and then the pointers scheduled, first scheduled
first. -/
theorem collect_is_fifo (p : MemoryPool) (calls : List PoolCall) :
    p.collect.freed = p.freed ++ p._garbage
    ∧ p.collect._garbage = []
    ∧ (∀ q, p.collect.mem q = if q ∈ p._garbage then none else p.mem q)
    ∧ (p.run_calls calls)._garbage = p._garbage ++ scheduled calls
    ∧ (p.run_calls calls).freed = p.freed
    ∧ (∀ q, q ≤ p.next → (p.run_calls calls).mem q = p.mem q)
    ∧ (p.run_calls calls).collect.freed = p.freed ++ p._garbage ++ scheduled calls
    ∧ (p.run_calls calls).collect._garbage = [] := by
  have hc : ∀ r : MemoryPool, r.collect.freed = r.freed ++ r._garbage ∧ r.collect._garbage = []
      ∧ ∀ q, r.collect.mem q = if q ∈ r._garbage then none else r.mem q := by
    intro r
    obtain ⟨h1, h2, -, -, h5⟩ := collect_loop_spec r._garbage r
    refine ⟨h1, ?_, h5⟩
    unfold collect
    rw [h2]
    by_cases hg : r._garbage = []
    · rw [if_pos hg, hg]
    · rw [if_neg hg]
  obtain ⟨r1, r2, r3, r4⟩ := run_calls_spec calls p
  refine ⟨(hc p).1, (hc p).2.1, (hc p).2.2, r1, r2, r4, ?_, (hc _).2.1⟩
  rw [(hc _).1, r1, r2, List.append_assoc]

/-- C30 on a fresh pool: the pointers 5 and 2 are scheduled, in this order, around an
allocation; nothing is deallocated until `collect()`, which deallocates 5 and then 2. -/
theorem collect_is_fifo_witness :
    ((freshPool []).run_calls
        [.schedule_for_collection 5, .allocate 3, .schedule_for_collection 2]).freed = []
    ∧ ((freshPool []).run_calls
        [.schedule_for_collection 5, .allocate 3, .schedule_for_collection 2]).collect.freed
          = [5, 2] :=
  have h := collect_is_fifo (freshPool [])
    [.schedule_for_collection 5, .allocate 3, .schedule_for_collection 2]
  ⟨h.2.2.2.2.1, h.2.2.2.2.2.2.1⟩

end MemoryPool

end Pql.UnmanagedLib

namespace Pql.UnmanagedLib

namespace MemoryPool

/-- A read faults only with undefined behaviour. -/
theorem load_fault {p : MemoryPool} {ptr : Ptr} {s i : Nat} {e : Fault}
    (h : p.load ptr s i = .error e) : e = .undefinedBehaviour := by
  unfold load at h
  split at h
  · exact (Except.error.inj h).symm
  · split at h
    · exact (Except.error.inj h).symm
    · split at h
      · cases h
      · exact (Except.error.inj h).symm

/-- A write faults only with undefined behaviour. -/
theorem store_fault {p : MemoryPool} {ptr : Ptr} {s i v : Nat} {e : Fault}
    (h : p.store ptr s i v = .error e) : e = .undefinedBehaviour := by
  unfold store at h
  split at h
  · exact (Except.error.inj h).symm
  · split at h
    · exact (Except.error.inj h).symm
    · split at h
      · cases h
      · exact (Except.error.inj h).symm

end MemoryPool

namespace ExpandableArrayImpl

/-- The copy loop faults only with undefined behaviour. -/
theorem copy_block_list_fault (oldList newList : Ptr) :
    ∀ (count ix : Nat) (p : MemoryPool) (e : Fault),
      copy_block_list oldList newList count ix p = .error e → e = .undefinedBehaviour := by
  intro count
  induction count with
  | zero =>
    intro ix p e h
    cases h
  | succ n ih =>
    intro ix p e h
    unfold copy_block_list at h
    split at h
    · rename_i e1 h1
      rw [← Except.error.inj h]
      exact MemoryPool.load_fault h1
    · split at h
      · rename_i e1 h1
        rw [← Except.error.inj h]
        exact MemoryPool.store_fault h1
      · exact ih _ _ _ h

/-- The loop that allocates the missing blocks faults only with undefined behaviour. -/
theorem allocate_missing_blocks_fault (s E : Nat) (blockList : Ptr) :
    ∀ (count ix : Nat) (p : MemoryPool) (e : Fault),
      allocate_missing_blocks s E blockList count ix p = .error e → e = .undefinedBehaviour := by
  intro count
  induction count with
  | zero =>
    intro ix p e h
    cases h
  | succ n ih =>
    intro ix p e h
    unfold allocate_missing_blocks at h
    simp only at h
    split at h
    · rename_i e1 h1
      rw [← Except.error.inj h]
      exact MemoryPool.store_fault h1
    · exact ih _ _ _ h

/-- No call of `try_ensure_capacity` ends in a managed exception: it returns or its
behaviour is undefined. -/
theorem try_ensure_capacity_fault {a : ExpandableArrayImpl} {pool : MemoryPool}
    {n timeout : Nat} {ref : Ptr} {cap : Nat} {e : Fault}
    (h : a.try_ensure_capacity pool n timeout ref cap = .error e) :
    e = .undefinedBehaviour := by
  unfold try_ensure_capacity at h
  by_cases hc : n ≤ a.capacity
  · simp only [ge_iff_le, hc, if_true] at h
    cases h
  · simp only [ge_iff_le, hc, if_false] at h
    split at h
    · exact (Except.error.inj h).symm
    · split at h
      · rename_i e1 h1
        rw [← Except.error.inj h]
        split at h1
        · unfold replace_block_list at h1
          simp only at h1
          split at h1
          · rename_i e2 h2
            rw [← Except.error.inj h1]
            exact copy_block_list_fault _ _ _ _ _ _ h2
          · cases h1
        · cases h1
      · split at h
        · rename_i e1 h1
          rw [← Except.error.inj h]
          exact allocate_missing_blocks_fault _ _ _ _ _ _ _ h1
        · cases h

end ExpandableArrayImpl

namespace ExpandableArrayOfKeys

/-- C28.  Key-array `TryEnsureCapacity` never reads the result of the block array's
`try_ensure_capacity`: for every capacity and timeout a call that returns returns true,
with the fields the block array call left whatever that call returned, and a call that
does not return has undefined behaviour in the block array (no managed exception);
hence the blocking `EnsureCapacity` never raises insufficient-memory.  On a new key
array over a pool whose allocations succeed the call does return, for every capacity
that is a `size_t` (below 2^64) and every timeout. -/
theorem TryEnsureCapacity_always_true (k : ExpandableArrayOfKeys) (pool : MemoryPool)
    (capacity timeout : Nat) :
    (∀ res k1 p1, k.TryEnsureCapacity pool capacity timeout = .ok (res, k1, p1) → res = true)
    ∧ (∀ e, k.TryEnsureCapacity pool capacity timeout = .error e → e = .undefinedBehaviour)
    ∧ (∀ r, 0 < capacity →
        k._pArray.try_ensure_capacity pool capacity timeout k._pData k._capacity = .ok r →
        k.TryEnsureCapacity pool capacity timeout
          = .ok (true, { _pArray := r.self, _pData := r.ref, _capacity := r.cap }, r.pool))
    ∧ (capacity = 0 → k.TryEnsureCapacity pool capacity timeout = .ok (true, k, pool))
    ∧ k.EnsureCapacity pool capacity ≠ .error .insufficientMemory
    ∧ (∀ e, k.EnsureCapacity pool capacity = .error e → e = .undefinedBehaviour)
    ∧ ((∀ x ∈ pool.outcomes, x = true) → capacity < SIZE_T_RANGE →
        ∃ k1 p1, newKeys.TryEnsureCapacity pool capacity timeout = .ok (true, k1, p1)) := by
  have hres : ∀ res k1 p1, k.TryEnsureCapacity pool capacity timeout = .ok (res, k1, p1) →
      res = true := by
    intro res k1 p1 h
    unfold TryEnsureCapacity at h
    split at h
    · split at h
      · cases h
      · simp only [Except.ok.injEq, Prod.mk.injEq] at h
        exact h.1.symm
    · simp only [Except.ok.injEq, Prod.mk.injEq] at h
      exact h.1.symm
  have herr : ∀ e, k.TryEnsureCapacity pool capacity timeout = .error e →
      e = .undefinedBehaviour := by
    intro e h
    unfold TryEnsureCapacity at h
    split at h
    · split at h
      · rename_i e1 h1
        rw [← Except.error.inj h]
        exact ExpandableArrayImpl.try_ensure_capacity_fault h1
      · cases h
    · cases h
  refine ⟨hres, herr, ?_, ?_, ?_, ?_, ?_⟩
  · intro r hc h
    unfold TryEnsureCapacity
    rw [if_pos hc, h]
  · intro hc
    unfold TryEnsureCapacity
    rw [if_neg (by omega)]
  · intro h
    unfold EnsureCapacity at h
    split at h
    · rename_i e1 h1
      have := herr e1 h1
      rw [this] at h
      cases h
    · rename_i res k1 p1 h1
      have := hres res k1 p1 h1
      rw [this] at h
      cases h
  · intro e h
    unfold EnsureCapacity at h
    split at h
    · rename_i e1 h1
      rw [← Except.error.inj h]
      exact herr e1 h1
    · rename_i res k1 p1 h1
      have := hres res k1 p1 h1
      rw [this] at h
      cases h
  · intro hout hsize
    unfold TryEnsureCapacity
    by_cases hc : capacity > 0
    · rw [if_pos hc]
      obtain ⟨r, hr, -⟩ := ExpandableArrayImpl.try_ensure_capacity_new_total ITEMS_PER_BLOCK
        BLOCKS_GROWTH (by decide) (by decide) pool hout capacity timeout newKeys._pData
        newKeys._capacity (ExpandableArrayImpl.ListCapacityFits_of_constants rfl rfl hsize)
      have hr1 : newKeys._pArray.try_ensure_capacity pool capacity timeout newKeys._pData
          newKeys._capacity = .ok r := hr
      rw [hr1]
      exact ⟨_, _, rfl⟩
    · rw [if_neg hc]
      exact ⟨_, _, rfl⟩

/-- C28 on a new key array whose pool fails the allocation of the first block (the array
object and the spine are allocated, the block is not): `TryEnsureCapacity(1, 0)` returns
true all the same, and publishes a capacity of 65536 slots. -/
theorem TryEnsureCapacity_always_true_witness :
    (∃ k1 p1, newKeys.TryEnsureCapacity (DynamicMemoryPool.Alloc (freshPool [true, true, false])
        sizeof_dataarray_t).2 1 0 = .ok (true, k1, p1) ∧ k1.Capacity = 65536)
    ∧ newKeys.EnsureCapacity (DynamicMemoryPool.Alloc (freshPool [true, true, false])
        sizeof_dataarray_t).2 1 ≠ .error .insufficientMemory :=
  ⟨⟨_, _, rfl, rfl⟩,
    (TryEnsureCapacity_always_true newKeys
      (DynamicMemoryPool.Alloc (freshPool [true, true, false]) sizeof_dataarray_t).2 1
      Timeout_Infinite).2.2.2.2.1⟩

end ExpandableArrayOfKeys

end Pql.UnmanagedLib

namespace Pql.UnmanagedLib

namespace ExpandableArrayOfKeys

/-- C24.  For every key array and every index at or above `Capacity`, `TrySetAt(size_t,
uint8_t*)` and `GetAt(size_t)` throw the out-of-range exception, whatever the payload and
whatever another thread does; the rejected `TrySetAt` leaves the pool exactly as it was:
no allocation, no slot written, nothing scheduled for collection, nothing freed. -/
theorem TrySetAt_GetAt_reject_index (k : ExpandableArrayOfKeys) (pool : MemoryPool)
    (index : Nat) (pdata : Option (List Nat)) (rival : Option Ptr)
    (h : k.Capacity ≤ index) :
    k.TrySetAt pool index pdata rival = .error .argumentOutOfRange
    ∧ k.GetAt pool index = .error .argumentOutOfRange
    ∧ k.TrySetAt_run pool index pdata rival = (.error .argumentOutOfRange, pool) := by
  refine ⟨?_, ?_, ?_⟩
  · unfold TrySetAt
    rw [if_pos h]
  · unfold GetAt
    rw [if_pos h]
  · unfold TrySetAt_run
    rw [if_pos h]

/-- C24 at `index = Capacity` on the key array of 65536 slots, with the payload
`[2, 'a', 'b']`. -/
theorem TrySetAt_GetAt_reject_index_witness :
    sampleKeys.Capacity = 65536
    ∧ sampleKeys.TrySetAt keysGrown.pool 65536 (some [2, 97, 98]) none
        = .error .argumentOutOfRange
    ∧ sampleKeys.GetAt keysGrown.pool 65536 = .error .argumentOutOfRange
    ∧ (sampleKeys.TrySetAt_run keysGrown.pool 65536 (some [2, 97, 98]) none).2
        = keysGrown.pool :=
  have h := TrySetAt_GetAt_reject_index sampleKeys keysGrown.pool 65536 (some [2, 97, 98]) none
    (Nat.le_of_eq rfl)
  ⟨rfl, h.1, h.2.1, congrArg Prod.snd h.2.2⟩

end ExpandableArrayOfKeys

end Pql.UnmanagedLib

namespace Pql.UnmanagedLib

/-- C25.  A non-null key whose length byte is 0 is rejected by key-array `TrySetAt` and by
both overloads of map `TryAdd` with an exception that is a `System::ArgumentException`:
`TrySetAt` throws `ArgumentOutOfRangeException`, which derives from it, for an in-range
index (and for every other index), `TryAdd` throws `ArgumentException` itself.  The
rejected call leaves the pool, hence every slot, and the map exactly as they were, and
allocates nothing. -/
theorem zero_length_key_rejected (k : ExpandableArrayOfKeys) (m : ConcurrentHashmapOfKeys)
    (pool : MemoryPool) (index : Nat) (buf : List Nat) (rival : Option Ptr) (value : Nat)
    (value32 : Int) (h0 : buf[0]? = some 0) :
    k.TrySetAt pool index (some buf) rival = .error .argumentOutOfRange
    ∧ k.TrySetAt_run pool index (some buf) rival = (.error .argumentOutOfRange, pool)
    ∧ Fault.isArgumentException .argumentOutOfRange = true
    ∧ m.TryAdd pool (some buf) value = .error .argument
    ∧ m.TryAdd_run pool (some buf) value = (.error .argument, m, pool)
    ∧ m.TryAdd_IntPtr pool (some buf) value32 = .error .argument
    ∧ m.TryAdd_IntPtr_run pool (some buf) value32 = (.error .argument, m, pool)
    ∧ Fault.isArgumentException .argument = true := by
  refine ⟨?_, ?_, rfl, ?_, ?_, ?_, ?_, rfl⟩
  · unfold ExpandableArrayOfKeys.TrySetAt ExpandableArrayOfKeys.make_candidate
    by_cases hi : index ≥ k.Capacity
    · rw [if_pos hi]
    · rw [if_neg hi]
      simp [h0]
  · unfold ExpandableArrayOfKeys.TrySetAt_run
    by_cases hi : index ≥ k.Capacity
    · rw [if_pos hi]
    · rw [if_neg hi]
      simp [h0]
  · unfold ConcurrentHashmapOfKeys.TryAdd
    simp [h0]
  · unfold ConcurrentHashmapOfKeys.TryAdd_run
    simp [h0]
  · unfold ConcurrentHashmapOfKeys.TryAdd_IntPtr
    simp [h0]
  · unfold ConcurrentHashmapOfKeys.TryAdd_IntPtr_run
    simp [h0]

/-- C25 at the buffer `[0, 'a']`, for slot 0 of the key array of 65536 slots and for the
map that holds three keys. -/
theorem zero_length_key_rejected_witness :
    (0 : Nat) < sampleKeys.Capacity
    ∧ sampleKeys.TrySetAt keysGrown.pool 0 (some [0, 97]) none = .error .argumentOutOfRange
    ∧ (sampleKeys.TrySetAt_run keysGrown.pool 0 (some [0, 97]) none).2 = keysGrown.pool
    ∧ threeKeys.2.1.TryAdd threeKeys.2.2 (some [0, 97]) 5 = .error .argument :=
  have h := zero_length_key_rejected sampleKeys threeKeys.2.1 keysGrown.pool 0 [0, 97] none 5 5
    rfl
  have h2 := zero_length_key_rejected sampleKeys threeKeys.2.1 threeKeys.2.2 0 [0, 97] none 5 5
    rfl
  ⟨by decide, h.1, congrArg Prod.snd h.2.1, h2.2.2.2.1⟩

end Pql.UnmanagedLib

namespace Pql.UnmanagedLib

/-- C27.  `Read` on a bit vector and on a key array whose `Capacity` is positive throws
`InvalidOperationException`; the test is the first statement of both methods, so the
throwing call leaves the container, the pool and the reader exactly as they were: no byte
is consumed, nothing is allocated or written.  For the key array this holds whether or
not `reader` and `validEntries` are null. -/
theorem Read_rejects_non_empty (b : BitVector) (k : ExpandableArrayOfKeys) (pool : MemoryPool)
    (reader : List Nat) (count : Nat) (keyReader : Option (List Nat))
    (validEntries : Option BitVector) (hb : b.Capacity > 0) (hk : k.Capacity > 0) :
    b.Read pool reader count = .error .invalidOperation
    ∧ b.Read_run pool reader count = (.error .invalidOperation, b, pool, reader)
    ∧ k.Read pool keyReader count validEntries = .error .invalidOperation
    ∧ k.Read_run pool keyReader count validEntries
        = (.error .invalidOperation, k, pool, keyReader) := by
  refine ⟨?_, ?_, ?_, ?_⟩
  · unfold BitVector.Read
    rw [if_pos hb]
  · unfold BitVector.Read_run
    rw [if_pos hb]
  · unfold ExpandableArrayOfKeys.Read
    rw [if_pos hk]
  · unfold ExpandableArrayOfKeys.Read_run
    rw [if_pos hk]

/-- C27 on the bit vector of the ten-bit example and the key array of the two-key
example, each read a second time from a reader that holds the bytes of the example. -/
theorem Read_rejects_non_empty_witness :
    bitsTen.1.Capacity > 0 ∧ twoKeysGrown.1.Capacity > 0
    ∧ bitsTen.1.Read twoKeysSecond.2 [0x81, 0x03] 10 = .error .invalidOperation
    ∧ (bitsTen.1.Read_run twoKeysSecond.2 [0x81, 0x03] 10).2.2.2 = [0x81, 0x03]
    ∧ twoKeysGrown.1.Read twoKeysSecond.2 (some [0x02, 0x61, 0x62, 0x03, 0x78, 0x79, 0x7A]) 2
        (some bitsTen.1) = .error .invalidOperation :=
  have h := Read_rejects_non_empty bitsTen.1 twoKeysGrown.1 twoKeysSecond.2 [0x81, 0x03] 10
    (some [0x02, 0x61, 0x62, 0x03, 0x78, 0x79, 0x7A]) (some bitsTen.1) (by decide) (by decide)
  have h2 := Read_rejects_non_empty bitsTen.1 twoKeysGrown.1 twoKeysSecond.2 [0x81, 0x03] 2
    (some [0x02, 0x61, 0x62, 0x03, 0x78, 0x79, 0x7A]) (some bitsTen.1) (by decide) (by decide)
  ⟨by decide, by decide, h.1, congrArg (fun r => r.2.2.2) h.2.1, h2.2.2.1⟩

end Pql.UnmanagedLib

namespace Pql.UnmanagedLib

namespace ExpandableArrayOfKeys

/-- The array overload of `TrySetAt` passes to the pointer overload every array of at
least two elements whose length byte is at most the length of the array: also when the
length byte equals the length of the array. -/
theorem TrySetAt_array_passes (k : ExpandableArrayOfKeys) (pool : MemoryPool) (index : Int)
    (arr : List Nat) (rival : Option Ptr) (L : Nat) (h2 : 2 ≤ arr.length)
    (hL : arr[0]? = some L) (hle : L ≤ arr.length) :
    k.TrySetAt_array pool index (some arr) rival
      = k.TrySetAt pool (to_size_t index) (some arr) rival := by
  unfold TrySetAt_array
  simp only [hL]
  rw [if_neg (by omega), if_neg (by omega)]

/-- C26 (refuted).  `TrySetAt(0, [2, 'a'])` on a key array of 65536 slots: the length
byte 2 lies outside `[1, array length - 1] = [1, 1]`, yet the call is not rejected with
the out-of-range exception: the test `contentlen > datalen` lets it through and `memcpy`
reads three bytes from the array of two, which is undefined.  The map's
`TryGetValue(byte array)`, which tests `len > key->Length - 1`, does reject the same
array with the out-of-range exception.  An array of one element, `[0]`, is rejected by
both with `ArgumentException`, not with the out-of-range exception. -/
theorem TrySetAt_array_length_byte_equal_to_length :
    (0 : Nat) < sampleKeys.Capacity
    ∧ sampleKeys.TrySetAt_array keysGrown.pool 0 (some [2, 97]) none
        = .error .undefinedBehaviour
    ∧ sampleKeys.TrySetAt_array keysGrown.pool 0 (some [2, 97]) none
        ≠ .error .argumentOutOfRange
    ∧ threeKeys.2.1.TryGetValue_array (some [2, 97]) 0 = .error .argumentOutOfRange
    ∧ sampleKeys.TrySetAt_array keysGrown.pool 0 (some [0]) none = .error .argument
    ∧ threeKeys.2.1.TryGetValue_array (some [0]) 0 = .error .argument := by
  have h : sampleKeys.TrySetAt_array keysGrown.pool 0 (some [2, 97]) none
      = .error .undefinedBehaviour := by
    rw [TrySetAt_array_passes sampleKeys keysGrown.pool 0 [2, 97] none 2 (by decide) rfl
      (by decide)]
    rfl
  refine ⟨by decide, h, ?_, rfl, rfl, rfl⟩
  rw [h]
  intro e
  cases e

end ExpandableArrayOfKeys

end Pql.UnmanagedLib

namespace Pql.UnmanagedLib

namespace ColumnStoreOf

end ColumnStoreOf

end Pql.UnmanagedLib

namespace Pql.UnmanagedLib

namespace ExpandableArrayImpl

/-- C36 (counterexample): with one element per block, growth 2^63 and the request
2^64 - 2, the code computes `(1 + n / (E * G)) * G` as `2 * 2^63` in `size_t`, which is 0,
where `requestedBlocks = 1 + n / E` is 2^64 - 1 and `ceilToMultiple(requestedBlocks, G)`
is 2^64; with 3 elements per block, growth 2^63 + 1 and the request 2^63 + 3, the product
`E * G` is 2^63 + 3 in `size_t` and the code computes a spine capacity of 2 for
3074457345618258604 requested blocks, where `ceilToMultiple` gives 2^63 + 1. -/
theorem newListCapacity_wraps :
    (create 8 1 9223372036854775808).newListCapacity 18446744073709551614 = 0
    ∧ (create 8 1 9223372036854775808).requestedListCapacity 18446744073709551614
        = 18446744073709551615
    ∧ ceilToMultiple 18446744073709551615 9223372036854775808 = 18446744073709551616
    ∧ (create 8 3 9223372036854775809).newListCapacity 9223372036854775811 = 2
    ∧ (create 8 3 9223372036854775809).requestedListCapacity 9223372036854775811
        = 3074457345618258604
    ∧ ceilToMultiple 3074457345618258604 9223372036854775809 = 9223372036854775809 := by
  refine ⟨by decide, by decide, by decide, by decide, by decide, by decide⟩

/-- C36 (amended).  For positive `_elementsPerBlock` and `_blocksGrowth` and every `n` for
which the computation does not wrap around (`E * G` and `(1 + n / (E * G)) * G` are below
2^64), the spine capacity the code computes, `(1 + n / (E * G)) * G`, is
`ceilToMultiple(requestedBlocks, G)` for `requestedBlocks = 1 + n / E`: it is a positive
multiple of `G`, at least `requestedBlocks`, and no positive multiple of `G` that is at
least `requestedBlocks` is smaller. -/
theorem newListCapacity_eq_ceilToMultiple (a : ExpandableArrayImpl) (n : Nat)
    (hE : 0 < a._elementsPerBlock) (hG : 0 < a._blocksGrowth) (hfit : a.ListCapacityFits n) :
    a.newListCapacity n = (1 + n / (a._elementsPerBlock * a._blocksGrowth)) * a._blocksGrowth
    ∧ a.requestedListCapacity n = 1 + n / a._elementsPerBlock
    ∧ a.newListCapacity n = ceilToMultiple (a.requestedListCapacity n) a._blocksGrowth
    ∧ 0 < a.newListCapacity n
    ∧ a._blocksGrowth ∣ a.newListCapacity n
    ∧ a.requestedListCapacity n ≤ a.newListCapacity n
    ∧ ∀ m, 0 < m → a._blocksGrowth ∣ m → a.requestedListCapacity n ≤ m →
        a.newListCapacity n ≤ m := by
  have hnew : a.newListCapacity n
      = (n / a._elementsPerBlock / a._blocksGrowth + 1) * a._blocksGrowth := by
    rw [newListCapacity_of_fits a n hG hfit, ← Nat.div_div_eq_div_mul, Nat.add_comm]
  have hreq : a.requestedListCapacity n = n / a._elementsPerBlock + 1 := by
    rw [(requestedListCapacity_of_fits a n hG hfit).1, Nat.add_comm]
  refine ⟨newListCapacity_of_fits a n hG hfit, (requestedListCapacity_of_fits a n hG hfit).1,
    ?_, ?_, ?_, requestedListCapacity_le_newListCapacity a n hG hfit, ?_⟩
  · rw [hnew, hreq]
    unfold ceilToMultiple
    generalize n / a._elementsPerBlock = q
    have e : q + 1 + a._blocksGrowth - 1 = q + a._blocksGrowth := by omega
    rw [e, Nat.add_div_right _ hG]
  · rw [hnew]
    exact Nat.mul_pos (Nat.succ_pos _) hG
  · rw [hnew]
    exact Dvd.intro_left _ rfl
  · intro m _ hdvd hle
    obtain ⟨t, ht⟩ := hdvd
    rw [hnew, ht, Nat.mul_comm a._blocksGrowth t]
    apply Nat.mul_le_mul_right
    rw [hreq, ht] at hle
    have : n / a._elementsPerBlock / a._blocksGrowth < t := by
      apply Nat.div_lt_of_lt_mul
      exact Nat.lt_of_succ_le hle
    exact this

/-- C36 for the block array of the bit vector (65536 elements per block, growth 64) and
the request 4194304: 65 blocks are requested and the spine gets 128 entries. -/
theorem newListCapacity_eq_ceilToMultiple_witness :
    (ExpandableArrayImpl.create 1 65536 64).requestedListCapacity 4194304 = 65
    ∧ (ExpandableArrayImpl.create 1 65536 64).newListCapacity 4194304 = 128
    ∧ (ExpandableArrayImpl.create 1 65536 64).newListCapacity 4194304
        = ceilToMultiple ((ExpandableArrayImpl.create 1 65536 64).requestedListCapacity 4194304)
            64 :=
  have h := newListCapacity_eq_ceilToMultiple (ExpandableArrayImpl.create 1 65536 64) 4194304
    (by decide) (by decide) ⟨by decide, by decide⟩
  ⟨by decide, by decide, h.2.2.1⟩

end ExpandableArrayImpl

end Pql.UnmanagedLib

namespace Pql.UnmanagedLib

namespace ExpandableArrayImpl

/-- A call of `try_ensure_capacity` that returns, with a spine capacity computed without
wrap-around, leaves a block count within the spine capacity. -/
theorem try_ensure_capacity_count_le {a : ExpandableArrayImpl} {pool : MemoryPool}
    {n timeout : Nat} {ref : Ptr} {cap : Nat} {r : EnsureCapacityResult}
    (hc : a._blockCount ≤ a._blockCapacity) (hfit : a.ListCapacityFits n)
    (h : a.try_ensure_capacity pool n timeout ref cap = .ok r) :
    r.self._blockCount ≤ r.self._blockCapacity
    ∧ r.self._elementsPerBlock = a._elementsPerBlock
    ∧ r.self._blocksGrowth = a._blocksGrowth
    ∧ (a.capacity < n → r.self._blockCount = a.requestedListCapacity n
        ∧ a.requestedListCapacity n ≤ r.self._blockCapacity) := by
  rcases try_ensure_capacity_cases h with ⟨hle, e⟩ | ⟨hlt, -, hG, -, hcount, hE, hG1, -, -⟩
  · rw [e]
    exact ⟨hc, rfl, rfl, fun hlt => absurd hle (Nat.not_le_of_lt hlt)⟩
  · have hreq : a.requestedListCapacity n ≤ r.self._blockCapacity := by
      have hle := requestedListCapacity_le_newListCapacity a n hG hfit
      rcases try_ensure_capacity_growth_path h hlt with
        ⟨-, _, _, -, -, -, -, e, -⟩ | ⟨hnot, _, -, -, -, e, -⟩
      · rw [e]
        exact hle
      · rw [e]
        exact Nat.le_trans hle (Nat.le_of_not_lt hnot)
    have hcnt : r.self._blockCount = a.requestedListCapacity n := hcount
    refine ⟨?_, hE, hG1, fun _ => ⟨hcnt, hreq⟩⟩
    rw [hcnt]
    exact hreq

/-- C34 (counterexample): on a new array of 8-byte elements with 3 elements per block and
growth 2^63 + 1, `try_ensure_capacity(2^63 + 3)` computes in `size_t` a spine capacity of
2 and a requested block count of 3074457345618258604, so `1 + n / E ≤ (1 + n / (E * G)) * G`
fails of the values the code holds; the block-filling loop runs past spine index 1 and its
store at spine index 2, the spine capacity, is outside the spine: undefined behaviour. -/
theorem try_ensure_capacity_stores_past_spine :
    (create 8 3 9223372036854775809).newListCapacity 9223372036854775811 = 2
    ∧ (create 8 3 9223372036854775809).requestedListCapacity 9223372036854775811
        = 3074457345618258604
    ∧ ¬ ((create 8 3 9223372036854775809).requestedListCapacity 9223372036854775811
          ≤ (create 8 3 9223372036854775809).newListCapacity 9223372036854775811)
    ∧ (create 8 3 9223372036854775809).try_ensure_capacity (freshPool [])
        9223372036854775811 0 0 0 = .error .undefinedBehaviour := by
  refine ⟨by decide, by decide, by decide, rfl⟩

/-- C34 (amended).  In every state reachable from a newly created block array with
positive block size and growth by calls of `try_ensure_capacity` that return and whose
spine capacity is computed without wrap-around (`E * G` and `(1 + n / (E * G)) * G` below
2^64), the block count is at most the spine capacity, and block size and growth are
positive.  A further such growing call fills the spine from the old block count up to,
and not including, the requested block count `1 + n / E`, which is at most the spine
capacity it has then: no block pointer is stored at a spine index at or above the spine
capacity.  This rests on `1 + n / E ≤ (1 + n / (E * G)) * G` for all `n`, which holds of
the numbers. -/
theorem Reachable_count_le_capacity (a : ExpandableArrayImpl) (h : Reachable a) :
    a._blockCount ≤ a._blockCapacity
    ∧ 0 < a._elementsPerBlock ∧ 0 < a._blocksGrowth
    ∧ (∀ n, 1 + n / a._elementsPerBlock
        ≤ (1 + n / (a._elementsPerBlock * a._blocksGrowth)) * a._blocksGrowth)
    ∧ ∀ (pool : MemoryPool) (n timeout : Nat) (ref : Ptr) (cap : Nat)
        (r : EnsureCapacityResult), a.ListCapacityFits n →
        a.try_ensure_capacity pool n timeout ref cap = .ok r → a.capacity < n →
        r.self._blockCount = 1 + n / a._elementsPerBlock
        ∧ r.self._blockCount ≤ r.self._blockCapacity := by
  have key : a._blockCount ≤ a._blockCapacity ∧ 0 < a._elementsPerBlock
      ∧ 0 < a._blocksGrowth := by
    induction h with
    | create s E G hE hG => exact ⟨Nat.le_refl 0, hE, hG⟩
    | grow _ hfit hr ih =>
      obtain ⟨h1, h2, h3, -⟩ := try_ensure_capacity_count_le ih.1 hfit hr
      exact ⟨h1, by rw [h2]; exact ih.2.1, by rw [h3]; exact ih.2.2⟩
  refine ⟨key.1, key.2.1, key.2.2, ?_, ?_⟩
  · intro n
    rw [← Nat.div_div_eq_div_mul]
    have h := lt_requested_capacity (n / a._elementsPerBlock) a._blocksGrowth key.2.2
    omega
  · intro pool n timeout ref cap r hfit hr hlt
    obtain ⟨h1, -, -, h4⟩ := try_ensure_capacity_count_le key.1 hfit hr
    refine ⟨?_, h1⟩
    rw [(h4 hlt).1]
    exact (requestedListCapacity_of_fits a n key.2.2 hfit).1

/-- C34 on the array of 4 elements per block and growth 2 after `try_ensure_capacity(5)`
and `try_ensure_capacity(9)`: 3 blocks in a spine of 4 entries. -/
theorem Reachable_count_le_capacity_witness :
    Reachable smallArrayRegrown.self
    ∧ smallArrayRegrown.self._blockCount = 3 ∧ smallArrayRegrown.self._blockCapacity = 4
    ∧ smallArrayRegrown.self._blockCount ≤ smallArrayRegrown.self._blockCapacity :=
  have hr : Reachable smallArrayRegrown.self :=
    Reachable.grow
      (Reachable.grow (Reachable.create 8 4 2 (by decide) (by decide))
        ⟨by decide, by decide⟩
        (rfl : smallArray.try_ensure_capacity (freshPool []) 5 0 0 0 = .ok smallArrayGrown))
      ⟨by decide, by decide⟩
      (rfl : smallArrayGrown.self.try_ensure_capacity smallArrayGrown.pool 9 0
        smallArrayGrown.ref smallArrayGrown.cap = .ok smallArrayRegrown)
  ⟨hr, rfl, rfl, (Reachable_count_le_capacity smallArrayRegrown.self hr).1⟩

end ExpandableArrayImpl

end Pql.UnmanagedLib

namespace Pql.UnmanagedLib

namespace ExpandableArrayImpl

/-- The copy loop keeps every allocation live, with its size. -/
theorem copy_block_list_keeps_live (oldList newList : Ptr) :
    ∀ (count ix : Nat) (p p1 : MemoryPool),
      copy_block_list oldList newList count ix p = .ok p1 →
      ∀ q al, p.mem q = some al → ∃ al1, p1.mem q = some al1 ∧ al1.bytes = al.bytes := by
  intro count
  induction count with
  | zero =>
    intro ix p p1 h q al hq
    have := (Except.ok.inj h).symm
    subst this
    exact ⟨al, hq, rfl⟩
  | succ k ih =>
    intro ix p p1 h q al hq
    unfold copy_block_list at h
    split at h
    · cases h
    · split at h
      · cases h
      · rename_i ps hstore
        obtain ⟨al1, h1, h2⟩ := MemoryPool.store_keeps_live hstore hq
        obtain ⟨al2, h3, h4⟩ := ih (ix + 1) ps p1 h q al1 h1
        exact ⟨al2, h3, h4.trans h2⟩

/-- When the allocation succeeds, the spine `try_ensure_capacity` puts in place of the old
one is an allocation of `newListCapacity * sizeof(T)` bytes: the element size of the
array, not the size of a block pointer, is the factor. -/
theorem replace_block_list_spine_bytes {a a1 : ExpandableArrayImpl} {pool p1 : MemoryPool}
    {c : Nat} {ref1 : Ptr} (hout : ∀ x ∈ pool.outcomes, x = true)
    (h : replace_block_list a pool c = .ok (a1, p1, ref1)) :
    a1._blockCapacity = c
    ∧ ∃ al, p1.mem a1._blockList = some al ∧ al.bytes = c * a.sizeof_value_type := by
  obtain ⟨e, -⟩ := replace_block_list_fields h
  unfold replace_block_list at h
  simp only at h
  split at h
  · cases h
  · rename_i pc hcopy
    simp only [Except.ok.injEq, Prod.mk.injEq] at h
    obtain ⟨-, h2, -⟩ := h
    obtain ⟨z1, -, -, al, hal, hbytes⟩ := MemoryPool.zero_allocate_success pool
      a.sizeof_value_type c hout
    have hal0 : (pool.zero_allocate a.sizeof_value_type c).2.mem
        (pool.zero_allocate a.sizeof_value_type c).1 = some al := by
      rw [z1]
      exact hal
    obtain ⟨al1, hal1, hb1⟩ := copy_block_list_keeps_live _ _ _ _ _ _ hcopy _ al hal0
    rw [e]
    refine ⟨rfl, al1, ?_, hb1.trans hbytes⟩
    rw [← h2]
    show (if a._blockList ≠ 0 then pc.schedule_for_collection a._blockList else pc).mem
      (pool.zero_allocate a.sizeof_value_type c).1 = some al1
    have : (if a._blockList ≠ 0 then pc.schedule_for_collection a._blockList else pc).mem
        = pc.mem := by
      split <;> rfl
    rw [this]
    exact hal1

/-- C35 (refuted).  The spine of the block array of bytes of a bit vector after
`EnsureCapacity(10)` has a capacity of 64 entries and is an allocation of 64 bytes, which
holds 8 block pointers of 8 bytes, not 64; the spine of the array of 4-byte elements
`wideArrayGrown` has 256 bytes for its 64 entries.  Only for elements of pointer size
(the key array) does the spine have the 512 bytes its 64 entries need. -/
theorem spine_allocation_too_small :
    bitsTen.1._pArray._blockCapacity = 64
    ∧ (bitsTen.2.mem bitsTen.1._pArray._blockList).map Allocation.bytes = some 64
    ∧ 64 < bitsTen.1._pArray._blockCapacity * sizeof_ptr
    ∧ wideArrayGrown.self._blockCapacity = 64
    ∧ (wideArrayGrown.pool.mem wideArrayGrown.self._blockList).map Allocation.bytes = some 256
    ∧ 256 < wideArrayGrown.self._blockCapacity * sizeof_ptr
    ∧ keysGrown.self._blockCapacity = 64
    ∧ (keysGrown.pool.mem keysGrown.self._blockList).map Allocation.bytes = some 512 :=
  ⟨rfl, rfl, by decide, rfl, rfl, by decide, rfl, rfl⟩

end ExpandableArrayImpl

end Pql.UnmanagedLib

namespace Pql.UnmanagedLib

namespace BitVector

/-- A call of `TryEnsureCapacity` that returns keeps the cached item capacity and spine
pointer equal to those of the block array and the block size of the block array, and
returns true; with the block size of the bit vector and a capacity that is a `size_t`, a
positive capacity asked for is below `Capacity` afterwards. -/
theorem TryEnsureCapacity_cache {b b1 : BitVector} {pool p1 : MemoryPool}
    {capacity timeout : Nat} {res : Bool}
    (hc : b._itemCapacity = b._pArray.capacity) (hd : b._pData = b._pArray._blockList)
    (h : b.TryEnsureCapacity pool capacity timeout = .ok (res, b1, p1)) :
    b1._itemCapacity = b1._pArray.capacity ∧ b1._pData = b1._pArray._blockList
    ∧ res = true ∧ b1._pArray._elementsPerBlock = b._pArray._elementsPerBlock
    ∧ (b._pArray._elementsPerBlock = ITEMS_PER_BLOCK → capacity < SIZE_T_RANGE →
        0 < capacity → capacity < b1.Capacity) := by
  unfold TryEnsureCapacity at h
  split at h
  · rename_i hpos
    split at h
    · cases h
    · rename_i r hr
      simp only [Except.ok.injEq, Prod.mk.injEq] at h
      obtain ⟨h1, h2, -⟩ := h
      subst h2
      rcases ExpandableArrayImpl.try_ensure_capacity_cases hr with
        ⟨hle, e⟩ | ⟨hlt, hE, -, hret, hcount, hepb, -, -, hcap⟩
      · subst e
        refine ⟨hc, hd, h1.symm, rfl, fun _ _ _ => ?_⟩
        show capacity < b._itemCapacity * BITS_PER_ITEM
        rw [hc]
        have h8 := ExpandableArrayImpl.lt_requested_capacity capacity BITS_PER_ITEM
          (by decide)
        exact Nat.lt_of_lt_of_le h8 (Nat.mul_le_mul_right _ hle)
      · have hdata : r.ref = r.self._blockList := by
          rcases ExpandableArrayImpl.try_ensure_capacity_growth_path hr hlt with
            ⟨-, _, _, -, -, -, -, -, e⟩ | ⟨-, _, -, -, e1, -, e2⟩
          · exact e
          · rw [e1, e2]
            exact hd
        refine ⟨hcap, hdata, ?_, hepb, fun hE1 hsize _ => ?_⟩
        · rw [← h1]
          exact hret
        · show capacity < r.cap * BITS_PER_ITEM
          rw [hcap]
          have h8 := ExpandableArrayImpl.lt_requested_capacity capacity BITS_PER_ITEM
            (by decide)
          have hfit : (1 + (1 + capacity / BITS_PER_ITEM) / b._pArray._elementsPerBlock)
              * b._pArray._elementsPerBlock < SIZE_T_RANGE := by
            rw [hE1]
            unfold BITS_PER_ITEM ITEMS_PER_BLOCK SIZE_T_RANGE at *
            omega
          have hreq : 1 + capacity / BITS_PER_ITEM ≤ r.self.capacity :=
            ExpandableArrayImpl.try_ensure_capacity_true_covers_request_of_fit hr hfit
          exact Nat.lt_of_lt_of_le h8 (Nat.mul_le_mul_right _ hreq)
  · rename_i hpos
    simp only [Except.ok.injEq, Prod.mk.injEq] at h
    obtain ⟨h1, h2, -⟩ := h
    subst h2
    exact ⟨hc, hd, h1.symm, rfl, fun _ _ h0 => absurd h0 hpos⟩

/-- The vector a call of `EnsureCapacity` leaves, whether it returns or throws, keeps the
cached item capacity and spine pointer equal to those of the block array, and the block
size. -/
theorem EnsureCapacity_run_cache (b : BitVector) (pool : MemoryPool) (capacity : Nat)
    (hc : b._itemCapacity = b._pArray.capacity) (hd : b._pData = b._pArray._blockList) :
    (b.EnsureCapacity_run pool capacity).2.1._itemCapacity
        = (b.EnsureCapacity_run pool capacity).2.1._pArray.capacity
    ∧ (b.EnsureCapacity_run pool capacity).2.1._pData
        = (b.EnsureCapacity_run pool capacity).2.1._pArray._blockList
    ∧ (b.EnsureCapacity_run pool capacity).2.1._pArray._elementsPerBlock
        = b._pArray._elementsPerBlock := by
  unfold EnsureCapacity_run
  split
  · exact ⟨hc, hd, rfl⟩
  · rename_i res b1 p1 ht
    obtain ⟨h1, h2, -, h3, -⟩ := TryEnsureCapacity_cache hc hd ht
    split
    · exact ⟨h1, h2, h3⟩
    · exact ⟨h1, h2, h3⟩

/-- The vector a call of `Read` leaves, whether it returns or throws, keeps the cached
item capacity and spine pointer equal to those of the block array, and the block size. -/
theorem Read_run_cache (b : BitVector) (pool : MemoryPool) (reader : List Nat) (count : Nat)
    (hc : b._itemCapacity = b._pArray.capacity) (hd : b._pData = b._pArray._blockList) :
    (b.Read_run pool reader count).2.1._itemCapacity
        = (b.Read_run pool reader count).2.1._pArray.capacity
    ∧ (b.Read_run pool reader count).2.1._pData
        = (b.Read_run pool reader count).2.1._pArray._blockList
    ∧ (b.Read_run pool reader count).2.1._pArray._elementsPerBlock
        = b._pArray._elementsPerBlock := by
  have he := EnsureCapacity_run_cache b pool count hc hd
  unfold Read_run
  split
  · exact ⟨hc, hd, rfl⟩
  · split
    · rename_i e b1 p1 hrun
      rw [hrun] at he
      exact he
    · rename_i u b1 p1 hrun
      rw [hrun] at he
      exact he

/-- C37.  In every state of a bit vector reachable by calls of `TryEnsureCapacity`,
`EnsureCapacity` and `Read`, returning or throwing, `Capacity` is 8 times the `capacity()`
of the block array and the cached spine pointer is the spine of the block array; and an
`EnsureCapacity(c)` that returns, `c` being a `size_t` (below 2^64), leaves
`Capacity ≥ c`. -/
theorem Reachable_capacity_cache (b : BitVector) (h : Reachable b) :
    b.Capacity = 8 * b._pArray.capacity
    ∧ b._pData = b._pArray._blockList
    ∧ ∀ (pool : MemoryPool) (c : Nat) (b1 : BitVector) (p1 : MemoryPool),
        c < SIZE_T_RANGE → b.EnsureCapacity pool c = .ok (b1, p1) →
        c ≤ b1.Capacity ∧ b1.Capacity = 8 * b1._pArray.capacity
        ∧ b1._pData = b1._pArray._blockList := by
  have key : b._itemCapacity = b._pArray.capacity ∧ b._pData = b._pArray._blockList
      ∧ b._pArray._elementsPerBlock = ITEMS_PER_BLOCK := by
    induction h with
    | create => exact ⟨rfl, rfl, rfl⟩
    | tryEnsure _ hr ih =>
      obtain ⟨h1, h2, -, h3, -⟩ := TryEnsureCapacity_cache ih.1 ih.2.1 hr
      exact ⟨h1, h2, h3.trans ih.2.2⟩
    | ensure _ _ ih =>
      obtain ⟨h1, h2, h3⟩ := EnsureCapacity_run_cache _ _ _ ih.1 ih.2.1
      exact ⟨h1, h2, h3.trans ih.2.2⟩
    | read _ _ ih =>
      obtain ⟨h1, h2, h3⟩ := Read_run_cache _ _ _ _ ih.1 ih.2.1
      exact ⟨h1, h2, h3.trans ih.2.2⟩
  have hcap : ∀ v : BitVector, v._itemCapacity = v._pArray.capacity →
      v.Capacity = 8 * v._pArray.capacity := by
    intro v hv
    unfold Capacity
    rw [hv, Nat.mul_comm]
    rfl
  refine ⟨hcap b key.1, key.2.1, ?_⟩
  intro pool c b1 p1 hsize he
  unfold EnsureCapacity at he
  split at he
  · cases he
  · rename_i res b2 p2 ht
    obtain ⟨h1, h2, -, -, h4⟩ := TryEnsureCapacity_cache key.1 key.2.1 ht
    split at he
    · cases he
    · simp only [Except.ok.injEq, Prod.mk.injEq] at he
      rw [← he.1]
      refine ⟨?_, hcap b2 h1, h2⟩
      rcases Nat.eq_zero_or_pos c with h0 | h0
      · rw [h0]
        exact Nat.zero_le _
      · exact Nat.le_of_lt (h4 key.2.2 hsize h0)

/-- C37 on the bit vector after `EnsureCapacity(10)`: one block, `Capacity` 524288. -/
theorem Reachable_capacity_cache_witness :
    Reachable bitsTen.1 ∧ bitsTen.1.Capacity = 524288
    ∧ bitsTen.1.Capacity = 8 * bitsTen.1._pArray.capacity
    ∧ bitsTen.1._pData = bitsTen.1._pArray._blockList :=
  have hr : Reachable bitsTen.1 :=
    @Reachable.ensure newBits keysPool 10 Reachable.create (by
      intro h
      have e : (newBits.EnsureCapacity_run keysPool 10).1 = .ok () := rfl
      rw [e] at h
      cases h)
  have h := Reachable_capacity_cache bitsTen.1 hr
  ⟨hr, rfl, h.1, h.2.1⟩

end BitVector

end Pql.UnmanagedLib

namespace Pql.UnmanagedLib

namespace ExpandableArrayOfKeys

/-- The content loop of `Read` on a scratch buffer of 255 bytes whose length byte is 255:
when the reader holds the content bytes, the loop reaches the offset 255 and stores past
the end of the buffer. -/
theorem Read_content_overflow : ∀ (fuel c : Nat) (buff reader : List Nat),
    buff.length = 255 → buff[0]? = some 255 → 1 ≤ c → c ≤ 255 → 255 - c < fuel →
    255 - c < reader.length →
    Read_content fuel c buff reader = .error .undefinedBehaviour := by
  intro fuel
  induction fuel with
  | zero =>
    intro c buff reader _ _ _ _ hf _
    exact absurd hf (Nat.not_lt_zero _)
  | succ n ih =>
    intro c buff reader hlen h0 h1 h255 hf hr
    unfold Read_content
    rw [h0]
    simp only
    rw [if_pos h255]
    cases reader with
    | nil => simp at hr
    | cons byte rest =>
      simp only [ReadByte]
      by_cases hc : c < buff.length
      · rw [if_pos hc]
        rw [hlen] at hc
        apply ih (c + 1) (buff.set c byte) rest
        · rw [List.length_set]
          exact hlen
        · rw [List.getElem?_set_ne (by omega)]
          exact h0
        · omega
        · omega
        · omega
        · simp only [List.length_cons] at hr
          omega
      · rw [if_neg hc]

set_option maxRecDepth 100000 in
/-- C38 (refuted).  With a length byte 255 in the stream the content loop of `Read` writes
the scratch buffer `uint8_t buff[255]` at the indices 1 to 255, and index 255 is past its
end: for every scratch buffer of 255 bytes that starts with 255 and every reader that
holds the 255 content bytes the loop has undefined behaviour, and so has `Read(reader, 1,
validEntries)` on a new key array for the stream of the byte 255 and 255 content bytes,
bit 0 of the valid entries being set. -/
theorem Read_overflows_scratch_buffer :
    (∀ (buff reader : List Nat), buff.length = 255 → buff[0]? = some 255 →
      255 ≤ reader.length → Read_content 256 1 buff reader = .error .undefinedBehaviour)
    ∧ bitsTen.1.Get twoKeysStart 0 = .ok true
    ∧ newKeys.Read twoKeysStart (some (255 :: List.replicate 255 7)) 1 (some bitsTen.1)
        = .error .undefinedBehaviour :=
  ⟨fun buff reader h1 h2 h3 =>
      Read_content_overflow 256 1 buff reader h1 h2 (Nat.le_refl 1) (by decide) (by decide)
        (Nat.lt_of_lt_of_le (by decide) h3),
    rfl, rfl⟩

end ExpandableArrayOfKeys

end Pql.UnmanagedLib

namespace Pql.UnmanagedLib

/-- Widening an `int32_t` to the unsigned 64-bit `value_t` and narrowing it back to
`int32_t` gives the value back. -/
theorem to_int32_t_to_value_t (v : Int) (h1 : -2147483648 ≤ v) (h2 : v ≤ 2147483647) :
    to_int32_t (to_value_t v) = v := by
  unfold to_int32_t to_value_t
  norm_num
  omega

namespace ConcurrentHashmapOfKeys

/-- C40.  For every `int32_t` value `v`, negative ones included: when `TryAdd(IntPtr key,
v)` inserts the pair into a valid map (it returns true), `TryGetValueInt32` and
`GetInt32At` for an array that holds a key of the same content return `v`: the stored
value is `v` widened to 64 unsigned bits, and narrowing it back is the identity.
`TryGetValueInt32` for a key of which the map has no content-equal key returns false and
sets `value` to 0. -/
theorem TryAdd_IntPtr_then_Int32 (m m1 : ConcurrentHashmapOfKeys) (pool p1 : MemoryPool)
    (buf arr other : List Nat) (v i0 : Int)
    (hm : m.Valid) (hout : ∀ x ∈ pool.outcomes, x = true)
    (hk : StartsWithKey buf) (ha : StartsWithKey arr) (ho : StartsWithKey other)
    (hc : keyContent arr = keyContent buf)
    (hmiss : ∀ n ∈ m1._pMap, keyContent n.key ≠ keyContent other)
    (h1 : -2147483648 ≤ v) (h2 : v ≤ 2147483647)
    (hadd : m.TryAdd_IntPtr pool (some buf) v = .ok (true, m1, p1)) :
    m1.TryGetValueInt32 (some arr) i0 = .ok (true, v)
    ∧ m1.GetInt32At (some arr) = .ok v
    ∧ m1.TryGetValueInt32 (some other) i0 = .ok (false, 0) := by
  have heq : m.TryAdd_IntPtr pool (some buf) v = m.TryAdd pool (some buf) (to_value_t v) := rfl
  rw [heq] at hadd
  obtain ⟨hash, m2, p2, -, hrun, hv2, -, happ, -⟩ := TryAdd_spec hm hk hout (to_value_t v)
  rw [hrun] at hadd
  simp only [Except.ok.injEq, Prod.mk.injEq] at hadd
  obtain ⟨hnone, e1, -⟩ := hadd
  subst e1
  have hmap := happ hnone
  have hlook : lookupContent m2._pMap arr
      = some { order_key := hash, key := buf, value := to_value_t v } := by
    rw [hmap, lookupContent_append, lookupContent_congr m._pMap hc]
    cases hl : lookupContent m._pMap buf with
    | some n =>
      rw [hl] at hnone
      cases hnone
    | none =>
      simp only
      rw [if_pos hc.symm]
  obtain ⟨g1, g2⟩ := TryGetValue_spec hv2 ha 0
  rw [hlook] at g1
  have harr : m2.TryGetValue_array (some arr) 0 = .ok (true, to_value_t v) := g2.trans g1
  obtain ⟨o1, o2⟩ := TryGetValue_spec hv2 ho 0
  have hnone2 : lookupContent m2._pMap other = none :=
    (lookupContent_spec m2._pMap other).2.mpr hmiss
  rw [hnone2] at o1
  have hoth : m2.TryGetValue_array (some other) 0 = .ok (false, 0) := o2.trans o1
  refine ⟨?_, ?_, ?_⟩
  · unfold TryGetValueInt32
    rw [harr]
    simp only
    rw [to_int32_t_to_value_t v h1 h2]
  · unfold GetInt32At GetAt
    rw [harr]
    simp only
    rw [to_int32_t_to_value_t v h1 h2]
  · unfold TryGetValueInt32
    rw [hoth]

/-- C40 on a new map: `TryAdd([1, 'a'], -5)` inserts the pair; the look-up of the array
`[1, 'a', 9]`, which holds the same key, gives `-5`, and the look-up of `[1, 'b']` gives
false and 0. -/
theorem TryAdd_IntPtr_then_Int32_witness :
    ∃ m1 p1, newMap.TryAdd_IntPtr (freshPool []) (some [1, 0x61]) (-5) = .ok (true, m1, p1)
      ∧ m1.TryGetValueInt32 (some [1, 0x61, 9]) 77 = .ok (true, -5)
      ∧ m1.GetInt32At (some [1, 0x61, 9]) = .ok (-5)
      ∧ m1.TryGetValueInt32 (some [1, 0x62]) 77 = .ok (false, 0) :=
  ⟨_, _, rfl,
    TryAdd_IntPtr_then_Int32 newMap _ (freshPool []) _ [1, 0x61] [1, 0x61, 9] [1, 0x62] (-5) 77
      newMap_valid (fun x hx => by cases hx) ⟨by decide, by decide⟩ ⟨by decide, by decide⟩
      ⟨by decide, by decide⟩ (by decide)
      (by
        intro n hn
        simp only [newMap, List.nil_append, List.mem_singleton] at hn
        rw [hn]
        decide)
      (by decide) (by decide) rfl⟩

end ConcurrentHashmapOfKeys

end Pql.UnmanagedLib

namespace Pql.UnmanagedLib

/-- C33: on a stream that is not disposed and has a length `0 ≤ length`, `Seek` with an
origin of `Begin`, `Current` or `End` whose position computation stays within `int64_t`
returns, the value returned is the new position, the length and the buffer are unchanged,
and the new position lies in `[0, length]`; with origin `End` the new position is
`length - offset` clamped into `[0, length]`, and `Begin` always returns. -/
theorem MemoryViewStream.Seek_position_in_range (s : MemoryViewStream) (offset : Int)
    (hd : s._disposed = false) (hlen : 0 ≤ s._bytesInBuffer) :
    (∀ origin p s1, s.Seek offset origin = .ok (p, s1) →
        s1 = { s with _positionInBuffer := p } ∧ 0 ≤ p ∧ p ≤ s._bytesInBuffer) ∧
    (INT64_MIN ≤ s._bytesInBuffer - offset → s._bytesInBuffer - offset ≤ INT64_MAX →
        s.Seek offset .End =
          .ok (max 0 (min (s._bytesInBuffer - offset) s._bytesInBuffer),
               { s with _positionInBuffer :=
                          max 0 (min (s._bytesInBuffer - offset) s._bytesInBuffer) })) ∧
    (INT64_MIN ≤ s._positionInBuffer + offset → s._positionInBuffer + offset ≤ INT64_MAX →
        s.Seek offset .Current =
          .ok (max 0 (min (s._positionInBuffer + offset) s._bytesInBuffer),
               { s with _positionInBuffer :=
                          max 0 (min (s._positionInBuffer + offset) s._bytesInBuffer) })) ∧
    s.Seek offset .Begin =
      .ok (max 0 (min offset s._bytesInBuffer),
           { s with _positionInBuffer := max 0 (min offset s._bytesInBuffer) }) := by
  obtain ⟨d, len, pos, buf⟩ := s
  simp only at hd hlen
  subst hd
  simp only
  have clamp : ∀ x : Int,
      (if x < 0 then 0 else if x > len then len else x) = max 0 (min x len) := by
    intro x
    split
    · omega
    · split <;> omega
  refine ⟨?_, ?_, ?_, ?_⟩
  · intro origin p s1 h
    have key : ∀ x : Int,
        (Except.ok ((if x < 0 then 0 else if x > len then len else x),
            ({ _disposed := false, _bytesInBuffer := len,
               _positionInBuffer := (if x < 0 then 0 else if x > len then len else x),
               _buffer := buf } : MemoryViewStream)) :
              Except Fault (Int × MemoryViewStream)) = .ok (p, s1) →
        s1 = { _disposed := false, _bytesInBuffer := len, _positionInBuffer := p,
               _buffer := buf } ∧ 0 ≤ p ∧ p ≤ len := by
      intro x hx
      rw [clamp x] at hx
      injection hx with hx
      injection hx with hp hs
      subst hp
      subst hs
      exact ⟨rfl, by omega, by omega⟩
    unfold MemoryViewStream.Seek at h
    simp only [Bool.false_eq_true, if_false] at h
    cases origin with
    | Begin => exact key offset h
    | Current =>
      simp only [int64_result] at h
      by_cases hr : INT64_MIN ≤ pos + offset ∧ pos + offset ≤ INT64_MAX
      · simp only [hr, and_self, if_true] at h
        exact key _ h
      · rw [if_neg hr] at h
        simp at h
    | End =>
      simp only [int64_result] at h
      by_cases hr : INT64_MIN ≤ len - offset ∧ len - offset ≤ INT64_MAX
      · simp only [hr, and_self, if_true] at h
        exact key _ h
      · rw [if_neg hr] at h
        simp at h
    | other v => simp at h
  · intro h1 h2
    unfold MemoryViewStream.Seek
    simp only [Bool.false_eq_true, if_false, int64_result, h1, h2, and_self, if_true, clamp]
  · intro h1 h2
    unfold MemoryViewStream.Seek
    simp only [Bool.false_eq_true, if_false, int64_result, h1, h2, and_self, if_true, clamp]
  · unfold MemoryViewStream.Seek
    simp only [Bool.false_eq_true, if_false, clamp]

/-- Witness of C33: on the stream of five bytes at position 1, `Seek(2, End)` moves to
position 3 and `Seek(7, End)` to position 0. -/
theorem MemoryViewStream.Seek_position_in_range_witness :
    fiveStream.Seek 2 .End = .ok (3, { fiveStream with _positionInBuffer := 3 }) ∧
    fiveStream.Seek 7 .End = .ok (0, { fiveStream with _positionInBuffer := 0 }) :=
  ⟨(MemoryViewStream.Seek_position_in_range fiveStream 2 rfl (by decide)).2.1
      (by decide) (by decide),
   (MemoryViewStream.Seek_position_in_range fiveStream 7 rfl (by decide)).2.1
      (by decide) (by decide)⟩

end Pql.UnmanagedLib

namespace Pql.UnmanagedLib

theorem narrow_int32_of_range (x : Int) (h1 : INT32_MIN ≤ x) (h2 : x ≤ INT32_MAX) :
    narrow_int32 x = x := by
  unfold narrow_int32
  unfold INT32_MIN at h1
  unfold INT32_MAX at h2
  norm_num
  split <;> omega

theorem int32_result_ok (x : Int) (h1 : INT32_MIN ≤ x) (h2 : x ≤ INT32_MAX) :
    int32_result x = .ok x := by
  unfold int32_result
  rw [if_pos ⟨h1, h2⟩]

theorem int64_result_ok (x : Int) (h1 : INT64_MIN ≤ x) (h2 : x ≤ INT64_MAX) :
    int64_result x = .ok x := by
  unfold int64_result
  rw [if_pos ⟨h1, h2⟩]

theorem MemoryViewStream.Read_loop_copies (src : List Nat) :
    ∀ (left p o : Nat) (buffer : List Nat), p + left ≤ src.length →
      o + left ≤ buffer.length → buffer.length ≤ 2147483647 →
      ∃ out, MemoryViewStream.Read_loop src left (p : Int) (o : Int) buffer = .ok out ∧
        out.length = buffer.length ∧
        ∀ i : Nat, out[i]? = if o ≤ i ∧ i < o + left then src[p + (i - o)]? else buffer[i]? := by
  intro left
  induction left with
  | zero =>
    intro p o buffer _ _ _
    refine ⟨buffer, rfl, rfl, ?_⟩
    intro i
    rw [if_neg (by omega)]
  | succ left ih =>
    intro p o buffer hp ho hb
    have hp1 : p < src.length := by omega
    have ho1 : o < buffer.length := by omega
    obtain ⟨out, e, hl, hi⟩ := ih (p + 1) (o + 1) (buffer.set o src[p])
      (by omega) (by rw [List.length_set]; omega) (by rw [List.length_set]; exact hb)
    refine ⟨out, ?_, ?_, ?_⟩
    · rw [MemoryViewStream.Read_loop]
      have n1 : ¬ ((p : Int) < 0) := by omega
      have n2 : ¬ ((o : Int) < 0 ∨ (o : Int) ≥ (buffer.length : Int)) := by omega
      have r : int32_result ((o : Int) + 1) = .ok ((o : Int) + 1) :=
        int32_result_ok _ (by unfold INT32_MIN; omega) (by unfold INT32_MAX; omega)
      have c1 : ((p : Int) + 1) = ((p + 1 : Nat) : Int) := by push_cast; rfl
      have c2 : ((o : Int) + 1) = ((o + 1 : Nat) : Int) := by push_cast; rfl
      simp only [n1, if_false, Int.toNat_ofNat, List.getElem?_eq_getElem hp1, n2, r]
      rw [c1, c2]
      exact e
    · rw [hl, List.length_set]
    · intro i
      rw [hi i]
      by_cases c1 : i = o
      · subst c1
        rw [if_neg (by omega), if_pos (by omega), Nat.sub_self, Nat.add_zero,
          List.getElem?_set_self ho1, List.getElem?_eq_getElem hp1]
      · by_cases c2 : o + 1 ≤ i ∧ i < o + 1 + left
        · rw [if_pos c2, if_pos (by omega)]
          congr 1
          omega
        · rw [if_neg c2, if_neg (by omega), List.getElem?_set_ne (Ne.symm c1)]

/-- Where the rest of the stream fits an `int32_t`, `Read` returns
`min count (length - position)`, copies that many bytes from the old position of the
stream to `buffer[offset..]`, leaves the other elements alone and advances the
position. -/
theorem MemoryViewStream.Read_within_int32 (s : MemoryViewStream) (src arr : List Nat)
    (offset count : Int) (hd : s._disposed = false) (hb : s._buffer = some src)
    (hpos : 0 ≤ s._positionInBuffer) (hle : s._positionInBuffer ≤ s._bytesInBuffer)
    (hsrc : s._bytesInBuffer ≤ src.length) (hlen : s._bytesInBuffer ≤ INT64_MAX)
    (hrem : s._bytesInBuffer - s._positionInBuffer ≤ INT32_MAX)
    (ho : 0 ≤ offset) (hc : 0 ≤ count) (hsum : offset + count ≤ arr.length)
    (harr : arr.length ≤ 2147483647) :
    ∃ out, s.Read (some arr) offset count =
        .ok (min count (s._bytesInBuffer - s._positionInBuffer), out,
             { s with _positionInBuffer :=
                 s._positionInBuffer + min count (s._bytesInBuffer - s._positionInBuffer) }) ∧
      out.length = arr.length ∧
      ∀ i : Nat, out[i]? =
        if offset ≤ i ∧ i < offset + min count (s._bytesInBuffer - s._positionInBuffer)
        then src[(s._positionInBuffer + (i - offset)).toNat]? else arr[i]? := by
  obtain ⟨d, len, pos, buf⟩ := s
  simp only at hd hb hpos hle hsrc hlen hrem
  subst hd
  subst hb
  simp only
  unfold INT64_MAX at hlen
  unfold INT32_MAX at hrem
  have r1 : int32_result (offset + count) = .ok (offset + count) :=
    int32_result_ok _ (by unfold INT32_MIN; omega) (by unfold INT32_MAX; omega)
  have r2 : int64_result (len - pos) = .ok (len - pos) :=
    int64_result_ok _ (by unfold INT64_MIN; omega) (by unfold INT64_MAX; omega)
  have r3 : narrow_int32 (len - pos) = len - pos :=
    narrow_int32_of_range _ (by unfold INT32_MIN; omega) (by unfold INT32_MAX; omega)
  have r4 : int64_result (pos + min count (len - pos)) = .ok (pos + min count (len - pos)) :=
    int64_result_ok _ (by unfold INT64_MIN; omega) (by unfold INT64_MAX; omega)
  unfold MemoryViewStream.Read
  have n1 : ¬ (count < 0) := by omega
  have n2 : ¬ (offset < 0) := by omega
  have n3 : ¬ (offset + count > (arr.length : Int)) := by omega
  simp only [Bool.false_eq_true, if_false, n1, n2, r1, n3, r2, r3]
  by_cases hz : min count (len - pos) > 0
  · rw [if_pos hz]
    obtain ⟨out, e, hl, hi⟩ := MemoryViewStream.Read_loop_copies src
      (min count (len - pos)).toNat pos.toNat offset.toNat arr (by omega) (by omega) harr
    rw [Int.toNat_of_nonneg hpos, Int.toNat_of_nonneg ho] at e
    rw [e]
    simp only [r4]
    refine ⟨out, rfl, hl, ?_⟩
    intro i
    rw [hi i]
    by_cases c : offset ≤ i ∧ (i : Int) < offset + min count (len - pos)
    · rw [if_pos c, if_pos (by omega)]
      congr 1
      omega
    · rw [if_neg c, if_neg (by omega)]
  · rw [if_neg hz]
    have z : min count (len - pos) = 0 := by omega
    refine ⟨arr, ?_, rfl, ?_⟩
    · rw [z, Int.add_zero]
    · intro i
      rw [if_neg (by omega)]


/-- C39: `Read` converts `_bytesInBuffer - _positionInBuffer` to `int32_t` before it takes
the minimum with `count`.  The stream attached to 2^31 bytes, at position 0, asked for 10
bytes into an array of 10 bytes, returns -2147483648 instead of 10, copies nothing and
leaves the position at 0. -/
theorem MemoryViewStream.Read_returns_negative :
    MemoryViewStream.create.Attach (some (List.replicate 2147483648 0)) 2147483648
      = .ok bigStream ∧
    0 ≤ bigStream._positionInBuffer ∧
    bigStream._positionInBuffer ≤ bigStream._bytesInBuffer ∧
    min (10 : Int) (bigStream._bytesInBuffer - bigStream._positionInBuffer) = 10 ∧
    bigStream.Read (some (List.replicate 10 7)) 0 10
      = .ok (-2147483648, List.replicate 10 7, bigStream) := by
  refine ⟨?_, by decide, by decide, by decide, ?_⟩
  · rfl
  · rfl

end Pql.UnmanagedLib

namespace Pql.UnmanagedLib

theorem lt_length_of_getElem_some {α : Type} {l : List α} {i : Nat} {c : α}
    (h : l[i]? = some c) : i < l.length := by
  by_contra hn
  rw [List.getElem?_eq_none (Nat.le_of_not_lt hn)] at h
  cases h

/-- Setting a bit that is set leaves the byte as it is. -/
theorem set_mask_of_testBit (x k : Nat) (hx : x < 256) (hk : k < 8)
    (hb : x.testBit k = true) : (x ||| (1 <<< k)) % 256 = x := by
  apply Nat.eq_of_testBit_eq
  intro m
  by_cases hm : m < 8
  · rw [testBit_set_mask _ _ _ hm]
    by_cases e : k = m
    · subst e
      simp [hb]
    · simp [e]
  · have h1 : (x ||| (1 <<< k)) % 256 < 2 ^ m :=
      Nat.lt_of_lt_of_le (Nat.mod_lt _ (by norm_num))
        (le_trans (by norm_num : 256 ≤ 2 ^ 8) (Nat.pow_le_pow_right (by norm_num) (by omega)))
    have h2 : x < 2 ^ m :=
      Nat.lt_of_lt_of_le hx
        (le_trans (by norm_num : 256 ≤ 2 ^ 8) (Nat.pow_le_pow_right (by norm_num) (by omega)))
    rw [Nat.testBit_lt_two_pow h1, Nat.testBit_lt_two_pow h2]

namespace BitVector

/-- The four kinds of step of a caller. -/
theorem Race.step_cases (index : Nat) (r : Race) (u : Nat) :
    (r.callers[u]? = some .reading ∧
      Race.step index r u =
        { byte := r.byte, callers := r.callers.set u (.swapping r.byte) }) ∨
    (∃ old, r.callers[u]? = some (.swapping old) ∧ old ≠ r.byte ∧
      Race.step index r u = { byte := r.byte, callers := r.callers.set u .reading }) ∨
    (r.callers[u]? = some (.swapping r.byte) ∧
      Race.step index r u =
        { byte := (r.byte ||| (1 <<< (index % BITS_PER_ITEM))) % 256,
          callers := r.callers.set u (.returned (r.byte.testBit (index % BITS_PER_ITEM))) }) ∨
    ((∀ c, r.callers[u]? = some c → ∃ b, c = .returned b) ∧ Race.step index r u = r) := by
  unfold Race.step
  cases h : r.callers[u]? with
  | none =>
    right; right; right
    exact ⟨(fun c hc => by cases hc), rfl⟩
  | some c =>
    cases c with
    | reading =>
      left
      exact ⟨rfl, rfl⟩
    | swapping old =>
      by_cases e : r.byte = old
      · right; right; left
        subst e
        refine ⟨rfl, ?_⟩
        simp only [ne_eq, not_true_eq_false, if_false, if_true, mask_test]
      · right; left
        refine ⟨old, rfl, (fun h => e h.symm), ?_⟩
        simp only [ne_eq, e, not_false_eq_true, if_true, if_false]
    | returned b =>
      right; right; right
      refine ⟨?_, rfl⟩
      intro c hc
      injection hc with hc
      exact ⟨b, hc.symm⟩

theorem Race.step_length (index : Nat) (r : Race) (u : Nat) :
    (Race.step index r u).callers.length = r.callers.length := by
  rcases Race.step_cases index r u with h | h | h | h
  · rw [h.2]; simp
  · obtain ⟨old, _, _, h⟩ := h
    rw [h]; simp
  · rw [h.2]; simp
  · rw [h.2]

theorem Race.run_length (index : Nat) (schedule : List Nat) :
    ∀ r : Race, (Race.run index schedule r).callers.length = r.callers.length := by
  induction schedule with
  | nil => intro r; rfl
  | cons u rest ih =>
    intro r
    show (Race.run index rest (Race.step index r u)).callers.length = _
    rw [ih, Race.step_length]

/-- A step keeps the invariant. -/
theorem Race.inv_step {index byte0 : Nat} {r : Race} (h : Race.Inv index byte0 r)
    (u : Nat) : Race.Inv index byte0 (Race.step index r u) := by
  have hk : index % BITS_PER_ITEM < 8 := Nat.mod_lt _ (by decide)
  rcases Race.step_cases index r u with c | c | c | c
  · obtain ⟨hu, e⟩ := c
    have hlt := lt_length_of_getElem_some hu
    rw [e]
    refine ⟨h.lt, ?_, ?_⟩
    · intro hb
      obtain ⟨h1, h2⟩ := h.clear hb
      refine ⟨h1, ?_⟩
      intro t c hc
      by_cases ht : u = t
      · subst ht
        simp only [List.getElem?_set_self hlt] at hc
        injection hc with hc
        right
        rw [← hc]
        exact congrArg _ h1
      · simp only [List.getElem?_set_ne ht] at hc
        exact h2 t c hc
    · intro hb
      obtain ⟨w, h1, h2⟩ := h.set hb
      have hwu : u ≠ w := by
        intro e1
        subst e1
        rw [hu] at h1
        cases h1
      refine ⟨w, ?_, ?_⟩
      · simp only [List.getElem?_set_ne hwu]
        exact h1
      · intro t ht
        by_cases htu : u = t
        · subst htu
          simp only [List.getElem?_set_self hlt]
          intro e1
          cases e1
        · simp only [List.getElem?_set_ne htu]
          exact h2 t ht
  · obtain ⟨old, hu, hne, e⟩ := c
    have hlt := lt_length_of_getElem_some hu
    rw [e]
    refine ⟨h.lt, ?_, ?_⟩
    · intro hb
      obtain ⟨h1, h2⟩ := h.clear hb
      refine ⟨h1, ?_⟩
      intro t c hc
      by_cases ht : u = t
      · subst ht
        simp only [List.getElem?_set_self hlt] at hc
        injection hc with hc
        left
        exact hc.symm
      · simp only [List.getElem?_set_ne ht] at hc
        exact h2 t c hc
    · intro hb
      obtain ⟨w, h1, h2⟩ := h.set hb
      have hwu : u ≠ w := by
        intro e1
        subst e1
        rw [hu] at h1
        cases h1
      refine ⟨w, ?_, ?_⟩
      · simp only [List.getElem?_set_ne hwu]
        exact h1
      · intro t ht
        by_cases htu : u = t
        · subst htu
          simp only [List.getElem?_set_self hlt]
          intro e1
          cases e1
        · simp only [List.getElem?_set_ne htu]
          exact h2 t ht
  · obtain ⟨hu, e⟩ := c
    have hlt := lt_length_of_getElem_some hu
    rw [e]
    have hset : ((r.byte ||| (1 <<< (index % BITS_PER_ITEM))) % 256).testBit
        (index % BITS_PER_ITEM) = true := by
      rw [testBit_set_mask _ _ _ hk]
      simp
    refine ⟨Nat.mod_lt _ (by norm_num), ?_, ?_⟩
    · intro hb
      simp only at hb
      rw [hset] at hb
      cases hb
    · intro _
      simp only
      cases hb : r.byte.testBit (index % BITS_PER_ITEM) with
      | false =>
        obtain ⟨h1, h2⟩ := h.clear hb
        refine ⟨u, ?_, ?_⟩
        · simp only [List.getElem?_set_self hlt]
        · intro t ht
          simp only [List.getElem?_set_ne (Ne.symm ht)]
          intro e1
          rcases h2 t _ e1 with e2 | e2 <;> cases e2
      | true =>
        obtain ⟨w, h1, h2⟩ := h.set hb
        have hwu : u ≠ w := by
          intro e1
          subst e1
          rw [hu] at h1
          cases h1
        refine ⟨w, ?_, ?_⟩
        · simp only [List.getElem?_set_ne hwu]
          exact h1
        · intro t ht
          by_cases htu : u = t
          · subst htu
            simp only [List.getElem?_set_self hlt]
            intro e1
            cases e1
          · simp only [List.getElem?_set_ne htu]
            exact h2 t ht
  · rw [c.2]
    exact h

theorem Race.inv_run {index byte0 : Nat} (schedule : List Nat) :
    ∀ {r : Race}, Race.Inv index byte0 r → Race.Inv index byte0 (Race.run index schedule r) := by
  induction schedule with
  | nil => intro r h; exact h
  | cons u rest ih =>
    intro r h
    exact ih (Race.inv_step h u)

theorem Race.inv_start (index byte N : Nat) (hbyte : byte < 256)
    (hclear : byte.testBit (index % BITS_PER_ITEM) = false) :
    Race.Inv index byte (Race.start byte N) := by
  refine ⟨hbyte, ?_, ?_⟩
  · intro _
    refine ⟨rfl, ?_⟩
    intro t c hc
    left
    unfold Race.start at hc
    simp only at hc
    have hlt := lt_length_of_getElem_some hc
    rw [List.getElem?_eq_getElem hlt, List.getElem_replicate] at hc
    injection hc with hc
    exact hc.symm
  · intro hb
    unfold Race.start at hb
    simp only at hb
    rw [hclear] at hb
    cases hb

end BitVector

end Pql.UnmanagedLib

namespace Pql.UnmanagedLib

namespace BitVector

theorem Race.pending_byte (index : Nat) (r r1 : Race) (c : Caller) (h : r1.byte = r.byte) :
    Race.pending index r1 c = Race.pending index r c := by
  cases c <;> simp only [Race.pending, h]

theorem Race.pending_le (index : Nat) (r : Race) (c : Caller) :
    Race.pending index r c ≤ 4 := by
  cases c with
  | returned b => exact Nat.zero_le _
  | reading =>
    simp only [Race.pending]
    split <;> omega
  | swapping old =>
    simp only [Race.pending]
    split
    · split <;> omega
    · omega

theorem Race.pending_eq_zero (index : Nat) (r : Race) (c : Caller)
    (h : Race.pending index r c = 0) : ∃ b, c = .returned b := by
  cases c with
  | returned b => exact ⟨b, rfl⟩
  | reading =>
    simp only [Race.pending] at h
    split at h <;> omega
  | swapping old =>
    simp only [Race.pending] at h
    split at h
    · split at h <;> omega
    · omega

/-- A step of a caller lowers its own bound and raises nobody's. -/
theorem Race.step_pending {index byte0 : Nat} {r : Race} (h : Race.Inv index byte0 r)
    (u t : Nat) (c : Caller) (hc : r.callers[t]? = some c) :
    ∃ c1, (Race.step index r u).callers[t]? = some c1 ∧
      Race.pending index (Race.step index r u) c1
        ≤ Race.pending index r c - (if u = t then 1 else 0) := by
  have hk : index % BITS_PER_ITEM < 8 := Nat.mod_lt _ (by decide)
  rcases Race.step_cases index r u with k | k | k | k
  · obtain ⟨hu, e⟩ := k
    have hlt := lt_length_of_getElem_some hu
    rw [e]
    by_cases ht : u = t
    · subst ht
      rw [hu] at hc
      injection hc with hc
      subst hc
      refine ⟨.swapping r.byte, by simp only [List.getElem?_set_self hlt], ?_⟩
      simp only [Race.pending, if_true]
      split <;> omega
    · refine ⟨c, by simp only [List.getElem?_set_ne ht]; exact hc, ?_⟩
      rw [if_neg ht, Race.pending_byte index r _ c rfl]
      exact Nat.le_refl _
  · obtain ⟨old, hu, hne, e⟩ := k
    have hlt := lt_length_of_getElem_some hu
    rw [e]
    by_cases ht : u = t
    · subst ht
      rw [hu] at hc
      injection hc with hc
      subst hc
      refine ⟨.reading, by simp only [List.getElem?_set_self hlt], ?_⟩
      cases hb : r.byte.testBit (index % BITS_PER_ITEM) with
      | false =>
        obtain ⟨h1, h2⟩ := h.clear hb
        rcases h2 u _ hu with e2 | e2
        · cases e2
        · injection e2 with e2
          exact absurd (e2.trans h1.symm) hne
      | true =>
        simp only [Race.pending, hb, if_true, if_neg hne]
        omega
    · refine ⟨c, by simp only [List.getElem?_set_ne ht]; exact hc, ?_⟩
      rw [if_neg ht, Race.pending_byte index r _ c rfl]
      exact Nat.le_refl _
  · obtain ⟨hu, e⟩ := k
    have hlt := lt_length_of_getElem_some hu
    rw [e]
    by_cases ht : u = t
    · subst ht
      refine ⟨.returned (r.byte.testBit (index % BITS_PER_ITEM)),
        by simp only [List.getElem?_set_self hlt], ?_⟩
      simp only [Race.pending]
      exact Nat.zero_le _
    · refine ⟨c, by simp only [List.getElem?_set_ne ht]; exact hc, ?_⟩
      rw [if_neg ht]
      cases hb : r.byte.testBit (index % BITS_PER_ITEM) with
      | true =>
        rw [Race.pending_byte index r _ c (set_mask_of_testBit _ _ h.lt hk hb)]
        exact Nat.le_refl _
      | false =>
        have hset : ((r.byte ||| (1 <<< (index % BITS_PER_ITEM))) % 256).testBit
            (index % BITS_PER_ITEM) = true := by
          rw [testBit_set_mask _ _ _ hk]
          simp
        obtain ⟨h1, h2⟩ := h.clear hb
        rcases h2 t c hc with e2 | e2
        · subst e2
          simp only [Race.pending, hset, hb, if_true, Bool.false_eq_true, if_false]
          omega
        · subst e2
          simp only [Race.pending, hset, hb, if_true, Bool.false_eq_true, if_false]
          split <;> omega
  · rw [k.2]
    refine ⟨c, hc, ?_⟩
    by_cases ht : u = t
    · subst ht
      obtain ⟨b, e2⟩ := k.1 c hc
      subst e2
      simp only [Race.pending]
      exact Nat.zero_le _
    · rw [if_neg ht]
      exact Nat.le_refl _

/-- After an interleaving the bound of a caller has gone down by the number of its
steps. -/
theorem Race.run_pending {index byte0 : Nat} (schedule : List Nat) :
    ∀ {r : Race}, Race.Inv index byte0 r → ∀ (t : Nat) (c : Caller),
      r.callers[t]? = some c →
      ∃ c1, (Race.run index schedule r).callers[t]? = some c1 ∧
        Race.pending index (Race.run index schedule r) c1
          ≤ Race.pending index r c - schedule.count t := by
  induction schedule with
  | nil =>
    intro r h t c hc
    exact ⟨c, hc, by simp [Race.run]⟩
  | cons u rest ih =>
    intro r h t c hc
    obtain ⟨c1, e1, l1⟩ := Race.step_pending h u t c hc
    obtain ⟨c2, e2, l2⟩ := ih (Race.inv_step h u) t c1 e1
    refine ⟨c2, e2, ?_⟩
    have hcount : (u :: rest).count t = rest.count t + (if u = t then 1 else 0) := by
      rw [List.count_cons]
      by_cases e : u = t
      · simp [e]
      · simp [e]
    rw [hcount]
    have l3 : Race.pending index (Race.run index (u :: rest) r) c2
        ≤ Race.pending index (Race.step index r u) c1 - List.count t rest := l2
    omega

/-- C32: callers `0 .. N - 1` (`0 < N`) run `SafeGetAndSet(index)` on a byte whose bit
`index % 8` is clear, their reads and compare-and-swaps interleaved by `schedule`.  If all
of them have returned at the end of the interleaving, exactly one has returned `false` and
all the others `true`; and they all have returned as soon as each has taken four steps. -/
theorem Race.one_caller_wins (index byte N : Nat) (schedule : List Nat)
    (hbyte : byte < 256) (hclear : byte.testBit (index % BITS_PER_ITEM) = false)
    (hN : 0 < N) :
    ((∀ t, t < N → ∃ b, (Race.run index schedule (Race.start byte N)).callers[t]?
          = some (.returned b)) →
      ∃ w, w < N ∧
        (Race.run index schedule (Race.start byte N)).callers[w]? = some (.returned false) ∧
        ∀ t, t < N → t ≠ w →
          (Race.run index schedule (Race.start byte N)).callers[t]?
            = some (.returned true)) ∧
    ((∀ t, t < N → 4 ≤ schedule.count t) →
      ∀ t, t < N → ∃ b, (Race.run index schedule (Race.start byte N)).callers[t]?
          = some (.returned b)) := by
  have hinv0 := Race.inv_start index byte N hbyte hclear
  have hinv := Race.inv_run schedule hinv0
  have hlen : (Race.run index schedule (Race.start byte N)).callers.length = N := by
    rw [Race.run_length]
    simp [Race.start]
  refine ⟨?_, ?_⟩
  · intro hdone
    obtain ⟨b0, h0⟩ := hdone 0 hN
    cases hb : (Race.run index schedule (Race.start byte N)).byte.testBit
        (index % BITS_PER_ITEM) with
    | false =>
      rcases (hinv.clear hb).2 0 _ h0 with e | e <;> cases e
    | true =>
      obtain ⟨w, h1, h2⟩ := hinv.set hb
      have hw : w < N := by
        rw [← hlen]
        exact lt_length_of_getElem_some h1
      refine ⟨w, hw, h1, ?_⟩
      intro t ht htw
      obtain ⟨b, hbt⟩ := hdone t ht
      cases b with
      | true => exact hbt
      | false => exact absurd hbt (h2 t htw)
  · intro hfair t ht
    have hc : (Race.start byte N).callers[t]? = some .reading := by
      unfold Race.start
      simp only
      rw [List.getElem?_eq_getElem (by simp; exact ht), List.getElem_replicate]
    obtain ⟨c1, e1, l1⟩ := Race.run_pending schedule hinv0 t _ hc
    have l2 := Race.pending_le index (Race.start byte N) .reading
    have l3 := hfair t ht
    have l4 : Race.pending index (Race.run index schedule (Race.start byte N)) c1 = 0 := by
      omega
    obtain ⟨b, e⟩ := Race.pending_eq_zero index _ c1 l4
    exact ⟨b, by rw [e1, e]⟩

/-- Witness of C32: three callers on the byte 0 and bit 1 of it, in the interleaving
`threeCallers`: all three return, one of them `false` and the others `true`. -/
theorem Race.one_caller_wins_witness :
    ∃ w, w < 3 ∧
      (Race.run 9 threeCallers (Race.start 0 3)).callers[w]? = some (.returned false) ∧
      ∀ t, t < 3 → t ≠ w →
        (Race.run 9 threeCallers (Race.start 0 3)).callers[t]? = some (.returned true) :=
  (Race.one_caller_wins 9 0 3 threeCallers (by decide) (by decide) (by decide)).1
    ((Race.one_caller_wins 9 0 3 threeCallers (by decide) (by decide) (by decide)).2
      (by decide))

end BitVector

end Pql.UnmanagedLib

namespace Pql.UnmanagedLib

/-- While the mutex is held at every test, the constructor of the lock does not return. -/
theorem scoped_lock_held (held : Nat → Bool) (h : ∀ t, held t = true) :
    ∀ fuel t, scoped_lock held fuel t = none := by
  intro fuel
  induction fuel with
  | zero => intro t; rfl
  | succ fuel ih =>
    intro t
    rw [scoped_lock, h t, if_pos rfl]
    exact ih (t + 1)

/-- The constructor of the lock returns at the first test that finds the mutex free. -/
theorem scoped_lock_released (held : Nat → Bool) (k : Nat)
    (h1 : ∀ t, t < k → held t = true) (h2 : held k = false) :
    ∀ fuel s, s ≤ k → k - s < fuel → scoped_lock held fuel s = some k := by
  intro fuel
  induction fuel with
  | zero => intro s _ h; omega
  | succ fuel ih =>
    intro s hs hf
    rw [scoped_lock]
    by_cases e : s = k
    · subst e
      rw [h2]
      rfl
    · rw [h1 s (by omega), if_pos rfl]
      exact ih (s + 1) (by omega) (by omega)

/-- C31: `try_ensure_capacity` does not read `timeout`: a call with any timeout behaves
as the call with timeout 0.  With timeout 0, a capacity below the request and the lock
held by another caller at every test, the call has not returned after any number of
tests, so it does not return `false`; and when the holder releases the lock at test `k`
the call goes on after `k` failed tests with the growth, as with any other timeout.  On
a new array asked for capacity 1 under a lock that is never released, the call with
timeout 0 never returns. -/
theorem ExpandableArrayImpl.try_ensure_capacity_contended_waits (a : ExpandableArrayImpl)
    (pool : MemoryPool) (n timeout : Nat) (ref : Ptr) (cap : Nat) (held : Nat → Bool)
    (seen : Nat → ExpandableArrayImpl × MemoryPool) (fuel : Nat) :
    a.try_ensure_capacity_contended pool n timeout ref cap held seen fuel
      = a.try_ensure_capacity_contended pool n 0 ref cap held seen fuel ∧
    (a.capacity < n → (∀ t, held t = true) →
      a.try_ensure_capacity_contended pool n 0 ref cap held seen fuel = none) ∧
    (a.capacity < n → ∀ k, (∀ t, t < k → held t = true) → held k = false → k < fuel →
      a.try_ensure_capacity_contended pool n 0 ref cap held seen fuel
        = some ((seen k).1.try_ensure_capacity (seen k).2 n 0 ref cap)) ∧
    (ExpandableArrayImpl.create 1 4 2).try_ensure_capacity_contended (freshPool []) 1 0 0 0
        (fun _ => true) (fun _ => (ExpandableArrayImpl.create 1 4 2, freshPool [])) fuel
      = none := by
  refine ⟨rfl, ?_, ?_, ?_⟩
  · intro hc hh
    unfold ExpandableArrayImpl.try_ensure_capacity_contended
    rw [if_neg (by omega), scoped_lock_held held hh]
  · intro hc k h1 h2 hk
    unfold ExpandableArrayImpl.try_ensure_capacity_contended
    rw [if_neg (by omega), scoped_lock_released held k h1 h2 fuel 0 (Nat.zero_le _) (by omega)]
  · unfold ExpandableArrayImpl.try_ensure_capacity_contended
    rw [if_neg (by decide), scoped_lock_held _ (fun _ => rfl)]

end Pql.UnmanagedLib

/-! ## C29: the length bytes of the reachable slots -/

namespace Pql.UnmanagedLib

namespace ExpandableArrayImpl

/-- Every spine entry the loop that allocates the missing blocks has stored is null, when
the allocation of the block failed, or a fresh zeroed allocation of one block. -/
theorem allocate_missing_blocks_entries (s E : Nat) (blockList : Ptr) :
    ∀ (count ix : Nat) (p p1 : MemoryPool),
      allocate_missing_blocks s E blockList count ix p = .ok p1 → p.Fresh →
      blockList ≤ p.next →
      ∀ j, ix ≤ j → j < ix + count →
        ∃ blk, p1.load blockList sizeof_ptr j = .ok blk
          ∧ (blk = 0 ∨ (p.next < blk
              ∧ ∃ al, p1.mem blk = some al ∧ al.bytes = E * s ∧ ∀ c, al.cells c = 0)) := by
  intro count
  induction count with
  | zero =>
    intro ix p p1 _ _ _ j h1 h2
    exact absurd h2 (by omega)
  | succ n ih =>
    intro ix p p1 h hf hL
    unfold allocate_missing_blocks at h
    simp only at h
    split at h
    · cases h
    · rename_i ps hstore
      obtain ⟨-, -, -, g3, -, g5, -⟩ := MemoryPool.store_spec hstore
      have hz := MemoryPool.zero_allocate_spec p s E
      have hzn := MemoryPool.zero_allocate_next p s E
      have hfz : (p.zero_allocate s E).2.Fresh := MemoryPool.zero_allocate_fresh p s E hf
      have hfs : ps.Fresh := MemoryPool.store_fresh hfz hstore
      have hLs : blockList ≤ ps.next := by
        rw [g3]
        exact Nat.le_trans hL hzn.1
      have hpn : p.next ≤ ps.next := by
        rw [g3]
        exact hzn.1
      obtain ⟨-, -, -, -, f5, f6⟩ := allocate_missing_blocks_frame _ _ _ _ _ _ _ h hLs
      intro j h1 h2
      by_cases hj : j = ix
      · subst hj
        refine ⟨(p.zero_allocate s E).1, ?_, ?_⟩
        · rw [f6 j sizeof_ptr (Nat.lt_succ_self j)]
          exact MemoryPool.load_store_same hstore
        · rcases hz.2.2 with ⟨e, -, -⟩ | ⟨e, en, -, al, hal, hbytes, hzero⟩
          · exact Or.inl e
          · right
            rw [e]
            refine ⟨Nat.lt_succ_self _, al, ?_, ?_, hzero⟩
            · have hne : p.next + 1 ≠ blockList :=
                Ne.symm (Nat.ne_of_lt (Nat.lt_succ_of_le hL))
              rw [f5 (p.next + 1) (by rw [g3, en]) hne, g5 _ hne]
              exact hal
            · rw [hbytes, Nat.mul_comm]
      · obtain ⟨blk, hl, hb⟩ := ih (ix + 1) ps p1 h hfs hLs j (by omega) (by omega)
        refine ⟨blk, hl, ?_⟩
        rcases hb with e | ⟨hlt, hal⟩
        · exact Or.inl e
        · exact Or.inr ⟨Nat.lt_of_le_of_lt hpn hlt, hal⟩

/-- A growing call of `try_ensure_capacity` that returns leaves in every spine entry from
the old block count up to the requested block count null, when the allocation of the block
failed, or a fresh zeroed allocation of one block, which is not the spine. -/
theorem try_ensure_capacity_new_entries {a : ExpandableArrayImpl} {pool : MemoryPool}
    {n timeout : Nat} {ref : Ptr} {cap : Nat} {r : EnsureCapacityResult}
    (hf : pool.Fresh) (hLle : a._blockList ≤ pool.next)
    (h : a.try_ensure_capacity pool n timeout ref cap = .ok r) (hlt : a.capacity < n) :
    ∀ b, a._blockCount ≤ b → b < a.requestedListCapacity n →
      ∃ blk, r.pool.load r.self._blockList sizeof_ptr b = .ok blk
        ∧ (blk = 0 ∨ (pool.next < blk ∧ blk ≠ r.self._blockList
            ∧ ∃ al, r.pool.mem blk = some al
                ∧ al.bytes = a._elementsPerBlock * a.sizeof_value_type
                ∧ ∀ c, al.cells c = 0)) := by
  rcases try_ensure_capacity_growth_path h hlt with
    ⟨-, p1, p2, hcopy, hfill, hp, hl, -, -⟩ | ⟨-, p2, hfill, hp, hl, -, -⟩
  · have hzn := MemoryPool.zero_allocate_next pool a.sizeof_value_type (a.newListCapacity n)
    have hfz := MemoryPool.zero_allocate_fresh pool a.sizeof_value_type (a.newListCapacity n) hf
    obtain ⟨-, -, c3, -⟩ := copy_block_list_frame _ _ _ _ _ _ hcopy
    have hf1 : p1.Fresh := copy_block_list_fresh _ _ _ _ _ _ hcopy hfz
    have hsame : ∀ (q : MemoryPool) (L : Ptr),
        (if L ≠ 0 then q.schedule_for_collection L else q).next = q.next
        ∧ (if L ≠ 0 then q.schedule_for_collection L else q).mem = q.mem := by
      intro q L
      split <;> exact ⟨rfl, rfl⟩
    have hf2 : (if a._blockList ≠ 0 then p1.schedule_for_collection a._blockList
        else p1).Fresh := by
      intro q hq
      rw [(hsame p1 a._blockList).2]
      rw [(hsame p1 a._blockList).1] at hq
      exact hf1 q hq
    have hL : (pool.zero_allocate a.sizeof_value_type (a.newListCapacity n)).1
        ≤ (if a._blockList ≠ 0 then p1.schedule_for_collection a._blockList else p1).next := by
      rw [(hsame p1 a._blockList).1, c3]
      exact hzn.2.2
    have hn : pool.next
        ≤ (if a._blockList ≠ 0 then p1.schedule_for_collection a._blockList else p1).next := by
      rw [(hsame p1 a._blockList).1, c3]
      exact hzn.1
    have s3 := allocate_missing_blocks_entries _ _ _ _ _ _ _ hfill hf2 hL
    intro b hb1 hb2
    obtain ⟨blk, hload, hblk⟩ := s3 b hb1 (by omega)
    rw [hp, hl]
    refine ⟨blk, hload, ?_⟩
    rcases hblk with e | ⟨h1, h2⟩
    · exact Or.inl e
    · refine Or.inr ⟨Nat.lt_of_le_of_lt hn h1, ?_, ?_⟩
      · exact Ne.symm (Nat.ne_of_lt (Nat.lt_of_le_of_lt hL h1))
      · exact h2
  · have s3 := allocate_missing_blocks_entries _ _ _ _ _ _ _ hfill hf hLle
    intro b hb1 hb2
    obtain ⟨blk, hload, hblk⟩ := s3 b hb1 (by omega)
    rw [hp, hl]
    refine ⟨blk, hload, ?_⟩
    rcases hblk with e | ⟨h1, h2⟩
    · exact Or.inl e
    · exact Or.inr ⟨h1, Ne.symm (Nat.ne_of_lt (Nat.lt_of_le_of_lt hLle h1)), h2⟩

end ExpandableArrayImpl

end Pql.UnmanagedLib

namespace Pql.UnmanagedLib

namespace ExpandableArrayOfKeys

/-- A slot value stays one when its buffer is untouched and is not the new spine. -/
theorem SlotValue.stays {B : Nat} {k k1 : ExpandableArrayOfKeys} {pool p1 : MemoryPool}
    {v : Ptr} (h : SlotValue B k pool v) (hmem : v ≠ 0 → v ≠ k._pData → p1.mem v = pool.mem v)
    (hne : v ≠ 0 → v ≠ k._pData → v ≠ k1._pData) : SlotValue B k1 p1 v := by
  by_cases h0 : v = 0
  · exact Or.inl h0
  · rcases h with e | ⟨h1, al, hal, h2⟩
    · exact absurd e h0
    · exact Or.inr ⟨hne h0 h1, al, by rw [hmem h0 h1]; exact hal, h2⟩

/-- A block stays one when it is untouched, is not the new spine and its slot values stay
slot values. -/
theorem IsBlock.stays_block {B : Nat} {k k1 : ExpandableArrayOfKeys} {pool p1 : MemoryPool}
    {blk : Ptr} (h : IsBlock B k pool blk) (hmem : p1.mem blk = pool.mem blk)
    (hne : blk ≠ k1._pData) (hslots : ∀ v, SlotValue B k pool v → SlotValue B k1 p1 v) :
    IsBlock B k1 p1 blk := by
  obtain ⟨h0, -, al, hal, hbytes, hs⟩ := h
  exact ⟨h0, hne, al, by rw [hmem]; exact hal, hbytes, fun j hj => hslots _ (hs j hj)⟩

/-- A key buffer is a live allocation handed out by the pool, of at most 256 bytes when the
length bound is a byte. -/
theorem KeyBuffer.handed_out {B : Nat} {pool : MemoryPool} {p : Ptr} (h : KeyBuffer B pool p)
    (hf : pool.Fresh) : p ≤ pool.next := by
  obtain ⟨al, hal, -⟩ := h
  exact hf.le_next hal

/-- A key buffer for a length bound that is a byte is not a block. -/
theorem KeyBuffer.ne_block {B : Nat} {k : ExpandableArrayOfKeys} {pool : MemoryPool}
    {p blk : Ptr} (hB : B ≤ 255) (h : KeyBuffer B pool p) (hb : IsBlock B k pool blk) :
    p ≠ blk := by
  intro e
  subst e
  obtain ⟨al, hal, h1, -, h3⟩ := h
  obtain ⟨-, -, al2, hal2, hbytes, -⟩ := hb
  rw [hal] at hal2
  have e := Option.some.inj hal2
  subst e
  rw [hbytes] at h1
  unfold ITEMS_PER_BLOCK sizeof_ptr at h1
  omega

/-- A `TryEnsureCapacity` for a capacity that is a `size_t` keeps the invariant of the
reachable states when it returns: the spine entries it had are as before, their blocks and
every key buffer are untouched, and the entries it has added are null or fresh zeroed
blocks. -/
theorem SlotsInv.grow {B : Nat} {k k1 : ExpandableArrayOfKeys} {pool p1 : MemoryPool}
    {cands : List Ptr} {capacity timeout : Nat} {res : Bool} (hinv : SlotsInv B k pool cands)
    (hcap : capacity < SIZE_T_RANGE)
    (h : k.TryEnsureCapacity pool capacity timeout = .ok (res, k1, p1)) :
    SlotsInv B k1 p1 cands ∧ pool.next ≤ p1.next
    ∧ (∀ q, q ≠ 0 → q ≤ pool.next → q ≠ k._pData → p1.mem q = pool.mem q)
    ∧ ∀ b blk, k._pArray._blockCount ≤ b → b < k1._pArray._blockCount →
        p1.load k1._pData sizeof_ptr b = .ok blk → blk = 0 ∨ pool.next < blk := by
  unfold TryEnsureCapacity at h
  split at h
  · split at h
    · cases h
    · rename_i r hr
      simp only [Except.ok.injEq, Prod.mk.injEq] at h
      obtain ⟨-, h2, h3⟩ := h
      subst h2 h3
      rcases ExpandableArrayImpl.try_ensure_capacity_cases hr with
        ⟨-, e⟩ | ⟨hlt, -, -, -, hcount, hE, hG, hs, hc⟩
      · subst e
        exact ⟨hinv, Nat.le_refl _, fun _ _ _ _ => rfl,
          fun b blk h1 h2 _ => absurd (Nat.lt_of_le_of_lt h1 h2) (Nat.lt_irrefl _)⟩
      · have hfit : k._pArray.ListCapacityFits capacity :=
          ExpandableArrayImpl.ListCapacityFits_of_constants hinv.elementsPerBlock
            hinv.blocksGrowth hcap
        obtain ⟨hcl, -⟩ := ExpandableArrayImpl.try_ensure_capacity_count_le
          hinv.count_le_capacity hfit hr
        obtain ⟨hf1, hle1, hn1⟩ := ExpandableArrayImpl.try_ensure_capacity_fresh hinv.fresh
          hinv.blockList_le hr
        have hframe : ∀ q : Ptr, q ≠ 0 → q ≤ pool.next → q ≠ k._pData →
            r.pool.mem q = pool.mem q := by
          intro q hq0 hq hqL
          rw [hinv.data] at hqL
          exact ExpandableArrayImpl.try_ensure_capacity_mem_frame hinv.blockList_le hr
            hq0 hq hqL
        have hspine : r.ref = r.self._blockList
            ∧ (r.self._blockList = k._pArray._blockList ∨ r.self._blockList = 0
              ∨ pool.next < r.self._blockList) := by
          rcases ExpandableArrayImpl.try_ensure_capacity_growth_path hr hlt with
            ⟨-, _, _, -, -, -, hl, -, href⟩ | ⟨-, _, -, -, hl, -, href⟩
          · refine ⟨href, Or.inr ?_⟩
            rw [hl]
            rcases (MemoryPool.zero_allocate_spec pool k._pArray.sizeof_value_type
              (k._pArray.newListCapacity capacity)).2.2 with ⟨e, -⟩ | ⟨e, -⟩
            · exact Or.inl e
            · rw [e]
              exact Or.inr (Nat.lt_succ_self _)
          · refine ⟨?_, Or.inl hl⟩
            rw [href, hl]
            exact hinv.data
        obtain ⟨hd1, hsp⟩ := hspine
        have hne : ∀ q : Ptr, q ≠ 0 → q ≤ pool.next → q ≠ k._pData → q ≠ r.ref := by
          intro q hq0 hq hqL
          rw [hd1]
          rcases hsp with e | e | e
          · rw [e, ← hinv.data]
            exact hqL
          · rw [e]
            exact hq0
          · exact Nat.ne_of_lt (Nat.lt_of_le_of_lt hq e)
        have hsv : ∀ v, SlotValue B k pool v → SlotValue B
            ({ _pArray := r.self, _pData := r.ref, _capacity := r.cap } :
              ExpandableArrayOfKeys) r.pool v := by
          intro v hv
          have hvle : v ≠ 0 → v ≠ k._pData → v ≤ pool.next := by
            intro h0 h1
            rcases hv with e | ⟨-, hkb⟩
            · exact absurd e h0
            · exact hkb.handed_out hinv.fresh
          exact hv.stays (fun h0 h1 => hframe v h0 (hvle h0 h1) h1)
            (fun h0 h1 => hne v h0 (hvle h0 h1) h1)
        have hnew := ExpandableArrayImpl.try_ensure_capacity_new_entries hinv.fresh
          hinv.blockList_le hr hlt
        refine ⟨⟨hf1, hd1, hc, by rw [hE]; exact hinv.elementsPerBlock,
          by rw [hG]; exact hinv.blocksGrowth, by rw [hs]; exact hinv.sizeof_value_type,
          hcl, hle1, ?_, fun c hc => hsv c (hinv.candidates c hc)⟩, hn1, hframe, ?_⟩
        · intro b hb
          have hb1 : b < r.self._blockCount := hb
          show ∃ blk, r.pool.load r.ref sizeof_ptr b = .ok blk ∧ _
          by_cases hold : b < k._pArray._blockCount
          · obtain ⟨blk, hload, hblk⟩ := hinv.blocks b hold
            rw [hinv.data] at hload
            have hload1 : r.pool.load r.ref sizeof_ptr b = .ok blk := by
              rw [hd1]
              exact ExpandableArrayImpl.try_ensure_capacity_spine_entry hinv.fresh
                hinv.count_le_capacity hr hold hload
            refine ⟨blk, hload1, ?_⟩
            rcases hblk with e | hb2
            · exact Or.inl e
            · right
              obtain ⟨h0, hL, al, hal, -⟩ := id hb2
              have hble : blk ≤ pool.next := hinv.fresh.le_next hal
              exact hb2.stays_block (hframe blk h0 hble hL) (hne blk h0 hble hL) hsv
          · rw [hcount] at hb1
            obtain ⟨blk, hload, hblk⟩ := hnew b (Nat.le_of_not_lt hold) hb1
            have hload1 : r.pool.load r.ref sizeof_ptr b = .ok blk := by
              rw [hd1]
              exact hload
            refine ⟨blk, hload1, ?_⟩
            rcases hblk with e | ⟨hlt2, hneL, al, hal, hbytes, hzero⟩
            · exact Or.inl e
            · right
              refine ⟨Nat.ne_of_gt (Nat.lt_of_le_of_lt (Nat.zero_le _) hlt2), ?_, al, hal, ?_,
                fun j _ => Or.inl (hzero j)⟩
              · show blk ≠ r.ref
                rw [hd1]
                exact hneL
              · rw [hbytes, hinv.elementsPerBlock, hinv.sizeof_value_type]
        · intro b blk hb1 hb2 hload
          have hb3 : b < r.self._blockCount := hb2
          rw [hcount] at hb3
          obtain ⟨blk2, hload2, hblk2⟩ := hnew b hb1 hb3
          have hload1 : r.pool.load r.ref sizeof_ptr b = .ok blk := hload
          rw [hd1, hload2] at hload1
          have e : blk2 = blk := Except.ok.inj hload1
          subst e
          rcases hblk2 with e | ⟨hlt2, -⟩
          · exact Or.inl e
          · exact Or.inr hlt2
  · simp only [Except.ok.injEq, Prod.mk.injEq] at h
    obtain ⟨-, h2, h3⟩ := h
    subst h2 h3
    exact ⟨hinv, Nat.le_refl _, fun _ _ _ _ => rfl,
      fun b blk h1 h2 _ => absurd (Nat.lt_of_le_of_lt h1 h2) (Nat.lt_irrefl _)⟩

end ExpandableArrayOfKeys

end Pql.UnmanagedLib

namespace Pql.UnmanagedLib

/-- A `memcpy` that returns keeps every allocation live, with its size. -/
theorem memcpy_keeps_live (dst : Ptr) (src : List Nat) :
    ∀ (count ix : Nat) (p p1 : MemoryPool), memcpy dst src count ix p = .ok p1 →
      ∀ q al, p.mem q = some al → ∃ al1, p1.mem q = some al1 ∧ al1.bytes = al.bytes := by
  intro count
  induction count with
  | zero =>
    intro ix p p1 h q al hq
    have := (Except.ok.inj h).symm
    subst this
    exact ⟨al, hq, rfl⟩
  | succ n ih =>
    intro ix p p1 h q al hq
    unfold memcpy at h
    split at h
    · cases h
    · split at h
      · cases h
      · rename_i ps hstore
        obtain ⟨al1, h1, h2⟩ := MemoryPool.store_keeps_live hstore hq
        obtain ⟨al2, h3, h4⟩ := ih (ix + 1) ps p1 h q al1 h1
        exact ⟨al2, h3, h4.trans h2⟩

namespace ExpandableArrayOfKeys

/-- The candidate buffer of `TrySetAt`: null for a null key, else a fresh allocation of
`L + 1` bytes whose first byte is `L`, the length byte of the key, which is not 0. -/
theorem make_candidate_buffer {pool p1 : MemoryPool} {pdata : Option (List Nat)} {pnew : Ptr}
    (h : make_candidate pool pdata = .ok (pnew, p1)) :
    (pdata = none ∧ pnew = 0 ∧ p1 = pool)
    ∨ ∃ buf, pdata = some buf ∧ pnew = pool.next + 1 ∧ buf.headD 0 ≠ 0
        ∧ ∃ al, p1.mem pnew = some al ∧ al.bytes = buf.headD 0 + 1
            ∧ al.cells 0 = buf.headD 0 := by
  obtain ⟨-, -, -, -, -, hc⟩ := make_candidate_spec h
  rcases hc with hnone | ⟨buf, len, e1, e2, e3, e4, e5⟩
  · exact Or.inl hnone
  · right
    have hhead : buf.headD 0 = len := by
      cases buf with
      | nil => cases e2
      | cons a rest =>
        simp only [List.getElem?_cons_zero, Option.some.injEq] at e2
        exact e2
    refine ⟨buf, e1, e4, by rw [hhead]; exact e3, ?_⟩
    obtain ⟨b0, hb0, hl0⟩ := e5 0 (Nat.zero_le _)
    rw [e2] at hb0
    have hb : len = b0 := Option.some.inj hb0
    subst hb
    obtain ⟨hp0, al, hal, -, hcell⟩ := MemoryPool.load_ok_live hl0
    refine ⟨al, hal, ?_, by rw [hhead]; exact hcell⟩
    subst e1
    unfold make_candidate at h
    simp only [e2] at h
    rw [if_neg e3] at h
    split at h
    · cases h
    · rename_i pm hm
      simp only [Except.ok.injEq, Prod.mk.injEq] at h
      obtain ⟨h1, h2⟩ := h
      subst h2
      have hz := MemoryPool.zero_allocate_spec pool sizeof_uint8_t (len + 1)
      rcases hz.2.2 with ⟨e, -⟩ | ⟨e, -, -, alz, halz, hbytes, -⟩
      · have hpn : pnew = 0 := by
          rw [← h1]
          exact e
        exact absurd hpn hp0
      · have hpn : pnew = pool.next + 1 := e4
        have halz1 : (DynamicMemoryPool.Alloc pool (len + 1)).2.mem pnew = some alz := by
          rw [hpn]
          exact halz
        obtain ⟨al1, hal1, hb1⟩ := memcpy_keeps_live _ _ _ _ _ _ hm pnew alz halz1
        rw [hal] at hal1
        have e := Option.some.inj hal1
        subst e
        rw [hhead, hb1, hbytes]
        unfold sizeof_uint8_t
        omega

end ExpandableArrayOfKeys

end Pql.UnmanagedLib

namespace Pql.UnmanagedLib

namespace ExpandableArrayOfKeys

/-- In a reachable state the spine entry of every slot below `Capacity` is populated. -/
theorem SlotsInv.block_lt {B : Nat} {k : ExpandableArrayOfKeys} {pool : MemoryPool}
    {cands : List Ptr} (hinv : SlotsInv B k pool cands) {index : Nat}
    (hi : index < k.Capacity) : index / ITEMS_PER_BLOCK < k._pArray._blockCount := by
  have h1 : index < k._pArray.capacity := by
    rw [← hinv.capacity]
    exact hi
  have := ExpandableArrayImpl.div_lt_of_lt_capacity h1
  rw [hinv.elementsPerBlock] at this
  exact this

/-- A `TrySetAt` that returns keeps the invariant of the reachable states, when the length
byte of its key is within the bound and its rival writer stores null or a key buffer; of
the allocations made before it writes only the block of the slot. -/
theorem SlotsInv.set {B : Nat} {k : ExpandableArrayOfKeys} {pool p1 : MemoryPool}
    {cands : List Ptr} {index : Nat} {pdata : Option (List Nat)} {rival : Option Ptr}
    {res : Bool} (hB : B ≤ 255) (hinv : SlotsInv B k pool cands)
    (hhead : ∀ buf, pdata = some buf → buf.headD 0 ≤ B)
    (hrival : ∀ v, rival = some v → SlotValue B k pool v)
    (h : k.TrySetAt pool index pdata rival = .ok (res, p1)) :
    SlotsInv B k p1 cands ∧ pool.next ≤ p1.next
    ∧ (∀ b, p1.load k._pData sizeof_ptr b = pool.load k._pData sizeof_ptr b)
    ∧ ∃ blk, pool.load k._pData sizeof_ptr (index / ITEMS_PER_BLOCK) = .ok blk ∧ blk ≠ 0
        ∧ index / ITEMS_PER_BLOCK < k._pArray._blockCount
        ∧ ∀ q, q ≠ 0 → q ≠ blk → q ≤ pool.next → p1.mem q = pool.mem q := by
  obtain ⟨hf1, hnext, hlive⟩ := TrySetAt_keeps_live hinv.fresh h
  obtain ⟨hindex, pnew0, pc0, blk0, prev0, -, -, -, hc0, hblk0, hprev0, -⟩ := TrySetAt_path h
  have hb := hinv.block_lt hindex
  have hLle : k._pData ≤ pool.next := by
    rw [hinv.data]
    exact hinv.blockList_le
  obtain ⟨blk, hblk, hcase⟩ := hinv.blocks _ hb
  obtain ⟨-, -, -, -, hcmem, -⟩ := make_candidate_spec hc0
  have e0 : blk0 = blk := by
    rw [MemoryPool.load_congr (hcmem _ (Nat.ne_of_lt (Nat.lt_succ_of_le hLle))), hblk] at hblk0
    exact (Except.ok.inj hblk0).symm
  subst e0
  have hblkne0 : blk0 ≠ 0 := (MemoryPool.load_ok_live hprev0).1
  have hisb : IsBlock B k pool blk0 := by
    rcases hcase with e | hb2
    · exact absurd e hblkne0
    · exact hb2
  obtain ⟨-, hblkL, al, hal, hbytes, hcells⟩ := id hisb
  have hblkle : blk0 ≤ pool.next := hinv.fresh.le_next hal
  have hroom : ∀ j, j < ITEMS_PER_BLOCK → (j + 1) * sizeof_ptr ≤ al.bytes := by
    intro j hj
    rw [hbytes]
    exact Nat.mul_le_mul_right _ hj
  have hmod : index % ITEMS_PER_BLOCK < ITEMS_PER_BLOCK :=
    Nat.mod_lt index (by decide : 0 < ITEMS_PER_BLOCK)
  have hslot : ∃ blk prev, pool.load k._pData sizeof_ptr (index / ITEMS_PER_BLOCK) = .ok blk
      ∧ pool.load blk sizeof_ptr (index % ITEMS_PER_BLOCK) = .ok prev
      ∧ blk ≠ 0 ∧ blk ≠ k._pData ∧ blk ≤ pool.next ∧ k._pData ≤ pool.next :=
    ⟨blk0, _, hblk, MemoryPool.load_of_mem hblkne0 hal (hroom _ hmod), hblkne0, hblkL, hblkle,
      hLle⟩
  obtain ⟨pnew, pc, blk1, prev, hc, hblk1, hprev, -, -, -, hblkpnew, hslots, htrue, hfalse⟩ :=
    TrySetAt_effect_of_slot hslot h
  have e1 : blk1 = blk0 := by
    rw [hblk] at hblk1
    exact (Except.ok.inj hblk1).symm
  subst e1
  obtain ⟨-, -, -, -, hcmem1, -⟩ := make_candidate_spec hc
  have hpnew := make_candidate_buffer hc
  have hpnewcase : pnew = 0 ∨ pnew = pool.next + 1 := by
    rcases hpnew with ⟨-, e, -⟩ | ⟨_, -, e, -⟩
    · exact Or.inl e
    · exact Or.inr e
  -- the allocations made before, other than the block, are untouched
  have hmem : ∀ q, q ≠ 0 → q ≠ blk1 → q ≤ pool.next → p1.mem q = pool.mem q := by
    intro q hq0 hq hqle
    have hqn : q ≠ pool.next + 1 := Nat.ne_of_lt (Nat.lt_succ_of_le hqle)
    cases res with
    | true =>
      obtain ⟨-, -, -, hm⟩ := htrue rfl
      rw [hm q hq, hcmem1 q hqn]
    | false =>
      obtain ⟨v, -, -, -, -, -, hm⟩ := hfalse rfl
      refine hm q hq ?_
      rcases hpnewcase with e | e
      · rw [e]
        exact hq0
      · rw [e]
        exact hqn
  -- slot values stay slot values
  have hsv : ∀ v, SlotValue B k pool v → SlotValue B k p1 v := by
    intro v hv
    refine hv.stays (fun h0 h1 => ?_) (fun _ h1 => h1)
    rcases hv with e | ⟨-, hkb⟩
    · exact absurd e h0
    · exact hmem v h0 (hkb.ne_block hB hisb) (hkb.handed_out hinv.fresh)
  -- the value the slot holds after the call
  have hnew : ∃ nv, p1.load blk1 sizeof_ptr (index % ITEMS_PER_BLOCK) = .ok nv
      ∧ SlotValue B k p1 nv := by
    cases res with
    | true =>
      obtain ⟨-, -, hl, hm⟩ := htrue rfl
      refine ⟨pnew, hl, ?_⟩
      rcases hpnew with ⟨-, e, -⟩ | ⟨buf, e1, e2, e3, alp, halp, hb1, hb2⟩
      · exact Or.inl e
      · right
        refine ⟨?_, alp, ?_, ?_, ?_, ?_⟩
        · rw [e2]
          exact Ne.symm (Nat.ne_of_lt (Nat.lt_succ_of_le hLle))
        · rw [hm pnew (Ne.symm hblkpnew)]
          exact halp
        · rw [hb1, hb2]
        · rw [hb2]
          exact Nat.pos_of_ne_zero e3
        · rw [hb2]
          exact hhead buf e1
    | false =>
      obtain ⟨v, hv1, -, -, -, hl, -⟩ := hfalse rfl
      exact ⟨v, hl, hsv v (hrival v hv1)⟩
  obtain ⟨nv, hnv, hnvs⟩ := hnew
  have hL0 : k._pData ≠ 0 := (MemoryPool.load_ok_live hblk).1
  have hspine : ∀ b, p1.load k._pData sizeof_ptr b = pool.load k._pData sizeof_ptr b :=
    fun b => MemoryPool.load_congr (hmem k._pData hL0 (Ne.symm hblkL) hLle) sizeof_ptr b
  refine ⟨⟨hf1, hinv.data, hinv.capacity, hinv.elementsPerBlock, hinv.blocksGrowth,
    hinv.sizeof_value_type, hinv.count_le_capacity, Nat.le_trans hinv.blockList_le hnext, ?_,
    fun c hc => hsv c (hinv.candidates c hc)⟩, hnext, hspine, blk1, hblk, hblkne0, hb, hmem⟩
  intro b hb2
  obtain ⟨blk2, hl2, hcase2⟩ := hinv.blocks b hb2
  refine ⟨blk2, by rw [hspine]; exact hl2, ?_⟩
  rcases hcase2 with e | hisb2
  · exact Or.inl e
  · right
    by_cases hsame : blk2 = blk1
    · subst hsame
      obtain ⟨al1, hal1, hbytes1⟩ := hlive blk2 al hblkne0 hblkle hal
      refine ⟨hblkne0, hblkL, al1, hal1, by rw [hbytes1]; exact hbytes, ?_⟩
      intro j hj
      have hroom1 : (j + 1) * sizeof_ptr ≤ al1.bytes := by
        rw [hbytes1]
        exact hroom j hj
      have hl1 : p1.load blk2 sizeof_ptr j = .ok (al1.cells j) :=
        MemoryPool.load_of_mem hblkne0 hal1 hroom1
      by_cases hj2 : j = index % ITEMS_PER_BLOCK
      · subst hj2
        rw [hnv] at hl1
        rw [← Except.ok.inj hl1]
        exact hnvs
      · rw [hslots j sizeof_ptr hj2, MemoryPool.load_of_mem hblkne0 hal (hroom j hj)] at hl1
        rw [← Except.ok.inj hl1]
        exact hsv _ (hcells j hj)
    · obtain ⟨h0, hL2, al2, hal2, -⟩ := id hisb2
      exact hisb2.stays_block (hmem blk2 h0 hsame (hinv.fresh.le_next hal2)) hL2 hsv

end ExpandableArrayOfKeys

end Pql.UnmanagedLib

namespace Pql.UnmanagedLib

namespace ExpandableArrayOfKeys

/-- The content loop of `Read` on a scratch buffer of 255 bytes, started at an offset of at
least 1 with enough iterations, returns only for a length byte of at most 254, and keeps
the length byte and the size of the buffer. -/
theorem Read_content_fits : ∀ (fuel c : Nat) (buff reader buff2 rest : List Nat) (len : Nat),
    buff.length = 255 → buff[0]? = some len → 1 ≤ c → c ≤ 255 → 255 - c < fuel →
    Read_content fuel c buff reader = .ok (buff2, rest) →
    len ≤ 254 ∧ buff2[0]? = some len ∧ buff2.length = 255 := by
  intro fuel
  induction fuel with
  | zero =>
    intro c buff reader buff2 rest len _ _ _ _ hf _
    exact absurd hf (Nat.not_lt_zero _)
  | succ n ih =>
    intro c buff reader buff2 rest len hlen h0 h1 h255 hf h
    unfold Read_content at h
    rw [h0] at h
    simp only at h
    split at h
    · rename_i hc
      split at h
      · cases h
      · split at h
        · rename_i hcl
          rw [hlen] at hcl
          exact ih (c + 1) _ _ _ _ len (by rw [List.length_set]; exact hlen)
            (by rw [List.getElem?_set_ne (by omega)]; exact h0) (by omega) (by omega)
            (by omega) h
        · cases h
    · rename_i hc
      simp only [Except.ok.injEq, Prod.mk.injEq] at h
      rw [← h.1]
      exact ⟨by omega, h0, hlen⟩

/-- The loop of `Read` keeps the invariant of the reachable states for every length bound
of at least 254: it installs null or a key whose length byte is at most 254. -/
theorem Read_loop_inv {B : Nat} (hB : 254 ≤ B) (hB255 : B ≤ 255) (k : ExpandableArrayOfKeys)
    (v : BitVector) (cands : List Ptr) :
    ∀ (left ix : Nat) (buff reader : List Nat) (p p2 : MemoryPool) (rest : List Nat),
      SlotsInv B k p cands → buff.length = 255 →
      Read_loop k v left ix buff reader p = .ok (p2, rest) → SlotsInv B k p2 cands := by
  intro left
  induction left with
  | zero =>
    intro ix buff reader p p2 rest hinv _ h
    unfold Read_loop at h
    simp only [Except.ok.injEq, Prod.mk.injEq] at h
    rw [← h.1]
    exact hinv
  | succ n ih =>
    intro ix buff reader p p2 rest hinv hlen h
    unfold Read_loop at h
    split at h
    · cases h
    · exact ih _ _ _ _ _ _ hinv hlen h
    · split at h
      · cases h
      · rename_i len rest1 hrb
        split at h
        · rename_i hbuff
          simp only at h
          split at h
          · cases h
          · rename_i result p1 buff3 rest3 hstep
            split at h
            · cases h
            · split at hstep
              · split at hstep
                · cases hstep
                · rename_i res1 pa hset
                  simp only [Except.ok.injEq, Prod.mk.injEq] at hstep
                  obtain ⟨-, e2, e3, e4⟩ := hstep
                  subst e2 e3 e4
                  have hinv1 := (SlotsInv.set hB255 hinv (fun buf hb => by cases hb)
                    (fun w hw => by cases hw) hset).1
                  exact ih _ _ _ _ _ _ hinv1 (by rw [List.length_set]; exact hlen) h
              · split at hstep
                · cases hstep
                · rename_i buff2 rest2 hcontent
                  split at hstep
                  · cases hstep
                  · rename_i res1 pa hset
                    simp only [Except.ok.injEq, Prod.mk.injEq] at hstep
                    obtain ⟨-, e2, e3, e4⟩ := hstep
                    subst e2 e3 e4
                    obtain ⟨h254, hhead, hlen2⟩ := Read_content_fits 256 1 _ _ _ _ len
                      (by rw [List.length_set]; exact hlen) (List.getElem?_set_self hbuff)
                      (Nat.le_refl 1) (by decide) (by decide) hcontent
                    have hh : ∀ buf, some buff2 = some buf → buf.headD 0 ≤ B := by
                      intro buf hb
                      have e : buff2 = buf := Option.some.inj hb
                      subst e
                      cases buff2 with
                      | nil => cases hhead
                      | cons a rest =>
                        simp only [List.getElem?_cons_zero, Option.some.injEq] at hhead
                        simp only [List.headD_cons]
                        omega
                    have hinv1 := (SlotsInv.set hB255 hinv hh (fun w hw => by cases hw)
                      hset).1
                    exact ih _ _ _ _ _ _ hinv1 hlen2 h
        · cases h

/-- `Initialize` builds the new key array, which satisfies the invariant of the reachable
states, and touches no allocation made before. -/
theorem Initialize_inv {B : Nat} {pool p0 : MemoryPool} {k0 : ExpandableArrayOfKeys}
    {cands : List Ptr} (hf : pool.Fresh) (hc : ∀ c ∈ cands, c = 0 ∨ KeyBuffer B pool c)
    (h : Initialize pool = .ok (k0, p0)) :
    k0 = newKeys ∧ SlotsInv B k0 p0 cands ∧ pool.next ≤ p0.next
    ∧ ∀ q, q ≤ pool.next → p0.mem q = pool.mem q := by
  unfold Initialize at h
  simp only at h
  split at h
  · cases h
  · simp only [Except.ok.injEq, Prod.mk.injEq] at h
    obtain ⟨h1, h2⟩ := h
    subst h1 h2
    have hf0 : (DynamicMemoryPool.Alloc pool sizeof_dataarray_t).2.Fresh :=
      MemoryPool.zero_allocate_fresh pool sizeof_uint8_t sizeof_dataarray_t hf
    have hm : ∀ q, q ≤ pool.next →
        (DynamicMemoryPool.Alloc pool sizeof_dataarray_t).2.mem q = pool.mem q := fun q hq =>
      MemoryPool.zero_allocate_mem_other pool sizeof_uint8_t sizeof_dataarray_t q
        (Nat.ne_of_lt (Nat.lt_succ_of_le hq))
    refine ⟨rfl, ⟨hf0, rfl, ?_, rfl, rfl, rfl, Nat.le_refl _, Nat.zero_le _, ?_, ?_⟩,
      (MemoryPool.zero_allocate_next pool sizeof_uint8_t sizeof_dataarray_t).1, hm⟩
    · exact (ExpandableArrayImpl.create_capacity _ _ _).symm
    · intro b hb
      exact absurd hb (Nat.not_lt_zero b)
    · intro c hcm
      rcases hc c hcm with e | hkb
      · exact Or.inl e
      · by_cases h0 : c = 0
        · exact Or.inl h0
        · obtain ⟨al, hal, h2⟩ := id hkb
          exact Or.inr ⟨h0, al, by rw [hm c (hf.le_next hal)]; exact hal, h2⟩

/-- An `EnsureCapacity` for a capacity that is a `size_t` keeps the invariant of the
reachable states when it returns. -/
theorem SlotsInv.ensure {B : Nat} {k k1 : ExpandableArrayOfKeys} {pool p1 : MemoryPool}
    {cands : List Ptr} {capacity : Nat} (hinv : SlotsInv B k pool cands)
    (hcap : capacity < SIZE_T_RANGE) (h : k.EnsureCapacity pool capacity = .ok (k1, p1)) :
    SlotsInv B k1 p1 cands ∧ pool.next ≤ p1.next
    ∧ (∀ q, q ≠ 0 → q ≤ pool.next → q ≠ k._pData → p1.mem q = pool.mem q)
    ∧ ∀ b blk, k._pArray._blockCount ≤ b → b < k1._pArray._blockCount →
        p1.load k1._pData sizeof_ptr b = .ok blk → blk = 0 ∨ pool.next < blk := by
  unfold EnsureCapacity at h
  split at h
  · cases h
  · rename_i res k2 p2 ht
    split at h
    · cases h
    · simp only [Except.ok.injEq, Prod.mk.injEq] at h
      rw [← h.1, ← h.2]
      exact SlotsInv.grow hinv hcap ht

/-- Another caller's candidate buffer, made for a key whose length byte is within the
bound, joins the candidates and leaves the invariant of the reachable states in place. -/
theorem SlotsInv.candidate {B : Nat} {k : ExpandableArrayOfKeys} {pool p1 : MemoryPool}
    {cands : List Ptr} {pdata : Option (List Nat)} {c : Ptr} (hinv : SlotsInv B k pool cands)
    (hhead : ∀ buf, pdata = some buf → buf.headD 0 ≤ B)
    (h : make_candidate pool pdata = .ok (c, p1)) : SlotsInv B k p1 (c :: cands) := by
  obtain ⟨-, -, hf, hnext, hcmem, -⟩ := make_candidate_spec h
  have hLle : k._pData ≤ pool.next := by
    rw [hinv.data]
    exact hinv.blockList_le
  have hmem : ∀ q, q ≤ pool.next → p1.mem q = pool.mem q := fun q hq =>
    hcmem q (Nat.ne_of_lt (Nat.lt_succ_of_le hq))
  have hsv : ∀ v, SlotValue B k pool v → SlotValue B k p1 v := by
    intro v hv
    refine hv.stays (fun h0 h1 => ?_) (fun _ h1 => h1)
    rcases hv with e | ⟨-, hkb⟩
    · exact absurd e h0
    · exact hmem v (hkb.handed_out hinv.fresh)
  refine ⟨hf hinv.fresh, hinv.data, hinv.capacity, hinv.elementsPerBlock, hinv.blocksGrowth,
    hinv.sizeof_value_type, hinv.count_le_capacity, Nat.le_trans hinv.blockList_le hnext,
    ?_, ?_⟩
  · intro b hb
    obtain ⟨blk, hl, hcase⟩ := hinv.blocks b hb
    refine ⟨blk, by rw [MemoryPool.load_congr (hmem _ hLle)]; exact hl, ?_⟩
    rcases hcase with e | hisb
    · exact Or.inl e
    · obtain ⟨-, hL, al, hal, -⟩ := id hisb
      exact Or.inr (hisb.stays_block (hmem blk (hinv.fresh.le_next hal)) hL hsv)
  · intro v hv
    rcases List.mem_cons.mp hv with e | hm
    · subst e
      rcases make_candidate_buffer h with ⟨-, e, -⟩ | ⟨buf, e1, e2, e3, alp, halp, hb1, hb2⟩
      · exact Or.inl e
      · right
        refine ⟨?_, alp, halp, ?_, ?_, ?_⟩
        · rw [e2]
          exact Ne.symm (Nat.ne_of_lt (Nat.lt_succ_of_le hLle))
        · rw [hb1, hb2]
        · rw [hb2]
          exact Nat.pos_of_ne_zero e3
        · rw [hb2]
          exact hhead buf e1
    · exact hsv v (hinv.candidates v hm)

end ExpandableArrayOfKeys

end Pql.UnmanagedLib

namespace Pql.UnmanagedLib

namespace ExpandableArrayOfKeys

/-- The first element of the bytes read through a key buffer is its length byte. -/
theorem KeyBuffer.bytes_at_head {B : Nat} {pool : MemoryPool} {p : Ptr}
    (h : KeyBuffer B pool p) (h0 : p ≠ 0) :
    ∃ buf, pool.bytes_at p = some buf ∧ 1 ≤ buf.headD 0 ∧ buf.headD 0 ≤ B := by
  obtain ⟨al, hal, hbytes, h1, h2⟩ := h
  refine ⟨(List.range al.bytes).map al.cells, ?_, ?_⟩
  · unfold MemoryPool.bytes_at
    rw [if_neg h0, hal]
  · have e : ((List.range al.bytes).map al.cells).headD 0 = al.cells 0 := by
      rw [hbytes, List.range_succ_eq_map]
      rfl
    rw [e]
    exact ⟨h1, h2⟩

/-- The loop of the copy constructor keeps the invariant of the reachable states of the
array under construction, when the source satisfied it in the pool `pool0` the
construction started from, the allocations of `pool0` are untouched and the blocks of
the array under construction were allocated after. -/
theorem copy_loop_inv {B : Nat} (hB : B ≤ 255) (k src : ExpandableArrayOfKeys)
    (pool0 : MemoryPool) (cands0 cands : List Ptr) (hsrc : SlotsInv B src pool0 cands0) :
    ∀ (left ix : Nat) (p p2 : MemoryPool), SlotsInv B k p cands → pool0.next ≤ p.next →
      (∀ q, q ≠ 0 → q ≤ pool0.next → p.mem q = pool0.mem q) →
      (∀ b blk, b < k._pArray._blockCount → p.load k._pData sizeof_ptr b = .ok blk →
        blk = 0 ∨ pool0.next < blk) →
      copy_loop k src left ix p = .ok p2 → SlotsInv B k p2 cands := by
  intro left
  induction left with
  | zero =>
    intro ix p p2 hinv _ _ _ h
    unfold copy_loop at h
    rw [← Except.ok.inj h]
    exact hinv
  | succ n ih =>
    intro ix p p2 hinv hnext hframe hblocks h
    unfold copy_loop at h
    split at h
    · cases h
    · rename_i value hget
      split at h
      · cases h
      · rename_i result p1 hset
        split at h
        · cases h
        · have hix : ix < src.Capacity := by
            by_contra hc
            unfold GetAt at hget
            rw [if_pos (Nat.le_of_not_lt hc)] at hget
            cases hget
          obtain ⟨blks, hblks, hcase⟩ := hsrc.blocks _ (hsrc.block_lt hix)
          obtain ⟨hLs0, alL, halL, -⟩ := MemoryPool.load_ok_live hblks
          have hLsle : src._pData ≤ pool0.next := hsrc.fresh.le_next halL
          have hblksp : p.load src._pData sizeof_ptr (ix / ITEMS_PER_BLOCK) = .ok blks := by
            rw [MemoryPool.load_congr (hframe _ hLs0 hLsle)]
            exact hblks
          rw [GetAt_of_block hix hblksp] at hget
          have hblks0 : blks ≠ 0 := (MemoryPool.load_ok_live hget).1
          have hisb : IsBlock B src pool0 blks := by
            rcases hcase with e | hb2
            · exact absurd e hblks0
            · exact hb2
          obtain ⟨-, -, als, hals, hbytes, hcells⟩ := hisb
          have hmod : ix % ITEMS_PER_BLOCK < ITEMS_PER_BLOCK :=
            Nat.mod_lt ix (by decide : 0 < ITEMS_PER_BLOCK)
          have hroom : (ix % ITEMS_PER_BLOCK + 1) * sizeof_ptr ≤ als.bytes := by
            rw [hbytes]
            exact Nat.mul_le_mul_right _ hmod
          rw [MemoryPool.load_congr (hframe _ hblks0 (hsrc.fresh.le_next hals)),
            MemoryPool.load_of_mem hblks0 hals hroom] at hget
          have hval : als.cells (ix % ITEMS_PER_BLOCK) = value := Except.ok.inj hget
          have hsv : SlotValue B src pool0 value := by
            rw [← hval]
            exact hcells _ hmod
          have hhead : ∀ buf, p.bytes_at value = some buf → buf.headD 0 ≤ B := by
            intro buf hb
            by_cases hv0 : value = 0
            · unfold MemoryPool.bytes_at at hb
              rw [if_pos hv0] at hb
              cases hb
            · rcases hsv with e | ⟨-, hkb⟩
              · exact absurd e hv0
              · have hkbp : KeyBuffer B p value := by
                  obtain ⟨al, hal, h2⟩ := id hkb
                  exact ⟨al, by rw [hframe _ hv0 (hsrc.fresh.le_next hal)]; exact hal, h2⟩
                obtain ⟨buf2, hb2, -, hle⟩ := hkbp.bytes_at_head hv0
                rw [hb] at hb2
                rw [Option.some.inj hb2]
                exact hle
          obtain ⟨hinv1, hnext1, hspine, blk, hblk, hblk0, hb, hmem⟩ :=
            SlotsInv.set hB hinv hhead (fun w hw => by cases hw) hset
          have hbound : pool0.next < blk := by
            rcases hblocks _ blk hb hblk with e | hlt
            · exact absurd e hblk0
            · exact hlt
          refine ih (ix + 1) p1 p2 hinv1 (Nat.le_trans hnext hnext1) ?_ ?_ h
          · intro q hq0 hq
            rw [hmem q hq0 (Nat.ne_of_lt (Nat.lt_of_le_of_lt hq hbound))
              (Nat.le_trans hq hnext)]
            exact hframe q hq0 hq
          · intro b blk3 hb3 hl3
            rw [hspine] at hl3
            exact hblocks b blk3 hb3 hl3

/-- Every reachable state of a key array satisfies the invariant `SlotsInv`, for every
length bound from 254 to 255. -/
theorem Reachable.slotsInv {B : Nat} (hB : 254 ≤ B) (hB255 : B ≤ 255)
    {k : ExpandableArrayOfKeys} {pool : MemoryPool} {cands : List Ptr}
    (h : Reachable B k pool cands) : SlotsInv B k pool cands := by
  induction h with
  | plain hf hc =>
    unfold construct at hc
    split at hc
    · cases hc
    · rename_i k0 p0 hinit
      simp only [Except.ok.injEq, Prod.mk.injEq] at hc
      rw [← hc.1, ← hc.2]
      exact (Initialize_inv hf (fun c hcm => by cases hcm) hinit).2.1
  | @copy src k pool p1 cands hsrc hc ih =>
    unfold construct at hc
    split at hc
    · cases hc
    · rename_i k0 p0 hinit
      simp only at hc
      split at hc
      · cases hc
      · rename_i k1 pe hens
        split at hc
        · cases hc
        · rename_i p2 hloop
          simp only [Except.ok.injEq, Prod.mk.injEq] at hc
          rw [← hc.1, ← hc.2]
          have hcands : ∀ c ∈ cands, c = 0 ∨ KeyBuffer B pool c := by
            intro c hcm
            rcases ih.candidates c hcm with e | ⟨-, hkb⟩
            · exact Or.inl e
            · exact Or.inr hkb
          obtain ⟨e0, hinv0, hn0, hm0⟩ := Initialize_inv ih.fresh hcands hinit
          have hcapS : src.Capacity < SIZE_T_RANGE := by
            have : src.Capacity = src._pArray.capacity := ih.capacity
            rw [this]
            exact ExpandableArrayImpl.wrap_size_t_lt _
          obtain ⟨hinv1, hn1, hm1, hnew⟩ := SlotsInv.ensure hinv0 hcapS hens
          have hk0 : k0._pData = 0 ∧ k0._pArray._blockCount = 0 := by
            rw [e0]
            exact ⟨rfl, rfl⟩
          refine copy_loop_inv hB255 k1 src pool cands cands ih src.Capacity 0 pe p2 hinv1
            (Nat.le_trans hn0 hn1) ?_ ?_ hloop
          · intro q hq0 hq
            rw [hm1 q hq0 (Nat.le_trans hq hn0) (by rw [hk0.1]; exact hq0)]
            exact hm0 q hq
          · intro b blk hb hl
            rcases hnew b blk (by rw [hk0.2]; exact Nat.zero_le _) hb hl with e | hlt
            · exact Or.inl e
            · exact Or.inr (Nat.lt_of_le_of_lt hn0 hlt)
  | grow hr hcap hc ih => exact (SlotsInv.grow ih hcap hc).1
  | candidate hr hh hc ih => exact SlotsInv.candidate ih hh hc
  | set hr hh hv hc ih =>
    exact (SlotsInv.set hB255 ih hh (fun v e => ih.candidates v (hv v e)) hc).1
  | set_array hr hh hv hc ih =>
    unfold TrySetAt_array at hc
    split at hc
    · exact (SlotsInv.set hB255 ih (fun buf e => by cases e)
        (fun v e => ih.candidates v (hv v e)) hc).1
    · rename_i arr
      split at hc
      · cases hc
      · split at hc
        · cases hc
        · split at hc
          · cases hc
          · exact (SlotsInv.set hB255 ih
              (fun buf e => hh buf e) (fun v e => ih.candidates v (hv v e)) hc).1
  | read hr hcnt hc ih =>
    unfold Read at hc
    split at hc
    · cases hc
    · split at hc
      · cases hc
      · simp only at hc
        split at hc
        · cases hc
        · rename_i k2 pe hens
          split at hc
          · cases hc
          · rename_i p2 rest2 hloop
            simp only [Except.ok.injEq, Prod.mk.injEq] at hc
            rw [← hc.1, ← hc.2.1]
            exact Read_loop_inv hB hB255 _ _ _ _ _ _ _ _ _ _ (SlotsInv.ensure ih hcnt hens).1
              (by simp) hloop

end ExpandableArrayOfKeys

end Pql.UnmanagedLib

namespace Pql.UnmanagedLib

namespace ExpandableArrayOfKeys

/-- The key array `sampleKeys` over its pool is a reachable state, for every length
bound. -/
theorem sampleKeys_reachable (B : Nat) : Reachable B sampleKeys keysGrown.pool [] :=
  Reachable.grow
    (Reachable.plain (MemoryPool.create_fresh 0 [] _)
      (rfl : construct none (freshPool []) = .ok (newKeys, keysPool)))
    (by decide)
    (rfl : newKeys.TryEnsureCapacity keysPool 3 0 = .ok (true, sampleKeys, keysGrown.pool))

/-- C29 (counterexample).  `TrySetAt(0, buf)` with a buffer of 256 bytes whose length byte
is 255 returns true on the key array of 65536 slots, and slot 0 of the state reached holds
a buffer whose length byte is 255, above 254.  And on a new key array over a pool that
fails the allocation of the first block, `TryEnsureCapacity(1, 0)` returns true and
publishes a capacity of 65536 slots, while the spine entry of slot 0 is null: the slot
below `Capacity` is neither null nor a buffer, reading it dereferences the null block. -/
theorem Reachable_length_byte_255 :
    (Reachable 255 sampleKeys longKeySet.2 [] ∧ 0 < sampleKeys.Capacity
      ∧ ∃ p, sampleKeys.GetAt longKeySet.2 0 = .ok p ∧ p ≠ 0
          ∧ longKeySet.2.load p sizeof_uint8_t 0 = .ok 255 ∧ ¬ (255 ≤ 254))
    ∧ (Reachable 254 keysBlockFailed.2.1 keysBlockFailed.2.2 []
      ∧ keysBlockFailed.1 = true ∧ keysBlockFailed.2.1.Capacity = 65536
      ∧ keysBlockFailed.2.2.load keysBlockFailed.2.1._pData sizeof_ptr 0 = .ok 0
      ∧ keysBlockFailed.2.1.GetAt keysBlockFailed.2.2 0 = .error .undefinedBehaviour) := by
  constructor
  · obtain ⟨pool1, pnew, blk, hset, -, -, -, hget, -, hbuf, -⟩ :=
      @TrySetAt_install sampleKeys keysGrown.pool 0 (some (255 :: List.replicate 255 7))
        sampleKeys_valid.2.2 (by decide) (fun x hx => by cases hx)
        (fun buf e => ⟨255, by rw [← Option.some.inj e]; exact List.getElem?_cons_zero,
          by decide, by
          rw [← Option.some.inj e, List.length_cons, List.length_replicate]⟩)
    have hlong : longKeySet = (true, pool1) := by
      unfold longKeySet
      rw [hset]
      rfl
    obtain ⟨hpnew, hbytes⟩ := hbuf (255 :: List.replicate 255 7) 255 rfl
      List.getElem?_cons_zero
    obtain ⟨b, hb, hl⟩ := hbytes 0 (Nat.zero_le _)
    rw [List.getElem?_cons_zero] at hb
    have hb255 : b = 255 := (Option.some.inj hb).symm
    subst hb255
    rw [hlong]
    refine ⟨Reachable.set (sampleKeys_reachable 255) ?_ (fun v e => by cases e) hset,
      by decide, pnew, hget, ?_, hl, by decide⟩
    · intro buf e
      rw [← Option.some.inj e]
      exact Nat.le_refl 255
    · rw [hpnew]
      exact Nat.succ_ne_zero _
  · refine ⟨?_, rfl, rfl, rfl, rfl⟩
    exact Reachable.grow
      (Reachable.plain (MemoryPool.create_fresh 0 [true, true, false] _)
        (rfl : construct none (freshPool [true, true, false])
          = .ok (newKeys, (DynamicMemoryPool.Alloc (freshPool [true, true, false])
              sizeof_dataarray_t).2)))
      (by decide)
      (rfl : newKeys.TryEnsureCapacity
          (DynamicMemoryPool.Alloc (freshPool [true, true, false]) sizeof_dataarray_t).2 1 0
        = .ok (keysBlockFailed.1, keysBlockFailed.2.1, keysBlockFailed.2.2))

/-- C29 (amended).  Let the bound `B` be 254 or 255.  In every state of a key array
reachable through construction, copy construction, `TryEnsureCapacity`, `TrySetAt` (both
overloads, with or without a rival writer that stores the candidate buffer of another
`TrySetAt`) and `Read`, by calls that return, whatever allocations fail, for keys whose
length byte is at most `B`, every slot below `Capacity` has a populated spine entry, and
when that entry holds a block (its allocation did not fail) the slot is either null or
holds a buffer whose length byte `L` satisfies `1 ≤ L ≤ B`.  For `B = 255` the keys are all
the keys a caller can pass; the bound 254 holds as long as the callers pass keys of at most
254 content bytes, `Read` installing no other. -/
theorem Reachable_slots_length_byte (B : Nat) (k : ExpandableArrayOfKeys) (pool : MemoryPool)
    (cands : List Ptr) (i : Nat) (hB : 254 ≤ B) (hB255 : B ≤ 255)
    (h : Reachable B k pool cands) (hi : i < k.Capacity) :
    ∃ blk, pool.load k._pData sizeof_ptr (i / ITEMS_PER_BLOCK) = .ok blk
      ∧ (blk ≠ 0 → ∃ p, k.GetAt pool i = .ok p
          ∧ (p = 0 ∨ ∃ L, pool.load p sizeof_uint8_t 0 = .ok L ∧ 1 ≤ L ∧ L ≤ B)) := by
  have hinv := h.slotsInv hB hB255
  obtain ⟨blk, hload, hcase⟩ := hinv.blocks _ (hinv.block_lt hi)
  refine ⟨blk, hload, fun hblk0 => ?_⟩
  rcases hcase with e | ⟨-, -, al, hal, hbytes, hcells⟩
  · exact absurd e hblk0
  · have hmod : i % ITEMS_PER_BLOCK < ITEMS_PER_BLOCK :=
      Nat.mod_lt i (by decide : 0 < ITEMS_PER_BLOCK)
    have hroom : (i % ITEMS_PER_BLOCK + 1) * sizeof_ptr ≤ al.bytes := by
      rw [hbytes]
      exact Nat.mul_le_mul_right _ hmod
    refine ⟨al.cells (i % ITEMS_PER_BLOCK), ?_, ?_⟩
    · rw [GetAt_of_block hi hload]
      exact MemoryPool.load_of_mem hblk0 hal hroom
    · by_cases hp0 : al.cells (i % ITEMS_PER_BLOCK) = 0
      · exact Or.inl hp0
      · right
        rcases hcells _ hmod with e | ⟨-, alp, halp, hb1, hb2, hb3⟩
        · exact absurd e hp0
        · refine ⟨alp.cells 0, ?_, hb2, hb3⟩
          apply MemoryPool.load_of_mem hp0 halp
          rw [hb1]
          unfold sizeof_uint8_t
          omega

/-- C29 (amended) for the bound 254 on the key array of 65536 slots after
`TrySetAt(0, [2, 'a', 'b'])`: the state is reachable, the spine entry of slot 0 holds a
block, slot 0 holds a buffer with a length byte between 1 and 254, and slot 1 is null. -/
theorem Reachable_slots_length_byte_witness :
    Reachable 254 sampleKeys sampleKeysSet.2 [] ∧ 1 < sampleKeys.Capacity
    ∧ (∃ blk, sampleKeysSet.2.load sampleKeys._pData sizeof_ptr (0 / ITEMS_PER_BLOCK)
          = .ok blk
        ∧ (blk ≠ 0 → ∃ p, sampleKeys.GetAt sampleKeysSet.2 0 = .ok p
            ∧ (p = 0 ∨ ∃ L, sampleKeysSet.2.load p sizeof_uint8_t 0 = .ok L ∧ 1 ≤ L
                ∧ L ≤ 254)))
    ∧ sampleKeysSet.2.load sampleKeys._pData sizeof_ptr 0 = .ok 3
    ∧ sampleKeys.GetAt sampleKeysSet.2 0 = .ok 4
    ∧ sampleKeysSet.2.load 4 sizeof_uint8_t 0 = .ok 2
    ∧ sampleKeys.GetAt sampleKeysSet.2 1 = .ok 0 :=
  have hr : Reachable 254 sampleKeys sampleKeysSet.2 [] :=
    Reachable.set (sampleKeys_reachable 254)
      (fun buf e => by
        rw [← Option.some.inj e]
        decide)
      (fun v e => by cases e)
      (rfl : sampleKeys.TrySetAt keysGrown.pool 0 (some [2, 97, 98]) none
        = .ok (true, sampleKeysSet.2))
  ⟨hr, by decide,
    Reachable_slots_length_byte 254 sampleKeys sampleKeysSet.2 [] 0 (by decide) (by decide) hr
      (by decide), rfl, rfl, rfl, rfl⟩

end ExpandableArrayOfKeys

end Pql.UnmanagedLib

/-! ## C11: the round trip of a key with the length byte 255 -/

namespace Pql.UnmanagedLib

namespace ExpandableArrayOfKeys

set_option maxRecDepth 1000000 in
set_option maxHeartbeats 4000000 in
/-- C11 (refuted).  The round trip fails for a key with the length byte 255.  On the key
array of the scenario of two keys, `TrySetAt(0, buf)` with a buffer whose length byte is
255 returns true; with count 1 and the valid-entries vector whose bit 0 is set, `Write`
returns the 256 bytes of the key, and `Read` of these bytes with the same count and vector
into a new key array stores the last content byte at offset 255 of its 255-byte scratch
buffer: the round trip does not return a key array, its behaviour is undefined. -/
theorem Read_after_Write_length_255 :
    twoKeysGrown.1.TrySetAt twoKeysGrown.2 0 (some (255 :: List.replicate 255 7)) none
      = .ok longKeyInstalled
    ∧ longKeyInstalled.1 = true
    ∧ Initialize longKeyInstalled.2 = .ok (newKeys, longKeyTargetPool)
    ∧ 1 ≤ twoKeysGrown.1.Capacity ∧ 1 ≤ bitsTen.1.Capacity
    ∧ bitsTen.1.Get longKeyTargetPool 0 = .ok true
    ∧ twoKeysGrown.1.Write longKeyTargetPool (some []) 1 (some bitsTen.1)
        = .ok (255 :: List.replicate 255 7)
    ∧ newKeys.Read longKeyTargetPool (some (255 :: List.replicate 255 7)) 1 (some bitsTen.1)
        = .error .undefinedBehaviour := by
  refine ⟨rfl, rfl, rfl, by decide, by decide, rfl, rfl, rfl⟩

end ExpandableArrayOfKeys

end Pql.UnmanagedLib
